import Mathlib

/-!
# Word lists of the lexer library (`lexlib/WordList.cxx`)

A shallow embedding of `WordList` and of its lookups, followed by the
properties proved about them.

Conventions of the embedding.

* A byte is a natural number (`unsigned char`, so below 256 in every real
  input).  A C string (`const char *`) is the list of its bytes before the
  terminating NUL; `peek p` is `*p`, `p.tail` is `p + 1`, `p.drop k` is `p + k`.
* `WordList.h` is not part of the sources at hand.  What the code takes from it
  (`MinIndexChar`, the number of entries of `ranges`, the width of `range_t`,
  the two attribute bits) is a parameter of the embedding, see `WordListH` and
  `KeywordAttr`.
* A read outside an allocation, a failed `assert`, is `none`.
-/

namespace Lexilla

/-- A C string: the bytes before the terminating NUL. -/
abbrev CStr := List Nat

/-- Well-formed C string contents: every byte is a non-zero `unsigned char`. -/
def IsCStr (s : CStr) : Prop := ∀ b ∈ s, 0 < b ∧ b < 256

instance (s : CStr) : Decidable (IsCStr s) := by
  unfold IsCStr; infer_instance

/-- Reading `*p`: the first byte, the terminator when the string is exhausted. -/
def peek (p : CStr) : Nat := p.headD 0

/-- The library function `strlen`: the number of bytes before the first NUL. -/
def strlen : CStr → Nat
  | [] => 0
  | c :: p => if c = 0 then 0 else strlen p + 1

/-- The declarations of `WordList.h` that `WordList.cxx` relies on. -/
structure WordListH where
  /-- The constant `MinIndexChar`: the byte of the first bucket. -/
  MinIndexChar : Nat
  /-- The value of `std::size(ranges)`: the number of buckets. -/
  rangesSize : Nat
  /-- The width in bits of the unsigned type `range_t`. -/
  rangeBits : Nat
deriving DecidableEq, Repr

/-- The assumptions on the header under which the code is meaningful: the
terminator has no bucket, the bucket of `^` exists (it is read without a bounds
check), every bucket belongs to a byte value, and `range_t` can hold two 16-bit
fields. -/
def WordListH.WellFormed (h : WordListH) : Prop :=
  0 < h.MinIndexChar ∧ h.MinIndexChar ≤ 94 ∧ 94 < h.MinIndexChar + h.rangesSize ∧
    h.MinIndexChar + h.rangesSize ≤ 256 ∧ 32 ≤ h.rangeBits

instance (h : WordListH) : Decidable h.WellFormed := by
  unfold WordListH.WellFormed; infer_instance

/-- The bytes that have a bucket: `MinIndexChar ≤ c < MinIndexChar + size`. -/
def WordListH.Indexable (h : WordListH) (c : Nat) : Prop :=
  h.MinIndexChar ≤ c ∧ c < h.MinIndexChar + h.rangesSize

instance (h : WordListH) (c : Nat) : Decidable (h.Indexable c) := by
  unfold WordListH.Indexable; infer_instance

/-- The attribute argument of `Set`, reduced to the two bits `Set` tests:
`attribute & KeywordAttr_MakeLower` and `attribute & KeywordAttr_PreSorted`. -/
structure KeywordAttr where
  makeLower : Bool
  preSorted : Bool
deriving DecidableEq, Repr

/-- The value `static_cast<unsigned char>(c) - MinIndexChar` converted to
`unsigned` (32 bits): a byte below `MinIndexChar` wraps around. -/
def bucketIndex (h : WordListH) (c : Nat) : Nat :=
  (c + 4294967296 - h.MinIndexChar) % 4294967296

/-! ## `ArrayFromWordList` -/

/-- First loop of `ArrayFromWordList`: counts the words, `prev` being the flag
"the previous byte was a separator". -/
def countWords : Bool → CStr → Nat
  | _, [] => 0
  | prev, ch :: s =>
    let curr := decide (ch ≤ 32)
    (if !curr && prev then 1 else 0) + countWords curr s

/-- Second loop of `ArrayFromWordList`, run from offset `pos` with the previous
byte `prev`: returns the bytes as rewritten (separators become NUL) and the
offsets stored in `keywords`. -/
def storeWords : Nat → Nat → CStr → List Nat × List Nat
  | _, _, [] => ([], [])
  | prev, pos, ch :: s =>
    if ch > 32 then
      let r := storeWords ch (pos + 1) s
      (ch :: r.1, if prev = 0 then pos :: r.2 else r.2)
    else
      let r := storeWords 0 (pos + 1) s
      (0 :: r.1, r.2)

/-- The function `ArrayFromWordList(wordlist, slen, &len)`.  The argument is
the `slen` bytes of the buffer before its terminator.  The result is the
buffer as rewritten (terminator included), the array `keywords` of offsets into
it (`len + 1` entries, the last one being `end`), and `len`. -/
def ArrayFromWordList (wordlist : CStr) : List Nat × List Nat × Nat :=
  let words := countWords true wordlist
  let r := if words ≠ 0 then storeWords 0 0 wordlist else (wordlist, [])
  (r.1 ++ [0], r.2 ++ [wordlist.length], r.2.length)

/-- The C string a pointer into the buffer designates: the bytes from offset
`p` up to the next NUL. -/
def cstrAt (buf : List Nat) (p : Nat) : CStr :=
  (buf.drop p).takeWhile (fun c => c ≠ 0)

/-! ## `strcmp` and `std::sort` -/

/-- The loop `while (*a && *a == *b) { a++; b++; }` shared by `strcmp` and
by the lookups: returns the two pointers where it stops. -/
def skipCommon : CStr → CStr → CStr × CStr
  | a :: as, b :: bs => if a ≠ 0 ∧ a = b then skipCommon as bs else (a :: as, b :: bs)
  | as, bs => (as, bs)

/-- The library function `strcmp`, as the difference of the first two bytes
that differ, taken as `unsigned char`. -/
def strcmp (a b : CStr) : Int :=
  let r := skipCommon a b
  (peek r.1 : Int) - (peek r.2 : Int)

/-- The order `std::sort` establishes for the comparator
`strcmp(a, b) < 0`: `a` may stand before `b` when `strcmp(a, b) ≤ 0`. -/
def wordLE (a b : CStr) : Prop := strcmp a b ≤ 0

instance : DecidableRel wordLE := fun a b => by
  unfold wordLE; infer_instance

/-- The call `std::sort(words, words + len, strcmp(a, b) < 0)`.  The algorithm
of `std::sort` is unspecified; two words that compare equal have the same
contents, so every sorting algorithm produces the same sequence of contents,
here the one of insertion sort. -/
def sortWords (ws : List CStr) : List CStr := ws.insertionSort wordLE

/-! ## `WordList` and `Set` -/

/-- The state of a `WordList`: `words` is `none` for `nullptr`, otherwise the
contents of the strings `words[0]`, ..., `words[len]` (the last one is the
empty string at `end`); `ranges` is the bucket table. -/
structure WordList where
  words : Option (List CStr)
  ranges : List Nat
deriving DecidableEq, Repr

/-- The loop `if (*p >= 'A' && *p <= 'Z') *p |= 'a' - 'A'` of `Set`. -/
def makeLower (s : CStr) : CStr :=
  s.map (fun c => if 65 ≤ c ∧ c ≤ 90 then c ||| 32 else c)

/-- Lines 124-143 of `Set`: the contents of `words[0 .. len)` after the
optional case folding, `ArrayFromWordList` and the optional `std::sort`. -/
def SetWords (s : CStr) (attr : KeywordAttr) : List CStr :=
  let list := if attr.makeLower then makeLower s else s
  let r := ArrayFromWordList list
  let words := (r.2.1.take r.2.2).map (cstrAt r.1)
  if !attr.preSorted then sortWords words else words

/-- The inner loop `while (static_cast<unsigned char>(*words[i]) == indexChar) ++i`
of `Set`, on the words from `words[i]` on; `none` when it runs past the array. -/
def skipSame (indexChar : Nat) : List CStr → Nat → Option Nat
  | [], _ => none
  | w :: ws, i => if peek w = indexChar then skipSame indexChar ws (i + 1) else some i

/-- The value `start | (i << 16)` stored in the table, a `range_t`. -/
def packRange (h : WordListH) (start i : Nat) : Nat :=
  (start ||| (i <<< 16)) % 2 ^ h.rangeBits

/-- The loop of lines 146-154 of `Set` from index `i` on, at most `fuel`
rounds (each round advances `i`, so `len` rounds are enough); `none` when the
assertion on the bucket index fails or a read leaves the array. -/
def setRanges (h : WordListH) (words : List CStr) (len : Nat) :
    Nat → Nat → List Nat → Option (List Nat)
  | 0, i, ranges => if i < len then none else some ranges
  | fuel + 1, i, ranges =>
    if i < len then
      match words[i]? with
      | none => none
      | some w =>
        let indexChar := peek w
        let start := i
        match skipSame indexChar (words.drop (i + 1)) (i + 1) with
        | none => none
        | some j =>
          if bucketIndex h indexChar < h.rangesSize then
            setRanges h words len fuel j
              (ranges.set (bucketIndex h indexChar) (packRange h start j))
          else none
    else some ranges

/-- The member function `WordList::Clear()`: the arrays are released and
`words` becomes `nullptr`; the table `ranges` is left as it is. -/
def WordList.Clear (wl : WordList) : WordList :=
  match wl.words with
  | some _ => { words := none, ranges := wl.ranges }
  | none => wl

/-- The call `memset(ranges, 0, sizeof(ranges))`: every element of the table
becomes 0. -/
def zeroRanges (ranges : List Nat) : List Nat := ranges.map (fun _ => 0)

/-- The member function `WordList::Set(s, attribute)` on the state `old`:
`Clear()`, the new `list` and `words`, `memset` and the loop that fills the
table. -/
def WordList.Set (h : WordListH) (old : WordList) (s : CStr) (attr : KeywordAttr) :
    Option WordList :=
  let cleared := old.Clear
  let ws := SetWords s attr
  let words := ws ++ [[]]
  match setRanges h words ws.length ws.length 0 (zeroRanges cleared.ranges) with
  | none => none
  | some ranges => some { words := some words, ranges := ranges }

/-! ## `Range` and the lookups

Counters of type `range_t` are natural numbers; the reduction modulo
`2 ^ rangeBits` is applied where the code can overflow a `range_t`: when a
table entry is packed and in `Length()`.

The loops `do { ... } while (range.Next())` are written with the combinator
`scanRange`, whose argument is the loop body for one entry; the two binary
searches are written with `binarySearch`, whose argument is the test on `diff`
that makes the search return `true`. -/

/-- The struct `Range`: `start = range & 0xffff`, `end = range >> 16`. -/
structure Range where
  start : Nat
  end_ : Nat
deriving DecidableEq, Repr

/-- The constructor `Range(range)`. -/
def Range.ofPacked (range : Nat) : Range :=
  { start := range &&& 0xffff, end_ := range >>> 16 }

/-- The method `Range::Length()`, a subtraction of two `range_t`. -/
def Range.Length (h : WordListH) (r : Range) : Nat :=
  (r.end_ + 2 ^ h.rangeBits - r.start) % 2 ^ h.rangeBits

/-- The constant `WordListLinearSearchThreshold`. -/
def WordListLinearSearchThreshold : Nat := 5

/-- The loop `do { body } while (range.Next())` over the entries from
`words[range.start]` on (the list argument).  The body answers `some true` when
it executes `return true`, `some false` when it falls through or executes
`continue`, and `none` when it is undefined; a read of `words[range.start]`
past the array is `none`. -/
def scanRange (body : CStr → Option Bool) : List CStr → Range → Option Bool
  | [], _ => none
  | w :: ws, range =>
    match body w with
    | none => none
    | some true => some true
    | some false =>
      if range.start + 1 < range.end_ then
        scanRange body ws { range with start := range.start + 1 }
      else some false

/-- The loop `do { ... } while (count != 0)` of the binary searches (lines
188-207 and 260-279).  `hit diff` is the test that returns `true`; at most
`fuel` rounds are run (`count` decreases in each round, so `count` rounds are
enough). -/
def binarySearch (hit : Int → Bool) (words : List CStr) (s : CStr) :
    Nat → Nat → Nat → Option Bool
  | 0, _, _ => none
  | fuel + 1, start, count =>
    let step := count >>> 1
    let mid := start + step
    match words[mid]? with
    | none => none
    | some w =>
      let r := skipCommon w.tail s.tail
      let diff : Int := (peek r.1 : Int) - (peek r.2 : Int)
      if hit diff then some true
      else if diff < 0 then
        if count - (step + 1) ≠ 0 then
          binarySearch hit words s fuel (mid + 1) (count - (step + 1))
        else some false
      else
        if step ≠ 0 then binarySearch hit words s fuel start step else some false

/-- The body of the linear scan of `InList` (lines 177-185). -/
def InList.body (s : CStr) (w : CStr) : Option Bool :=
  let r := skipCommon w.tail s.tail
  some (decide (peek r.1 = 0 ∧ peek r.2 = 0))

/-- The body of the scan of the `^` bucket (lines 215-223), the same in
`InList`, `InListPrefixed` and `InListAbbreviated`: an entry matches when the
text after its `^` is exhausted. -/
def caretBody (s : CStr) (w : CStr) : Option Bool :=
  let r := skipCommon w.tail s
  some (decide (peek r.1 = 0))

/-- The tail common to three lookups: `end = ranges['^' - MinIndexChar]`,
then the scan of that bucket when it is not empty. -/
def caretBucket (h : WordListH) (words : List CStr) (ranges : List Nat) (s : CStr) :
    Option Bool :=
  match ranges[bucketIndex h 94]? with
  | none => none
  | some end_ =>
    if end_ ≠ 0 then
      scanRange (caretBody s) (words.drop (Range.ofPacked end_).start) (Range.ofPacked end_)
    else some false

/-- The member function `WordList::InList(s)`. -/
def WordList.InList (h : WordListH) (wl : WordList) (s : CStr) : Option Bool :=
  match wl.words with
  | none => some false
  | some words =>
    let index := bucketIndex h (peek s)
    if index > h.rangesSize - 1 then some false
    else
      match wl.ranges[index]? with
      | none => none
      | some end_ =>
        let found :=
          if end_ ≠ 0 then
            let range := Range.ofPacked end_
            let count := range.Length h
            if count < WordListLinearSearchThreshold then
              scanRange (InList.body s) (words.drop range.start) range
            else binarySearch (fun diff => decide (diff = 0)) words s count range.start count
          else some false
        match found with
        | none => none
        | some true => some true
        | some false => caretBucket h words wl.ranges s

/-- The body of the linear scan of `InListPrefixed` (lines 249-257). -/
def InListPrefixed.body (s : CStr) (marker : Nat) (w : CStr) : Option Bool :=
  let r := skipCommon w.tail s.tail
  some (decide ((peek r.1 = 0 ∨ peek r.1 = marker) ∧ peek r.2 = 0))

/-- The member function `WordList::InListPrefixed(s, marker)`. -/
def WordList.InListPrefixed (h : WordListH) (wl : WordList) (s : CStr) (marker : Nat) :
    Option Bool :=
  match wl.words with
  | none => some false
  | some words =>
    let index := bucketIndex h (peek s)
    if index > h.rangesSize - 1 then some false
    else
      match wl.ranges[index]? with
      | none => none
      | some end_ =>
        let found :=
          if end_ ≠ 0 then
            let range := Range.ofPacked end_
            let count := range.Length h
            if count < WordListLinearSearchThreshold then
              scanRange (InListPrefixed.body s marker) (words.drop range.start) range
            else
              binarySearch (fun diff => decide (diff = 0 ∨ diff = (marker : Int))) words s
                count range.start count
          else some false
        match found with
        | none => none
        | some true => some true
        | some false => caretBucket h words wl.ranges s

/-- The `while` loop of `InListAbbreviated` (lines 325-332) with the flag
`isSubword`; `none` when `a++` steps over the terminator of the entry, which
only a NUL marker can cause. -/
def InListAbbreviated.loop (marker : Nat) : Bool → CStr → CStr → Option (Bool × CStr × CStr)
  | isSubword, [], b => some (isSubword, [], b)
  | isSubword, [x], b =>
    if x ≠ 0 ∧ x = peek b then
      if marker = 0 then none else some (isSubword, [], b.tail)
    else some (isSubword, [x], b)
  | isSubword, x :: y :: a, b =>
    if x ≠ 0 ∧ x = peek b then
      if y = marker then InListAbbreviated.loop marker true a b.tail
      else InListAbbreviated.loop marker isSubword (y :: a) b.tail
    else some (isSubword, x :: y :: a, b)

/-- The body of the scan of `InListAbbreviated` (lines 318-335). -/
def InListAbbreviated.body (s : CStr) (marker : Nat) (w : CStr) : Option Bool :=
  let a := w.tail
  let b := s.tail
  let init : Option (Bool × CStr) :=
    if peek a = marker then (if a = [] then none else some (true, a.tail)) else some (false, a)
  match init with
  | none => none
  | some (isSubword, a) =>
    match InListAbbreviated.loop marker isSubword a b with
    | none => none
    | some (isSubword, a, b) => some (decide ((peek a = 0 ∨ isSubword = true) ∧ peek b = 0))

/-- The member function `WordList::InListAbbreviated(s, marker)`. -/
def WordList.InListAbbreviated (h : WordListH) (wl : WordList) (s : CStr) (marker : Nat) :
    Option Bool :=
  match wl.words with
  | none => some false
  | some words =>
    let index := bucketIndex h (peek s)
    if index > h.rangesSize - 1 then some false
    else
      match wl.ranges[index]? with
      | none => none
      | some end_ =>
        let found :=
          if end_ ≠ 0 then
            scanRange (InListAbbreviated.body s marker) (words.drop (Range.ofPacked end_).start)
              (Range.ofPacked end_)
          else some false
        match found with
        | none => none
        | some true => some true
        | some false => caretBucket h words wl.ranges s

/-- The `while` loop of the first scan of `InListAbridged` (lines 378-390);
`none` when `a++` steps over the terminator of the entry, which only a NUL
marker can cause. -/
def InListAbridged.loop (marker : Nat) : CStr → CStr → Option (CStr × CStr)
  | [], b => some ([], b)
  | [x], b =>
    if x ≠ 0 ∧ x = peek b then
      if marker = 0 then none else some ([], b.tail)
    else some ([x], b)
  | x :: y :: a, b =>
    if x ≠ 0 ∧ x = peek b then
      if y = marker then
        if strlen a ≥ strlen b then some (a, b)
        else InListAbridged.loop marker a ((b.drop (strlen b - strlen a - 1)).tail)
      else InListAbridged.loop marker (y :: a) b.tail
    else some (x :: y :: a, b)

/-- The body of the first scan of `InListAbridged` (lines 376-393), over the
bucket of the first byte of `s`. -/
def InListAbridged.body (s : CStr) (marker : Nat) (w : CStr) : Option Bool :=
  match InListAbridged.loop marker w s with
  | none => none
  | some r => some (decide (peek r.1 = 0 ∧ peek r.2 = 0))

/-- The body of the second scan of `InListAbridged` (lines 405-420), over the
bucket of the marker: the entries that are a suffix only. -/
def InListAbridged.suffixBody (s : CStr) (w : CStr) : Option Bool :=
  let a := w.tail
  let b := s
  let suffixLengthA := strlen a
  let suffixLengthB := strlen b
  if suffixLengthA > suffixLengthB then some false
  else
    let r := skipCommon a (b.drop (suffixLengthB - suffixLengthA))
    some (decide (peek r.1 = 0 ∧ peek r.2 = 0))

/-- The second half of `InListAbridged` (lines 397-424): the guard on the
index of the marker, `end = ranges[index]`, then the scan of that bucket when
it is not empty. -/
def InListAbridged.suffixBucket (h : WordListH) (words : List CStr) (ranges : List Nat)
    (s : CStr) (marker : Nat) : Option Bool :=
  let index := bucketIndex h marker
  if index > h.rangesSize - 1 then some false
  else
    match ranges[index]? with
    | none => none
    | some end_ =>
      if end_ ≠ 0 then
        scanRange (InListAbridged.suffixBody s) (words.drop (Range.ofPacked end_).start)
          (Range.ofPacked end_)
      else some false

/-- The member function `WordList::InListAbridged(s, marker)`. -/
def WordList.InListAbridged (h : WordListH) (wl : WordList) (s : CStr) (marker : Nat) :
    Option Bool :=
  match wl.words with
  | none => some false
  | some words =>
    let index := bucketIndex h (peek s)
    if index > h.rangesSize - 1 then some false
    else
      match wl.ranges[index]? with
      | none => none
      | some end_ =>
        let found :=
          if end_ ≠ 0 then
            scanRange (InListAbridged.body s marker) (words.drop (Range.ofPacked end_).start)
              (Range.ofPacked end_)
          else some false
        match found with
        | none => none
        | some true => some true
        | some false => InListAbridged.suffixBucket h words wl.ranges s marker

/-- A header for concrete evaluations: buckets for the bytes `!` to DEL
(`MinIndexChar = 33`, 95 buckets) and a 32-bit `range_t`. -/
def asciiH : WordListH := { MinIndexChar := 33, rangesSize := 95, rangeBits := 32 }

/-- A word list on which `Set` was never called. -/
def WordList.empty (h : WordListH) : WordList :=
  { words := none, ranges := List.replicate h.rangesSize 0 }

/-- The bytes of an ASCII string. -/
def bytes (s : String) : CStr := s.toList.map Char.toNat

/-- A blob of `n + 1` words: `n` times the word `ax`, then the word `b`. -/
def manyWordsBlob (n : Nat) : CStr :=
  (List.replicate n (bytes "ax ")).flatten ++ bytes "b"



/-- Spec-side reading of "the words of a blob": the blob is cut at every byte
not greater than 0x20 (space and the C0 controls) and the empty pieces are
dropped, which leaves the maximal runs of bytes greater than 0x20, in order,
duplicates included. -/
def blobWords (blob : CStr) : List CStr :=
  (blob.splitOnP (fun c => decide (c ≤ 32))).filter (fun w => decide (w ≠ []))

/-- Spec-side reading of "ascending unsigned-byte lexicographic order": no
word is lexicographically smaller than a word before it. -/
def Ascending (ws : List CStr) : Prop :=
  ws.Pairwise (fun a b => ¬ List.Lex (fun x y : Nat => x < y) b a)

/-- The stored words that start with the byte `c`. -/
def bucketOf (c : Nat) (ws : List CStr) : List CStr :=
  ws.filter (fun w => decide (peek w = c))

/-- The stored words whose first byte is below `c`. -/
def below (c : Nat) (ws : List CStr) : List CStr :=
  ws.filter (fun w => decide (peek w < c))

/-- The table entry `Set` stores for the byte `c` when the array holds the
words `ws` sorted by first byte: 0 for a byte that starts no word, otherwise the
packed indices of the first word that starts with `c` and of the word after the
last one. -/
def tableEntry (h : WordListH) (ws : List CStr) (c : Nat) : Nat :=
  if bucketOf c ws = [] then 0
  else packRange h (below c ws).length ((below c ws).length + (bucketOf c ws).length)

/-- The invariant of a word list that holds the words `ws`: the array is `ws`
followed by the empty string, `ws` is grouped by ascending first byte, there
are at most 0xffff words, each starts with an indexable byte, and the table has
the entry of every indexable byte. -/
def WordList.Valid (h : WordListH) (wl : WordList) (ws : List CStr) : Prop :=
  wl.words = some (ws ++ [[]]) ∧ wl.ranges.length = h.rangesSize ∧ ws.length < 65536 ∧
    ws.Pairwise (fun a b => peek a ≤ peek b) ∧ (∀ w ∈ ws, h.Indexable (peek w)) ∧
    ∀ c, h.Indexable c → wl.ranges[c - h.MinIndexChar]? = some (tableEntry h ws c)

/-- The buffer after the second loop: every separator has become NUL. -/
def zeroed (s : CStr) : List Nat := s.map (fun c => if c > 32 then c else 0)

/-- A string without NUL byte. -/
def NoNul (s : CStr) : Prop := ∀ b ∈ s, b ≠ 0

/-! ## `LexDiff.cxx`

The 16-byte `lineBuffer` is read as a C string: `ColouriseDiffLine` gets the
bytes before its first NUL, `lineBuffer[i]` is `getD i 0`. Each index the code
reads is at most the length of that string (index 3 is read after a three-byte
start was matched, the pointer `lineBuffer + 4` is formed after index 3 was
found to hold a space), so no read leaves the string and its terminator. -/

/-- Modelled from the spec: the style numbers `SCE_DIFF_*` of the header
`SciLexer.h`, which is not among the sources; the model takes them as
parameters. -/
structure SciLexerH where
  SCE_DIFF_DEFAULT : Int
  SCE_DIFF_COMMENT : Int
  SCE_DIFF_COMMAND : Int
  SCE_DIFF_HEADER : Int
  SCE_DIFF_POSITION : Int
  SCE_DIFF_DELETED : Int
  SCE_DIFF_ADDED : Int
  SCE_DIFF_CHANGED : Int
  SCE_DIFF_PATCH_ADD : Int
  SCE_DIFF_PATCH_DELETE : Int
  SCE_DIFF_REMOVED_PATCH_ADD : Int
  SCE_DIFF_REMOVED_PATCH_DELETE : Int
deriving DecidableEq, Repr

/-- The twelve diff styles have twelve different numbers. -/
def SciLexerH.Distinct (k : SciLexerH) : Prop :=
  [k.SCE_DIFF_DEFAULT, k.SCE_DIFF_COMMENT, k.SCE_DIFF_COMMAND, k.SCE_DIFF_HEADER,
    k.SCE_DIFF_POSITION, k.SCE_DIFF_DELETED, k.SCE_DIFF_ADDED, k.SCE_DIFF_CHANGED,
    k.SCE_DIFF_PATCH_ADD, k.SCE_DIFF_PATCH_DELETE, k.SCE_DIFF_REMOVED_PATCH_ADD,
    k.SCE_DIFF_REMOVED_PATCH_DELETE].Nodup

instance (k : SciLexerH) : Decidable k.Distinct := by
  unfold SciLexerH.Distinct
  infer_instance

/-- Modelled from the spec: the constants `SC_FOLDLEVEL*` of the header
`Scintilla.h`, which is not among the sources; the model takes them as
parameters. -/
structure ScintillaH where
  SC_FOLDLEVELBASE : Nat
  SC_FOLDLEVELHEADERFLAG : Nat
  SC_FOLDLEVELNUMBERMASK : Nat
  SC_FOLDLEVELWHITEFLAG : Nat
deriving DecidableEq, Repr

/-- Modelled from the spec: the helper `StrStartsWith(s, "...")` of
`StringUtils.h`, which is not among the sources: the C string starts with the
bytes of the literal. -/
def StrStartsWith (s : CStr) (lit : CStr) : Bool := lit.isPrefixOf s

/-- Modelled from the spec: the helper `IsEOLChar` of `CharacterSet.h`, which
is not among the sources: carriage return or line feed. -/
def IsEOLChar (ch : Nat) : Bool := ch == 13 || ch == 10

/-- Modelled from the spec: the helper `IsADigit` of `CharacterSet.h`, which
is not among the sources: a decimal digit. -/
def IsADigit (ch : Nat) : Bool := decide (48 ≤ ch ∧ ch ≤ 57)

/-- The C library predicate `isspace` in the "C" locale. -/
def isspace (ch : Nat) : Bool := ch == 32 || decide (9 ≤ ch ∧ ch ≤ 13)

/-- The digits loop of `atoi`: the value of the leading decimal digits of `s`
after the digits already read, whose value is `acc`. -/
def atoiDigits : Nat → CStr → Nat
  | acc, [] => acc
  | acc, c :: s => if IsADigit c then atoiDigits (acc * 10 + (c - 48)) s else acc

/-- The C library function `atoi`: white space is skipped, then an optional
sign and the leading decimal digits are read. The value is the mathematical
one; C leaves the result undefined when it does not fit an `int`. -/
def atoi (s : CStr) : Int :=
  match s.dropWhile isspace with
  | 45 :: r => - (atoiDigits 0 r : Int)
  | 43 :: r => (atoiDigits 0 r : Int)
  | r => (atoiDigits 0 r : Int)

/-- Whether the C library function `strchr(s, c)` finds `c` in the string
(returns a non-null pointer), for a byte `c` other than NUL. -/
def strchr (s : CStr) (c : Nat) : Bool := s.contains c

/-- The function `ColouriseDiffLine(lineBuffer)`. -/
def ColouriseDiffLine (k : SciLexerH) (lineBuffer : CStr) : Int :=
  if StrStartsWith lineBuffer (bytes "diff ") then k.SCE_DIFF_COMMAND
  else if StrStartsWith lineBuffer (bytes "Index: ") then k.SCE_DIFF_COMMAND
  else if StrStartsWith lineBuffer (bytes "---") && lineBuffer.getD 3 0 != 45 then
    if lineBuffer.getD 3 0 == 32 && atoi (lineBuffer.drop 4) != 0
        && !strchr lineBuffer 47 then k.SCE_DIFF_POSITION
    else if IsEOLChar (lineBuffer.getD 3 0) then k.SCE_DIFF_POSITION
    else if lineBuffer.getD 3 0 == 32 then k.SCE_DIFF_HEADER
    else k.SCE_DIFF_DELETED
  else if StrStartsWith lineBuffer (bytes "+++ ") then
    if atoi (lineBuffer.drop 4) != 0 && !strchr lineBuffer 47 then k.SCE_DIFF_POSITION
    else k.SCE_DIFF_HEADER
  else if StrStartsWith lineBuffer (bytes "====") then k.SCE_DIFF_HEADER
  else if StrStartsWith lineBuffer (bytes "***") then
    if lineBuffer.getD 3 0 == 32 && atoi (lineBuffer.drop 4) != 0
        && !strchr lineBuffer 47 then k.SCE_DIFF_POSITION
    else if lineBuffer.getD 3 0 == 42 then k.SCE_DIFF_POSITION
    else k.SCE_DIFF_HEADER
  else if StrStartsWith lineBuffer (bytes "? ") then k.SCE_DIFF_HEADER
  else if lineBuffer.getD 0 0 == 64 then k.SCE_DIFF_POSITION
  else if IsADigit (lineBuffer.getD 0 0) then k.SCE_DIFF_POSITION
  else if StrStartsWith lineBuffer (bytes "++") then k.SCE_DIFF_PATCH_ADD
  else if StrStartsWith lineBuffer (bytes "+-") then k.SCE_DIFF_PATCH_DELETE
  else if StrStartsWith lineBuffer (bytes "-+") then k.SCE_DIFF_REMOVED_PATCH_ADD
  else if StrStartsWith lineBuffer (bytes "--") then k.SCE_DIFF_REMOVED_PATCH_DELETE
  else if lineBuffer.getD 0 0 == 45 || lineBuffer.getD 0 0 == 60 then k.SCE_DIFF_DELETED
  else if lineBuffer.getD 0 0 == 43 || lineBuffer.getD 0 0 == 62 then k.SCE_DIFF_ADDED
  else if lineBuffer.getD 0 0 == 33 then k.SCE_DIFF_CHANGED
  else if lineBuffer.getD 0 0 != 32 then k.SCE_DIFF_COMMENT
  else k.SCE_DIFF_DEFAULT

/-- Modelled from the spec: the document behind the accessor, which
`LexAccessor.h` (not among the sources) presents with "line-start/line-index
arithmetic" and "random-access byte reads": the text is given line by line,
each line with its line end, the last line without one. -/
abbrev Document := List (List Nat)

/-- Modelled from the spec: `styler.Length()`, the number of bytes of the
document. -/
def Document.Length (doc : Document) : Nat := doc.flatten.length

/-- Modelled from the spec: `styler.LineStart(line)`, the position of the
first byte of the line; the length of the document for a line past the last
one. -/
def Document.LineStart (doc : Document) (line : Nat) : Nat := (doc.take line).flatten.length

/-- Modelled from the spec: `styler.GetLine(pos)`, the index of the line that
holds the position; the last line for a position at or past the end of the
document. -/
def Document.GetLine : Document → Nat → Nat
  | [], _ => 0
  | [_], _ => 0
  | l :: ls, pos => if pos < l.length then 0 else Document.GetLine ls (pos - l.length) + 1

/-- Modelled from the spec: `styler.GetRange(startPos, endPos, s, len)` of
`LexAccessor.h` (not among the sources): the bytes of
`[startPos, min(endPos, startPos + len - 1))` are copied to `s` and a NUL is
put after them; the result is the C string `s` then holds. -/
def Document.GetRange (doc : Document) (startPos endPos len : Nat) : CStr :=
  ((doc.flatten.drop startPos).take (min endPos (startPos + len - 1) - startPos)).takeWhile
    (fun b => b != 0)

/-- The buffer size `DIFF_BUFFER_START_SIZE`. -/
def DIFF_BUFFER_START_SIZE : Nat := 16

/-- The value `x & ~m` on non-negative integers. -/
def clearBits (x m : Nat) : Nat := x ^^^ (x &&& m)

/-- The calls `styler.ColorTo(pos, style)` and `styler.SetLevel(line, level)`
a scan makes, each list in the order of the calls. -/
structure DiffCalls where
  ColorTo : List (Nat × Int)
  SetLevel : List (Int × Nat)
deriving DecidableEq, Repr

/-- The fold level `nextLevel` that the `if (fold)` block of
`ColouriseDiffDoc` computes for a line of type `lineType` whose buffer starts
with the byte `first`. -/
def ColouriseDiffDoc.nextLevel (k : SciLexerH) (sc : ScintillaH) (lineType : Int) (first : Nat)
    (prevLevel : Nat) : Nat :=
  if lineType = k.SCE_DIFF_COMMAND then sc.SC_FOLDLEVELBASE ||| sc.SC_FOLDLEVELHEADERFLAG
  else if lineType = k.SCE_DIFF_HEADER then
    (sc.SC_FOLDLEVELBASE + 1) ||| sc.SC_FOLDLEVELHEADERFLAG
  else if lineType = k.SCE_DIFF_POSITION ∧ first ≠ 45 then
    (sc.SC_FOLDLEVELBASE + 2) ||| sc.SC_FOLDLEVELHEADERFLAG
  else if prevLevel &&& sc.SC_FOLDLEVELHEADERFLAG ≠ 0 then
    (prevLevel &&& sc.SC_FOLDLEVELNUMBERMASK) + 1
  else prevLevel

/-- The loop `while (lineCurrent <= maxLines)` of `ColouriseDiffDoc`, at most
`fuel` rounds: the `ColorTo` calls, the `SetLevel` calls and the last value of
`initStyle`; `none` when the rounds do not suffice. -/
def ColouriseDiffDoc.loop (k : SciLexerH) (sc : ScintillaH) (fold : Bool) (doc : Document)
    (maxLines : Nat) :
    Nat → Nat → Nat → Nat → Int → Nat → Option (List (Nat × Int) × List (Int × Nat) × Int)
  | 0, lineCurrent, _, _, initStyle, _ =>
    if lineCurrent ≤ maxLines then none else some ([], [], initStyle)
  | fuel + 1, lineCurrent, lineStartCurrent, lineStartNext, initStyle, prevLevel =>
    if lineCurrent ≤ maxLines then
      let lineBuffer := doc.GetRange lineStartCurrent lineStartNext DIFF_BUFFER_START_SIZE
      let lineType := ColouriseDiffLine k lineBuffer
      let colour := if initStyle ≠ lineType then [(lineStartCurrent, initStyle)] else []
      let initStyle1 := if initStyle ≠ lineType then lineType else initStyle
      let nextLevel := ColouriseDiffDoc.nextLevel k sc lineType (lineBuffer.getD 0 0) prevLevel
      let levels :=
        if fold then
          (if nextLevel &&& sc.SC_FOLDLEVELHEADERFLAG ≠ 0 ∧ nextLevel = prevLevel then
            [((lineCurrent : Int) - 1, clearBits prevLevel sc.SC_FOLDLEVELHEADERFLAG)]
          else []) ++ [((lineCurrent : Int), nextLevel)]
        else []
      let prevLevel1 := if fold then nextLevel else prevLevel
      match ColouriseDiffDoc.loop k sc fold doc maxLines fuel (lineCurrent + 1) lineStartNext
          (doc.LineStart (lineCurrent + 1 + 1)) initStyle1 prevLevel1 with
      | none => none
      | some (c, l, last) => some (colour ++ c, levels ++ l, last)
    else some ([], [], initStyle)

/-- The function `ColouriseDiffDoc(startPos, lengthDoc, initStyle, _, styler)`
on the document `doc` whose stored fold levels are `LevelAt`, with the
property `fold` as a parameter: the calls it makes, after
`styler.StartSegment(startPos)`. -/
def ColouriseDiffDoc (k : SciLexerH) (sc : ScintillaH) (fold : Bool) (doc : Document)
    (LevelAt : Nat → Nat) (startPos lengthDoc : Nat) (initStyle : Int) : Option DiffCalls :=
  let endPos := startPos + lengthDoc
  let maxLines := doc.GetLine (if endPos = doc.Length then endPos else endPos - 1)
  let lineCurrent := doc.GetLine startPos
  let prevLevel := if lineCurrent > 0 then LevelAt (lineCurrent - 1) else sc.SC_FOLDLEVELBASE
  let lineStartCurrent := doc.LineStart lineCurrent
  let lineStartNext := doc.LineStart (lineCurrent + 1)
  match ColouriseDiffDoc.loop k sc fold doc maxLines (maxLines + 1 - lineCurrent) lineCurrent
      lineStartCurrent lineStartNext initStyle prevLevel with
  | none => none
  | some (c, l, last) => some { ColorTo := c ++ [(endPos, last)], SetLevel := l }

/-- Modelled from the spec: the place where the accessor of `LexAccessor.h`
(not among the sources) records "style-tagged byte ranges": the start of the
segment that the next `ColorTo` call styles, and the style of each byte
styled so far. -/
structure StyleStore where
  startSeg : Nat
  styleAt : Nat → Option Int

/-- Modelled from the spec: `styler.StartSegment(pos)`. -/
def StyleStore.StartSegment (st : StyleStore) (pos : Nat) : StyleStore :=
  { st with startSeg := pos }

/-- Modelled from the spec: `styler.ColorTo(pos, style)`: the bytes from the
start of the segment up to `pos`, `pos` not included, get the style, and the
next segment starts at `pos`; a call that ends before the start of the segment
does nothing. -/
def StyleStore.ColorTo (st : StyleStore) (pos : Nat) (style : Int) : StyleStore :=
  if pos < st.startSeg then st
  else
    { startSeg := pos
      styleAt := fun p => if st.startSeg ≤ p ∧ p < pos then some style else st.styleAt p }

/-- The style store after the `ColorTo` calls of a list, in order. -/
def StyleStore.run (st : StyleStore) (calls : List (Nat × Int)) : StyleStore :=
  calls.foldl (fun st c => st.ColorTo c.1 c.2) st

/-- A style store in which no byte has a style. -/
def StyleStore.blank : StyleStore := { startSeg := 0, styleAt := fun _ => none }

/-- The style numbers used for concrete evaluations. -/
def sciLexer : SciLexerH :=
  { SCE_DIFF_DEFAULT := 0, SCE_DIFF_COMMENT := 1, SCE_DIFF_COMMAND := 2, SCE_DIFF_HEADER := 3,
    SCE_DIFF_POSITION := 4, SCE_DIFF_DELETED := 5, SCE_DIFF_ADDED := 6, SCE_DIFF_CHANGED := 7,
    SCE_DIFF_PATCH_ADD := 8, SCE_DIFF_PATCH_DELETE := 9, SCE_DIFF_REMOVED_PATCH_ADD := 10,
    SCE_DIFF_REMOVED_PATCH_DELETE := 11 }

/-- The fold constants used for concrete evaluations. -/
def scintilla : ScintillaH :=
  { SC_FOLDLEVELBASE := 0x400, SC_FOLDLEVELHEADERFLAG := 0x2000,
    SC_FOLDLEVELNUMBERMASK := 0x0FFF, SC_FOLDLEVELWHITEFLAG := 0x1000 }

/-- Spec-side: a rule of the ordered list of the diff grammar: the test on
the examined bytes and the class given to a line that passes it. -/
structure DiffRule where
  applies : CStr → Bool
  style : CStr → Int

/-- Spec-side: "a line is classified by the first matching rule" of an
ordered list; a line that matches no rule is a comment when its first byte is
not a space and default otherwise. -/
def classifyByRules (k : SciLexerH) (rules : List DiffRule) (line : CStr) : Int :=
  match rules.find? (fun r => r.applies line) with
  | some r => r.style line
  | none => if line.getD 0 0 != 32 then k.SCE_DIFF_COMMENT else k.SCE_DIFF_DEFAULT

/-- Spec-side: the test that makes a line with one of the markers `--- `,
`+++ `, `*** ` a position marker: the text after the 4-byte marker parses to a
non-zero integer and the examined bytes hold no `/`. -/
def numberedMarker (line : CStr) : Bool :=
  atoi (line.drop 4) != 0 && !strchr line 47

/-- Spec-side: the tests of the fifteen rules in the order the specification
lists them: `diff `, `Index: `, `---`, `+++ `, `====`, `***`, `@`, leading
digit, `++`, `+-`, `-+`, `--`, leading `-` or `<`, leading `+` or `>`,
leading `!`. -/
def listedRuleTests : List (CStr → Bool) :=
  [fun l => StrStartsWith l (bytes "diff "),
   fun l => StrStartsWith l (bytes "Index: "),
   fun l => StrStartsWith l (bytes "---"),
   fun l => StrStartsWith l (bytes "+++ "),
   fun l => StrStartsWith l (bytes "===="),
   fun l => StrStartsWith l (bytes "***"),
   fun l => l.getD 0 0 == 64,
   fun l => IsADigit (l.getD 0 0),
   fun l => StrStartsWith l (bytes "++"),
   fun l => StrStartsWith l (bytes "+-"),
   fun l => StrStartsWith l (bytes "-+"),
   fun l => StrStartsWith l (bytes "--"),
   fun l => l.getD 0 0 == 45 || l.getD 0 0 == 60,
   fun l => l.getD 0 0 == 43 || l.getD 0 0 == 62,
   fun l => l.getD 0 0 == 33]

/-- Spec-side: the ordered rule list of the diff grammar with the two
amendments: the rule `---` asks for a fourth byte other than `-`, and the rule
`? ` (header) stands between `***` and `@`. -/
def diffRules (k : SciLexerH) : List DiffRule :=
  [⟨fun l => StrStartsWith l (bytes "diff "), fun _ => k.SCE_DIFF_COMMAND⟩,
   ⟨fun l => StrStartsWith l (bytes "Index: "), fun _ => k.SCE_DIFF_COMMAND⟩,
   ⟨fun l => StrStartsWith l (bytes "---") && l.getD 3 0 != 45,
    fun l => if l.getD 3 0 == 32 && numberedMarker l then k.SCE_DIFF_POSITION
      else if IsEOLChar (l.getD 3 0) then k.SCE_DIFF_POSITION
      else if l.getD 3 0 == 32 then k.SCE_DIFF_HEADER else k.SCE_DIFF_DELETED⟩,
   ⟨fun l => StrStartsWith l (bytes "+++ "),
    fun l => if numberedMarker l then k.SCE_DIFF_POSITION else k.SCE_DIFF_HEADER⟩,
   ⟨fun l => StrStartsWith l (bytes "===="), fun _ => k.SCE_DIFF_HEADER⟩,
   ⟨fun l => StrStartsWith l (bytes "***"),
    fun l => if l.getD 3 0 == 32 && numberedMarker l then k.SCE_DIFF_POSITION
      else if l.getD 3 0 == 42 then k.SCE_DIFF_POSITION else k.SCE_DIFF_HEADER⟩,
   ⟨fun l => StrStartsWith l (bytes "? "), fun _ => k.SCE_DIFF_HEADER⟩,
   ⟨fun l => l.getD 0 0 == 64, fun _ => k.SCE_DIFF_POSITION⟩,
   ⟨fun l => IsADigit (l.getD 0 0), fun _ => k.SCE_DIFF_POSITION⟩,
   ⟨fun l => StrStartsWith l (bytes "++"), fun _ => k.SCE_DIFF_PATCH_ADD⟩,
   ⟨fun l => StrStartsWith l (bytes "+-"), fun _ => k.SCE_DIFF_PATCH_DELETE⟩,
   ⟨fun l => StrStartsWith l (bytes "-+"), fun _ => k.SCE_DIFF_REMOVED_PATCH_ADD⟩,
   ⟨fun l => StrStartsWith l (bytes "--"), fun _ => k.SCE_DIFF_REMOVED_PATCH_DELETE⟩,
   ⟨fun l => l.getD 0 0 == 45 || l.getD 0 0 == 60, fun _ => k.SCE_DIFF_DELETED⟩,
   ⟨fun l => l.getD 0 0 == 43 || l.getD 0 0 == 62, fun _ => k.SCE_DIFF_ADDED⟩,
   ⟨fun l => l.getD 0 0 == 33, fun _ => k.SCE_DIFF_CHANGED⟩]

/-- The value `lineType` of the loop body of `ColouriseDiffDoc` for line
`line`: the class `ColouriseDiffLine` returns for the buffer `GetRange` fills
with the start of the line. -/
def ColouriseDiffDoc.lineType (k : SciLexerH) (doc : Document) (line : Nat) : Int :=
  ColouriseDiffLine k
    (doc.GetRange (doc.LineStart line) (doc.LineStart (line + 1)) DIFF_BUFFER_START_SIZE)

/-! ## The scan cursor `StyleContext`

`StyleContext.h`, `LexAccessor.h`, `CharacterSet.h`, `SciLexer.h` and
`StringUtils.h` are not among the sources. The cursor is modelled from the
specification ("current/previous/next byte (`0` sentinel past end)", "set
style", "change style", "rewind by one", "forward-by-N with line/position
bookkeeping") for a document in a single-byte encoding; the character classes
and the style numbers are parameters. -/

/-- Modelled from the spec: the scan cursor `StyleContext` over the accessor
`styler`: the document, the end of the scanned range, the style runs and line
states recorded so far, and the cursor fields the tokenizers read. -/
structure StyleContext where
  doc : Document
  endPos : Nat
  lengthDocument : Nat
  styler : StyleStore
  lineStates : Nat → Nat
  currentPos : Nat
  currentLine : Nat
  lineDocEnd : Nat
  lineStartNext : Nat
  atLineStart : Bool
  atLineEnd : Bool
  state : Int
  chPrev : Nat
  ch : Nat
  chNext : Nat

/-- Modelled from the spec: `styler[pos]` and `styler.SafeGetCharAt(pos)`:
"byte read at absolute position, returning a defined sentinel (`0`) for
out-of-range reads". -/
def Document.SafeGetCharAt (doc : Document) (pos : Nat) : Nat := doc.flatten.getD pos 0

/-- Modelled from the spec: the end of `StyleContext::GetNextChar`: the next
byte is read and `atLineEnd` is set at the last byte of the line end (at the
end of the text on the last line). -/
def StyleContext.GetNextChar (sc : StyleContext) : StyleContext :=
  { sc with
    chNext := sc.doc.SafeGetCharAt (sc.currentPos + 1)
    atLineEnd :=
      if sc.currentLine < sc.lineDocEnd then decide (sc.lineStartNext - 1 ≤ sc.currentPos)
      else decide (sc.lineStartNext ≤ sc.currentPos) }

/-- Modelled from the spec: the constructor
`StyleContext sc(startPos, lengthDoc, initStyle, styler)`: the segment starts
at `startPos`; a range that reaches the end of the document is scanned one
position further, so that the last line gets its line end. -/
def StyleContext.init (doc : Document) (styler : StyleStore) (lineStates : Nat → Nat)
    (startPos lengthDoc : Nat) (initStyle : Int) : StyleContext :=
  StyleContext.GetNextChar
    { doc := doc
      endPos := if startPos + lengthDoc = doc.Length then startPos + lengthDoc + 1
        else startPos + lengthDoc
      lengthDocument := doc.Length
      styler := styler.StartSegment startPos
      lineStates := lineStates
      currentPos := startPos
      currentLine := doc.GetLine startPos
      lineDocEnd := doc.GetLine doc.Length
      lineStartNext := doc.LineStart (doc.GetLine startPos + 1)
      atLineStart := decide (doc.LineStart (doc.GetLine startPos) = startPos)
      atLineEnd := false
      state := initStyle
      chPrev := 0
      ch := doc.SafeGetCharAt startPos
      chNext := 0 }

/-- Modelled from the spec: `sc.More()`. -/
def StyleContext.More (sc : StyleContext) : Bool := decide (sc.currentPos < sc.endPos)

/-- Modelled from the spec: `sc.Forward()`, one byte forward "with
line/position bookkeeping"; at the end of the range the cursor stays and reads
spaces. -/
def StyleContext.Forward (sc : StyleContext) : StyleContext :=
  if sc.currentPos < sc.endPos then
    let currentLine := if sc.atLineEnd then sc.currentLine + 1 else sc.currentLine
    StyleContext.GetNextChar
      { sc with
        atLineStart := sc.atLineEnd
        currentLine := currentLine
        lineStartNext :=
          if sc.atLineEnd then sc.doc.LineStart (currentLine + 1) else sc.lineStartNext
        chPrev := sc.ch
        currentPos := sc.currentPos + 1
        ch := sc.chNext }
  else
    { sc with atLineStart := false, chPrev := 32, ch := 32, chNext := 32, atLineEnd := true }

/-- Modelled from the spec: `sc.Forward(nb)` and `sc.Advance(nb)`,
"forward-by-N": `nb` times `Forward()`. -/
def StyleContext.Advance (sc : StyleContext) : Nat → StyleContext
  | 0 => sc
  | nb + 1 => StyleContext.Advance sc.Forward nb

/-- Modelled from the spec: `sc.SetState(state)`, "assigns the style tag that
will cover bytes from the last boundary to the current position", then enters
the new state. -/
def StyleContext.SetState (sc : StyleContext) (state : Int) : StyleContext :=
  { sc with
    styler := sc.styler.ColorTo (min sc.currentPos sc.lengthDocument) sc.state
    state := state }

/-- Modelled from the spec: `sc.ChangeState(state)`, "retroactively relabels
the run just opened". -/
def StyleContext.ChangeState (sc : StyleContext) (state : Int) : StyleContext :=
  { sc with state := state }

/-- Modelled from the spec: `sc.ForwardSetState(state)`. -/
def StyleContext.ForwardSetState (sc : StyleContext) (state : Int) : StyleContext :=
  sc.Forward.SetState state

/-- Modelled from the spec: `sc.Rewind()`, "rewind by one (for one-byte
lookahead corrections)": the cursor goes back to the previous byte of the
line. -/
def StyleContext.Rewind (sc : StyleContext) : StyleContext :=
  StyleContext.GetNextChar
    { sc with
      currentPos := sc.currentPos - 1
      ch := sc.chPrev
      chPrev := if 2 ≤ sc.currentPos then sc.doc.SafeGetCharAt (sc.currentPos - 2) else 0
      atLineStart := false }

/-- Modelled from the spec: `sc.Complete()`, "finalization flushes the last
open style run". -/
def StyleContext.Complete (sc : StyleContext) : StyleContext :=
  { sc with styler := sc.styler.ColorTo (min sc.currentPos sc.lengthDocument) sc.state }

/-- Modelled from the spec: `sc.Match(ch0, ch1)`, "pattern match against next
1-2 bytes". -/
def StyleContext.Match (sc : StyleContext) (ch0 ch1 : Nat) : Bool :=
  sc.ch == ch0 && sc.chNext == ch1

/-- Modelled from the spec: `sc.GetRelative(n)`. -/
def StyleContext.GetRelative (sc : StyleContext) (n : Nat) : Nat :=
  sc.doc.SafeGetCharAt (sc.currentPos + n)

/-- Modelled from the spec: `sc.GetCurrent(s, len)`, "extraction of the
current token's text into a fixed-size buffer (long identifiers are
truncated)": the C string made of the bytes of the open run, at most
`len - 1` of them. -/
def StyleContext.GetCurrent (sc : StyleContext) (len : Nat) : CStr :=
  (((sc.doc.flatten.drop sc.styler.startSeg).take
    (min (sc.currentPos - sc.styler.startSeg) (len - 1)))).takeWhile (fun b => b != 0)

/-- Modelled from the spec: `styler.SetLineState(line, state)`. -/
def StyleContext.SetLineState (sc : StyleContext) (line state : Nat) : StyleContext :=
  { sc with lineStates := fun l => if l = line then state else sc.lineStates l }

/-- Modelled from the spec: `LexGetNextChar(styler, pos)`, "peek next
non-blank character in the document": the first byte at or after `pos` that is
not white space, 0 when there is none. -/
def Document.LexGetNextChar (isspacechar : Nat → Bool) (doc : Document) (pos : Nat) : Nat :=
  ((doc.flatten.drop pos).dropWhile isspacechar).headD 0

/-! ## `LexRust.cxx` -/

/-- Modelled from the spec: the names of the style numbers `SCE_RUST_*` of
`SciLexer.h` that `LexRust.cxx` uses. -/
inductive RustStyle
  | DEFAULT | COMMENTLINE | COMMENTLINEDOC | COMMENTBLOCK | COMMENTBLOCKDOC | TASKMARKER
  | OPERATOR | ATTRIBUTE | NUMBER | IDENTIFIER | VARIABLE | LIFETIME | MACRO
  | WORD | WORD2 | TYPE | STRUCT | TRAIT | ENUMERATION | UNION | CONSTANT
  | FUNCTION | FUNCTION_DEFINITION
  | STRING | BYTESTRING | RAW_STRING | RAW_BYTESTRING | LINE_CONTINUATION | ESCAPECHAR
  | PLACEHOLDER | FORMAT_SPECIFIER | CHARACTER | BYTE_CHARACTER
deriving DecidableEq, Repr, Fintype

/-- The variables of `EscapeSequence`. -/
structure EscapeSequence where
  outerState : Int
  digitsLeft : Int
  brace : Bool
deriving DecidableEq, Repr

/-- The local variables of `ColouriseRustDoc` and its cursor. -/
structure RustScan where
  sc : StyleContext
  lineStateAttribute : Nat
  lineStateLineType : Nat
  squareBracket : Int
  commentLevel : Int
  hashCount : Int
  kwType : Int
  chBeforeIdentifier : Nat
  visibleChars : Int
  visibleCharsBefore : Int
  charStartPos : Nat
  escSeq : EscapeSequence

/-- Modelled from the spec: what `LexRust.cxx` takes from the headers that
are not among the sources, as parameters: the style numbers `SCE_RUST_*`
(`SciLexer.h`), the character classes (`CharacterSet.h`) and the helper
`HighlightTaskMarker`, which gets the cursor, `visibleChars`,
`visibleCharsBefore` and the marker style and returns the cursor,
`visibleChars` and its result. -/
structure RustLexerH where
  SCE_RUST : RustStyle → Int
  IsHexDigit : Nat → Bool
  IsIdentifierCharEx : Nat → Bool
  IsIdentifierStartEx : Nat → Bool
  IsIdentifierStart : Nat → Bool
  IsDecimalNumber : Nat → Nat → Nat → Bool
  isoperator : Nat → Bool
  isspacechar : Nat → Bool
  HighlightTaskMarker : StyleContext → Int → Int → Int → StyleContext × Int × Bool

/-- The style numbers are different from each other, as the labels of the
`switch` require. -/
def RustLexerH.Distinct (k : RustLexerH) : Prop :=
  ∀ a b : RustStyle, k.SCE_RUST a = k.SCE_RUST b → a = b

instance (k : RustLexerH) : Decidable k.Distinct := by
  unfold RustLexerH.Distinct
  infer_instance

/-- The masks `RustLineStateMaskLineComment`, `RustLineStateMaskPubUse` and
`RustLineStateMaskAttribute`. -/
def RustLineStateMaskLineComment : Nat := 1 <<< 0

def RustLineStateMaskPubUse : Nat := 1 <<< 1

def RustLineStateMaskAttribute : Nat := 1 <<< 2

/-- The constant `MaxRustCharLiteralLength`. -/
def MaxRustCharLiteralLength : Nat := 2 + 2 + 2 + 6

/-- The bit pattern of a 32-bit `int` in two's complement. -/
def toInt32 (x : Int) : Nat := (x % 2 ^ 32).toNat

/-- The line state `ColouriseRustDoc` stores at a line end (lines 511-512),
as the bit pattern of an `int`. -/
def packRustLineState (squareBracket commentLevel hashCount : Int)
    (lineStateAttribute lineStateLineType : Nat) : Nat :=
  ((toInt32 squareBracket <<< 3) ||| (toInt32 commentLevel <<< 11) |||
    (toInt32 hashCount <<< 19) ||| lineStateAttribute ||| lineStateLineType) % 2 ^ 32

/-- The fields `ColouriseRustDoc` reads from the line state of the previous
line at the start of a scan (lines 177-180): `squareBracket`, `commentLevel`,
`hashCount` and `lineStateAttribute`. -/
def unpackRustLineState (lineState : Nat) : Nat × Nat × Nat × Nat :=
  ((lineState >>> 3) &&& 0xff, (lineState >>> 11) &&& 0xff, (lineState >>> 19) &&& 0xff,
    lineState &&& RustLineStateMaskAttribute)

/-- The structure `FoldLineState` of `LexRust.cxx`. -/
structure FoldLineState where
  lineComment : Nat
  pubUse : Nat
deriving DecidableEq, Repr

/-- The constructor `FoldLineState(lineState)`. -/
def FoldLineState.ofLineState (lineState : Nat) : FoldLineState :=
  { lineComment := lineState &&& RustLineStateMaskLineComment
    pubUse := (lineState >>> 1) &&& 1 }

/-- The method `EscapeSequence::resetEscapeState(state, chNext)` of
`LexRust.cxx`. -/
def EscapeSequence.resetEscapeState (_e : EscapeSequence) (state : Int) (chNext : Nat) :
    EscapeSequence :=
  { outerState := state, brace := false, digitsLeft := if chNext = 120 then 3 else 1 }

/-- The method `EscapeSequence::atEscapeEnd(ch)`: the sequence after the
decrement, and the result. -/
def EscapeSequence.atEscapeEnd (k : RustLexerH) (e : EscapeSequence) (ch : Nat) :
    EscapeSequence × Bool :=
  ({ e with digitsLeft := e.digitsLeft - 1 },
    decide (e.digitsLeft - 1 ≤ 0) || !k.IsHexDigit ch)

/-- The number of `#` bytes at the head of a text: the loop
`while ((ch = styler[pos]) == '#')` of `IsRustRawString`. -/
def countHash : List Nat → Nat
  | 35 :: rest => countHash rest + 1
  | _ => 0

/-- The function `IsRustRawString(styler, pos, start, hashCount)`: the new
value of `hashCount` and the result. -/
def IsRustRawString (doc : Document) (pos : Nat) (start : Bool) (hashCount : Int) :
    Int × Bool :=
  let count := countHash (doc.flatten.drop pos)
  let ch := doc.SafeGetCharAt (pos + count)
  if start then
    if ch = 34 then ((count : Int), true) else (hashCount, false)
  else (hashCount, decide ((count : Int) = hashCount))

/-- The byte `styler[pos]` after the identifier bytes from `pos` on: the loop
`while (IsIdentifierCharEx(ch)) ch = styler[++pos]` of `CheckFormatSpecifier`,
as the new position. -/
def skipIdentifierChars (k : RustLexerH) (doc : Document) (pos : Nat) : Nat :=
  pos + ((doc.flatten.drop pos).takeWhile k.IsIdentifierCharEx).length

/-- The `for` loop of `CheckFormatSpecifier` from the value `i` on, with
`ch = styler[pos]`: the position and byte after the loop. -/
def CheckFormatSpecifier.loop (k : RustLexerH) (doc : Document) :
    Nat → Nat → Nat → Nat → Nat × Nat
  | 0, _, pos, ch => (pos, ch)
  | fuel + 1, i, pos, ch =>
    if i < 3 then
      let (i1, pos1, ch1) :=
        if i < 2 ∧ ch = 46 then
          if doc.SafeGetCharAt (pos + 1) = 42 then
            (2, pos + 2, doc.SafeGetCharAt (pos + 2))
          else (1, pos + 1, doc.SafeGetCharAt (pos + 1))
        else (i, pos, ch)
      let pos2 := if k.IsIdentifierCharEx ch1 then skipIdentifierChars k doc pos1 else pos1
      let ch2 := if k.IsIdentifierCharEx ch1 then doc.SafeGetCharAt pos2 else ch1
      let pos3 := if i1 < 2 ∧ ch2 = 36 then pos2 + 1 else pos2
      let ch3 := if i1 < 2 ∧ ch2 = 36 then doc.SafeGetCharAt (pos2 + 1) else ch2
      if ch3 = 63 then (pos3 + 1, doc.SafeGetCharAt (pos3 + 1))
      else CheckFormatSpecifier.loop k doc fuel (i1 + 1) pos3 ch3
    else (pos, ch)

/-- The function `CheckFormatSpecifier(sc, styler)`, for a single-byte
encoding (the width of the fill character is 1). -/
def CheckFormatSpecifier (k : RustLexerH) (sc : StyleContext) : Nat :=
  let pos := sc.currentPos + 1
  let ch := sc.chNext
  let (pos1, ch1) :=
    if ¬ (ch = 13 ∨ ch = 10 ∨ ch = 123 ∨ ch = 125) then
      let chNext := sc.doc.SafeGetCharAt (pos + 1)
      if (ch = 60 ∨ ch = 94 ∨ ch = 62) ∨ (chNext = 60 ∨ chNext = 94 ∨ chNext = 62) then
        (pos + 1 + 1, sc.doc.SafeGetCharAt (pos + 1 + 1))
      else (pos, ch)
    else (pos, ch)
  let (pos2, ch2) :=
    if ch1 = 43 ∨ ch1 = 45 then (pos1 + 1, sc.doc.SafeGetCharAt (pos1 + 1)) else (pos1, ch1)
  let (pos3, ch3) :=
    if ch2 = 35 then (pos2 + 1, sc.doc.SafeGetCharAt (pos2 + 1)) else (pos2, ch2)
  let (pos4, ch4) :=
    if ch3 = 48 then (pos3 + 1, sc.doc.SafeGetCharAt (pos3 + 1)) else (pos3, ch3)
  let (pos5, ch5) := CheckFormatSpecifier.loop k sc.doc 3 0 pos4 ch4
  if ch5 = 125 then pos5 - sc.currentPos else 0

/-- The indices `KeywordIndex_*` of the word lists. -/
def KeywordIndex_Keyword : Nat := 0

def KeywordIndex_ReservedKeyword : Nat := 1

def KeywordIndex_PrimitiveType : Nat := 2

def KeywordIndex_Struct : Nat := 3

def KeywordIndex_Trait : Nat := 4

def KeywordIndex_Enumeration : Nat := 5

def KeywordIndex_Union : Nat := 6

def KeywordIndex_Constant : Nat := 7

/-- The call `keywordLists[index].InList(s)`; a lookup that would read
outside the arrays of the list (none does on a list built by `Set`) counts as
`false`. -/
def inKeywordList (h : WordListH) (keywordLists : Nat → WordList) (index : Nat) (s : CStr) :
    Bool :=
  ((keywordLists index).InList h s).getD false

/-- The classification of a finished identifier that is neither in an
attribute nor followed by `!`: the `else` block of lines 211-268 of
`ColouriseRustDoc`. -/
def ColouriseRustDoc.classify (k : RustLexerH) (h : WordListH) (keywordLists : Nat → WordList)
    (s : RustScan) : RustScan :=
  let word := s.sc.GetCurrent 128
  if inKeywordList h keywordLists KeywordIndex_Keyword word then
    let kwType1 :=
      if word = bytes "struct" then k.SCE_RUST .STRUCT
      else if word = bytes "fn" then k.SCE_RUST .FUNCTION_DEFINITION
      else if word = bytes "trait" then k.SCE_RUST .TRAIT
      else if word = bytes "enum" then k.SCE_RUST .ENUMERATION
      else if word = bytes "type" then k.SCE_RUST .TYPE
      else if word = bytes "const" then k.SCE_RUST .CONSTANT
      else if word = bytes "union" then k.SCE_RUST .UNION
      else s.kwType
    let kwType2 :=
      if kwType1 ≠ k.SCE_RUST .DEFAULT ∧
          ¬ k.IsIdentifierStartEx (s.sc.doc.LexGetNextChar k.isspacechar s.sc.currentPos) then
        k.SCE_RUST .DEFAULT
      else kwType1
    { s with
      sc := s.sc.ChangeState (k.SCE_RUST .WORD)
      kwType := kwType2
      lineStateLineType :=
        if (s.visibleChars = 3 ∨ s.visibleChars = 6) ∧ word = bytes "use" then
          RustLineStateMaskPubUse
        else s.lineStateLineType }
  else if inKeywordList h keywordLists KeywordIndex_ReservedKeyword word then
    { s with sc := s.sc.ChangeState (k.SCE_RUST .WORD2) }
  else if inKeywordList h keywordLists KeywordIndex_PrimitiveType word then
    { s with sc := s.sc.ChangeState (k.SCE_RUST .TYPE) }
  else if inKeywordList h keywordLists KeywordIndex_Struct word then
    { s with sc := s.sc.ChangeState (k.SCE_RUST .STRUCT) }
  else if inKeywordList h keywordLists KeywordIndex_Trait word then
    { s with sc := s.sc.ChangeState (k.SCE_RUST .TRAIT) }
  else if inKeywordList h keywordLists KeywordIndex_Enumeration word then
    { s with sc := s.sc.ChangeState (k.SCE_RUST .ENUMERATION) }
  else if inKeywordList h keywordLists KeywordIndex_Union word then
    { s with sc := s.sc.ChangeState (k.SCE_RUST .UNION) }
  else if inKeywordList h keywordLists KeywordIndex_Constant word then
    { s with sc := s.sc.ChangeState (k.SCE_RUST .CONSTANT) }
  else if s.sc.ch ≠ 46 then
    let chNext := s.sc.doc.LexGetNextChar k.isspacechar s.sc.currentPos
    if chNext = 40 then
      { s with
        sc := s.sc.ChangeState
          (if s.kwType = k.SCE_RUST .FUNCTION_DEFINITION then s.kwType
            else k.SCE_RUST .FUNCTION) }
    else if chNext = 33 then { s with sc := s.sc.ChangeState (k.SCE_RUST .MACRO) }
    else if s.kwType ≠ k.SCE_RUST .DEFAULT then
      if s.kwType ≠ k.SCE_RUST .CONSTANT ∨ chNext = 58 then
        { s with sc := s.sc.ChangeState s.kwType }
      else if s.chBeforeIdentifier = 91 ∧ s.sc.ch = 59 then
        { s with sc := s.sc.ChangeState (k.SCE_RUST .TYPE) }
      else s
    else s
  else s

/-- The `switch (sc.state)` of the loop of `ColouriseRustDoc` (lines
187-405): the variables after it, and whether it ended with `continue`. -/
def ColouriseRustDoc.stateCase (k : RustLexerH) (h : WordListH) (keywordLists : Nat → WordList)
    (s : RustScan) : RustScan × Bool :=
  let sc := s.sc
  if sc.state = k.SCE_RUST .OPERATOR ∨ sc.state = k.SCE_RUST .ATTRIBUTE then
    ({ s with sc := sc.SetState (k.SCE_RUST .DEFAULT) }, false)
  else if sc.state = k.SCE_RUST .NUMBER then
    if ¬ k.IsDecimalNumber sc.chPrev sc.ch sc.chNext then
      ({ s with sc := sc.SetState (k.SCE_RUST .DEFAULT) }, false)
    else (s, false)
  else if sc.state = k.SCE_RUST .IDENTIFIER ∨ sc.state = k.SCE_RUST .VARIABLE ∨
      sc.state = k.SCE_RUST .LIFETIME then
    if ¬ k.IsIdentifierCharEx sc.ch then
      let s1 :=
        if sc.state = k.SCE_RUST .IDENTIFIER then
          let s2 :=
            if s.lineStateAttribute ≠ 0 then
              { s with sc := sc.ChangeState (k.SCE_RUST .ATTRIBUTE) }
            else if sc.ch = 33 then
              { s with sc := (sc.ChangeState (k.SCE_RUST .MACRO)).Forward }
            else ColouriseRustDoc.classify k h keywordLists s
          if s2.sc.state ≠ k.SCE_RUST .WORD ∧ s2.sc.ch ≠ 46 then
            { s2 with kwType := k.SCE_RUST .DEFAULT }
          else s2
        else s
      ({ s1 with sc := s1.sc.SetState (k.SCE_RUST .DEFAULT) }, false)
    else (s, false)
  else if sc.state = k.SCE_RUST .COMMENTLINE ∨ sc.state = k.SCE_RUST .COMMENTLINEDOC then
    if sc.atLineStart then ({ s with sc := sc.SetState (k.SCE_RUST .DEFAULT) }, false)
    else
      let r := k.HighlightTaskMarker sc s.visibleChars s.visibleCharsBefore
        (k.SCE_RUST .TASKMARKER)
      ({ s with sc := r.1, visibleChars := r.2.1 }, false)
  else if sc.state = k.SCE_RUST .COMMENTBLOCK ∨ sc.state = k.SCE_RUST .COMMENTBLOCKDOC then
    if sc.Match 42 47 then
      let sc1 := sc.Forward
      if s.commentLevel - 1 = 0 then
        ({ s with sc := sc1.ForwardSetState (k.SCE_RUST .DEFAULT),
                  commentLevel := s.commentLevel - 1 }, false)
      else ({ s with sc := sc1, commentLevel := s.commentLevel - 1 }, false)
    else if sc.Match 47 42 then
      ({ s with sc := sc.Forward, commentLevel := s.commentLevel + 1 }, false)
    else
      let r := k.HighlightTaskMarker sc s.visibleChars s.visibleCharsBefore
        (k.SCE_RUST .TASKMARKER)
      ({ s with sc := r.1, visibleChars := r.2.1 }, r.2.2)
  else if sc.state = k.SCE_RUST .STRING ∨ sc.state = k.SCE_RUST .BYTESTRING ∨
      sc.state = k.SCE_RUST .RAW_STRING ∨ sc.state = k.SCE_RUST .RAW_BYTESTRING then
    if sc.ch = 92 then
      if sc.state < k.SCE_RUST .RAW_STRING then
        let state := sc.state
        if IsEOLChar sc.chNext then
          ({ s with sc := (sc.SetState (k.SCE_RUST .LINE_CONTINUATION)).ForwardSetState state },
            false)
        else
          let e := s.escSeq.resetEscapeState state sc.chNext
          let sc1 := (sc.SetState (k.SCE_RUST .ESCAPECHAR)).Forward
          if state = k.SCE_RUST .STRING ∧ sc1.Match 117 123 then
            ({ s with sc := sc1.Forward, escSeq := { e with brace := true, digitsLeft := 7 } },
              false)
          else ({ s with sc := sc1, escSeq := e }, false)
      else (s, false)
    else if sc.ch = 34 then
      if s.hashCount = 0 ∨
          (sc.chNext = 35 ∧ (IsRustRawString sc.doc (sc.currentPos + 1) false s.hashCount).2) then
        ({ s with
          sc := (sc.Advance s.hashCount.toNat).ForwardSetState (k.SCE_RUST .DEFAULT)
          hashCount := 0 }, false)
      else (s, false)
    else if sc.ch = 123 ∨ sc.ch = 125 then
      if sc.ch = sc.chNext then
        ({ s with
          escSeq := { s.escSeq with outerState := sc.state, digitsLeft := 1 }
          sc := (sc.SetState (k.SCE_RUST .ESCAPECHAR)).Forward }, false)
      else if sc.ch = 123 ∧
          (sc.chNext = 125 ∨ sc.chNext = 58 ∨ k.IsIdentifierCharEx sc.chNext) then
        ({ s with
          escSeq := { s.escSeq with outerState := sc.state }
          sc := sc.SetState (k.SCE_RUST .PLACEHOLDER) }, false)
      else (s, false)
    else (s, false)
  else if sc.state = k.SCE_RUST .PLACEHOLDER then
    if ¬ k.IsIdentifierCharEx sc.ch then
      if sc.ch = 58 ∧ CheckFormatSpecifier k sc ≠ 0 then
        ({ s with
          sc := (((sc.SetState (k.SCE_RUST .FORMAT_SPECIFIER)).Advance
            (CheckFormatSpecifier k sc)).SetState (k.SCE_RUST .PLACEHOLDER)).ForwardSetState
              s.escSeq.outerState }, true)
      else
        let sc1 := if sc.ch ≠ 125 then sc.Rewind.ChangeState s.escSeq.outerState else sc
        ({ s with sc := sc1.ForwardSetState s.escSeq.outerState }, true)
    else (s, false)
  else if sc.state = k.SCE_RUST .CHARACTER ∨ sc.state = k.SCE_RUST .BYTE_CHARACTER then
    if sc.ch = 92 then
      if ¬ IsEOLChar sc.chNext then
        let e := s.escSeq.resetEscapeState sc.state sc.chNext
        let sc1 := (sc.SetState (k.SCE_RUST .ESCAPECHAR)).Forward
        if e.outerState = k.SCE_RUST .CHARACTER ∧ sc1.Match 117 123 then
          ({ s with sc := sc1.Forward, escSeq := { e with brace := true, digitsLeft := 7 } },
            false)
        else ({ s with sc := sc1, escSeq := e }, false)
      else (s, false)
    else if sc.ch = 39 then
      ({ s with sc := sc.ForwardSetState (k.SCE_RUST .DEFAULT) }, false)
    else if sc.atLineEnd ∨ MaxRustCharLiteralLength - 1 ≤ sc.currentPos - s.charStartPos then
      ({ s with sc := sc.SetState (k.SCE_RUST .DEFAULT) }, false)
    else (s, false)
  else if sc.state = k.SCE_RUST .ESCAPECHAR then
    let r := s.escSeq.atEscapeEnd k sc.ch
    if r.2 then
      let sc1 := if r.1.brace ∧ sc.ch = 125 then sc.Forward else sc
      ({ s with sc := sc1.SetState r.1.outerState, escSeq := r.1 }, true)
    else ({ s with escSeq := r.1 }, false)
  else (s, false)

/-- The block `if (sc.state == SCE_RUST_DEFAULT)` of the loop of
`ColouriseRustDoc` (lines 407-505): the variables after it, and whether it
ended with `continue`. -/
def ColouriseRustDoc.defaultCase (k : RustLexerH) (s : RustScan) : RustScan × Bool :=
  let sc := s.sc
  if sc.state = k.SCE_RUST .DEFAULT then
    if sc.ch = 47 ∧ (sc.chNext = 47 ∨ sc.chNext = 42) then
      let chNext := sc.chNext
      let sc1 := ((sc.SetState (if chNext = 47 then k.SCE_RUST .COMMENTLINE
        else k.SCE_RUST .COMMENTBLOCK)).Advance 2)
      let sc2 :=
        if sc1.ch = 33 ∨ (sc1.ch = chNext ∧ sc1.chNext ≠ chNext) then
          sc1.ChangeState (if chNext = 47 then k.SCE_RUST .COMMENTLINEDOC
            else k.SCE_RUST .COMMENTBLOCKDOC)
        else sc1
      if chNext = 47 then
        ({ s with
          sc := sc2
          visibleCharsBefore := s.visibleChars
          lineStateLineType :=
            if s.visibleChars = 0 then RustLineStateMaskLineComment else s.lineStateLineType },
          true)
      else
        ({ s with sc := sc2, visibleCharsBefore := s.visibleChars, commentLevel := 1 }, true)
    else if sc.ch = 35 then
      if sc.chNext = 91 ∨ ((sc.chNext = 33 ∨ k.isspacechar sc.chNext) ∧
          sc.doc.LexGetNextChar k.isspacechar (sc.currentPos + 2) = 91) then
        let sc1 := sc.SetState (k.SCE_RUST .ATTRIBUTE)
        ({ s with
          sc := if sc.chNext = 33 then sc1.Forward else sc1
          lineStateAttribute := RustLineStateMaskAttribute }, false)
      else (s, false)
    else if sc.ch = 34 then ({ s with sc := sc.SetState (k.SCE_RUST .STRING) }, false)
    else if sc.ch = 39 then
      if k.IsIdentifierStartEx sc.chNext ∧ sc.GetRelative 2 ≠ 39 then
        ({ s with sc := sc.SetState (k.SCE_RUST .LIFETIME) }, false)
      else
        ({ s with charStartPos := sc.currentPos, sc := sc.SetState (k.SCE_RUST .CHARACTER) },
          false)
    else if sc.Match 114 35 then
      let r := IsRustRawString sc.doc (sc.currentPos + 2) true s.hashCount
      if r.2 then
        ({ s with
          hashCount := r.1 + 1
          sc := (sc.SetState (k.SCE_RUST .RAW_STRING)).Advance (r.1 + 1 + 1).toNat }, false)
      else
        let sc1 := sc.SetState (k.SCE_RUST .IDENTIFIER)
        ({ s with
          hashCount := r.1
          chBeforeIdentifier := if sc.chPrev ≠ 46 then sc.chPrev else s.chBeforeIdentifier
          sc := if k.IsIdentifierStart (sc.GetRelative 2) then sc1.Forward else sc1 }, false)
    else if sc.Match 114 34 then
      ({ s with hashCount := 0, sc := (sc.SetState (k.SCE_RUST .RAW_STRING)).Forward }, false)
    else if sc.Match 98 34 then
      ({ s with sc := (sc.SetState (k.SCE_RUST .BYTESTRING)).Forward }, false)
    else if sc.Match 98 39 then
      ({ s with
        charStartPos := sc.currentPos
        sc := (sc.SetState (k.SCE_RUST .BYTE_CHARACTER)).Forward }, false)
    else if sc.Match 98 114 then
      let r := IsRustRawString sc.doc (sc.currentPos + 2) true s.hashCount
      if r.2 then
        ({ s with
          hashCount := r.1
          sc := (sc.SetState (k.SCE_RUST .RAW_BYTESTRING)).Advance (r.1 + 2).toNat }, false)
      else
        ({ s with
          hashCount := r.1
          chBeforeIdentifier := if sc.chPrev ≠ 46 then sc.chPrev else s.chBeforeIdentifier
          sc := sc.SetState (k.SCE_RUST .IDENTIFIER) }, false)
    else if sc.ch = 36 ∧ k.IsIdentifierStartEx sc.chNext then
      ({ s with sc := sc.SetState (k.SCE_RUST .VARIABLE) }, false)
    else if IsADigit sc.ch then ({ s with sc := sc.SetState (k.SCE_RUST .NUMBER) }, false)
    else if k.IsIdentifierStartEx sc.ch then
      ({ s with
        chBeforeIdentifier := if sc.chPrev ≠ 46 then sc.chPrev else s.chBeforeIdentifier
        sc := sc.SetState (k.SCE_RUST .IDENTIFIER) }, false)
    else if k.isoperator sc.ch ∨ sc.ch = 36 ∨ sc.ch = 64 then
      let sc1 := sc.SetState (k.SCE_RUST .OPERATOR)
      if s.lineStateAttribute ≠ 0 then
        if sc.ch = 91 then ({ s with sc := sc1, squareBracket := s.squareBracket + 1 }, false)
        else if sc.ch = 93 then
          ({ s with
            sc := sc1
            squareBracket := s.squareBracket - 1
            lineStateAttribute := if s.squareBracket - 1 = 0 then 0 else s.lineStateAttribute },
            false)
        else ({ s with sc := sc1 }, false)
      else ({ s with sc := sc1 }, false)
    else (s, false)
  else (s, false)

/-- The end of the body of the loop of `ColouriseRustDoc` (lines 507-519):
the count of visible characters, the line state at a line end, and
`sc.Forward()`. -/
def ColouriseRustDoc.lineEnd (k : RustLexerH) (s : RustScan) : RustScan :=
  let s1 :=
    if ¬ k.isspacechar s.sc.ch then { s with visibleChars := s.visibleChars + 1 } else s
  let s2 :=
    if s1.sc.atLineEnd then
      { s1 with
        sc := s1.sc.SetLineState s1.sc.currentLine
          (packRustLineState s1.squareBracket s1.commentLevel s1.hashCount
            s1.lineStateAttribute s1.lineStateLineType)
        lineStateLineType := 0
        visibleChars := 0
        visibleCharsBefore := 0
        kwType := k.SCE_RUST .DEFAULT }
    else s1
  { s2 with sc := s2.sc.Forward }

/-- One round of the loop `while (sc.More())` of `ColouriseRustDoc`. -/
def ColouriseRustDoc.step (k : RustLexerH) (h : WordListH) (keywordLists : Nat → WordList)
    (s : RustScan) : RustScan :=
  let r := ColouriseRustDoc.stateCase k h keywordLists s
  if r.2 then r.1
  else
    let r1 := ColouriseRustDoc.defaultCase k r.1
    if r1.2 then r1.1 else ColouriseRustDoc.lineEnd k r1.1

/-- The loop `while (sc.More())` of `ColouriseRustDoc`, at most `fuel`
rounds; `none` when the rounds do not suffice. -/
def ColouriseRustDoc.loop (k : RustLexerH) (h : WordListH) (keywordLists : Nat → WordList) :
    Nat → RustScan → Option RustScan
  | 0, s => if s.sc.More then none else some s
  | fuel + 1, s =>
    if s.sc.More then
      ColouriseRustDoc.loop k h keywordLists fuel (ColouriseRustDoc.step k h keywordLists s)
    else some s

/-- The variables of `ColouriseRustDoc` before its loop (lines 153-185): the
initial values, the fields read from the line state of the previous line, or
the shebang line at the start of the document. -/
def ColouriseRustDoc.start (k : RustLexerH) (doc : Document) (styler : StyleStore)
    (lineStates : Nat → Nat) (startPos lengthDoc : Nat) (initStyle : Int) : RustScan :=
  let sc := StyleContext.init doc styler lineStates startPos lengthDoc initStyle
  let s : RustScan :=
    { sc := sc
      lineStateAttribute := 0
      lineStateLineType := 0
      squareBracket := 0
      commentLevel := 0
      hashCount := 0
      kwType := k.SCE_RUST .DEFAULT
      chBeforeIdentifier := 0
      visibleChars := 0
      visibleCharsBefore := 0
      charStartPos := 0
      escSeq := { outerState := k.SCE_RUST .DEFAULT, digitsLeft := 0, brace := false } }
  if sc.currentLine > 0 then
    let f := unpackRustLineState (lineStates (sc.currentLine - 1))
    { s with
      squareBracket := (f.1 : Int)
      commentLevel := (f.2.1 : Int)
      hashCount := (f.2.2.1 : Int)
      lineStateAttribute := f.2.2.2 }
  else if startPos = 0 ∧ sc.Match 35 33 then
    { s with
      sc := (sc.SetState (k.SCE_RUST .COMMENTLINE)).Forward
      lineStateLineType := RustLineStateMaskLineComment }
  else s

/-- The function
`ColouriseRustDoc(startPos, lengthDoc, initStyle, keywordLists, styler)` on
the document `doc` with the style runs `styler` and line states `lineStates`
recorded before the call: the cursor after `sc.Complete()`, which holds the
style runs and line states after the call; `none` when `fuel` rounds of the
loop do not suffice. -/
def ColouriseRustDoc (k : RustLexerH) (h : WordListH) (keywordLists : Nat → WordList)
    (doc : Document) (styler : StyleStore) (lineStates : Nat → Nat)
    (startPos lengthDoc : Nat) (initStyle : Int) (fuel : Nat) : Option StyleContext :=
  match ColouriseRustDoc.loop k h keywordLists fuel
      (ColouriseRustDoc.start k doc styler lineStates startPos lengthDoc initStyle) with
  | none => none
  | some s => some s.sc.Complete

/-- The character classes and style numbers used for concrete evaluations:
the style numbers in the order of the list of names, the ASCII character
classes, and a `HighlightTaskMarker` that finds no marker. -/
def rustLexer : RustLexerH :=
  { SCE_RUST := fun s => (s.toCtorIdx : Int)
    IsHexDigit := fun ch =>
      decide ((48 ≤ ch ∧ ch ≤ 57) ∨ (65 ≤ ch ∧ ch ≤ 70) ∨ (97 ≤ ch ∧ ch ≤ 102))
    IsIdentifierCharEx := fun ch =>
      decide ((48 ≤ ch ∧ ch ≤ 57) ∨ (65 ≤ ch ∧ ch ≤ 90) ∨ (97 ≤ ch ∧ ch ≤ 122) ∨ ch = 95 ∨
        128 ≤ ch)
    IsIdentifierStartEx := fun ch =>
      decide ((65 ≤ ch ∧ ch ≤ 90) ∨ (97 ≤ ch ∧ ch ≤ 122) ∨ ch = 95 ∨ 128 ≤ ch)
    IsIdentifierStart := fun ch =>
      decide ((65 ≤ ch ∧ ch ≤ 90) ∨ (97 ≤ ch ∧ ch ≤ 122) ∨ ch = 95)
    IsDecimalNumber := fun chPrev ch chNext =>
      decide (((48 ≤ ch ∧ ch ≤ 57) ∨ (65 ≤ ch ∧ ch ≤ 90) ∨ (97 ≤ ch ∧ ch ≤ 122) ∨ ch = 95) ∨
        (ch = 46 ∧ chNext ≠ 46) ∨ ((ch = 43 ∨ ch = 45) ∧ (chPrev = 101 ∨ chPrev = 69)))
    isoperator := fun ch => (bytes "%^&*()-+=|{}[]:;<>,/?!.~").contains ch
    isspacechar := fun ch => decide (ch = 32 ∨ (9 ≤ ch ∧ ch ≤ 13))
    HighlightTaskMarker := fun sc visibleChars _ _ => (sc, visibleChars, false) }

/-- The styles of the bytes of a document after a scan, byte by byte. -/
def StyleContext.styles (sc : StyleContext) : List (Option Int) :=
  (List.range sc.lengthDocument).map sc.styler.styleAt

/-- The line states of the lines of a document after a scan, line by line. -/
def StyleContext.lineStateList (sc : StyleContext) : List Nat :=
  (List.range sc.doc.length).map sc.lineStates

/-- The cursor reads the document at its position: `ch` and `chNext` are the
bytes at `currentPos` and after it, and the open style run starts at or before
`currentPos`. -/
def StyleContext.Coherent (sc : StyleContext) : Prop :=
  sc.ch = sc.doc.SafeGetCharAt sc.currentPos ∧
  sc.chNext = sc.doc.SafeGetCharAt (sc.currentPos + 1) ∧
  sc.lengthDocument = sc.doc.Length ∧ sc.styler.startSeg ≤ sc.currentPos

instance (sc : StyleContext) : Decidable sc.Coherent := by
  unfold StyleContext.Coherent
  infer_instance

/-- Spec-side: the bytes that open a raw string with `n` hashes: `r` or `br`,
`n` bytes `#` and a quote. -/
def rawOpener (byteString : Bool) (n : Nat) : List Nat :=
  (if byteString then [98, 114] else [114]) ++ List.replicate n 35 ++ [34]

/-- Spec-side: the text starts with a quote "followed by exactly `n` bytes
`#`" (for `n = 0`, with a quote). -/
def closesRaw (n : Nat) (t : List Nat) : Bool :=
  t.head? == some 34 && (n == 0 || countHash t.tail == n)

/-- Two scans in a row by `ColouriseRustDoc`: `[0, split)` from a blank
style store, then `[split, N)` with `initStyle` the style of the byte before
`split` and with the line states the first scan stored; the cursor after the
second scan. -/
def ColouriseRustDoc.inTwoScans (k : RustLexerH) (h : WordListH) (keywordLists : Nat → WordList)
    (doc : Document) (split fuel : Nat) : Option StyleContext :=
  (ColouriseRustDoc k h keywordLists doc StyleStore.blank (fun _ => 0) 0 split
    (k.SCE_RUST .DEFAULT) fuel).bind fun sc1 =>
      ColouriseRustDoc k h keywordLists doc sc1.styler sc1.lineStates split
        (doc.Length - split) ((sc1.styler.styleAt (split - 1)).getD (k.SCE_RUST .DEFAULT)) fuel

/-- Word lists on which `Set` was never called, for concrete evaluations. -/
def noKeywords : Nat → WordList := fun _ => WordList.empty asciiH

/-! ## `LexJavaScript.cxx` -/

/-- Modelled from the spec: the names of the style numbers `SCE_JS_*` and
`SCE_JSX_*` of `SciLexer.h` that `LexJavaScript.cxx` uses. -/
inductive JsStyle
  | DEFAULT | COMMENTLINE | COMMENTLINEDOC | COMMENTBLOCK | COMMENTBLOCKDOC | COMMENTTAGAT
  | COMMENTTAGXML | TASKMARKER
  | OPERATOR | OPERATOR2 | OPERATOR_PF | NUMBER | IDENTIFIER | WORD | WORD2 | DIRECTIVE
  | CLASS | INTERFACE | ENUM | CONSTANT | FUNCTION | FUNCTION_DEFINITION | LABEL | KEY
  | DECORATOR | REGEX | ESCAPECHAR | STRING_SQ | STRING_DQ | JSX_STRING_SQ | JSX_STRING_DQ
  | JSX_TAG | JSX_ATTRIBUTE | JSX_ATTRIBUTE_AT | JSX_OTHER | JSX_TEXT | STRING_BT
deriving DecidableEq, Repr, Fintype

/-- The values of `enum class DocTagState`. -/
inductive DocTagState
  | None | At | InlineAt | XmlOpen | XmlClose
deriving DecidableEq, Repr

/-- The local variables of `ColouriseJsDoc` and its cursor. -/
structure JsScan where
  sc : StyleContext
  lineStateLineType : Nat
  lineContinuation : Nat
  insideRegexRange : Bool
  kwType : Int
  chBeforeIdentifier : Nat
  nestedState : List Int
  jsxTagLevel : Int
  jsxTagLevels : List Int
  visibleChars : Int
  visibleCharsBefore : Int
  chBefore : Nat
  chPrevNonWhite : Nat
  stylePrevNonWhite : Int
  docTagState : DocTagState
  escSeq : EscapeSequence

/-- Modelled from the spec: what `LexJavaScript.cxx` takes from the headers
that are not among the sources, as parameters: the style numbers
(`SciLexer.h`), the character classes (`CharacterSet.h`), and the helpers of
`LexerUtils.h`, `StyleContext.h` and `DocUtils.h`: `HighlightTaskMarker` (as for
Rust), `PackLineState` and `UnpackLineState` for the stack of nested states,
`LookbackNonWhite(styler, startPos, maxSpaceStyle, chPrevNonWhite,
stylePrevNonWhite)`, which gets the document, the style runs, `startPos`, the
style and the two values and returns the two values, and
`BacktrackToStart(styler, stateMask, startPos, lengthDoc, initStyle)`, which
gets the document, the style runs, the line states and its arguments and
returns the new `startPos`, `lengthDoc` and `initStyle`. -/
structure JsLexerH where
  SCE_JS : JsStyle → Int
  IsHexDigit : Nat → Bool
  IsJsIdentifierStart : Nat → Bool
  IsJsIdentifierChar : Nat → Bool
  IsIdentifierChar : Nat → Bool
  IsLowerCase : Nat → Bool
  IsAGraphic : Nat → Bool
  isspacechar : Nat → Bool
  IsNumberStartEx : Nat → Nat → Nat → Bool
  IsDecimalNumberEx : Nat → Nat → Nat → Bool
  IsCommentTagPrev : Nat → Bool
  IsJumpLabelPrevASI : Nat → Bool
  HighlightTaskMarker : StyleContext → Int → Int → Int → StyleContext × Int × Bool
  PackLineState : List Int → Nat
  UnpackLineState : Nat → List Int
  LookbackNonWhite : Document → StyleStore → Nat → Int → Nat × Int → Nat × Int
  BacktrackToStart :
    Document → StyleStore → (Nat → Nat) → Nat → Nat → Nat → Int → Nat × Nat × Int

/-- The style numbers are different from each other, as the labels of the
`switch` require. -/
def JsLexerH.Distinct (k : JsLexerH) : Prop :=
  ∀ a b : JsStyle, k.SCE_JS a = k.SCE_JS b → a = b

instance (k : JsLexerH) : Decidable k.Distinct := by
  unfold JsLexerH.Distinct
  infer_instance

/-- The masks `JsLineStateMaskLineComment`, `JsLineStateMaskImport`,
`JsLineStateInsideJsxExpression` and `JsLineStateLineContinuation`. -/
def JsLineStateMaskLineComment : Nat := 1

def JsLineStateMaskImport : Nat := 1 <<< 1

def JsLineStateInsideJsxExpression : Nat := 1 <<< 3

def JsLineStateLineContinuation : Nat := 1 <<< 4

/-- The method `EscapeSequence::resetEscapeState(state, chNext)` of
`LexJavaScript.cxx`; `brace` is left as it is. -/
def EscapeSequence.resetEscapeStateJs (e : EscapeSequence) (state : Int) (chNext : Nat) :
    EscapeSequence :=
  { e with
    outerState := state
    digitsLeft := if chNext = 120 then 3 else if chNext = 117 then 5 else 1 }

/-- The method `EscapeSequence::atEscapeEnd(ch)` of `LexJavaScript.cxx`: the
sequence after the decrement, and the result. -/
def EscapeSequence.atEscapeEndJs (k : JsLexerH) (e : EscapeSequence) (ch : Nat) :
    EscapeSequence × Bool :=
  ({ e with digitsLeft := e.digitsLeft - 1 },
    decide (e.digitsLeft - 1 ≤ 0) || !k.IsHexDigit ch)

/-- The function `IsSpaceEquiv(state)` of `LexJavaScript.cxx`. -/
def JsLexerH.IsSpaceEquiv (k : JsLexerH) (state : Int) : Bool :=
  decide (state ≤ k.SCE_JS .TASKMARKER)

/-- The function `GetStringQuote(state)`. -/
def JsLexerH.GetStringQuote (k : JsLexerH) (state : Int) : Nat :=
  if state = k.SCE_JS .STRING_BT then 96
  else if k.SCE_JS .STRING_SQ % 2 = 1 then (if state % 2 = 1 then 39 else 34)
  else (if state % 2 = 1 then 34 else 39)

/-- The function `FollowExpression(chPrevNonWhite, stylePrevNonWhite)`. -/
def JsLexerH.FollowExpression (k : JsLexerH) (chPrevNonWhite : Nat) (stylePrevNonWhite : Int) :
    Bool :=
  chPrevNonWhite == 41 || chPrevNonWhite == 93 ||
    decide (stylePrevNonWhite = k.SCE_JS .OPERATOR_PF) || k.IsJsIdentifierChar chPrevNonWhite

/-- The function `IsRegexStart(chPrevNonWhite, stylePrevNonWhite)`. -/
def JsLexerH.IsRegexStart (k : JsLexerH) (chPrevNonWhite : Nat) (stylePrevNonWhite : Int) :
    Bool :=
  decide (stylePrevNonWhite = k.SCE_JS .WORD) ||
    !k.FollowExpression chPrevNonWhite stylePrevNonWhite

/-- Modelled from the spec: `sc.MatchNext(ch0, ch1)` of `StyleContext.h`: the
next byte and the one after it. -/
def StyleContext.MatchNext (sc : StyleContext) (ch0 ch1 : Nat) : Bool :=
  sc.chNext == ch0 && sc.GetRelative 2 == ch1

/-- The function `IsJsIdentifierStartNext(sc)`. -/
def JsLexerH.IsJsIdentifierStartNext (k : JsLexerH) (sc : StyleContext) : Bool :=
  k.IsJsIdentifierStart sc.chNext || sc.MatchNext 92 117

/-- The function `IsJsxTagStart(sc, chPrevNonWhite, stylePrevNonWhite)`. -/
def JsLexerH.IsJsxTagStart (k : JsLexerH) (sc : StyleContext) (chPrevNonWhite : Nat)
    (stylePrevNonWhite : Int) : Bool :=
  (decide (stylePrevNonWhite = k.SCE_JS .JSX_TAG) ||
      k.IsRegexStart chPrevNonWhite stylePrevNonWhite) &&
    (k.IsJsIdentifierStartNext sc || sc.chNext == 62 || sc.chNext == 123)

/-- Modelled from the spec: `sc.GetLineNextChar(ignoreCurrent)`, "peek next
non-blank character on this line": the first byte of the rest of the line,
from the cursor on (after it when `ignoreCurrent`), that is not white space; 0
when there is none. -/
def StyleContext.GetLineNextChar (isspacechar : Nat → Bool) (sc : StyleContext)
    (ignoreCurrent : Bool) : Nat :=
  let start := if ignoreCurrent then sc.currentPos + 1 else sc.currentPos
  (((sc.doc.flatten.drop start).take (sc.lineStartNext - start)).dropWhile isspacechar).headD 0

/-- Modelled from the spec: `sc.GetDocNextChar(ignoreCurrent)`, "peek next
non-blank character in the document", from the cursor on (after it when
`ignoreCurrent`). -/
def StyleContext.GetDocNextChar (isspacechar : Nat → Bool) (sc : StyleContext)
    (ignoreCurrent : Bool) : Nat :=
  sc.doc.LexGetNextChar isspacechar (if ignoreCurrent then sc.currentPos + 1 else sc.currentPos)

/-- The loop `while (IsLowerCase(sc.ch)) sc.Forward()` of the regex flags, at
most `fuel` rounds. -/
def StyleContext.forwardWhile (p : Nat → Bool) : Nat → StyleContext → StyleContext
  | 0, sc => sc
  | fuel + 1, sc => if p sc.ch then StyleContext.forwardWhile p fuel sc.Forward else sc

/-- The indices `KeywordIndex_*` of the word lists of `LexJavaScript.cxx`. -/
def JsKeywordIndex_Keyword : Nat := 0

def JsKeywordIndex_FutureReservedWord : Nat := 1

def JsKeywordIndex_Directive : Nat := 2

def JsKeywordIndex_Class : Nat := 3

def JsKeywordIndex_Interface : Nat := 4

def JsKeywordIndex_Enumeration : Nat := 5

def JsKeywordIndex_Constant : Nat := 6

/-- The classification of a finished identifier: the block of lines 209-266
of `ColouriseJsDoc`. -/
def ColouriseJsDoc.classify (k : JsLexerH) (h : WordListH) (keywordLists : Nat → WordList)
    (s : JsScan) : JsScan :=
  let word := s.sc.GetCurrent 128
  let s1 : JsScan :=
    if inKeywordList h keywordLists JsKeywordIndex_Directive word then
      { s with
        sc := s.sc.ChangeState (k.SCE_JS .DIRECTIVE)
        lineStateLineType :=
          if word = bytes "import" ∨ word = bytes "require" then JsLineStateMaskImport
          else s.lineStateLineType }
    else if inKeywordList h keywordLists JsKeywordIndex_Keyword word then
      let kwType1 :=
        if word = bytes "class" ∨ word = bytes "extends" ∨ word = bytes "new" ∨
            word = bytes "type" ∨ word = bytes "as" ∨ word = bytes "is" then k.SCE_JS .CLASS
        else if word = bytes "function" then k.SCE_JS .FUNCTION_DEFINITION
        else if word = bytes "interface" ∨ word = bytes "implements" then k.SCE_JS .INTERFACE
        else if word = bytes "enum" then k.SCE_JS .ENUM
        else if word = bytes "break" ∨ word = bytes "continue" then k.SCE_JS .LABEL
        else s.kwType
      let chNext := s.sc.GetLineNextChar k.isspacechar false
      let kwType2 :=
        if kwType1 ≠ k.SCE_JS .DEFAULT ∧ ¬ (k.IsJsIdentifierStart chNext ∨ chNext = 92) then
          k.SCE_JS .DEFAULT
        else kwType1
      { s with sc := s.sc.ChangeState (k.SCE_JS .WORD), kwType := kwType2 }
    else if inKeywordList h keywordLists JsKeywordIndex_FutureReservedWord word then
      { s with sc := s.sc.ChangeState (k.SCE_JS .WORD2) }
    else if inKeywordList h keywordLists JsKeywordIndex_Class word then
      { s with sc := s.sc.ChangeState (k.SCE_JS .CLASS) }
    else if inKeywordList h keywordLists JsKeywordIndex_Interface word then
      { s with sc := s.sc.ChangeState (k.SCE_JS .INTERFACE) }
    else if inKeywordList h keywordLists JsKeywordIndex_Enumeration word then
      { s with sc := s.sc.ChangeState (k.SCE_JS .ENUM) }
    else if inKeywordList h keywordLists JsKeywordIndex_Constant word then
      { s with sc := s.sc.ChangeState (k.SCE_JS .CONSTANT) }
    else if s.sc.ch = 58 then
      if s.chBefore = 44 ∨ s.chBefore = 123 then
        { s with sc := s.sc.ChangeState (k.SCE_JS .KEY) }
      else if k.IsJumpLabelPrevASI s.chBefore then
        { s with sc := s.sc.ChangeState (k.SCE_JS .LABEL) }
      else s
    else if s.sc.ch ≠ 46 then
      if s.kwType ≠ k.SCE_JS .DEFAULT then { s with sc := s.sc.ChangeState s.kwType }
      else
        let chNext := s.sc.GetDocNextChar k.isspacechar (s.sc.ch == 63)
        if chNext = 40 then { s with sc := s.sc.ChangeState (k.SCE_JS .FUNCTION) }
        else if s.sc.Match 91 93 ∨
            (s.chBeforeIdentifier = 60 ∧ (chNext = 62 ∨ chNext = 60)) then
          { s with sc := s.sc.ChangeState (k.SCE_JS .CLASS) }
        else s
    else s
  { s1 with
    stylePrevNonWhite := s1.sc.state
    kwType :=
      if s1.sc.state ≠ k.SCE_JS .WORD ∧ s1.sc.ch ≠ 46 then k.SCE_JS .DEFAULT else s1.kwType }

/-- The `switch (docTagState)` in a comment (lines 365-385 of
`ColouriseJsDoc`). -/
def ColouriseJsDoc.docTagEnd (k : JsLexerH) (s : JsScan) : JsScan :=
  match s.docTagState with
  | .At => { s with docTagState := .None }
  | .InlineAt =>
    if s.sc.ch = 125 then
      { s with
        docTagState := .None
        sc := (s.sc.SetState (k.SCE_JS .COMMENTTAGAT)).ForwardSetState
          (k.SCE_JS .COMMENTBLOCKDOC) }
    else s
  | .None => s
  | _ =>
    if s.sc.Match 47 62 ∨ s.sc.ch = 62 then
      { s with
        docTagState := .None
        sc := (((s.sc.SetState (k.SCE_JS .COMMENTTAGXML)).Advance
          (if s.sc.ch = 47 then 2 else 1)).SetState (k.SCE_JS .COMMENTLINEDOC)) }
    else s

/-- The start of a tag or task marker in a comment, when
`docTagState == DocTagState::None` (lines 386-411 of `ColouriseJsDoc`): the
variables after it, and whether it ended with `continue`. -/
def ColouriseJsDoc.docTagStart (k : JsLexerH) (s : JsScan) : JsScan × Bool :=
  let sc := s.sc
  if sc.ch = 64 ∧ k.IsLowerCase sc.chNext ∧ k.IsCommentTagPrev sc.chPrev then
    ({ s with
      docTagState := .At
      escSeq := { s.escSeq with outerState := sc.state }
      sc := sc.SetState (k.SCE_JS .COMMENTTAGAT) }, false)
  else if sc.state = k.SCE_JS .COMMENTBLOCKDOC ∧ sc.Match 123 64 ∧
      k.IsLowerCase (sc.GetRelative 2) then
    ({ s with
      docTagState := .InlineAt
      escSeq := { s.escSeq with outerState := sc.state }
      sc := (sc.SetState (k.SCE_JS .COMMENTTAGAT)).Forward }, false)
  else if sc.state = k.SCE_JS .COMMENTLINEDOC ∧ sc.ch = 60 then
    if k.IsLowerCase sc.chNext then
      ({ s with
        docTagState := .XmlOpen
        escSeq := { s.escSeq with outerState := sc.state }
        sc := sc.SetState (k.SCE_JS .COMMENTTAGXML) }, false)
    else if sc.chNext = 47 ∧ k.IsLowerCase (sc.GetRelative 2) then
      ({ s with
        docTagState := .XmlClose
        escSeq := { s.escSeq with outerState := sc.state }
        sc := (sc.SetState (k.SCE_JS .COMMENTTAGXML)).Forward }, false)
    else (s, false)
  else
    let r := k.HighlightTaskMarker sc s.visibleChars s.visibleCharsBefore (k.SCE_JS .TASKMARKER)
    ({ s with sc := r.1, visibleChars := r.2.1 }, r.2.2)

/-- The `switch (sc.state)` of the loop of `ColouriseJsDoc` (lines 184-462):
the variables after it, and whether it ended with `continue`. -/
def ColouriseJsDoc.stateCase (k : JsLexerH) (h : WordListH) (keywordLists : Nat → WordList)
    (s : JsScan) : JsScan × Bool :=
  let sc := s.sc
  let st := sc.state
  if st = k.SCE_JS .OPERATOR ∨ st = k.SCE_JS .OPERATOR2 ∨ st = k.SCE_JS .OPERATOR_PF then
    ({ s with sc := sc.SetState (k.SCE_JS .DEFAULT) }, false)
  else if st = k.SCE_JS .NUMBER then
    if ¬ k.IsDecimalNumberEx sc.chPrev sc.ch sc.chNext then
      ({ s with sc := sc.SetState (k.SCE_JS .DEFAULT) }, false)
    else (s, false)
  else if st = k.SCE_JS .IDENTIFIER ∨ st = k.SCE_JS .JSX_TAG ∨ st = k.SCE_JS .JSX_ATTRIBUTE ∨
      st = k.SCE_JS .JSX_ATTRIBUTE_AT ∨ st = k.SCE_JS .DECORATOR then
    let sc1 :=
      if (sc.ch = 46 ∧ ¬ (st = k.SCE_JS .IDENTIFIER ∨ st = k.SCE_JS .JSX_ATTRIBUTE_AT)) ∨
          (sc.ch = 58 ∧ (st = k.SCE_JS .JSX_TAG ∨ st = k.SCE_JS .JSX_ATTRIBUTE)) then
        (sc.SetState (k.SCE_JS .OPERATOR2)).ForwardSetState st
      else sc
    if ¬ k.IsJsIdentifierChar sc1.ch ∧ ¬ sc1.Match 92 117 ∧
        ¬ (sc1.ch = 45 ∧
          (sc1.state = k.SCE_JS .JSX_TAG ∨ sc1.state = k.SCE_JS .JSX_ATTRIBUTE)) then
      let s1 : JsScan :=
        if sc1.state = k.SCE_JS .IDENTIFIER then
          ColouriseJsDoc.classify k h keywordLists { s with sc := sc1 }
        else { s with sc := sc1 }
      ({ s1 with
        sc := s1.sc.SetState
          (if s1.sc.state = k.SCE_JS .JSX_TAG ∨ s1.sc.state = k.SCE_JS .JSX_ATTRIBUTE then
            k.SCE_JS .JSX_OTHER
          else k.SCE_JS .DEFAULT) }, true)
    else ({ s with sc := sc1 }, false)
  else if st = k.SCE_JS .STRING_SQ ∨ st = k.SCE_JS .STRING_DQ ∨ st = k.SCE_JS .JSX_STRING_SQ ∨
      st = k.SCE_JS .JSX_STRING_DQ ∨ st = k.SCE_JS .STRING_BT then
    let afterString : Int :=
      if st = k.SCE_JS .JSX_STRING_SQ ∨ st = k.SCE_JS .JSX_STRING_DQ then k.SCE_JS .JSX_OTHER
      else k.SCE_JS .DEFAULT
    if sc.atLineStart ∧ st ≠ k.SCE_JS .STRING_BT ∧ s.lineContinuation = 0 then
      ({ s with sc := sc.SetState afterString }, true)
    else
      let s0 : JsScan :=
        if sc.atLineStart ∧ st ≠ k.SCE_JS .STRING_BT then { s with lineContinuation := 0 }
        else s
      if sc.ch = 92 then
        if IsEOLChar sc.chNext then
          ({ s0 with lineContinuation := JsLineStateLineContinuation }, false)
        else
          let esc := s0.escSeq.resetEscapeStateJs st sc.chNext
          let sc1 := (sc.SetState (k.SCE_JS .ESCAPECHAR)).Forward
          if sc1.Match 117 123 then
            ({ s0 with
              sc := sc1.Forward
              escSeq := { esc with brace := true, digitsLeft := 9 } }, false)
          else ({ s0 with sc := sc1, escSeq := esc }, false)
      else if sc.ch = k.GetStringQuote st then
        let sc1 := sc.Forward
        let sc2 :=
          if (st = k.SCE_JS .STRING_SQ ∨ st = k.SCE_JS .STRING_DQ) ∧
              (s0.chBefore = 44 ∨ s0.chBefore = 123) ∧
              sc1.GetLineNextChar k.isspacechar false = 58 then
            sc1.ChangeState (k.SCE_JS .KEY)
          else sc1
        ({ s0 with
          sc := sc2.SetState
            (if sc2.state = k.SCE_JS .JSX_STRING_SQ ∨ sc2.state = k.SCE_JS .JSX_STRING_DQ then
              k.SCE_JS .JSX_OTHER
            else k.SCE_JS .DEFAULT) }, true)
      else if st = k.SCE_JS .STRING_BT ∧ sc.Match 36 123 then
        ({ s0 with
          nestedState := s0.nestedState ++ [st]
          sc := (sc.SetState (k.SCE_JS .OPERATOR2)).Forward }, false)
      else (s0, false)
  else if st = k.SCE_JS .ESCAPECHAR then
    let r := s.escSeq.atEscapeEndJs k sc.ch
    if r.2 then
      let sc1 := if r.1.brace ∧ sc.ch = 125 then sc.Forward else sc
      ({ s with escSeq := r.1, sc := sc1.SetState r.1.outerState }, true)
    else ({ s with escSeq := r.1 }, false)
  else if st = k.SCE_JS .REGEX then
    if sc.atLineStart then ({ s with sc := sc.SetState (k.SCE_JS .DEFAULT) }, false)
    else if sc.ch = 92 then ({ s with sc := sc.Forward }, false)
    else if sc.ch = 91 ∨ sc.ch = 93 then ({ s with insideRegexRange := sc.ch == 91 }, false)
    else if sc.ch = 47 ∧ ¬ s.insideRegexRange then
      ({ s with
        sc := (StyleContext.forwardWhile k.IsLowerCase (sc.endPos + 1 - sc.currentPos)
          sc.Forward).SetState (k.SCE_JS .DEFAULT) }, false)
    else (s, false)
  else if st = k.SCE_JS .COMMENTLINE ∨ st = k.SCE_JS .COMMENTLINEDOC ∨
      st = k.SCE_JS .COMMENTBLOCK ∨ st = k.SCE_JS .COMMENTBLOCKDOC then
    if st = k.SCE_JS .COMMENTLINE ∨ st = k.SCE_JS .COMMENTLINEDOC then
      if sc.atLineStart then ({ s with sc := sc.SetState (k.SCE_JS .DEFAULT) }, false)
      else
        let s1 := ColouriseJsDoc.docTagEnd k s
        if s1.docTagState = .None then ColouriseJsDoc.docTagStart k s1 else (s1, false)
    else if sc.Match 42 47 then
      ({ s with sc := sc.Forward.ForwardSetState (k.SCE_JS .DEFAULT) }, false)
    else
      let s1 := ColouriseJsDoc.docTagEnd k s
      if s1.docTagState = .None then ColouriseJsDoc.docTagStart k s1 else (s1, false)
  else if st = k.SCE_JS .COMMENTTAGAT ∨ st = k.SCE_JS .COMMENTTAGXML then
    if ¬ (k.IsIdentifierChar sc.ch ∨ sc.ch = 45) then
      ({ s with sc := sc.SetState s.escSeq.outerState }, true)
    else (s, false)
  else if st = k.SCE_JS .JSX_TEXT ∨ st = k.SCE_JS .JSX_OTHER then
    if sc.ch = 62 ∨ sc.Match 47 62 then
      let sc1 := sc.SetState (k.SCE_JS .JSX_TAG)
      let jsxTagLevel := if sc1.ch = 47 then s.jsxTagLevel - 1 else s.jsxTagLevel
      let sc2 := if sc1.ch = 47 then sc1.Forward else sc1
      ({ s with
        jsxTagLevel := jsxTagLevel
        chPrevNonWhite := 62
        stylePrevNonWhite := k.SCE_JS .JSX_TAG
        sc := sc2.ForwardSetState
          (if jsxTagLevel = 0 then k.SCE_JS .DEFAULT else k.SCE_JS .JSX_TEXT) }, true)
    else if sc.ch = 61 ∧ st = k.SCE_JS .JSX_OTHER then
      ({ s with
        sc := (sc.SetState (k.SCE_JS .OPERATOR2)).ForwardSetState (k.SCE_JS .JSX_OTHER) }, true)
    else if (sc.ch = 39 ∨ sc.ch = 34) ∧ st = k.SCE_JS .JSX_OTHER then
      ({ s with
        chBefore := 0
        sc := sc.SetState
          (if sc.ch = 39 then k.SCE_JS .JSX_STRING_SQ else k.SCE_JS .JSX_STRING_DQ) }, false)
    else if st = k.SCE_JS .JSX_OTHER ∧ (k.IsJsIdentifierStart sc.ch ∨ sc.Match 92 117) then
      ({ s with sc := sc.SetState (k.SCE_JS .JSX_ATTRIBUTE) }, false)
    else if sc.ch = 123 then
      ({ s with
        jsxTagLevels := s.jsxTagLevels ++ [s.jsxTagLevel]
        nestedState := s.nestedState ++ [st]
        sc := sc.SetState (k.SCE_JS .OPERATOR2)
        jsxTagLevel := 0 }, false)
    else if sc.Match 60 47 then
      ({ s with
        jsxTagLevel := s.jsxTagLevel - 1
        sc := (sc.SetState (k.SCE_JS .JSX_TAG)).Forward }, false)
    else if sc.ch = 60 then
      ({ s with
        jsxTagLevel := s.jsxTagLevel + 1
        sc := sc.SetState (k.SCE_JS .JSX_TAG) }, false)
    else (s, false)
  else (s, false)

/-- The block `if (sc.state == SCE_JS_DEFAULT)` of the loop of
`ColouriseJsDoc` (lines 464-544): the variables after it, and whether it ended
with `continue`. `TakeAndPop` and `TryTakeAndPop` of `LexerUtils.h` take the
last element of the vector. -/
def ColouriseJsDoc.defaultCase (k : JsLexerH) (enableJsx : Bool) (s : JsScan) : JsScan × Bool :=
  let sc := s.sc
  if sc.state ≠ k.SCE_JS .DEFAULT then (s, false)
  else if sc.ch = 47 then
    if sc.chNext = 47 ∨ sc.chNext = 42 then
      let chNext := sc.chNext
      let sc1 := (sc.SetState
        (if chNext = 47 then k.SCE_JS .COMMENTLINE else k.SCE_JS .COMMENTBLOCK)).Advance 2
      let sc2 :=
        if sc1.ch = 33 ∨ (sc1.ch = chNext ∧ sc1.chNext ≠ chNext) then
          sc1.ChangeState
            (if chNext = 47 then k.SCE_JS .COMMENTLINEDOC else k.SCE_JS .COMMENTBLOCKDOC)
        else sc1
      ({ s with
        docTagState := .None
        visibleCharsBefore := s.visibleChars
        sc := sc2
        lineStateLineType :=
          if chNext = 47 ∧ s.visibleChars = 0 then JsLineStateMaskLineComment
          else s.lineStateLineType }, true)
    else if ¬ IsEOLChar sc.chNext ∧ k.IsRegexStart s.chPrevNonWhite s.stylePrevNonWhite then
      ({ s with insideRegexRange := false, sc := sc.SetState (k.SCE_JS .REGEX) }, false)
    else ({ s with sc := sc.SetState (k.SCE_JS .OPERATOR) }, false)
  else if sc.ch = 39 ∨ sc.ch = 34 then
    ({ s with
      chBefore := s.chPrevNonWhite
      sc := sc.SetState (if sc.ch = 39 then k.SCE_JS .STRING_SQ else k.SCE_JS .STRING_DQ) },
      false)
  else if sc.ch = 96 then ({ s with sc := sc.SetState (k.SCE_JS .STRING_BT) }, false)
  else if k.IsNumberStartEx sc.chPrev sc.ch sc.chNext then
    ({ s with sc := sc.SetState (k.SCE_JS .NUMBER) }, false)
  else if sc.ch = 64 ∧ k.IsJsIdentifierStartNext sc then
    ({ s with
      sc := sc.SetState
        (if sc.chPrev = 46 then k.SCE_JS .JSX_ATTRIBUTE_AT else k.SCE_JS .DECORATOR) }, false)
  else if k.IsJsIdentifierStart sc.ch ∨ sc.Match 92 117 then
    ({ s with
      chBefore := s.chPrevNonWhite
      chBeforeIdentifier :=
        if s.chPrevNonWhite ≠ 46 then s.chPrevNonWhite else s.chBeforeIdentifier
      sc := sc.SetState (k.SCE_JS .IDENTIFIER) }, false)
  else if sc.ch = 43 ∨ sc.ch = 45 then
    if sc.ch = sc.chNext then
      ({ s with sc := (sc.SetState (k.SCE_JS .OPERATOR_PF)).Forward }, false)
    else ({ s with sc := sc.SetState (k.SCE_JS .OPERATOR) }, false)
  else if sc.ch = 60 ∧ enableJsx then
    if sc.chNext = 47 then
      ({ s with
        jsxTagLevel := s.jsxTagLevel - 1
        sc := (sc.SetState (k.SCE_JS .JSX_TAG)).Forward }, false)
    else if k.IsJsxTagStart sc s.chPrevNonWhite s.stylePrevNonWhite then
      ({ s with
        jsxTagLevel := s.jsxTagLevel + 1
        sc := sc.SetState (k.SCE_JS .JSX_TAG) }, false)
    else ({ s with sc := sc.SetState (k.SCE_JS .OPERATOR) }, false)
  else if k.IsAGraphic sc.ch ∧ sc.ch ≠ 92 then
    let sc1 := sc.SetState (k.SCE_JS .OPERATOR)
    if s.nestedState ≠ [] then
      if sc1.ch = 123 then
        ({ s with
          sc := sc1
          nestedState := s.nestedState ++ [k.SCE_JS .DEFAULT]
          jsxTagLevels := if enableJsx then s.jsxTagLevels ++ [s.jsxTagLevel] else s.jsxTagLevels
          jsxTagLevel := if enableJsx then 0 else s.jsxTagLevel }, false)
      else if sc1.ch = 125 then
        let outerState := s.nestedState.getLastD (k.SCE_JS .DEFAULT)
        let sc2 :=
          if outerState ≠ k.SCE_JS .DEFAULT then sc1.ChangeState (k.SCE_JS .OPERATOR2) else sc1
        ({ s with
          jsxTagLevel := if enableJsx then s.jsxTagLevels.getLastD 0 else s.jsxTagLevel
          jsxTagLevels := if enableJsx then s.jsxTagLevels.dropLast else s.jsxTagLevels
          nestedState := s.nestedState.dropLast
          sc := sc2.ForwardSetState outerState }, true)
      else ({ s with sc := sc1 }, false)
    else ({ s with sc := sc1 }, false)
  else (s, false)

/-- The shift `lineState >>= 8` of an `int` held as its 32-bit pattern: the
sign bit is copied into the upper bits. -/
def sarInt32By8 (lineState : Nat) : Nat :=
  if lineState < 2 ^ 31 then lineState >>> 8 else (lineState >>> 8) ||| 0xFF000000

/-- The end of the body of the loop of `ColouriseJsDoc` (lines 546-567): the
last visible character, the line state at a line end (an `int`, held as its
32-bit pattern), and `sc.Forward()`. -/
def ColouriseJsDoc.lineEnd (k : JsLexerH) (enableJsx : Bool) (s : JsScan) : JsScan :=
  let s1 : JsScan :=
    if ¬ k.isspacechar s.sc.ch then
      if ¬ k.IsSpaceEquiv s.sc.state then
        { s with
          visibleChars := s.visibleChars + 1
          chPrevNonWhite := s.sc.ch
          stylePrevNonWhite := s.sc.state }
      else { s with visibleChars := s.visibleChars + 1 }
    else s
  let s2 : JsScan :=
    if s1.sc.atLineEnd then
      let lineState0 := s1.lineContinuation ||| s1.lineStateLineType
      let lineState1 :=
        if enableJsx ∧ ¬ (s1.jsxTagLevel = 0 ∧ s1.jsxTagLevels = []) then
          lineState0 ||| JsLineStateInsideJsxExpression
        else lineState0
      let lineState2 :=
        if s1.nestedState ≠ [] then
          lineState1 ||| ((k.PackLineState s1.nestedState <<< 8) % 2 ^ 32)
        else lineState1
      { s1 with
        sc := s1.sc.SetLineState s1.sc.currentLine lineState2
        lineStateLineType := 0
        visibleChars := 0
        visibleCharsBefore := 0
        kwType := k.SCE_JS .DEFAULT
        docTagState := .None }
    else s1
  { s2 with sc := s2.sc.Forward }

/-- One round of the loop `while (sc.More())` of `ColouriseJsDoc`. -/
def ColouriseJsDoc.step (k : JsLexerH) (h : WordListH) (keywordLists : Nat → WordList)
    (enableJsx : Bool) (s : JsScan) : JsScan :=
  let r := ColouriseJsDoc.stateCase k h keywordLists s
  if r.2 then r.1
  else
    let r1 := ColouriseJsDoc.defaultCase k enableJsx r.1
    if r1.2 then r1.1 else ColouriseJsDoc.lineEnd k enableJsx r1.1

/-- The loop `while (sc.More())` of `ColouriseJsDoc`, at most `fuel` rounds;
`none` when the rounds do not suffice. -/
def ColouriseJsDoc.loop (k : JsLexerH) (h : WordListH) (keywordLists : Nat → WordList)
    (enableJsx : Bool) : Nat → JsScan → Option JsScan
  | 0, s => if s.sc.More then none else some s
  | fuel + 1, s =>
    if s.sc.More then
      ColouriseJsDoc.loop k h keywordLists enableJsx fuel
        (ColouriseJsDoc.step k h keywordLists enableJsx s)
    else some s

/-- The variables of `ColouriseJsDoc` before its loop (lines 128-181): the
initial values, the range after `BacktrackToStart` when JSX is enabled, the
fields read from the line state of the previous line, the shebang line at the
start of the document, or the look back for the last visible character. -/
def ColouriseJsDoc.start (k : JsLexerH) (enableJsx : Bool) (doc : Document)
    (styler : StyleStore) (lineStates : Nat → Nat) (startPos lengthDoc : Nat)
    (initStyle : Int) : JsScan :=
  let b :=
    if enableJsx ∧ startPos ≠ 0 then
      k.BacktrackToStart doc styler lineStates JsLineStateInsideJsxExpression startPos lengthDoc
        initStyle
    else (startPos, lengthDoc, initStyle)
  let sc := StyleContext.init doc styler lineStates b.1 b.2.1 b.2.2
  let lineState := if sc.currentLine > 0 then lineStates (sc.currentLine - 1) else 0
  let s : JsScan :=
    { sc := sc
      lineStateLineType := 0
      lineContinuation := lineState &&& JsLineStateLineContinuation
      insideRegexRange := false
      kwType := k.SCE_JS .DEFAULT
      chBeforeIdentifier := 0
      nestedState :=
        if sarInt32By8 lineState ≠ 0 then k.UnpackLineState (sarInt32By8 lineState) else []
      jsxTagLevel := 0
      jsxTagLevels := []
      visibleChars := 0
      visibleCharsBefore := 0
      chBefore := 0
      chPrevNonWhite := 0
      stylePrevNonWhite := k.SCE_JS .DEFAULT
      docTagState := .None
      escSeq := { outerState := k.SCE_JS .DEFAULT, digitsLeft := 0, brace := false } }
  if b.1 = 0 then
    if sc.Match 35 33 then
      { s with
        sc := (sc.SetState (k.SCE_JS .COMMENTLINE)).Forward
        lineStateLineType := JsLineStateMaskLineComment }
    else s
  else if k.IsSpaceEquiv b.2.2 then
    let r := k.LookbackNonWhite doc styler b.1 (k.SCE_JS .TASKMARKER)
      (s.chPrevNonWhite, s.stylePrevNonWhite)
    { s with chPrevNonWhite := r.1, stylePrevNonWhite := r.2 }
  else s

/-- The function
`ColouriseJsDoc(startPos, lengthDoc, initStyle, keywordLists, styler)` on the
document `doc` with the style runs `styler` and line states `lineStates`
recorded before the call, with the property `lexer.lang` read as `enableJsx`:
the cursor after `sc.Complete()`, which holds the style runs and line states
after the call; `none` when `fuel` rounds of the loop do not suffice. -/
def ColouriseJsDoc (k : JsLexerH) (h : WordListH) (keywordLists : Nat → WordList)
    (enableJsx : Bool) (doc : Document) (styler : StyleStore) (lineStates : Nat → Nat)
    (startPos lengthDoc : Nat) (initStyle : Int) (fuel : Nat) : Option StyleContext :=
  match ColouriseJsDoc.loop k h keywordLists enableJsx fuel
      (ColouriseJsDoc.start k enableJsx doc styler lineStates startPos lengthDoc initStyle) with
  | none => none
  | some s => some s.sc.Complete

/-- The style numbers, character classes and helpers used for concrete
evaluations: the style numbers in the order of the list of names (the styles
up to the task marker first, the quoted strings with the parity
`GetStringQuote` reads), the ASCII character classes, a `HighlightTaskMarker`
that finds no marker, a `LookbackNonWhite` that returns the last byte before
`startPos` with a style above `maxSpaceStyle`, and its style; the stack of
nested states is not stored in the line state and `BacktrackToStart` keeps the
range (the evaluations below have JSX disabled and no template literal open at
a line end). -/
def jsLexer : JsLexerH :=
  { SCE_JS := fun s => (s.toCtorIdx : Int)
    IsHexDigit := fun ch =>
      decide ((48 ≤ ch ∧ ch ≤ 57) ∨ (65 ≤ ch ∧ ch ≤ 70) ∨ (97 ≤ ch ∧ ch ≤ 102))
    IsJsIdentifierStart := fun ch =>
      decide ((65 ≤ ch ∧ ch ≤ 90) ∨ (97 ≤ ch ∧ ch ≤ 122) ∨ ch = 95 ∨ ch = 36 ∨ 128 ≤ ch)
    IsJsIdentifierChar := fun ch =>
      decide ((48 ≤ ch ∧ ch ≤ 57) ∨ (65 ≤ ch ∧ ch ≤ 90) ∨ (97 ≤ ch ∧ ch ≤ 122) ∨ ch = 95 ∨
        ch = 36 ∨ 128 ≤ ch)
    IsIdentifierChar := fun ch =>
      decide ((48 ≤ ch ∧ ch ≤ 57) ∨ (65 ≤ ch ∧ ch ≤ 90) ∨ (97 ≤ ch ∧ ch ≤ 122) ∨ ch = 95)
    IsLowerCase := fun ch => decide (97 ≤ ch ∧ ch ≤ 122)
    IsAGraphic := fun ch => decide (33 ≤ ch ∧ ch ≤ 126)
    isspacechar := fun ch => decide (ch = 32 ∨ (9 ≤ ch ∧ ch ≤ 13))
    IsNumberStartEx := fun chPrev ch chNext =>
      decide ((48 ≤ ch ∧ ch ≤ 57) ∨ (ch = 46 ∧ chPrev ≠ 46 ∧ 48 ≤ chNext ∧ chNext ≤ 57))
    IsDecimalNumberEx := fun chPrev ch chNext =>
      decide (((48 ≤ ch ∧ ch ≤ 57) ∨ (65 ≤ ch ∧ ch ≤ 90) ∨ (97 ≤ ch ∧ ch ≤ 122) ∨ ch = 95) ∨
        (ch = 46 ∧ chNext ≠ 46) ∨ ((ch = 43 ∨ ch = 45) ∧ (chPrev = 101 ∨ chPrev = 69)))
    IsCommentTagPrev := fun chPrev => decide (chPrev ≤ 32 ∨ chPrev = 47 ∨ chPrev = 42 ∨ chPrev = 33)
    IsJumpLabelPrevASI := fun chPrev =>
      decide (chPrev = 59 ∨ chPrev = 123 ∨ chPrev = 125 ∨ chPrev = 41 ∨ chPrev = 0)
    HighlightTaskMarker := fun sc visibleChars _ _ => (sc, visibleChars, false)
    PackLineState := fun _ => 0
    UnpackLineState := fun _ => []
    LookbackNonWhite := fun doc styler startPos maxSpaceStyle prev =>
      match ((List.range startPos).reverse.find?
          fun pos => decide (maxSpaceStyle < (styler.styleAt pos).getD 0)) with
      | some pos => (doc.SafeGetCharAt pos, (styler.styleAt pos).getD 0)
      | none => prev
    BacktrackToStart := fun _ _ _ _ startPos lengthDoc initStyle =>
      (startPos, lengthDoc, initStyle) }

/-- Two scans in a row by `ColouriseJsDoc`: `[0, split)` from a blank style
store, then `[split, N)` with `initStyle` the style of the byte before `split`
and with the line states the first scan stored; the cursor after the second
scan. -/
def ColouriseJsDoc.inTwoScans (k : JsLexerH) (h : WordListH) (keywordLists : Nat → WordList)
    (enableJsx : Bool) (doc : Document) (split fuel : Nat) : Option StyleContext :=
  (ColouriseJsDoc k h keywordLists enableJsx doc StyleStore.blank (fun _ => 0) 0 split
    (k.SCE_JS .DEFAULT) fuel).bind fun sc1 =>
      ColouriseJsDoc k h keywordLists enableJsx doc sc1.styler sc1.lineStates split
        (doc.Length - split) ((sc1.styler.styleAt (split - 1)).getD (k.SCE_JS .DEFAULT)) fuel

/-! ## `LexAsymptote.cxx` -/

/-- Modelled from the spec: the names of the style numbers `SCE_ASY_*` of
`SciLexer.h` that `LexAsymptote.cxx` uses. -/
inductive AsyStyle
  | DEFAULT | COMMENTLINE | COMMENTBLOCK | TASKMARKER | OPERATOR | NUMBER | IDENTIFIER | WORD
  | TYPE | STRUCT | CONSTANT | FUNCTION | FUNCTION_DEFINITION | STRING_DQ | STRING_SQ
  | ESCAPECHAR
deriving DecidableEq, Repr, Fintype

/-- The variables of `EscapeSequence` of `LexAsymptote.cxx`. -/
structure AsyEscapeSequence where
  outerState : Int
  digitsLeft : Int
  hex : Bool
deriving DecidableEq, Repr

/-- The local variables of `ColouriseAsyDoc` and its cursor. -/
structure AsyScan where
  sc : StyleContext
  lineStateLineType : Nat
  kwType : Int
  visibleChars : Int
  chBefore : Nat
  chPrevNonWhite : Nat
  escSeq : AsyEscapeSequence

/-- Modelled from the spec: what `LexAsymptote.cxx` takes from the headers
that are not among the sources, as parameters: the style numbers `SCE_ASY_*`
(`SciLexer.h`) and the character classes (`CharacterSet.h`). -/
structure AsyLexerH where
  SCE_ASY : AsyStyle → Int
  IsNumberStart : Nat → Nat → Bool
  IsIdentifierChar : Nat → Bool
  IsIdentifierStart : Nat → Bool
  IsAGraphic : Nat → Bool
  isspacechar : Nat → Bool
  IsOctalDigit : Nat → Bool
  IsOctalOrHex : Nat → Bool → Bool
  UnsafeLower : Nat → Nat

/-- The style numbers are different from each other, as the labels of the
`switch` require. -/
def AsyLexerH.Distinct (k : AsyLexerH) : Prop :=
  ∀ a b : AsyStyle, k.SCE_ASY a = k.SCE_ASY b → a = b

instance (k : AsyLexerH) : Decidable k.Distinct := by
  unfold AsyLexerH.Distinct
  infer_instance

/-- The masks `AsymptoteLineStateMaskLineComment` and
`AsymptoteLineStateMaskImport`. -/
def AsymptoteLineStateMaskLineComment : Nat := 1

def AsymptoteLineStateMaskImport : Nat := 1 <<< 1

/-- The indices `KeywordIndex_*` of the word lists of `LexAsymptote.cxx`. -/
def AsyKeywordIndex_Keyword : Nat := 0

def AsyKeywordIndex_Type : Nat := 1

def AsyKeywordIndex_Struct : Nat := 2

def AsyKeywordIndex_Constant : Nat := 3

/-- The value `KeywordType::Return` of `LexAsymptote.cxx`. -/
def AsyKeywordType_Return : Int := 0x40

/-- The method `EscapeSequence::resetEscapeState(state, chNext)` of
`LexAsymptote.cxx`: the sequence after the call, and the result. -/
def AsyEscapeSequence.resetEscapeState (k : AsyLexerH) (e : AsyEscapeSequence) (state : Int)
    (chNext : Nat) : AsyEscapeSequence × Bool :=
  if state = k.SCE_ASY .STRING_DQ ∧ ¬ (chNext = 92 ∨ chNext = 34) then (e, false)
  else if state ≠ k.SCE_ASY .STRING_DQ ∧ IsEOLChar chNext then (e, false)
  else if k.IsOctalDigit chNext then
    ({ outerState := state, digitsLeft := 3, hex := false }, true)
  else if k.UnsafeLower chNext = 120 then
    ({ outerState := state, digitsLeft := 3, hex := true }, true)
  else ({ e with outerState := state, digitsLeft := 1 }, true)

/-- The method `EscapeSequence::atEscapeEnd(ch)` of `LexAsymptote.cxx`: the
sequence after the decrement, and the result. -/
def AsyEscapeSequence.atEscapeEnd (k : AsyLexerH) (e : AsyEscapeSequence) (ch : Nat) :
    AsyEscapeSequence × Bool :=
  ({ e with digitsLeft := e.digitsLeft - 1 },
    decide (e.digitsLeft - 1 ≤ 0) || !k.IsOctalOrHex ch e.hex)

/-- The function `IsSpaceEquiv(state)` of `LexAsymptote.cxx`. -/
def AsyLexerH.IsSpaceEquiv (k : AsyLexerH) (state : Int) : Bool :=
  decide (state ≤ k.SCE_ASY .TASKMARKER)

/-- The classification of a finished identifier: lines 110-145 of
`ColouriseAsyDoc`, before `sc.SetState(SCE_ASY_DEFAULT)`. -/
def ColouriseAsyDoc.classify (k : AsyLexerH) (h : WordListH) (keywordLists : Nat → WordList)
    (s : AsyScan) : AsyScan :=
  let word := s.sc.GetCurrent 128
  let s1 : AsyScan :=
    if inKeywordList h keywordLists AsyKeywordIndex_Keyword word then
      if word = bytes "import" ∨ word = bytes "include" then
        { s with
          sc := s.sc.ChangeState (k.SCE_ASY .WORD)
          lineStateLineType := AsymptoteLineStateMaskImport }
      else if word = bytes "new" ∨ word = bytes "struct" then
        { s with sc := s.sc.ChangeState (k.SCE_ASY .WORD), kwType := k.SCE_ASY .STRUCT }
      else if word = bytes "return" then
        { s with sc := s.sc.ChangeState (k.SCE_ASY .WORD), kwType := AsyKeywordType_Return }
      else { s with sc := s.sc.ChangeState (k.SCE_ASY .WORD) }
    else if inKeywordList h keywordLists AsyKeywordIndex_Type word then
      { s with sc := s.sc.ChangeState (k.SCE_ASY .TYPE) }
    else if s.kwType = k.SCE_ASY .STRUCT ∨
        inKeywordList h keywordLists AsyKeywordIndex_Struct word then
      { s with sc := s.sc.ChangeState (k.SCE_ASY .STRUCT) }
    else if inKeywordList h keywordLists AsyKeywordIndex_Constant word then
      { s with sc := s.sc.ChangeState (k.SCE_ASY .CONSTANT) }
    else if s.sc.ch ≠ 46 then
      let chNext := s.sc.GetDocNextChar k.isspacechar false
      if chNext = 40 then
        if s.kwType ≠ AsyKeywordType_Return ∧
            (k.IsIdentifierChar s.chBefore ∨ s.chBefore = 93) then
          { s with sc := s.sc.ChangeState (k.SCE_ASY .FUNCTION_DEFINITION) }
        else { s with sc := s.sc.ChangeState (k.SCE_ASY .FUNCTION) }
      else if s.sc.Match 91 93 ∨ k.IsIdentifierStart chNext then
        { s with sc := s.sc.ChangeState (k.SCE_ASY .STRUCT) }
      else s
    else s
  { s1 with
    kwType := if s1.sc.state ≠ k.SCE_ASY .WORD then k.SCE_ASY .DEFAULT else s1.kwType }

/-- The `switch (sc.state)` of the loop of `ColouriseAsyDoc` (lines 97-181):
the variables after it, and whether it ended with `continue`. -/
def ColouriseAsyDoc.stateCase (k : AsyLexerH) (h : WordListH) (keywordLists : Nat → WordList)
    (s : AsyScan) : AsyScan × Bool :=
  let sc := s.sc
  let st := sc.state
  if st = k.SCE_ASY .OPERATOR then ({ s with sc := sc.SetState (k.SCE_ASY .DEFAULT) }, false)
  else if st = k.SCE_ASY .NUMBER then
    if ¬ k.IsNumberStart sc.ch sc.chNext then
      ({ s with sc := sc.SetState (k.SCE_ASY .DEFAULT) }, false)
    else (s, false)
  else if st = k.SCE_ASY .IDENTIFIER then
    if ¬ k.IsIdentifierChar sc.ch then
      let s1 := ColouriseAsyDoc.classify k h keywordLists s
      ({ s1 with sc := s1.sc.SetState (k.SCE_ASY .DEFAULT) }, false)
    else (s, false)
  else if st = k.SCE_ASY .COMMENTLINE then
    if sc.atLineStart then ({ s with sc := sc.SetState (k.SCE_ASY .DEFAULT) }, false)
    else (s, false)
  else if st = k.SCE_ASY .COMMENTBLOCK then
    if sc.Match 42 47 then
      ({ s with sc := sc.Forward.ForwardSetState (k.SCE_ASY .DEFAULT) }, false)
    else (s, false)
  else if st = k.SCE_ASY .STRING_DQ ∨ st = k.SCE_ASY .STRING_SQ then
    if sc.ch = 92 then
      let r := s.escSeq.resetEscapeState k st sc.chNext
      if r.2 then
        ({ s with escSeq := r.1, sc := (sc.SetState (k.SCE_ASY .ESCAPECHAR)).Forward }, false)
      else ({ s with escSeq := r.1 }, false)
    else if sc.ch = (if st = k.SCE_ASY .STRING_DQ then 34 else 39) then
      ({ s with sc := sc.ForwardSetState (k.SCE_ASY .DEFAULT) }, false)
    else (s, false)
  else if st = k.SCE_ASY .ESCAPECHAR then
    let r := s.escSeq.atEscapeEnd k sc.ch
    if r.2 then ({ s with escSeq := r.1, sc := sc.SetState r.1.outerState }, true)
    else ({ s with escSeq := r.1 }, false)
  else (s, false)

/-- The block `if (sc.state == SCE_ASY_DEFAULT)` of the loop of
`ColouriseAsyDoc` (lines 183-204). -/
def ColouriseAsyDoc.defaultCase (k : AsyLexerH) (s : AsyScan) : AsyScan :=
  let sc := s.sc
  if sc.state ≠ k.SCE_ASY .DEFAULT then s
  else if sc.Match 47 47 then
    { s with
      lineStateLineType :=
        if s.visibleChars = 0 then AsymptoteLineStateMaskLineComment else s.lineStateLineType
      sc := sc.SetState (k.SCE_ASY .COMMENTLINE) }
  else if sc.Match 47 42 then
    { s with sc := (sc.SetState (k.SCE_ASY .COMMENTBLOCK)).Forward }
  else if sc.ch = 34 then { s with sc := sc.SetState (k.SCE_ASY .STRING_DQ) }
  else if sc.ch = 39 then { s with sc := sc.SetState (k.SCE_ASY .STRING_SQ) }
  else if IsADigit sc.ch then { s with sc := sc.SetState (k.SCE_ASY .NUMBER) }
  else if k.IsIdentifierStart sc.ch then
    { s with chBefore := s.chPrevNonWhite, sc := sc.SetState (k.SCE_ASY .IDENTIFIER) }
  else if k.IsAGraphic sc.ch ∧ ¬ (sc.ch = 92 ∨ sc.ch = 96) then
    { s with sc := sc.SetState (k.SCE_ASY .OPERATOR) }
  else s

/-- The end of the body of the loop of `ColouriseAsyDoc` (lines 206-218): the
last visible character, the line state at a line end, and `sc.Forward()`. -/
def ColouriseAsyDoc.lineEnd (k : AsyLexerH) (s : AsyScan) : AsyScan :=
  let s1 : AsyScan :=
    if ¬ k.isspacechar s.sc.ch then
      if ¬ k.IsSpaceEquiv s.sc.state then
        { s with visibleChars := s.visibleChars + 1, chPrevNonWhite := s.sc.ch }
      else { s with visibleChars := s.visibleChars + 1 }
    else s
  let s2 : AsyScan :=
    if s1.sc.atLineEnd then
      { s1 with
        sc := s1.sc.SetLineState s1.sc.currentLine s1.lineStateLineType
        lineStateLineType := 0
        visibleChars := 0
        kwType := k.SCE_ASY .DEFAULT }
    else s1
  { s2 with sc := s2.sc.Forward }

/-- One round of the loop `while (sc.More())` of `ColouriseAsyDoc`. -/
def ColouriseAsyDoc.step (k : AsyLexerH) (h : WordListH) (keywordLists : Nat → WordList)
    (s : AsyScan) : AsyScan :=
  let r := ColouriseAsyDoc.stateCase k h keywordLists s
  if r.2 then r.1 else ColouriseAsyDoc.lineEnd k (ColouriseAsyDoc.defaultCase k r.1)

/-- The loop `while (sc.More())` of `ColouriseAsyDoc`, at most `fuel` rounds;
`none` when the rounds do not suffice. -/
def ColouriseAsyDoc.loop (k : AsyLexerH) (h : WordListH) (keywordLists : Nat → WordList) :
    Nat → AsyScan → Option AsyScan
  | 0, s => if s.sc.More then none else some s
  | fuel + 1, s =>
    if s.sc.More then
      ColouriseAsyDoc.loop k h keywordLists fuel (ColouriseAsyDoc.step k h keywordLists s)
    else some s

/-- The variables of `ColouriseAsyDoc` before its loop (lines 85-94). -/
def ColouriseAsyDoc.start (k : AsyLexerH) (doc : Document) (styler : StyleStore)
    (lineStates : Nat → Nat) (startPos lengthDoc : Nat) (initStyle : Int) : AsyScan :=
  { sc := StyleContext.init doc styler lineStates startPos lengthDoc initStyle
    lineStateLineType := 0
    kwType := k.SCE_ASY .DEFAULT
    visibleChars := 0
    chBefore := 0
    chPrevNonWhite := 0
    escSeq := { outerState := k.SCE_ASY .DEFAULT, digitsLeft := 0, hex := false } }

/-- The function
`ColouriseAsyDoc(startPos, lengthDoc, initStyle, keywordLists, styler)` on the
document `doc` with the style runs `styler` and line states `lineStates`
recorded before the call: the cursor after `sc.Complete()`, which holds the
style runs and line states after the call; `none` when `fuel` rounds of the
loop do not suffice. -/
def ColouriseAsyDoc (k : AsyLexerH) (h : WordListH) (keywordLists : Nat → WordList)
    (doc : Document) (styler : StyleStore) (lineStates : Nat → Nat)
    (startPos lengthDoc : Nat) (initStyle : Int) (fuel : Nat) : Option StyleContext :=
  match ColouriseAsyDoc.loop k h keywordLists fuel
      (ColouriseAsyDoc.start k doc styler lineStates startPos lengthDoc initStyle) with
  | none => none
  | some s => some s.sc.Complete

/-- Two scans in a row by `ColouriseAsyDoc`: `[0, split)` from a blank style
store, then `[split, N)` with `initStyle` the style of the byte before `split`
and with the line states the first scan stored; the cursor after the second
scan. -/
def ColouriseAsyDoc.inTwoScans (k : AsyLexerH) (h : WordListH) (keywordLists : Nat → WordList)
    (doc : Document) (split fuel : Nat) : Option StyleContext :=
  (ColouriseAsyDoc k h keywordLists doc StyleStore.blank (fun _ => 0) 0 split
    (k.SCE_ASY .DEFAULT) fuel).bind fun sc1 =>
      ColouriseAsyDoc k h keywordLists doc sc1.styler sc1.lineStates split
        (doc.Length - split) ((sc1.styler.styleAt (split - 1)).getD (k.SCE_ASY .DEFAULT)) fuel

/-- The style numbers and character classes used for concrete evaluations:
the style numbers in the order of the list of names and the ASCII character
classes. -/
def asyLexer : AsyLexerH :=
  { SCE_ASY := fun s => (s.toCtorIdx : Int)
    IsNumberStart := fun ch chNext =>
      decide ((48 ≤ ch ∧ ch ≤ 57) ∨ (ch = 46 ∧ 48 ≤ chNext ∧ chNext ≤ 57))
    IsIdentifierChar := fun ch =>
      decide ((48 ≤ ch ∧ ch ≤ 57) ∨ (65 ≤ ch ∧ ch ≤ 90) ∨ (97 ≤ ch ∧ ch ≤ 122) ∨ ch = 95)
    IsIdentifierStart := fun ch =>
      decide ((65 ≤ ch ∧ ch ≤ 90) ∨ (97 ≤ ch ∧ ch ≤ 122) ∨ ch = 95)
    IsAGraphic := fun ch => decide (33 ≤ ch ∧ ch ≤ 126)
    isspacechar := fun ch => decide (ch = 32 ∨ (9 ≤ ch ∧ ch ≤ 13))
    IsOctalDigit := fun ch => decide (48 ≤ ch ∧ ch ≤ 55)
    IsOctalOrHex := fun ch hex =>
      decide ((48 ≤ ch ∧ ch ≤ 55) ∨
        (hex = true ∧ ((56 ≤ ch ∧ ch ≤ 57) ∨ (65 ≤ ch ∧ ch ≤ 70) ∨ (97 ≤ ch ∧ ch ≤ 102))))
    UnsafeLower := fun ch => ch ||| 32 }

/-! ## `LexMakefile.cxx` -/

/-- Modelled from the spec: the names of the style numbers `SCE_MAKE_*` of
`SciLexer.h` that `LexMakefile.cxx` uses. -/
inductive MakeStyle
  | DEFAULT | COMMENT | PREPROCESSOR | IDENTIFIER | OPERATOR | TARGET | VARIABLE | VARIABLE2
  | VARIABLE3 | FUNCTION
deriving DecidableEq, Repr, Fintype

/-- Modelled from the spec: what `LexMakefile.cxx` takes from the headers that
are not among the sources, as parameters: the style numbers `SCE_MAKE_*`
(`SciLexer.h`), the character classes (`CharacterSet.h`), and the helpers of
the folder: `IsLexCommentLine(styler, line, style)` and
`IsBackslashLine(styler, line)`, which get the document, the styles of its
bytes and their arguments (the line is an `int`), and
`LexGetRangeLowered(styler, pos, iswordchar, buf, len)`, which gets the
document and the position and returns the C string `buf` then holds. -/
structure MakeLexerH where
  SCE_MAKE : MakeStyle → Int
  IsASpace : Nat → Bool
  iswordchar : Nat → Bool
  iswordstart : Nat → Bool
  IsGraphic : Nat → Bool
  isspacechar : Nat → Bool
  IsLexCommentLine : Document → (Nat → Int) → Int → Int → Bool
  IsBackslashLine : Document → (Nat → Int) → Int → Bool
  LexGetRangeLowered : Document → Nat → Nat → CStr

/-- The style numbers are different from each other, as the labels of the
`switch` require. -/
def MakeLexerH.Distinct (k : MakeLexerH) : Prop :=
  ∀ a b : MakeStyle, k.SCE_MAKE a = k.SCE_MAKE b → a = b

instance (k : MakeLexerH) : Decidable k.Distinct := by
  unfold MakeLexerH.Distinct
  infer_instance

/-- The values `MAKE_TYPE_*`. -/
def MAKE_TYPE_GMAKE : Nat := 0

def MAKE_TYPE_NMAKE : Nat := 1

def MAKE_TYPE_BMAKE : Nat := 2

def MAKE_TYPE_QMAKE : Nat := 3

def MAKE_TYPE_NINJA : Nat := 4

/-- The function `IsMakeOp(ch, chNext)`. -/
def IsMakeOp (ch chNext : Nat) : Bool :=
  ch == 61 || ch == 58 || ch == 123 || ch == 125 || ch == 40 || ch == 41 || ch == 44
    || ch == 36 || ch == 64 || ch == 37 || ch == 60 || ch == 63 || ch == 94
    || ch == 124 || ch == 42 || ch == 62 || ch == 59 || ch == 38 || ch == 33
    || (chNext == 61 && (ch == 43 || ch == 45 || ch == 58))

/-- The length `MAX_WORD_LENGTH`. -/
def MAX_WORD_LENGTH : Nat := 15

/-- The variables of `ColouriseMakeDoc` in its loop, the static `makeType`
among them, and the `styler.ColorTo(pos, style)` calls made so far, in the
order of the calls. -/
structure MakeScan where
  i : Nat
  state : Int
  ch : Nat
  chNext : Nat
  visibleChars : Int
  lineCurrent : Nat
  buf : List Nat
  wordLen : Nat
  varCount : Int
  makeType : Nat
  calls : List (Nat × Int)

/-- The loop `while (IsASpace(styler.SafeGetCharAt(pos++)));` of the
`SCE_MAKE_TARGET` case: the value of `pos` after it; `none` when `fuel` reads
do not suffice. -/
def ColouriseMakeDoc.skipSpaces (k : MakeLexerH) (doc : Document) : Nat → Nat → Option Nat
  | 0, _ => none
  | fuel + 1, pos =>
    if k.IsASpace (doc.SafeGetCharAt pos) then ColouriseMakeDoc.skipSpaces k doc fuel (pos + 1)
    else some (pos + 1)

/-- The `switch (state)` of the loop of `ColouriseMakeDoc` (lines 67-149), for
the byte `s.ch` at `s.i`: the variables after it, and whether it ended with
`continue`; `none` when the loop over the spaces does not end (it reads the
sentinel past the end of the document as a space). -/
def ColouriseMakeDoc.stateCase (k : MakeLexerH) (h : WordListH) (keywordLists : Nat → WordList)
    (doc : Document) (atLineStart : Bool) (chPrev : Nat) (s : MakeScan) :
    Option (MakeScan × Bool) :=
  let st := s.state
  if st = k.SCE_MAKE .OPERATOR then
    some ({ s with calls := s.calls ++ [(s.i, st)], state := k.SCE_MAKE .DEFAULT }, false)
  else if st = k.SCE_MAKE .IDENTIFIER then
    if IsMakeOp s.ch s.chNext ∨ k.IsASpace s.ch then
      let buf := s.buf.set s.wordLen 0
      let word := buf.takeWhile (fun b => b != 0)
      let calls :=
        if s.ch = 58 ∧ s.chNext = 58 then s.calls ++ [(s.i, k.SCE_MAKE .TARGET)]
        else if s.makeType = MAKE_TYPE_BMAKE ∧ inKeywordList h keywordLists 6 word then
          s.calls ++ [(s.i, k.SCE_MAKE .PREPROCESSOR)]
        else s.calls
      some ({ s with buf := buf, calls := calls, state := k.SCE_MAKE .DEFAULT }, false)
    else if s.wordLen < MAX_WORD_LENGTH then
      some ({ s with buf := s.buf.set s.wordLen s.ch, wordLen := s.wordLen + 1 }, false)
    else some (s, false)
  else if st = k.SCE_MAKE .TARGET then
    if IsMakeOp s.ch s.chNext ∨ k.IsASpace s.ch then
      let buf := s.buf.set s.wordLen 0
      let word := buf.takeWhile (fun b => b != 0)
      if inKeywordList h keywordLists 0 word then
        some ({ s with
          buf := buf
          calls := s.calls ++ [(s.i, k.SCE_MAKE .PREPROCESSOR)]
          makeType := MAKE_TYPE_GMAKE
          state := k.SCE_MAKE .DEFAULT }, false)
      else if inKeywordList h keywordLists 7 word then
        some ({ s with
          buf := buf
          calls := s.calls ++ [(s.i, k.SCE_MAKE .PREPROCESSOR)]
          makeType := MAKE_TYPE_NINJA
          state := k.SCE_MAKE .DEFAULT }, false)
      else
        match ColouriseMakeDoc.skipSpaces k doc (doc.Length + 2 - s.i) s.i with
        | none => none
        | some pos =>
          if doc.SafeGetCharAt (pos - 1) = 61 ∨ doc.SafeGetCharAt pos = 61 then
            some ({ s with
              buf := buf
              calls := s.calls ++ [(s.i, k.SCE_MAKE .VARIABLE)]
              state := k.SCE_MAKE .DEFAULT }, false)
          else if doc.SafeGetCharAt (pos - 1) = 58 then
            some ({ s with
              buf := buf
              calls := s.calls ++ [(s.i, k.SCE_MAKE .TARGET)]
              state := k.SCE_MAKE .DEFAULT }, false)
          else if buf.getD 0 0 = 46 ∧ k.IsASpace s.ch then
            some ({ s with
              buf := buf
              calls := s.calls ++ [(s.i, k.SCE_MAKE .PREPROCESSOR)]
              makeType := MAKE_TYPE_BMAKE
              state := k.SCE_MAKE .DEFAULT }, false)
          else
            some ({ s with
              buf := buf
              calls := s.calls ++ [(s.i, k.SCE_MAKE .DEFAULT)]
              state := k.SCE_MAKE .DEFAULT }, false)
    else if s.wordLen < MAX_WORD_LENGTH then
      some ({ s with buf := s.buf.set s.wordLen s.ch, wordLen := s.wordLen + 1 }, false)
    else some (s, false)
  else if st = k.SCE_MAKE .VARIABLE then
    if ¬ (s.ch = 36 ∨ k.iswordchar s.ch) then
      some ({ s with calls := s.calls ++ [(s.i, st)], state := k.SCE_MAKE .DEFAULT }, false)
    else some (s, false)
  else if st = k.SCE_MAKE .VARIABLE2 then
    if s.ch = 36 ∧ s.chNext = 40 then some ({ s with varCount := s.varCount + 1 }, false)
    else if s.ch = 41 then
      if s.varCount - 1 ≤ 0 then
        some ({ s with
          varCount := s.varCount - 1
          calls := s.calls ++ [(s.i + 1, st)]
          state := k.SCE_MAKE .DEFAULT }, true)
      else some ({ s with varCount := s.varCount - 1 }, false)
    else some (s, false)
  else if st = k.SCE_MAKE .VARIABLE3 then
    if chPrev = 125 then
      some ({ s with calls := s.calls ++ [(s.i, st)], state := k.SCE_MAKE .DEFAULT }, false)
    else some (s, false)
  else if st = k.SCE_MAKE .PREPROCESSOR then
    if ¬ k.iswordchar s.ch then
      some ({ s with calls := s.calls ++ [(s.i, st)], state := k.SCE_MAKE .DEFAULT }, false)
    else some (s, false)
  else if st = k.SCE_MAKE .COMMENT then
    if atLineStart then
      some ({ s with calls := s.calls ++ [(s.i, st)], state := k.SCE_MAKE .DEFAULT }, false)
    else some (s, false)
  else some (s, false)

/-- The loop `while (pos < endPos && ch != ')')` of the expansion `$(` (lines
173-181), at most `fuel` rounds: `pos`, `ch` and `chNext` after it. -/
def ColouriseMakeDoc.expansion (k : MakeLexerH) (doc : Document) (endPos : Nat) :
    Nat → Nat → Nat → Nat → Nat × Nat × Nat
  | 0, pos, ch, chNext => (pos, ch, chNext)
  | fuel + 1, pos, ch, chNext =>
    if pos < endPos ∧ ch ≠ 41 then
      let chNext1 := doc.SafeGetCharAt (pos + 1)
      if ch = 36 ∧ chNext1 = 40 then (pos, ch, chNext1)
      else if k.IsASpace ch ∨ ch = 44 then (pos, ch, chNext1)
      else ColouriseMakeDoc.expansion k doc endPos fuel (pos + 1) chNext1 chNext1
    else (pos, ch, chNext)

/-- The block `if (state == SCE_MAKE_DEFAULT)` of the loop of
`ColouriseMakeDoc` (lines 164-218), for the byte `s.ch` at `s.i`. -/
def ColouriseMakeDoc.defaultCase (k : MakeLexerH) (doc : Document) (endPos : Nat)
    (atLineStart : Bool) (s : MakeScan) : MakeScan :=
  if s.state ≠ k.SCE_MAKE .DEFAULT then s
  else if s.ch = 35 then
    { s with calls := s.calls ++ [(s.i, s.state)], state := k.SCE_MAKE .COMMENT }
  else if (s.ch = 36 ∧ s.chNext = 40) ∨
      (s.ch = 36 ∧ s.chNext = 36 ∧ doc.SafeGetCharAt (s.i + 2) = 40) then
    let pos0 := if s.chNext = 36 then s.i + 1 + 1 else s.i + 1
    let r := ColouriseMakeDoc.expansion k doc endPos (endPos - pos0) pos0 s.chNext s.chNext
    let pos := r.1
    let ch := r.2.1
    let chNext := r.2.2
    let calls0 := s.calls ++ [(s.i, s.state)]
    let s1 : MakeScan :=
      if ch = 41 ∨ ch = 36 then
        { s with
          calls := calls0 ++ [(pos + 1, k.SCE_MAKE .VARIABLE2)]
          state :=
            if ch = 36 then k.SCE_MAKE .VARIABLE2
            else if atLineStart then k.SCE_MAKE .TARGET
            else s.state
          varCount := if ch = 36 then 2 else s.varCount }
      else
        { s with
          calls := calls0 ++ [(s.i + 2, k.SCE_MAKE .OPERATOR), (pos, k.SCE_MAKE .FUNCTION)] ++
            (if ch = 44 then [(pos + 1, k.SCE_MAKE .OPERATOR)] else []) }
    { s1 with i := pos, ch := chNext, chNext := doc.SafeGetCharAt (pos + 1) }
  else if s.ch = 36 ∧ s.chNext = 123 then
    { s with calls := s.calls ++ [(s.i, s.state)], state := k.SCE_MAKE .VARIABLE3 }
  else if s.ch = 36 ∧ (s.chNext = 36 ∨ k.iswordstart s.chNext) then
    { s with calls := s.calls ++ [(s.i, s.state)], state := k.SCE_MAKE .VARIABLE }
  else if s.visibleChars = 0 ∧ s.ch = 33 ∧ k.iswordstart s.chNext then
    { s with
      calls := s.calls ++ [(s.i, s.state)]
      state := k.SCE_MAKE .PREPROCESSOR
      makeType := MAKE_TYPE_NMAKE }
  else if IsMakeOp s.ch s.chNext ∨ (s.visibleChars = 0 ∧ s.ch = 45) then
    { s with calls := s.calls ++ [(s.i, s.state)], state := k.SCE_MAKE .OPERATOR }
  else if k.IsGraphic s.ch then
    { s with
      calls := s.calls ++ [(s.i, s.state)]
      buf := s.buf.set 0 s.ch
      wordLen := 1
      state := if s.visibleChars = 0 then k.SCE_MAKE .TARGET else k.SCE_MAKE .IDENTIFIER }
  else s

/-- The body of the loop `for (i = startPos; i < endPos; i++)` of
`ColouriseMakeDoc` together with its `i++`: the variables at the start of the
next round; `none` when the loop over the spaces of the `SCE_MAKE_TARGET` case
does not end. -/
def ColouriseMakeDoc.step (k : MakeLexerH) (h : WordListH) (keywordLists : Nat → WordList)
    (doc : Document) (endPos : Nat) (s : MakeScan) : Option MakeScan :=
  let chPrev := s.ch
  let s0 : MakeScan := { s with ch := s.chNext, chNext := doc.SafeGetCharAt (s.i + 1) }
  let atEOL : Bool := (s0.ch == 13 && s0.chNext != 10) || s0.ch == 10
  let atLineStart : Bool := decide (s0.i = doc.LineStart s0.lineCurrent)
  match ColouriseMakeDoc.stateCase k h keywordLists doc atLineStart chPrev s0 with
  | none => none
  | some (s1, true) => some { s1 with i := s1.i + 1 }
  | some (s1, false) =>
    if s1.state ≠ k.SCE_MAKE .COMMENT ∧ s1.ch = 92 ∧ IsEOLChar s1.chNext then
      let s2 : MakeScan :=
        { s1 with
          i := s1.i + 1
          lineCurrent := s1.lineCurrent + 1
          ch := s1.chNext
          chNext := doc.SafeGetCharAt (s1.i + 1 + 1) }
      let s3 : MakeScan :=
        if s2.ch = 13 ∧ s2.chNext = 10 then
          { s2 with i := s2.i + 1, ch := s2.chNext, chNext := doc.SafeGetCharAt (s2.i + 1 + 1) }
        else s2
      some { s3 with i := s3.i + 1 }
    else
      let s2 := ColouriseMakeDoc.defaultCase k doc endPos atLineStart s1
      let s3 : MakeScan :=
        if atEOL ∨ s2.i + 1 = endPos then
          { s2 with lineCurrent := s2.lineCurrent + 1, visibleChars := 0 }
        else s2
      let s4 : MakeScan :=
        if ¬ k.isspacechar s3.ch ∧ ¬ (s3.visibleChars = 0 ∧ s3.ch = 45) then
          { s3 with visibleChars := s3.visibleChars + 1 }
        else s3
      some { s4 with i := s4.i + 1 }

/-- The loop `for (i = startPos; i < endPos; i++)` of `ColouriseMakeDoc`, at
most `fuel` rounds; `none` when the rounds do not suffice or a round does not
end. -/
def ColouriseMakeDoc.loop (k : MakeLexerH) (h : WordListH) (keywordLists : Nat → WordList)
    (doc : Document) (endPos : Nat) : Nat → MakeScan → Option MakeScan
  | 0, s => if s.i < endPos then none else some s
  | fuel + 1, s =>
    if s.i < endPos then
      match ColouriseMakeDoc.step k h keywordLists doc endPos s with
      | none => none
      | some s1 => ColouriseMakeDoc.loop k h keywordLists doc endPos fuel s1
    else some s

/-- The variables of `ColouriseMakeDoc` before its loop (lines 41-57); the
static `makeType` has the value the last call left, `MAKE_TYPE_GMAKE` before
the first call. -/
def ColouriseMakeDoc.start (doc : Document) (makeType : Nat) (startPos : Nat)
    (initStyle : Int) : MakeScan :=
  { i := startPos
    state := initStyle
    ch := 0
    chNext := doc.SafeGetCharAt startPos
    visibleChars := 0
    lineCurrent := doc.GetLine startPos
    buf := List.replicate (MAX_WORD_LENGTH + 1) 0
    wordLen := 0
    varCount := 0
    makeType := makeType
    calls := [] }

/-- The `ColorTo` calls of a call of `ColouriseMakeDoc`, after
`styler.StartSegment(startPos)`, and the value it leaves in the static
`makeType`. -/
structure MakeResult where
  ColorTo : List (Nat × Int)
  makeType : Nat
deriving DecidableEq, Repr

/-- The function
`ColouriseMakeDoc(startPos, length, initStyle, keywordLists, styler)` on the
document `doc`, with the value `makeType` of its static variable before the
call; `none` when `fuel` rounds of the loop do not suffice or a round does not
end. -/
def ColouriseMakeDoc (k : MakeLexerH) (h : WordListH) (keywordLists : Nat → WordList)
    (doc : Document) (makeType : Nat) (startPos length : Nat) (initStyle : Int) (fuel : Nat) :
    Option MakeResult :=
  let endPos := startPos + length
  match ColouriseMakeDoc.loop k h keywordLists doc endPos fuel
      (ColouriseMakeDoc.start doc makeType startPos initStyle) with
  | none => none
  | some s => some { ColorTo := s.calls ++ [(endPos, s.state)], makeType := s.makeType }

/-- Two calls of `ColouriseMakeDoc` on the whole document in a row, the first
one being the first call of the process (`makeType` is `MAKE_TYPE_GMAKE`): the
styles of the bytes after each call. -/
def ColouriseMakeDoc.twice (k : MakeLexerH) (h : WordListH) (keywordLists : Nat → WordList)
    (doc : Document) (fuel : Nat) : Option (List (Option Int) × List (Option Int)) :=
  (ColouriseMakeDoc k h keywordLists doc MAKE_TYPE_GMAKE 0 doc.Length
    (k.SCE_MAKE .DEFAULT) fuel).bind fun r1 =>
      (ColouriseMakeDoc k h keywordLists doc r1.makeType 0 doc.Length
        (k.SCE_MAKE .DEFAULT) fuel).map fun r2 =>
          ((List.range doc.Length).map (StyleStore.blank.run r1.ColorTo).styleAt,
            (List.range doc.Length).map
              (((StyleStore.blank.run r1.ColorTo).StartSegment 0).run r2.ColorTo).styleAt)

/-- The style numbers, character classes and helpers used for concrete
evaluations: the style numbers in the order of the list of names, the ASCII
character classes, and helpers of the folder that find no comment line and no
backslash line and copy no bytes. -/
def makeLexer : MakeLexerH :=
  { SCE_MAKE := fun s => (s.toCtorIdx : Int)
    IsASpace := fun ch => decide (ch = 32 ∨ (9 ≤ ch ∧ ch ≤ 13))
    iswordchar := fun ch =>
      decide ((48 ≤ ch ∧ ch ≤ 57) ∨ (65 ≤ ch ∧ ch ≤ 90) ∨ (97 ≤ ch ∧ ch ≤ 122) ∨ ch = 95 ∨
        ch = 46 ∨ 128 ≤ ch)
    iswordstart := fun ch =>
      decide ((65 ≤ ch ∧ ch ≤ 90) ∨ (97 ≤ ch ∧ ch ≤ 122) ∨ ch = 95 ∨ 128 ≤ ch)
    IsGraphic := fun ch => decide (33 ≤ ch ∧ ch ≤ 126)
    isspacechar := fun ch => decide (ch = 32 ∨ (9 ≤ ch ∧ ch ≤ 13))
    IsLexCommentLine := fun _ _ _ _ => false
    IsBackslashLine := fun _ _ _ => false
    LexGetRangeLowered := fun _ _ _ => [] }

/-- Word lists for concrete evaluations of `ColouriseMakeDoc`: the list of
`bmake` directives (index 6) holds the word `foo`, the other lists are
empty. -/
def bmakeKeywords : Nat → WordList := fun index =>
  if index = 6 then ((WordList.empty asciiH).Set asciiH (bytes "foo") ⟨false, false⟩).getD
    (WordList.empty asciiH)
  else WordList.empty asciiH

/-! ## `LexNull.cxx` -/

/-- The loop `while (lineCurrent > 0)` of `FoldNullDoc` (lines 61-67), which
goes back to the previous line that is not blank: `lineCurrent` and
`indentCurrent` after it. `IndentAmount` stands for `styler.IndentAmount`,
whose code is not among the sources. -/
def FoldNullDoc.backtrack (sc : ScintillaH) (IndentAmount : Nat → Nat) : Nat → Nat → Nat × Nat
  | 0, indentCurrent => (0, indentCurrent)
  | lineCurrent + 1, _ =>
    if IndentAmount lineCurrent &&& sc.SC_FOLDLEVELWHITEFLAG = 0 then
      (lineCurrent, IndentAmount lineCurrent)
    else FoldNullDoc.backtrack sc IndentAmount lineCurrent (IndentAmount lineCurrent)

/-- The loop `while ((lineNext < docLines) && (indentNext &
SC_FOLDLEVELWHITEFLAG))` of `FoldNullDoc` (lines 82-85), at most `fuel`
rounds: `lineNext` and `indentNext` after it. -/
def FoldNullDoc.skipBlank (sc : ScintillaH) (IndentAmount : Nat → Nat) (docLines : Nat) :
    Nat → Nat → Nat → Nat × Nat
  | 0, lineNext, indentNext => (lineNext, indentNext)
  | fuel + 1, lineNext, indentNext =>
    if lineNext < docLines ∧ indentNext &&& sc.SC_FOLDLEVELWHITEFLAG ≠ 0 then
      FoldNullDoc.skipBlank sc IndentAmount docLines fuel (lineNext + 1)
        (IndentAmount (lineNext + 1))
    else (lineNext, indentNext)

/-- The level `lev & ~SC_FOLDLEVELWHITEFLAG` that `FoldNullDoc` sets for the
line `lineCurrent` (lines 88-96). -/
def FoldNullDoc.lev (sc : ScintillaH) (indentCurrent indentNext : Nat) : Nat :=
  clearBits
    (if indentCurrent &&& sc.SC_FOLDLEVELWHITEFLAG = 0 ∧
        indentCurrent &&& sc.SC_FOLDLEVELNUMBERMASK <
          indentNext &&& sc.SC_FOLDLEVELNUMBERMASK then
      indentCurrent ||| sc.SC_FOLDLEVELHEADERFLAG
    else indentCurrent)
    sc.SC_FOLDLEVELWHITEFLAG

/-- The loop `while (lineCurrent <= maxLines)` of `FoldNullDoc` (lines
72-112), at most `fuel` rounds: the calls `styler.SetLevel(line, level)` it
makes, in the order of the calls. -/
def FoldNullDoc.loop (sc : ScintillaH) (IndentAmount : Nat → Nat) (docLines maxLines : Nat) :
    Nat → Nat → Nat → List (Nat × Nat)
  | 0, _, _ => []
  | fuel + 1, lineCurrent, indentCurrent =>
    if lineCurrent ≤ maxLines then
      let indentNext0 :=
        if lineCurrent + 1 ≤ docLines then IndentAmount (lineCurrent + 1) else indentCurrent
      let r := FoldNullDoc.skipBlank sc IndentAmount docLines (docLines - (lineCurrent + 1))
        (lineCurrent + 1) indentNext0
      let lineNext := r.1
      let indentNext := r.2
      let skipLevel := indentNext &&& sc.SC_FOLDLEVELNUMBERMASK
      (lineCurrent, FoldNullDoc.lev sc indentCurrent indentNext) ::
        (((List.range' (lineCurrent + 1) (lineNext - (lineCurrent + 1))).map
            fun line => (line, skipLevel)) ++
          FoldNullDoc.loop sc IndentAmount docLines maxLines fuel lineNext indentNext)
    else []

/-- The function `FoldNullDoc(startPos, lengthDoc, _, _, styler)` on the
document `doc`, with the value `fold` of the property `fold` and with
`IndentAmount` for `styler.IndentAmount`: the calls
`styler.SetLevel(line, level)` it makes, in the order of the calls. -/
def FoldNullDoc (sc : ScintillaH) (fold : Int) (doc : Document) (IndentAmount : Nat → Nat)
    (startPos lengthDoc : Nat) : List (Nat × Nat) :=
  let maxPos := startPos + lengthDoc
  if fold = 0 then []
  else
    let docLines := doc.GetLine doc.Length
    let maxLines := if maxPos = doc.Length then docLines else doc.GetLine (maxPos - 1)
    let b := FoldNullDoc.backtrack sc IndentAmount (doc.GetLine startPos)
      (IndentAmount (doc.GetLine startPos))
    FoldNullDoc.loop sc IndentAmount docLines maxLines (maxLines + 1 - b.1) b.1 b.2

/-- An `IndentAmount` for concrete evaluations: the base level plus the number
of spaces at the start of the line, with the white flag when the line holds
nothing but spaces and line-end bytes. -/
def spacesIndentAmount (sc : ScintillaH) (doc : Document) (line : Nat) : Nat :=
  let text := doc.getD line []
  let indent := sc.SC_FOLDLEVELBASE + (text.takeWhile (fun b => b == 32)).length
  if (text.dropWhile (fun b => b == 32)).all IsEOLChar then
    indent ||| sc.SC_FOLDLEVELWHITEFLAG
  else indent

/-- Spec-side: `n` is the next line after `line` that is not blank, or the
last line of the document when only blank lines follow `line`; a line is blank
when its `IndentAmount` has the white flag. -/
def FoldNullDoc.NextLine (sc : ScintillaH) (IndentAmount : Nat → Nat) (docLines line n : Nat) :
    Prop :=
  line < n ∧ n ≤ docLines ∧
  (∀ l, line < l → l < n → IndentAmount l &&& sc.SC_FOLDLEVELWHITEFLAG ≠ 0) ∧
  (n = docLines ∨ IndentAmount n &&& sc.SC_FOLDLEVELWHITEFLAG = 0)

/-- What `FoldNullDoc` sets for a line: either the line is handled as
`lineCurrent` (it is not blank, or the last line, or the line `first` the pass
starts with) and gets the level made of its own indent and that of the next
line, or it is a blank line that was skipped and gets the number of the next
line. -/
def FoldNullDoc.Written (sc : ScintillaH) (I : Nat → Nat) (docLines first : Nat)
    (x : Nat × Nat) : Prop :=
  ((I x.1 &&& sc.SC_FOLDLEVELWHITEFLAG = 0 ∨ x.1 = docLines ∨ x.1 = first) ∧
    ((∃ n, FoldNullDoc.NextLine sc I docLines x.1 n ∧ x.2 = FoldNullDoc.lev sc (I x.1) (I n)) ∨
      (x.1 = docLines ∧ x.2 = FoldNullDoc.lev sc (I x.1) (I x.1)))) ∨
  (first < x.1 ∧ I x.1 &&& sc.SC_FOLDLEVELWHITEFLAG ≠ 0 ∧
    ∃ n, FoldNullDoc.NextLine sc I docLines x.1 n ∧ x.2 = I n &&& sc.SC_FOLDLEVELNUMBERMASK)

/-! ## The structural folders

`FoldRustDoc`, `FoldJsDoc`, `FoldAsyDoc` and `FoldMakeDoc` end the handling of
a line with the same statements: the level `levelUse | levelNext << 16`, with
the header flag when `levelUse < levelNext`, is set for `lineCurrent`, and
`levelNext` becomes the `levelCurrent` of the next line. The fold levels are
held as the 32-bit patterns of `int` values, the depths as integers. Absent
from the sources: `styler.StyleAt`, `styler.LevelAt`, `styler.GetLineState`
(functions of the position or line here) and the helper
`CheckBraceOnNextLine(styler, line, operatorStyle, maxSpaceStyle)`, a
parameter that gets the document, the styles of its bytes and its
arguments. -/

/-- The value `level >> 16` of a stored fold level, an `int` held as its
32-bit pattern: the expression `styler.LevelAt(lineCurrent - 1) >> 16`. -/
def shiftRight16 (level : Nat) : Int :=
  if level < 2 ^ 31 then ((level >>> 16 : Nat) : Int) else ((level >>> 16 : Nat) : Int) - 65536

/-- The level `lev` of the folders: `levelUse | levelNext << 16`, with
`SC_FOLDLEVELHEADERFLAG` when `levelUse < levelNext`, as the 32-bit pattern of
the `int`. -/
def foldLevel (sc : ScintillaH) (levelUse levelNext : Int) : Nat :=
  if levelUse < levelNext then
    toInt32 levelUse ||| (toInt32 levelNext <<< 16) % 2 ^ 32 ||| sc.SC_FOLDLEVELHEADERFLAG
  else toInt32 levelUse ||| (toInt32 levelNext <<< 16) % 2 ^ 32

/-- The line and depth a pass of a structural folder is at, the stored fold
levels, the calls `styler.SetLevel(line, level)` made so far, and for each line
end handled so far the line with its `levelUse` and `levelNext`. -/
structure FoldPass where
  lineCurrent : Nat
  levelCurrent : Int
  LevelAt : Nat → Nat
  calls : List (Nat × Nat)
  lines : List (Nat × Int × Int)

/-- The statements that end the handling of a line in the folders (`const int
levelUse = levelCurrent;` to `levelCurrent = levelNext;`): `FoldRustDoc` and
`FoldJsDoc` call `SetLevel` only when the level differs from the stored one
(`onlyIfChanged`), `FoldAsyDoc` and `FoldMakeDoc` always. -/
def FoldPass.lineEnd (sc : ScintillaH) (onlyIfChanged : Bool) (p : FoldPass) (levelNext : Int) :
    FoldPass :=
  { lineCurrent := p.lineCurrent + 1
    levelCurrent := levelNext
    LevelAt := fun l =>
      if l = p.lineCurrent then foldLevel sc p.levelCurrent levelNext else p.LevelAt l
    calls :=
      if onlyIfChanged ∧ foldLevel sc p.levelCurrent levelNext = p.LevelAt p.lineCurrent then
        p.calls
      else p.calls ++ [(p.lineCurrent, foldLevel sc p.levelCurrent levelNext)]
    lines := p.lines ++ [(p.lineCurrent, p.levelCurrent, levelNext)] }

/-- The start of a pass of a folder: `lineCurrent = styler.GetLine(startPos)`
and `levelCurrent`, which is `SC_FOLDLEVELBASE` on the first line and
`styler.LevelAt(lineCurrent - 1) >> 16` on another line. -/
def FoldPass.start (sc : ScintillaH) (doc : Document) (LevelAt : Nat → Nat) (startPos : Nat) :
    FoldPass :=
  { lineCurrent := doc.GetLine startPos
    levelCurrent :=
      if doc.GetLine startPos > 0 then shiftRight16 (LevelAt (doc.GetLine startPos - 1))
      else (sc.SC_FOLDLEVELBASE : Int)
    LevelAt := LevelAt
    calls := []
    lines := [] }

/-- The change of `levelNext` by a byte `ch` of operator style: plus one for
an opening bracket, minus one for a closing one. -/
def bracketLevel (ch : Nat) : Int :=
  if ch = 123 ∨ ch = 91 ∨ ch = 40 then 1 else if ch = 125 ∨ ch = 93 ∨ ch = 41 then -1 else 0

/-! ### `FoldMakeDoc` -/

/-- The variables of `FoldMakeDoc` in its loop. -/
structure FoldMakeScan where
  pass : FoldPass
  i : Nat
  visibleChars : Int
  levelNext : Int
  chNext : Nat
  styleNext : Int
  style : Int

/-- The body of the loop `for (i = startPos; i < endPos; i++)` of
`FoldMakeDoc` (lines 248-298) together with its `i++`. -/
def FoldMakeDoc.step (k : MakeLexerH) (sc : ScintillaH) (doc : Document) (StyleAt : Nat → Int)
    (endPos : Nat) (s : FoldMakeScan) : FoldMakeScan :=
  let ch := s.chNext
  let chNext := doc.SafeGetCharAt (s.i + 1)
  let stylePrev := s.style
  let style := s.styleNext
  let styleNext := StyleAt (s.i + 1)
  let atEOL : Bool := (ch == 13 && chNext != 10) || ch == 10
  let lineCurrent : Int := (s.pass.lineCurrent : Int)
  let IsCommentLine : Int → Int := fun line =>
    if k.IsLexCommentLine doc StyleAt line (k.SCE_MAKE .COMMENT) then 1 else 0
  let IsBackslashLine : Int → Int := fun line =>
    if k.IsBackslashLine doc StyleAt line then 1 else 0
  let levelNext1 : Int :=
    if atEOL then
      if IsCommentLine lineCurrent ≠ 0 then
        s.levelNext + (IsCommentLine (lineCurrent + 1) - IsCommentLine (lineCurrent - 1))
      else s.levelNext + (IsBackslashLine lineCurrent - IsBackslashLine (lineCurrent - 1))
    else s.levelNext
  let levelNext2 : Int :=
    if s.visibleChars = 0 ∧ (ch = 33 ∨ ch = 105 ∨ ch = 101 ∨ ch = 100 ∨ ch = 46) ∧
        style = k.SCE_MAKE .PREPROCESSOR ∧ stylePrev ≠ k.SCE_MAKE .PREPROCESSOR then
      let j := if ch = 33 ∨ ch = 46 then s.i + 1 else s.i
      let buf := k.LexGetRangeLowered doc j MAX_WORD_LENGTH
      if StrStartsWith buf (bytes "if") ∨ buf = bytes "define" ∨ buf = bytes "for" then
        levelNext1 + 1
      else if buf = bytes "endif" ∨ buf = bytes "endef" ∨ buf = bytes "endfor" then
        levelNext1 - 1
      else levelNext1
    else levelNext1
  let levelNext3 : Int :=
    if style = k.SCE_MAKE .OPERATOR then
      if ch = 123 then levelNext2 + 1 else if ch = 125 then levelNext2 - 1 else levelNext2
    else levelNext2
  let visibleChars1 : Int :=
    if s.visibleChars = 0 ∧ ¬ k.isspacechar ch then s.visibleChars + 1 else s.visibleChars
  if atEOL ∨ s.i + 1 = endPos then
    { pass := s.pass.lineEnd sc false (max levelNext3 (sc.SC_FOLDLEVELBASE : Int))
      i := s.i + 1
      visibleChars := 0
      levelNext := max levelNext3 (sc.SC_FOLDLEVELBASE : Int)
      chNext := chNext
      styleNext := styleNext
      style := style }
  else
    { pass := s.pass
      i := s.i + 1
      visibleChars := visibleChars1
      levelNext := levelNext3
      chNext := chNext
      styleNext := styleNext
      style := style }

/-- The loop of `FoldMakeDoc`, at most `fuel` rounds. -/
def FoldMakeDoc.loop (k : MakeLexerH) (sc : ScintillaH) (doc : Document) (StyleAt : Nat → Int)
    (endPos : Nat) : Nat → FoldMakeScan → FoldMakeScan
  | 0, s => s
  | fuel + 1, s =>
    if s.i < endPos then
      FoldMakeDoc.loop k sc doc StyleAt endPos fuel (FoldMakeDoc.step k sc doc StyleAt endPos s)
    else s

/-- The function `FoldMakeDoc(startPos, length, initStyle, _, styler)` on the
document `doc` with the styles `StyleAt` and the stored fold levels `LevelAt`:
the state of the pass after at most `fuel` rounds of the loop (`length` rounds
end it). -/
def FoldMakeDoc (k : MakeLexerH) (sc : ScintillaH) (doc : Document) (StyleAt : Nat → Int)
    (LevelAt : Nat → Nat) (startPos length : Nat) (initStyle : Int) (fuel : Nat) : FoldPass :=
  (FoldMakeDoc.loop k sc doc StyleAt (startPos + length) fuel
    { pass := FoldPass.start sc doc LevelAt startPos
      i := startPos
      visibleChars := 0
      levelNext := (FoldPass.start sc doc LevelAt startPos).levelCurrent
      chNext := doc.SafeGetCharAt startPos
      styleNext := StyleAt startPos
      style := initStyle }).pass

/-! ### `FoldAsyDoc` -/

/-- The structure `FoldLineState` of `LexAsymptote.cxx`. -/
structure AsyFoldLineState where
  lineComment : Nat
  moduleImport : Nat
deriving DecidableEq, Repr

/-- The constructor `FoldLineState(lineState)` of `LexAsymptote.cxx`. -/
def AsyFoldLineState.ofLineState (lineState : Nat) : AsyFoldLineState :=
  { lineComment := lineState &&& AsymptoteLineStateMaskLineComment
    moduleImport := (lineState >>> 1) &&& 1 }

/-- The function `IsMultilineStringStyle(style)` of `LexAsymptote.cxx`. -/
def AsyLexerH.IsMultilineStringStyle (k : AsyLexerH) (style : Int) : Bool :=
  decide (style = k.SCE_ASY .STRING_SQ ∨ style = k.SCE_ASY .STRING_DQ ∨
    style = k.SCE_ASY .ESCAPECHAR)

/-- The variables of `FoldAsyDoc` in its loop. -/
structure FoldAsyScan where
  pass : FoldPass
  startPos : Nat
  levelNext : Int
  foldPrev : AsyFoldLineState
  foldCurrent : AsyFoldLineState
  lineStartNext : Nat
  styleNext : Int
  style : Int
  visibleChars : Int

/-- The body of the loop `while (startPos < endPos)` of `FoldAsyDoc` (lines
262-330). -/
def FoldAsyDoc.step (k : AsyLexerH) (sc : ScintillaH)
    (CheckBraceOnNextLine : Document → (Nat → Int) → Nat → Int → Int → Nat) (doc : Document)
    (StyleAt : Nat → Int) (GetLineState : Nat → Nat) (endPos : Nat) (s : FoldAsyScan) :
    FoldAsyScan :=
  let stylePrev := s.style
  let style := s.styleNext
  let startPos := s.startPos + 1
  let styleNext := StyleAt startPos
  let levelNext1 : Int :=
    if style = k.SCE_ASY .COMMENTBLOCK then
      if style ≠ stylePrev then s.levelNext + 1
      else if style ≠ styleNext then s.levelNext - 1
      else s.levelNext
    else if style = k.SCE_ASY .STRING_SQ ∨ style = k.SCE_ASY .STRING_DQ then
      if ¬ k.IsMultilineStringStyle stylePrev then s.levelNext + 1
      else if ¬ k.IsMultilineStringStyle styleNext then s.levelNext - 1
      else s.levelNext
    else if style = k.SCE_ASY .OPERATOR then
      s.levelNext + bracketLevel (doc.SafeGetCharAt (startPos - 1))
    else s.levelNext
  let visibleChars1 : Int :=
    if s.visibleChars = 0 ∧ ¬ k.IsSpaceEquiv style then s.visibleChars + 1 else s.visibleChars
  if startPos = s.lineStartNext then
    let foldNext := AsyFoldLineState.ofLineState (GetLineState (s.pass.lineCurrent + 1))
    let levelNext2 := max levelNext1 (sc.SC_FOLDLEVELBASE : Int)
    let bracePos :=
      CheckBraceOnNextLine doc StyleAt s.pass.lineCurrent (k.SCE_ASY .OPERATOR)
        (k.SCE_ASY .TASKMARKER)
    let brace : Bool :=
      decide (s.foldCurrent.lineComment = 0 ∧ s.foldCurrent.moduleImport = 0 ∧
        visibleChars1 ≠ 0 ∧ bracePos ≠ 0)
    let levelNext3 : Int :=
      if s.foldCurrent.lineComment ≠ 0 then
        levelNext2 + ((foldNext.lineComment : Int) - (s.foldPrev.lineComment : Int))
      else if s.foldCurrent.moduleImport ≠ 0 then
        levelNext2 + ((foldNext.moduleImport : Int) - (s.foldPrev.moduleImport : Int))
      else if brace then levelNext2 + 1
      else levelNext2
    let pass := s.pass.lineEnd sc false levelNext3
    { pass := pass
      startPos := if brace then bracePos + 1 else startPos
      levelNext := levelNext3
      foldPrev := s.foldCurrent
      foldCurrent := foldNext
      lineStartNext := min (doc.LineStart (pass.lineCurrent + 1)) endPos
      styleNext := if brace then StyleAt (bracePos + 1) else styleNext
      style := if brace then k.SCE_ASY .OPERATOR else style
      visibleChars := 0 }
  else
    { s with
      startPos := startPos
      levelNext := levelNext1
      styleNext := styleNext
      style := style
      visibleChars := visibleChars1 }

/-- The loop of `FoldAsyDoc`, at most `fuel` rounds. -/
def FoldAsyDoc.loop (k : AsyLexerH) (sc : ScintillaH)
    (CheckBraceOnNextLine : Document → (Nat → Int) → Nat → Int → Int → Nat) (doc : Document)
    (StyleAt : Nat → Int) (GetLineState : Nat → Nat) (endPos : Nat) :
    Nat → FoldAsyScan → FoldAsyScan
  | 0, s => s
  | fuel + 1, s =>
    if s.startPos < endPos then
      FoldAsyDoc.loop k sc CheckBraceOnNextLine doc StyleAt GetLineState endPos fuel
        (FoldAsyDoc.step k sc CheckBraceOnNextLine doc StyleAt GetLineState endPos s)
    else s

/-- The function `FoldAsyDoc(startPos, lengthDoc, initStyle, _, styler)` on
the document `doc` with the styles `StyleAt`, the line states `GetLineState`
and the stored fold levels `LevelAt`: the state of the pass after at most
`fuel` rounds of the loop. -/
def FoldAsyDoc (k : AsyLexerH) (sc : ScintillaH)
    (CheckBraceOnNextLine : Document → (Nat → Int) → Nat → Int → Int → Nat) (doc : Document)
    (StyleAt : Nat → Int) (GetLineState LevelAt : Nat → Nat) (startPos lengthDoc : Nat)
    (initStyle : Int) (fuel : Nat) : FoldPass :=
  let endPos := startPos + lengthDoc
  let pass := FoldPass.start sc doc LevelAt startPos
  let bracePos :=
    if pass.lineCurrent > 0 then
      CheckBraceOnNextLine doc StyleAt (pass.lineCurrent - 1) (k.SCE_ASY .OPERATOR)
        (k.SCE_ASY .TASKMARKER)
    else 0
  let startPos1 := if bracePos ≠ 0 then bracePos + 1 else startPos
  (FoldAsyDoc.loop k sc CheckBraceOnNextLine doc StyleAt GetLineState endPos fuel
    { pass := pass
      startPos := startPos1
      levelNext := pass.levelCurrent
      foldPrev :=
        if pass.lineCurrent > 0 then
          AsyFoldLineState.ofLineState (GetLineState (pass.lineCurrent - 1))
        else AsyFoldLineState.ofLineState 0
      foldCurrent := AsyFoldLineState.ofLineState (GetLineState pass.lineCurrent)
      lineStartNext := min (doc.LineStart (pass.lineCurrent + 1)) endPos
      styleNext := StyleAt startPos1
      style := initStyle
      visibleChars := 0 }).pass

/-! ### `FoldRustDoc` -/

/-- The function `IsSpaceEquiv(state)` of `LexRust.cxx`. -/
def RustLexerH.IsSpaceEquiv (k : RustLexerH) (state : Int) : Bool :=
  decide (state ≤ k.SCE_RUST .TASKMARKER)

/-- The function `IsMultilineStringStyle(style)` of `LexRust.cxx`. -/
def RustLexerH.IsMultilineStringStyle (k : RustLexerH) (style : Int) : Bool :=
  decide (style = k.SCE_RUST .STRING ∨ style = k.SCE_RUST .BYTESTRING ∨
    style = k.SCE_RUST .RAW_STRING ∨ style = k.SCE_RUST .RAW_BYTESTRING ∨
    style = k.SCE_RUST .ESCAPECHAR ∨ style = k.SCE_RUST .FORMAT_SPECIFIER ∨
    style = k.SCE_RUST .PLACEHOLDER ∨ style = k.SCE_RUST .LINE_CONTINUATION)

/-- The variables of `FoldRustDoc` in its loop. -/
structure FoldRustScan where
  pass : FoldPass
  startPos : Nat
  levelNext : Int
  foldPrev : FoldLineState
  foldCurrent : FoldLineState
  lineStartNext : Nat
  chNext : Nat
  styleNext : Int
  style : Int
  visibleChars : Int

/-- The body of the loop `while (startPos < endPos)` of `FoldRustDoc` (lines
569-646). -/
def FoldRustDoc.step (k : RustLexerH) (sc : ScintillaH)
    (CheckBraceOnNextLine : Document → (Nat → Int) → Nat → Int → Int → Nat) (doc : Document)
    (StyleAt : Nat → Int) (GetLineState : Nat → Nat) (endPos : Nat) (s : FoldRustScan) :
    FoldRustScan :=
  let ch := s.chNext
  let stylePrev := s.style
  let style0 := s.styleNext
  let startPos0 := s.startPos + 1
  let chNext0 := doc.SafeGetCharAt startPos0
  let styleNext0 := StyleAt startPos0
  let commentLevel : Int :=
    if ch = 47 ∧ chNext0 = 42 then 1 else if ch = 42 ∧ chNext0 = 47 then -1 else 0
  let skip : Bool :=
    decide ((style0 = k.SCE_RUST .COMMENTBLOCK ∨ style0 = k.SCE_RUST .COMMENTBLOCKDOC) ∧
      commentLevel ≠ 0)
  let levelNext1 : Int :=
    if style0 = k.SCE_RUST .COMMENTBLOCK ∨ style0 = k.SCE_RUST .COMMENTBLOCKDOC then
      s.levelNext + commentLevel
    else if style0 = k.SCE_RUST .STRING ∨ style0 = k.SCE_RUST .BYTESTRING ∨
        style0 = k.SCE_RUST .RAW_STRING ∨ style0 = k.SCE_RUST .RAW_BYTESTRING then
      if ¬ k.IsMultilineStringStyle stylePrev then s.levelNext + 1
      else if ¬ k.IsMultilineStringStyle styleNext0 then s.levelNext - 1
      else s.levelNext
    else if style0 = k.SCE_RUST .OPERATOR then s.levelNext + bracketLevel ch
    else s.levelNext
  let startPos := if skip then startPos0 + 1 else startPos0
  let style := if skip then styleNext0 else style0
  let chNext := if skip then doc.SafeGetCharAt (startPos0 + 1) else chNext0
  let styleNext := if skip then StyleAt (startPos0 + 1) else styleNext0
  let visibleChars1 : Int :=
    if s.visibleChars = 0 ∧ ¬ k.IsSpaceEquiv style then s.visibleChars + 1 else s.visibleChars
  if startPos = s.lineStartNext then
    let foldNext := FoldLineState.ofLineState (GetLineState (s.pass.lineCurrent + 1))
    let bracePos :=
      CheckBraceOnNextLine doc StyleAt s.pass.lineCurrent (k.SCE_RUST .OPERATOR)
        (k.SCE_RUST .TASKMARKER)
    let brace : Bool :=
      decide (s.foldCurrent.lineComment = 0 ∧ s.foldCurrent.pubUse = 0 ∧
        visibleChars1 ≠ 0 ∧ bracePos ≠ 0)
    let levelNext2 : Int :=
      if s.foldCurrent.lineComment ≠ 0 then
        levelNext1 + ((foldNext.lineComment : Int) - (s.foldPrev.lineComment : Int))
      else if s.foldCurrent.pubUse ≠ 0 then
        levelNext1 + ((foldNext.pubUse : Int) - (s.foldPrev.pubUse : Int))
      else if brace then levelNext1 + 1
      else levelNext1
    let pass := s.pass.lineEnd sc true levelNext2
    { pass := pass
      startPos := if brace then bracePos + 1 else startPos
      levelNext := levelNext2
      foldPrev := s.foldCurrent
      foldCurrent := foldNext
      lineStartNext := min (doc.LineStart (pass.lineCurrent + 1)) endPos
      chNext := if brace then doc.SafeGetCharAt (bracePos + 1) else chNext
      styleNext := if brace then StyleAt (bracePos + 1) else styleNext
      style := if brace then k.SCE_RUST .OPERATOR else style
      visibleChars := 0 }
  else
    { s with
      startPos := startPos
      levelNext := levelNext1
      chNext := chNext
      styleNext := styleNext
      style := style
      visibleChars := visibleChars1 }

/-- The loop of `FoldRustDoc`, at most `fuel` rounds. -/
def FoldRustDoc.loop (k : RustLexerH) (sc : ScintillaH)
    (CheckBraceOnNextLine : Document → (Nat → Int) → Nat → Int → Int → Nat) (doc : Document)
    (StyleAt : Nat → Int) (GetLineState : Nat → Nat) (endPos : Nat) :
    Nat → FoldRustScan → FoldRustScan
  | 0, s => s
  | fuel + 1, s =>
    if s.startPos < endPos then
      FoldRustDoc.loop k sc CheckBraceOnNextLine doc StyleAt GetLineState endPos fuel
        (FoldRustDoc.step k sc CheckBraceOnNextLine doc StyleAt GetLineState endPos s)
    else s

/-- The function `FoldRustDoc(startPos, lengthDoc, initStyle, _, styler)` on
the document `doc` with the styles `StyleAt`, the line states `GetLineState`
and the stored fold levels `LevelAt`: the state of the pass after at most
`fuel` rounds of the loop. -/
def FoldRustDoc (k : RustLexerH) (sc : ScintillaH)
    (CheckBraceOnNextLine : Document → (Nat → Int) → Nat → Int → Int → Nat) (doc : Document)
    (StyleAt : Nat → Int) (GetLineState LevelAt : Nat → Nat) (startPos lengthDoc : Nat)
    (initStyle : Int) (fuel : Nat) : FoldPass :=
  let endPos := startPos + lengthDoc
  let pass := FoldPass.start sc doc LevelAt startPos
  let bracePos :=
    if pass.lineCurrent > 0 then
      CheckBraceOnNextLine doc StyleAt (pass.lineCurrent - 1) (k.SCE_RUST .OPERATOR)
        (k.SCE_RUST .TASKMARKER)
    else 0
  let startPos1 := if bracePos ≠ 0 then bracePos + 1 else startPos
  (FoldRustDoc.loop k sc CheckBraceOnNextLine doc StyleAt GetLineState endPos fuel
    { pass := pass
      startPos := startPos1
      levelNext := pass.levelCurrent
      foldPrev :=
        if pass.lineCurrent > 0 then
          FoldLineState.ofLineState (GetLineState (pass.lineCurrent - 1))
        else FoldLineState.ofLineState 0
      foldCurrent := FoldLineState.ofLineState (GetLineState pass.lineCurrent)
      lineStartNext := min (doc.LineStart (pass.lineCurrent + 1)) endPos
      chNext := doc.SafeGetCharAt startPos1
      styleNext := StyleAt startPos1
      style := initStyle
      visibleChars := 0 }).pass

/-! ### `FoldJsDoc` -/

/-- The structure `FoldLineState` of `LexJavaScript.cxx`. -/
structure JsFoldLineState where
  lineComment : Nat
  packageImport : Nat
  lineContinuation : Nat
deriving DecidableEq, Repr

/-- The constructor `FoldLineState(lineState)` of `LexJavaScript.cxx`. -/
def JsFoldLineState.ofLineState (lineState : Nat) : JsFoldLineState :=
  { lineComment := lineState &&& JsLineStateMaskLineComment
    packageImport := (lineState >>> 1) &&& 1
    lineContinuation := (lineState >>> 4) &&& 1 }

/-- The function `IsStreamCommentStyle(style)`. -/
def JsLexerH.IsStreamCommentStyle (k : JsLexerH) (style : Int) : Bool :=
  decide (style = k.SCE_JS .COMMENTBLOCK ∨ style = k.SCE_JS .COMMENTBLOCKDOC ∨
    style = k.SCE_JS .COMMENTTAGAT ∨ style = k.SCE_JS .COMMENTTAGXML ∨
    style = k.SCE_JS .TASKMARKER)

/-- The function `IsMultilineStringStyle(style)` of `LexJavaScript.cxx`. -/
def JsLexerH.IsMultilineStringStyle (k : JsLexerH) (style : Int) : Bool :=
  decide (style = k.SCE_JS .STRING_BT ∨ style = k.SCE_JS .OPERATOR2 ∨
    style = k.SCE_JS .ESCAPECHAR)

/-- The variables of `FoldJsDoc` in its loop. -/
structure FoldJsScan where
  pass : FoldPass
  startPos : Nat
  levelNext : Int
  foldPrev : JsFoldLineState
  foldCurrent : JsFoldLineState
  lineStartNext : Nat
  chNext : Nat
  styleNext : Int
  style : Int
  visibleChars : Int

/-- The body of the loop `while (startPos < endPos)` of `FoldJsDoc` (lines
623-711). -/
def FoldJsDoc.step (k : JsLexerH) (sc : ScintillaH)
    (CheckBraceOnNextLine : Document → (Nat → Int) → Nat → Int → Int → Nat) (doc : Document)
    (StyleAt : Nat → Int) (GetLineState : Nat → Nat) (endPos : Nat) (s : FoldJsScan) :
    FoldJsScan :=
  let ch := s.chNext
  let stylePrev := s.style
  let style := s.styleNext
  let startPos0 := s.startPos + 1
  let chNext0 := doc.SafeGetCharAt startPos0
  let styleNext0 := StyleAt startPos0
  let skip : Bool := decide (style = k.SCE_JS .JSX_TAG ∧ ch = 60 ∧ chNext0 = 47)
  let levelNext1 : Int :=
    if style = k.SCE_JS .COMMENTBLOCK ∨ style = k.SCE_JS .COMMENTBLOCKDOC then
      if ¬ k.IsStreamCommentStyle stylePrev then s.levelNext + 1
      else if ¬ k.IsStreamCommentStyle styleNext0 then s.levelNext - 1
      else s.levelNext
    else if style = k.SCE_JS .STRING_BT then
      if ¬ k.IsMultilineStringStyle stylePrev then s.levelNext + 1
      else if ¬ k.IsMultilineStringStyle styleNext0 then s.levelNext - 1
      else s.levelNext
    else if style = k.SCE_JS .OPERATOR then s.levelNext + bracketLevel ch
    else if style = k.SCE_JS .JSX_TAG then
      if ch = 60 then (if chNext0 = 47 then s.levelNext - 1 else s.levelNext + 1)
      else if ch = 47 ∧ chNext0 = 62 then s.levelNext - 1
      else s.levelNext
    else s.levelNext
  let startPos := if skip then startPos0 + 1 else startPos0
  let chNext := if skip then doc.SafeGetCharAt (startPos0 + 1) else chNext0
  let styleNext := if skip then StyleAt (startPos0 + 1) else styleNext0
  let visibleChars1 : Int :=
    if s.visibleChars = 0 ∧ ¬ k.IsSpaceEquiv style then s.visibleChars + 1 else s.visibleChars
  if startPos = s.lineStartNext then
    let foldNext := JsFoldLineState.ofLineState (GetLineState (s.pass.lineCurrent + 1))
    let bracePos :=
      CheckBraceOnNextLine doc StyleAt s.pass.lineCurrent (k.SCE_JS .OPERATOR)
        (k.SCE_JS .TASKMARKER)
    let brace : Bool :=
      decide (s.foldCurrent.lineComment = 0 ∧ s.foldCurrent.packageImport = 0 ∧
        s.foldCurrent.lineContinuation ||| s.foldPrev.lineContinuation = 0 ∧
        visibleChars1 ≠ 0 ∧ bracePos ≠ 0)
    let levelNext2 : Int :=
      if s.foldCurrent.lineComment ≠ 0 then
        levelNext1 + ((foldNext.lineComment : Int) - (s.foldPrev.lineComment : Int))
      else if s.foldCurrent.packageImport ≠ 0 then
        levelNext1 + ((foldNext.packageImport : Int) - (s.foldPrev.packageImport : Int))
      else if s.foldCurrent.lineContinuation ||| s.foldPrev.lineContinuation ≠ 0 then
        levelNext1 +
          ((s.foldCurrent.lineContinuation : Int) - (s.foldPrev.lineContinuation : Int))
      else if brace then levelNext1 + 1
      else levelNext1
    let pass := s.pass.lineEnd sc true levelNext2
    { pass := pass
      startPos := if brace then bracePos + 1 else startPos
      levelNext := levelNext2
      foldPrev := s.foldCurrent
      foldCurrent := foldNext
      lineStartNext := min (doc.LineStart (pass.lineCurrent + 1)) endPos
      chNext := if brace then doc.SafeGetCharAt (bracePos + 1) else chNext
      styleNext := if brace then StyleAt (bracePos + 1) else styleNext
      style := if brace then k.SCE_JS .OPERATOR else style
      visibleChars := 0 }
  else
    { s with
      startPos := startPos
      levelNext := levelNext1
      chNext := chNext
      styleNext := styleNext
      style := style
      visibleChars := visibleChars1 }

/-- The loop of `FoldJsDoc`, at most `fuel` rounds. -/
def FoldJsDoc.loop (k : JsLexerH) (sc : ScintillaH)
    (CheckBraceOnNextLine : Document → (Nat → Int) → Nat → Int → Int → Nat) (doc : Document)
    (StyleAt : Nat → Int) (GetLineState : Nat → Nat) (endPos : Nat) :
    Nat → FoldJsScan → FoldJsScan
  | 0, s => s
  | fuel + 1, s =>
    if s.startPos < endPos then
      FoldJsDoc.loop k sc CheckBraceOnNextLine doc StyleAt GetLineState endPos fuel
        (FoldJsDoc.step k sc CheckBraceOnNextLine doc StyleAt GetLineState endPos s)
    else s

/-- The variables of `FoldJsDoc` before its loop (lines 600-621). -/
def FoldJsDoc.start (k : JsLexerH) (sc : ScintillaH)
    (CheckBraceOnNextLine : Document → (Nat → Int) → Nat → Int → Int → Nat) (doc : Document)
    (StyleAt : Nat → Int) (GetLineState LevelAt : Nat → Nat) (startPos lengthDoc : Nat)
    (initStyle : Int) : FoldJsScan :=
  let endPos := startPos + lengthDoc
  let pass := FoldPass.start sc doc LevelAt startPos
  let bracePos :=
    if pass.lineCurrent > 0 then
      CheckBraceOnNextLine doc StyleAt (pass.lineCurrent - 1) (k.SCE_JS .OPERATOR)
        (k.SCE_JS .TASKMARKER)
    else 0
  let startPos1 := if bracePos ≠ 0 then bracePos + 1 else startPos
  { pass := pass
    startPos := startPos1
    levelNext := pass.levelCurrent
    foldPrev :=
      if pass.lineCurrent > 0 then
        JsFoldLineState.ofLineState (GetLineState (pass.lineCurrent - 1))
      else JsFoldLineState.ofLineState 0
    foldCurrent := JsFoldLineState.ofLineState (GetLineState pass.lineCurrent)
    lineStartNext := min (doc.LineStart (pass.lineCurrent + 1)) endPos
    chNext := doc.SafeGetCharAt startPos1
    styleNext := StyleAt startPos1
    style := initStyle
    visibleChars := 0 }

/-- The function `FoldJsDoc(startPos, lengthDoc, initStyle, _, styler)` on the
document `doc` with the styles `StyleAt`, the line states `GetLineState` and
the stored fold levels `LevelAt`: the state of the pass after at most `fuel`
rounds of the loop. -/
def FoldJsDoc (k : JsLexerH) (sc : ScintillaH)
    (CheckBraceOnNextLine : Document → (Nat → Int) → Nat → Int → Int → Nat) (doc : Document)
    (StyleAt : Nat → Int) (GetLineState LevelAt : Nat → Nat) (startPos lengthDoc : Nat)
    (initStyle : Int) (fuel : Nat) : FoldPass :=
  (FoldJsDoc.loop k sc CheckBraceOnNextLine doc StyleAt GetLineState (startPos + lengthDoc) fuel
    (FoldJsDoc.start k sc CheckBraceOnNextLine doc StyleAt GetLineState LevelAt startPos
      lengthDoc initStyle)).pass

/-- Spec-side: the current-depth field of a fold level, its bits under
`SC_FOLDLEVELNUMBERMASK`. -/
def foldCurrentDepth (sc : ScintillaH) (level : Nat) : Nat := level &&& sc.SC_FOLDLEVELNUMBERMASK

/-- Spec-side: a depth fits the current-depth field: it is not negative and
has no bit outside `SC_FOLDLEVELNUMBERMASK`. -/
def FitsNumberMask (sc : ScintillaH) (depth : Int) : Prop :=
  0 ≤ depth ∧ depth.toNat &&& sc.SC_FOLDLEVELNUMBERMASK = depth.toNat

instance (sc : ScintillaH) (depth : Int) : Decidable (FitsNumberMask sc depth) := by
  unfold FitsNumberMask
  infer_instance

/-- A `CheckBraceOnNextLine` that finds no brace, for concrete evaluations. -/
def noBraceOnNextLine : Document → (Nat → Int) → Nat → Int → Int → Nat := fun _ _ _ _ _ => 0

/-- Spec-side: the fold constants leave room for the fields: the number mask
is below `2 ^ 15` and the header flag is a bit below `2 ^ 16` outside the
number mask. -/
def ScintillaH.FoldFields (sc : ScintillaH) : Prop :=
  sc.SC_FOLDLEVELNUMBERMASK < 2 ^ 15 ∧ sc.SC_FOLDLEVELHEADERFLAG < 2 ^ 16 ∧
    sc.SC_FOLDLEVELHEADERFLAG &&& sc.SC_FOLDLEVELNUMBERMASK = 0

instance (sc : ScintillaH) : Decidable sc.FoldFields := by
  unfold ScintillaH.FoldFields
  infer_instance

/-- Spec-side: every depth a pass has computed at a line end fits the
current-depth field. -/
def FoldPass.Fits (sc : ScintillaH) (p : FoldPass) : Prop :=
  ∀ t ∈ p.lines, FitsNumberMask sc t.2.1 ∧ FitsNumberMask sc t.2.2

instance (sc : ScintillaH) (p : FoldPass) : Decidable (p.Fits sc) := by
  unfold FoldPass.Fits
  infer_instance

/-- Spec-side: fold chain continuity for the levels a pass has set: for every
call `SetLevel(i, level)` with `i > 0`, the current-depth field of `level` is
the next-depth field `>> 16` of the level stored for line `i - 1`. -/
def FoldPass.Continuous (sc : ScintillaH) (p : FoldPass) : Prop :=
  ∀ x ∈ p.calls, 0 < x.1 → (foldCurrentDepth sc x.2 : Int) = shiftRight16 (p.LevelAt (x.1 - 1))

/-- Spec-side: an opening bracket `{`, `[` or `(`. -/
def isOpeningBracket (ch : Nat) : Bool := ch == 123 || ch == 91 || ch == 40

/-- Spec-side: a closing bracket `}`, `]` or `)`. -/
def isClosingBracket (ch : Nat) : Bool := ch == 125 || ch == 93 || ch == 41

/-- Spec-side: the number of positions in `[start, start + n)` whose style is
`style` and whose byte passes `test`. -/
def countStyled (doc : Document) (StyleAt : Nat → Int) (style : Int) (test : Nat → Bool)
    (start : Nat) : Nat → Nat
  | 0 => 0
  | n + 1 =>
    countStyled doc StyleAt style test start n +
      (if StyleAt (start + n) = style ∧ test (doc.SafeGetCharAt (start + n)) then 1 else 0)

/-- Spec-side: the number of opening brackets of style `style` on a line. -/
def openingBrackets (doc : Document) (StyleAt : Nat → Int) (style : Int) (line : Nat) : Nat :=
  countStyled doc StyleAt style isOpeningBracket (doc.LineStart line) (doc.getD line []).length

/-- Spec-side: the number of closing brackets of style `style` on a line. -/
def closingBrackets (doc : Document) (StyleAt : Nat → Int) (style : Int) (line : Nat) : Nat :=
  countStyled doc StyleAt style isClosingBracket (doc.LineStart line) (doc.getD line []).length

/-- Spec-side: the current depth of the line `first + n` in bracket folding
that starts on line `first` with the depth `depth`: each line adds its opening
brackets and takes away its closing brackets. -/
def bracketDepth (doc : Document) (StyleAt : Nat → Int) (style : Int) (first : Nat)
    (depth : Int) : Nat → Int
  | 0 => depth
  | n + 1 =>
    bracketDepth doc StyleAt style first depth n +
      (openingBrackets doc StyleAt style (first + n) : Int) -
      (closingBrackets doc StyleAt style (first + n) : Int)

/-- Spec-side: the lines `first` to `first + n - 1` in bracket folding, each
with its current depth and its next depth, which is the current depth plus the
number of opening brackets minus the number of closing brackets of the
line. -/
def bracketFoldLines (doc : Document) (StyleAt : Nat → Int) (style : Int) (first : Nat)
    (depth : Int) : Nat → List (Nat × Int × Int)
  | 0 => []
  | n + 1 =>
    bracketFoldLines doc StyleAt style first depth n ++
      [(first + n, bracketDepth doc StyleAt style first depth n,
        bracketDepth doc StyleAt style first depth n +
          (openingBrackets doc StyleAt style (first + n) : Int) -
          (closingBrackets doc StyleAt style (first + n) : Int))]

/-- The state of `FoldJsDoc` at the byte `j` of the line `first + n` of a pass
that ends before the line `last`, over lines with nothing but brackets to
fold: the lines before are folded by
their brackets, `levelNext` counts the brackets of the line before the byte,
`foldCurrent` holds the flags of the line and the continuation flag of the
line before is clear. -/
structure FoldJsDoc.AtByte (k : JsLexerH) (sc : ScintillaH) (doc : Document)
    (StyleAt : Nat → Int) (GetLineState : Nat → Nat) (first last : Nat) (depth : Int)
    (n j : Nat) (s : FoldJsScan) : Prop where
  lineCurrent : s.pass.lineCurrent = first + n
  lines : s.pass.lines = bracketFoldLines doc StyleAt (k.SCE_JS .OPERATOR) first depth n
  levelCurrent : s.pass.levelCurrent = bracketDepth doc StyleAt (k.SCE_JS .OPERATOR) first depth n
  levels : ∀ t ∈ s.pass.lines, t.1 < s.pass.lineCurrent ∧
    s.pass.LevelAt t.1 = foldLevel sc t.2.1 t.2.2
  startPos : s.startPos = doc.LineStart (first + n) + j
  levelNext : s.levelNext =
    bracketDepth doc StyleAt (k.SCE_JS .OPERATOR) first depth n +
      (countStyled doc StyleAt (k.SCE_JS .OPERATOR) isOpeningBracket
        (doc.LineStart (first + n)) j : Int) -
      (countStyled doc StyleAt (k.SCE_JS .OPERATOR) isClosingBracket
        (doc.LineStart (first + n)) j : Int)
  chNext : s.chNext = doc.SafeGetCharAt s.startPos
  styleNext : s.styleNext = StyleAt s.startPos
  lineStartNext : s.lineStartNext = min (doc.LineStart (first + n + 1)) (doc.LineStart last)
  foldCurrent : s.foldCurrent = JsFoldLineState.ofLineState (GetLineState (first + n))
  foldPrev : s.foldPrev.lineContinuation = 0

/-- The document `function f() {` / `  return 1;` / `}` with a line end after
each line, for concrete evaluations. -/
def jsFunctionDoc : Document :=
  [bytes "function f() \x7b\n", bytes "  return 1;\n", bytes "\x7d\n", []]

/-- The styles `ColouriseJsDoc` gives the bytes of `jsFunctionDoc` with empty
word lists (12 identifier, 20 function, 8 operator, 11 number, 0 default);
checked in the witness of C27. -/
def jsFunctionStyles : Nat → Int := fun p =>
  ([12, 12, 12, 12, 12, 12, 12, 12, 0, 20, 8, 8, 0, 8, 0, 0, 0, 12, 12, 12, 12, 12, 12, 0, 11,
    8, 0, 8, 0] : List Int).getD p 0

/-- The recorded `ColorTo` calls are in order and lie between `lo` and `hi`:
their positions are non-decreasing, not below `lo` and not above `hi`. -/
def CallsOk (lo hi : Nat) (calls : List (Nat × Int)) : Prop :=
  (calls.map Prod.fst).Pairwise (fun a b => a ≤ b) ∧ ∀ x ∈ calls, lo ≤ x.1 ∧ x.1 ≤ hi

/-- The range of a call of `ColouriseMakeDoc` ends at the end of the document,
or right after a line-end byte that `IsASpace` accepts. -/
def ColouriseMakeDoc.RangeEnd (k : MakeLexerH) (doc : Document) (endPos : Nat) : Prop :=
  endPos = doc.Length ∨
    (0 < endPos ∧ IsEOLChar (doc.SafeGetCharAt (endPos - 1)) = true ∧
      k.IsASpace (doc.SafeGetCharAt (endPos - 1)) = true)

/-- What a pass through the `switch (state)` of `ColouriseMakeDoc` does to the
variables `s`: it ends, it leaves `i`, `ch` and `chNext` alone, and it makes at
most one `ColorTo` call, at `i`, or at `i + 1` when it ends with `continue`. -/
def ColouriseMakeDoc.StateCaseOk (s : MakeScan) (r : Option (MakeScan × Bool)) : Prop :=
  ∃ s1 c, r = some (s1, c) ∧ s1.i = s.i ∧ s1.ch = s.ch ∧ s1.chNext = s.chNext ∧
    ((c = false ∧ (s1.calls = s.calls ∨ ∃ st, s1.calls = s.calls ++ [(s.i, st)])) ∨
      (c = true ∧ ∃ st, s1.calls = s.calls ++ [(s.i + 1, st)]))

/-- What holds of the variables of `ColouriseMakeDoc` at the start of each
round of its loop, for ranges that start at `startPos`: `chNext` is the byte
at `i`, and the `ColorTo` calls made so far are in order, between `startPos`
and the smaller of `i` and `endPos`. -/
def ColouriseMakeDoc.Inv (doc : Document) (startPos endPos : Nat) (s : MakeScan) : Prop :=
  s.chNext = doc.SafeGetCharAt s.i ∧ startPos ≤ s.i ∧
    CallsOk startPos (min s.i endPos) s.calls

/-- The number of bytes between the cursor and the end of the scanned range;
`sc.More()` holds when it is not zero. -/
def StyleContext.rem (sc : StyleContext) : Nat := sc.endPos - sc.currentPos

/-- What the loop of `ColouriseRustDoc` needs of the helper
`HighlightTaskMarker`, which is not among the sources: it leaves the end of the
scanned range alone, it does not move the cursor back, and when it returns
`true` inside the range it has moved the cursor forward. -/
def RustLexerH.TaskMarkerMoves (k : RustLexerH) : Prop :=
  ∀ (sc : StyleContext) (v vb m : Int),
    (k.HighlightTaskMarker sc v vb m).1.endPos = sc.endPos ∧
    sc.currentPos ≤ (k.HighlightTaskMarker sc v vb m).1.currentPos ∧
    ((k.HighlightTaskMarker sc v vb m).2.2 = true → sc.currentPos < sc.endPos →
      sc.currentPos < (k.HighlightTaskMarker sc v vb m).1.currentPos)

/-- The state `escSeq.outerState`, to which the states
`SCE_RUST_ESCAPECHAR` and `SCE_RUST_PLACEHOLDER` return, is neither of these
two states. -/
def ColouriseRustDoc.OuterOk (k : RustLexerH) (s : RustScan) : Prop :=
  s.escSeq.outerState ≠ k.SCE_RUST .ESCAPECHAR ∧ s.escSeq.outerState ≠ k.SCE_RUST .PLACEHOLDER

/-- The cursor is in one of the states `SCE_RUST_ESCAPECHAR` and
`SCE_RUST_PLACEHOLDER`, which may end with `continue` on the same byte. -/
def ColouriseRustDoc.Pending (k : RustLexerH) (s : RustScan) : Prop :=
  s.sc.state = k.SCE_RUST .ESCAPECHAR ∨ s.sc.state = k.SCE_RUST .PLACEHOLDER

instance (k : RustLexerH) (s : RustScan) : Decidable (ColouriseRustDoc.Pending k s) := by
  unfold ColouriseRustDoc.Pending
  infer_instance

/-- The bound on the number of rounds the loop of `ColouriseRustDoc` still
makes: two for each byte left, and one more in a state that may end with
`continue` on the same byte. -/
def ColouriseRustDoc.roundsLeft (k : RustLexerH) (s : RustScan) : Nat :=
  2 * s.sc.rem + (if ColouriseRustDoc.Pending k s then 1 else 0)

/-- What a part of a round of the loop of `ColouriseRustDoc` does to the
cursor, from the variables `s` to the variables `r.1`, with `r.2` telling
whether the part ended with `continue`: the end of the range stays, the
number of bytes left does not grow, the outer state stays outside the two
pending states, and a part that ends with `continue` has moved the cursor
forward (unless it is at the end of the range) or has left a pending state. -/
def ColouriseRustDoc.RoundOk (k : RustLexerH) (s : RustScan) (r : RustScan × Bool) : Prop :=
  r.1.sc.endPos = s.sc.endPos ∧ r.1.sc.rem ≤ s.sc.rem ∧ ColouriseRustDoc.OuterOk k r.1 ∧
    (r.2 = true → r.1.sc.rem < s.sc.rem ∨ s.sc.rem = 0 ∨
      (ColouriseRustDoc.Pending k s ∧ ¬ ColouriseRustDoc.Pending k r.1))

/-- The variables `s1` have the cursor of the variables `s` at the same place:
the same end of the range, number of bytes left and current byte, and the same
escape sequence. -/
def ColouriseRustDoc.SameCursor (s s1 : RustScan) : Prop :=
  s1.sc.endPos = s.sc.endPos ∧ s1.sc.rem = s.sc.rem ∧ s1.sc.ch = s.sc.ch ∧
    s1.escSeq = s.escSeq

/-- Spec-side: the fold level of a diff line by its type and the level
`prev` of the preceding line: a command line has the base level with the header
flag, a header line the base level plus 1 with the header flag, a position
line that does not start with `-` the base level plus 2 with the header flag;
any other line has one more than the depth of the preceding line when `prev`
has the header flag, and `prev` otherwise. -/
def diffLineLevel (k : SciLexerH) (sc : ScintillaH) (doc : Document) (line prev : Nat) : Nat :=
  if ColouriseDiffDoc.lineType k doc line = k.SCE_DIFF_COMMAND then
    sc.SC_FOLDLEVELBASE ||| sc.SC_FOLDLEVELHEADERFLAG
  else if ColouriseDiffDoc.lineType k doc line = k.SCE_DIFF_HEADER then
    (sc.SC_FOLDLEVELBASE + 1) ||| sc.SC_FOLDLEVELHEADERFLAG
  else if ColouriseDiffDoc.lineType k doc line = k.SCE_DIFF_POSITION ∧
      (doc.GetRange (doc.LineStart line) (doc.LineStart (line + 1))
        DIFF_BUFFER_START_SIZE).getD 0 0 ≠ 45 then
    (sc.SC_FOLDLEVELBASE + 2) ||| sc.SC_FOLDLEVELHEADERFLAG
  else if prev &&& sc.SC_FOLDLEVELHEADERFLAG ≠ 0 then
    (prev &&& sc.SC_FOLDLEVELNUMBERMASK) + 1
  else prev

/-- Spec-side: the `SetLevel` calls for `n` lines from `line` on, `prev`
being the level of the line before `line`: each line gets its level by
`diffLineLevel`, and just before that, when this level has the header flag and
equals `prev`, the preceding line gets `prev` with the header flag cleared. -/
def diffFoldCalls (k : SciLexerH) (sc : ScintillaH) (doc : Document) :
    Nat → Nat → Nat → List (Int × Nat)
  | 0, _, _ => []
  | n + 1, line, prev =>
    (if diffLineLevel k sc doc line prev &&& sc.SC_FOLDLEVELHEADERFLAG ≠ 0 ∧
        diffLineLevel k sc doc line prev = prev then
      [((line : Int) - 1, clearBits prev sc.SC_FOLDLEVELHEADERFLAG)]
    else []) ++
      ((line : Int), diffLineLevel k sc doc line prev) ::
        diffFoldCalls k sc doc n (line + 1) (diffLineLevel k sc doc line prev)

/-- Every `SetLevel` call of a pass of a structural folder was made at the end
of a line the pass has handled, with the level `foldLevel` packs from the
current and the next depth of that line. -/
def FoldPass.FromLines (sc : ScintillaH) (p : FoldPass) : Prop :=
  ∀ x ∈ p.calls, ∃ t ∈ p.lines, x = (t.1, foldLevel sc t.2.1 t.2.2)

/-- The bytes of the open run of the cursor: the text of the token that ends at
the current position. -/
def StyleContext.currentText (sc : StyleContext) : CStr :=
  (sc.doc.flatten.drop sc.styler.startSeg).take (sc.currentPos - sc.styler.startSeg)

/-- Spec-side: the dictionaries of the Rust tokenizer in the order "keyword,
reserved keyword, primitive type, struct, trait, enumeration, union,
constant", each with the style it gives. -/
def rustDictionaryOrder : List (Nat × RustStyle) :=
  [(KeywordIndex_Keyword, .WORD), (KeywordIndex_ReservedKeyword, .WORD2),
    (KeywordIndex_PrimitiveType, .TYPE), (KeywordIndex_Struct, .STRUCT),
    (KeywordIndex_Trait, .TRAIT), (KeywordIndex_Enumeration, .ENUMERATION),
    (KeywordIndex_Union, .UNION), (KeywordIndex_Constant, .CONSTANT)]

/-- Spec-side: the style of "the first dictionary that contains its text", if
there is one. -/
def firstRustDictionary (h : WordListH) (keywordLists : Nat → WordList) (text : CStr) :
    Option RustStyle :=
  (rustDictionaryOrder.find? (fun d => inKeywordList h keywordLists d.1 text)).map Prod.snd

/-- Word lists for concrete evaluations of `ColouriseRustDoc`: the keyword list
holds one word, the byte `a` 127 times; the other lists are empty. -/
def longKeyword : Nat → WordList := fun index =>
  if index = KeywordIndex_Keyword then
    ((WordList.empty asciiH).Set asciiH (List.replicate 127 97) ⟨false, false⟩).getD
      (WordList.empty asciiH)
  else WordList.empty asciiH

/-- Word lists for concrete evaluations of `ColouriseRustDoc`: the keyword list
holds the word `fn`; the other lists are empty. -/
def fnKeyword : Nat → WordList := fun index =>
  if index = KeywordIndex_Keyword then
    ((WordList.empty asciiH).Set asciiH (bytes "fn") ⟨false, false⟩).getD (WordList.empty asciiH)
  else WordList.empty asciiH

/-- The position from which `GetNextChar` sets `atLineEnd`: the last byte of
the line of the cursor, or the end of the text on the last line. -/
def StyleContext.lineEndPos (sc : StyleContext) : Nat :=
  if sc.currentLine < sc.lineDocEnd then sc.lineStartNext - 1 else sc.lineStartNext

/-- A helper `HighlightTaskMarker` that finds no task marker: it leaves the
cursor alone and returns `false`. -/
def RustLexerH.NoTaskMarker (k : RustLexerH) : Prop :=
  ∀ (sc : StyleContext) (v vb m : Int),
    (k.HighlightTaskMarker sc v vb m).1 = sc ∧ (k.HighlightTaskMarker sc v vb m).2.2 = false

/-- Spec-side: the nesting depth at each byte of a block comment, for a text
read after `d` more openers than closers were seen: `/*` and `*/` are "scanned
left to right, non-overlapping", an opener adds one to the depth and a closer
takes one off, both bytes of a token have the depth after it, and the list ends
with the closer that brings the depth to 0, where the numbers of openers and
closers are equal; `none` when the text ends before. -/
def commentDepths (d : Nat) : List Nat → Option (List Nat)
  | a :: b :: rest =>
    if a = 47 ∧ b = 42 then
      (commentDepths (d + 1) rest).map (fun l => (d + 1) :: (d + 1) :: l)
    else if a = 42 ∧ b = 47 then
      if d = 1 then some [0, 0]
      else (commentDepths (d - 1) rest).map (fun l => (d - 1) :: (d - 1) :: l)
    else (commentDepths d (b :: rest)).map (fun l => d :: l)
  | _ => none

/-- The scan `t` is inside a block comment at depth `d`, `m` bytes after the
cursor `e` that has entered the comment in the scan `s0`: the cursor of `t` is
`e` moved `m` bytes forward in the same state and with the same style runs,
`commentLevel` is `d`, and the other counters and flags of the line state are
those of `s0`, the line type possibly cleared at a line end. -/
def ColouriseRustDoc.InComment (e : StyleContext) (s0 t : RustScan) (m d : Nat) : Prop :=
  (t.sc.currentPos = e.currentPos + m ∧ t.sc.doc = e.doc ∧ t.sc.endPos = e.endPos ∧
    t.sc.lengthDocument = e.lengthDocument ∧ t.sc.state = e.state ∧ t.sc.styler = e.styler ∧
    t.sc.Coherent) ∧
  t.commentLevel = (d : Int) ∧ t.squareBracket = s0.squareBracket ∧
  t.hashCount = s0.hashCount ∧ t.lineStateAttribute = s0.lineStateAttribute ∧
  (t.lineStateLineType = s0.lineStateLineType ∨ t.lineStateLineType = 0)

/-- The document of 256 openers `/*` and a line feed, and a second line of 256
closers `*/`, for concrete evaluations. -/
def deepCommentDoc : Document :=
  [(List.replicate 256 [47, 42]).flatten ++ [10], (List.replicate 256 [42, 47]).flatten]

/-- The cursor of the scan `t` is on the line of the cursor `e`, `m` bytes
after it: the line fields are those of `e`, and `atLineEnd` is set from the
position. -/
def ColouriseRustDoc.OnLine (e : StyleContext) (t : RustScan) (m : Nat) : Prop :=
  t.sc.currentLine = e.currentLine ∧ t.sc.lineDocEnd = e.lineDocEnd ∧
  t.sc.lineStartNext = e.lineStartNext ∧
  t.sc.atLineEnd = decide (e.lineEndPos ≤ e.currentPos + m)

/-- The scan of `deepCommentDoc` by `ColouriseRustDoc` before its first
round. -/
def deepCommentScan : RustScan :=
  ColouriseRustDoc.start rustLexer deepCommentDoc StyleStore.blank (fun _ => 0) 0 1025
    (rustLexer.SCE_RUST .DEFAULT)

/-- What the theorem on nested block comments needs of the helper
`HighlightTaskMarker`, which is not among the sources, when it gets a cursor
that is coherent with the document. When it returns `false` it has left the
cursor alone. When it returns `true` it has styled a task marker: the marker
is one or more bytes of the text at the cursor, none of them `/` or `*`, and
the cursor is the one after `sc.SetState(markerStyle)`, the move past the
marker and `sc.SetState(state)`, where `state` is the state before the call. -/
def RustLexerH.TaskMarkerStyled (k : RustLexerH) : Prop :=
  ∀ (sc : StyleContext) (v vb m : Int), sc.Coherent →
    ((k.HighlightTaskMarker sc v vb m).2.2 = false → (k.HighlightTaskMarker sc v vb m).1 = sc) ∧
    ((k.HighlightTaskMarker sc v vb m).2.2 = true →
      ∃ w : List Nat, w ≠ [] ∧ w <+: sc.doc.flatten.drop sc.currentPos ∧
        (∀ c ∈ w, c ≠ 47 ∧ c ≠ 42) ∧
        (k.HighlightTaskMarker sc v vb m).1 =
          ((sc.SetState m).Advance w.length).SetState sc.state)

/-- The scan `t` is inside a block comment at depth `d`, `m` bytes after the
cursor `e` that has entered the comment in the scan `s0`: the cursor of `t` is
`m` bytes after `e` in the same state, the bytes from the start of the comment
up to the start of the open run have the style of the comment or the style of
task markers, `commentLevel` is `d`, and the other counters and flags of the
line state are those of `s0`, the line type possibly cleared at a line end. -/
def ColouriseRustDoc.InsideComment (k : RustLexerH) (e : StyleContext) (s0 t : RustScan)
    (m d : Nat) : Prop :=
  (t.sc.currentPos = e.currentPos + m ∧ t.sc.doc = e.doc ∧ t.sc.endPos = e.endPos ∧
    t.sc.lengthDocument = e.lengthDocument ∧ t.sc.state = e.state ∧ t.sc.Coherent) ∧
  (e.styler.startSeg ≤ t.sc.styler.startSeg ∧
    ∀ p, e.styler.startSeg ≤ p → p < t.sc.styler.startSeg →
      t.sc.styler.styleAt p = some e.state ∨
      t.sc.styler.styleAt p = some (k.SCE_RUST .TASKMARKER)) ∧
  t.commentLevel = (d : Int) ∧ t.squareBracket = s0.squareBracket ∧
  t.hashCount = s0.hashCount ∧ t.lineStateAttribute = s0.lineStateAttribute ∧
  (t.lineStateLineType = s0.lineStateLineType ∨ t.lineStateLineType = 0)

/-- A round of the loop of `ColouriseRustDoc` inside the block comment that
starts at the position `q` and has the nesting depths `D`; `s0` holds the
variables at the opener. There is an offset `off` inside the comment such that
`commentLevel` after the `switch` is the nesting depth `D[off]`, and either
the `switch` ends with `continue` after `HighlightTaskMarker` has styled a
task marker whose last byte is at `off`, with the cursor on the byte after it;
or the cursor is at `off` after the `switch` and the rest of the round is the
line-end block. When this block writes the line state of the line, the comment
depth in it is `D[off]`, next to the other counters and flags of `s0`, and the
comment depth read back from it, `(lineState >> 11) & 0xff`, is `D[off]` when
`D[off]` is below 256, `squareBracket` and `hashCount` are in 0..255 and the
two flags have values that the code gives them. -/
def ColouriseRustDoc.CommentRound (k : RustLexerH) (h : WordListH)
    (keywordLists : Nat → WordList) (q : Nat) (D : List Nat) (s0 t : RustScan) : Prop :=
  ∃ off x : Nat, D[off]? = some x ∧
    (ColouriseRustDoc.stateCase k h keywordLists t).1.commentLevel = (x : Int) ∧
    (((ColouriseRustDoc.stateCase k h keywordLists t).2 = true ∧
        (ColouriseRustDoc.stateCase k h keywordLists t).1.sc.currentPos = q + off + 1 ∧
        ColouriseRustDoc.step k h keywordLists t =
          (ColouriseRustDoc.stateCase k h keywordLists t).1) ∨
      ((ColouriseRustDoc.stateCase k h keywordLists t).2 = false ∧
        (ColouriseRustDoc.stateCase k h keywordLists t).1.sc.currentPos = q + off ∧
        ColouriseRustDoc.step k h keywordLists t =
          ColouriseRustDoc.lineEnd k (ColouriseRustDoc.stateCase k h keywordLists t).1 ∧
        ((ColouriseRustDoc.stateCase k h keywordLists t).1.sc.atLineEnd = true →
          (ColouriseRustDoc.step k h keywordLists t).sc.lineStates
              (ColouriseRustDoc.stateCase k h keywordLists t).1.sc.currentLine =
            packRustLineState s0.squareBracket (x : Int) s0.hashCount s0.lineStateAttribute
              (ColouriseRustDoc.stateCase k h keywordLists t).1.lineStateLineType ∧
          ((ColouriseRustDoc.stateCase k h keywordLists t).1.lineStateLineType =
              s0.lineStateLineType ∨
            (ColouriseRustDoc.stateCase k h keywordLists t).1.lineStateLineType = 0) ∧
          (x < 256 → 0 ≤ s0.squareBracket ∧ s0.squareBracket < 256 →
            0 ≤ s0.hashCount ∧ s0.hashCount < 256 →
            s0.lineStateAttribute = 0 ∨ s0.lineStateAttribute = RustLineStateMaskAttribute →
            s0.lineStateLineType = 0 ∨ s0.lineStateLineType = RustLineStateMaskLineComment ∨
              s0.lineStateLineType = RustLineStateMaskPubUse →
            (unpackRustLineState
              ((ColouriseRustDoc.step k h keywordLists t).sc.lineStates
                (ColouriseRustDoc.stateCase k h keywordLists t).1.sc.currentLine)).2.1 = x))))

/-- The lexer parameters `rustLexer` with a `HighlightTaskMarker` that finds
the task marker `TODO`, for concrete evaluations: at the four bytes `TODO` it
gives them the marker style, goes past them, returns to the state before, adds
four to `visibleChars` and returns `true`. -/
def rustLexerTodo : RustLexerH :=
  { rustLexer with
    HighlightTaskMarker := fun sc visibleChars _ markerStyle =>
      if (sc.doc.flatten.drop sc.currentPos).take 4 = [84, 79, 68, 79] then
        (((sc.SetState markerStyle).Advance 4).SetState sc.state, visibleChars + 4, true)
      else (sc, visibleChars, false) }

/-- The document of the two lines `/*TODO/*` and `*/*/x`, for concrete
evaluations. -/
def markedCommentDoc : Document := [bytes "/*TODO/*\n", bytes "*/*/x"]

/-- The scan of `markedCommentDoc` by `ColouriseRustDoc` with the parameters
`rustLexerTodo` before its first round. -/
def markedCommentScan : RustScan :=
  ColouriseRustDoc.start rustLexerTodo markedCommentDoc StyleStore.blank (fun _ => 0) 0 14
    (rustLexerTodo.SCE_RUST .DEFAULT)

/-- The nesting depths of the thirteen bytes of the comment in
`markedCommentDoc`. -/
def markedCommentDepths : List Nat := [1, 1, 1, 1, 1, 1, 2, 2, 2, 1, 1, 0, 0]

/-- The variables of two scans of `ColouriseMakeDoc` over the same text, one
started with the static `makeType` at `m0` and the other with it at `m1`: the
variables other than `makeType` and the calls made are the same, and the two
values of `makeType` are the ones at the start or one and the same value. -/
def ColouriseMakeDoc.SameScan (m0 m1 : Nat) (a b : MakeScan) : Prop :=
  a.i = b.i ∧ a.state = b.state ∧ a.ch = b.ch ∧ a.chNext = b.chNext ∧
  a.visibleChars = b.visibleChars ∧ a.lineCurrent = b.lineCurrent ∧ a.buf = b.buf ∧
  a.wordLen = b.wordLen ∧ a.varCount = b.varCount ∧
  ((a.makeType = m0 ∧ b.makeType = m1) ∨ a.makeType = b.makeType)

/-- The results of the `switch` of `ColouriseMakeDoc` in two scans that differ
in the static `makeType`: it ends in both or in none, with the same `continue`
flag and the same variables apart from `makeType` and the calls. -/
def ColouriseMakeDoc.SameResult (m0 m1 : Nat) (ra rb : Option (MakeScan × Bool)) : Prop :=
  (ra = none ∧ rb = none) ∨
  ∃ a1 b1 f, ra = some (a1, f) ∧ rb = some (b1, f) ∧ ColouriseMakeDoc.SameScan m0 m1 a1 b1

/-- The document of the two lines `a foo b` and `.x y`, for concrete
evaluations. -/
def bmakeDoc : Document := [bytes "a foo b\n", bytes ".x y\n"]

/-- The result of the first call of `ColouriseMakeDoc` on `bmakeDoc` with the
word lists `bmakeKeywords`, the static `makeType` being `MAKE_TYPE_GMAKE`
before it. -/
def bmakeFirstResult : MakeResult :=
  { ColorTo := [(0, 0), (1, 0), (2, 0), (6, 0), (8, 0), (10, 2), (11, 0), (13, 0)]
    makeType := MAKE_TYPE_BMAKE }

/-! ## Strings -/

theorem IsCStr.noNul {s : CStr} (hs : IsCStr s) : NoNul s :=
  fun b hb => Nat.pos_iff_ne_zero.mp (hs b hb).1

theorem NoNul.tail {s : CStr} (hs : NoNul s) : NoNul s.tail :=
  fun b hb => hs b (List.mem_of_mem_tail hb)

theorem NoNul.of_cons {a : Nat} {s : CStr} (hs : NoNul (a :: s)) : a ≠ 0 ∧ NoNul s :=
  ⟨hs a (List.mem_cons_self _ _), fun b hb => hs b (List.mem_cons_of_mem _ hb)⟩

theorem peek_eq_zero_iff {s : CStr} (hs : NoNul s) : peek s = 0 ↔ s = [] := by
  cases s with
  | nil => simp [peek]
  | cons a s => simpa [peek] using (hs.of_cons).1

theorem strlen_eq_length {s : CStr} (hs : NoNul s) : strlen s = s.length := by
  induction s with
  | nil => rfl
  | cons a s ih => simp [strlen, (hs.of_cons).1, ih (hs.of_cons).2]

/-- The loop stops with both strings exhausted exactly when they are equal. -/
theorem skipCommon_both_end {a b : CStr} (ha : NoNul a) (hb : NoNul b) :
    (peek (skipCommon a b).1 = 0 ∧ peek (skipCommon a b).2 = 0) ↔ a = b := by
  induction a generalizing b with
  | nil =>
    cases b with
    | nil => simp [skipCommon, peek]
    | cons y bs => simpa [skipCommon, peek] using (hb.of_cons).1
  | cons x as ih =>
    cases b with
    | nil => simpa [skipCommon, peek] using (ha.of_cons).1
    | cons y bs =>
      have hx := (ha.of_cons).1
      have hy := (hb.of_cons).1
      by_cases hxy : x = y
      · subst hxy
        simp [skipCommon, hx, ih (ha.of_cons).2 (hb.of_cons).2]
      · simp [skipCommon, hxy, peek, hx]

/-- The loop exhausts its first string exactly when that one is an initial
segment of the second. -/
theorem skipCommon_fst_end {a b : CStr} (ha : NoNul a) :
    peek (skipCommon a b).1 = 0 ↔ a <+: b := by
  induction a generalizing b with
  | nil => simp [skipCommon, peek]
  | cons x as ih =>
    cases b with
    | nil => simpa [skipCommon, peek] using (ha.of_cons).1
    | cons y bs =>
      have hx := (ha.of_cons).1
      by_cases hxy : x = y
      · subst hxy
        simp [skipCommon, hx, ih (ha.of_cons).2, List.cons_prefix_cons]
      · simp [skipCommon, hxy, peek, hx, List.cons_prefix_cons]

theorem strcmp_nil_left (b : CStr) : strcmp [] b = -(peek b : Int) := by
  cases b <;> simp [strcmp, skipCommon, peek]

theorem strcmp_cons_nil (x : Nat) (as : CStr) : strcmp (x :: as) [] = (x : Int) := by
  simp [strcmp, skipCommon, peek]

theorem strcmp_cons_cons (x y : Nat) (as bs : CStr) :
    strcmp (x :: as) (y :: bs) = if x ≠ 0 ∧ x = y then strcmp as bs else (x : Int) - y := by
  by_cases h : x ≠ 0 ∧ x = y
  · simp only [strcmp, skipCommon, if_pos h]
  · simp only [strcmp, skipCommon, if_neg h, peek, List.headD_cons]

theorem strcmp_total (a b : CStr) : strcmp a b ≤ 0 ∨ strcmp b a ≤ 0 := by
  induction a generalizing b with
  | nil => left; rw [strcmp_nil_left]; omega
  | cons x as ih =>
    cases b with
    | nil => right; rw [strcmp_nil_left]; omega
    | cons y bs =>
      rw [strcmp_cons_cons, strcmp_cons_cons]
      by_cases h : x ≠ 0 ∧ x = y
      · have h2 : y ≠ 0 ∧ y = x := ⟨h.2 ▸ h.1, h.2.symm⟩
        rw [if_pos h, if_pos h2]; exact ih bs
      · have h2 : ¬ (y ≠ 0 ∧ y = x) := fun h3 => h ⟨h3.2 ▸ h3.1, h3.2.symm⟩
        rw [if_neg h, if_neg h2]; omega

theorem strcmp_trans (a b c : CStr) (hab : strcmp a b ≤ 0) (hbc : strcmp b c ≤ 0) :
    strcmp a c ≤ 0 := by
  induction a generalizing b c with
  | nil => rw [strcmp_nil_left]; omega
  | cons x as ih =>
    cases b with
    | nil =>
      rw [strcmp_cons_nil] at hab
      cases c with
      | nil => rw [strcmp_cons_nil]; exact hab
      | cons z cs => rw [strcmp_cons_cons]; split <;> omega
    | cons y bs =>
      rw [strcmp_cons_cons] at hab
      cases c with
      | nil =>
        rw [strcmp_cons_nil] at hbc
        rw [strcmp_cons_nil]
        split at hab <;> omega
      | cons z cs =>
        rw [strcmp_cons_cons] at hbc
        rw [strcmp_cons_cons]
        by_cases h1 : x ≠ 0 ∧ x = y
        · rw [if_pos h1] at hab
          by_cases h2 : y ≠ 0 ∧ y = z
          · rw [if_pos h2] at hbc
            rw [if_pos ⟨h1.1, h1.2.trans h2.2⟩]
            exact ih bs cs hab hbc
          · rw [if_neg h2] at hbc
            split <;> omega
        · rw [if_neg h1] at hab
          split at hbc <;> split <;> omega

instance : IsTotal CStr wordLE := ⟨strcmp_total⟩

instance : IsTrans CStr wordLE := ⟨strcmp_trans⟩

/-- Two strings compare equal under `strcmp` exactly when they are equal. -/
theorem strcmp_eq_zero_iff {a b : CStr} (ha : NoNul a) (hb : NoNul b) :
    strcmp a b = 0 ↔ a = b := by
  rw [← skipCommon_both_end ha hb]
  induction a generalizing b with
  | nil =>
    cases b with
    | nil => simp [strcmp, skipCommon, peek]
    | cons y bs => simp [strcmp, skipCommon, peek]
  | cons x as ih =>
    cases b with
    | nil => simp [strcmp, skipCommon, peek]
    | cons y bs =>
      have hx := (ha.of_cons).1
      by_cases hxy : x = y
      · subst hxy
        have := ih (ha.of_cons).2 (hb.of_cons).2
        simpa [strcmp, skipCommon, hx] using this
      · simp [strcmp, skipCommon, hxy, peek, hx]
        omega

/-- On strings without NUL, `strcmp(a, b) < 0` is the lexicographic order of
the bytes. -/
theorem strcmp_neg_iff_lex {a b : CStr} (ha : NoNul a) (hb : NoNul b) :
    strcmp a b < 0 ↔ List.Lex (fun x y : Nat => x < y) a b := by
  induction a generalizing b with
  | nil =>
    cases b with
    | nil => simp [strcmp_nil_left, peek]
    | cons y bs =>
      have hy := (hb.of_cons).1
      simp [strcmp_nil_left, peek, List.Lex.nil]
      omega
  | cons x as ih =>
    cases b with
    | nil => simp [strcmp_cons_nil]
    | cons y bs =>
      have hx := (ha.of_cons).1
      rw [strcmp_cons_cons]
      by_cases hxy : x = y
      · subst hxy
        rw [if_pos ⟨hx, rfl⟩, ih (ha.of_cons).2 (hb.of_cons).2]
        constructor
        · intro h; exact List.Lex.cons h
        · intro h
          cases h with
          | cons h => exact h
          | rel h => exact absurd h (lt_irrefl _)
      · rw [if_neg (fun h => hxy h.2)]
        constructor
        · intro h; exact List.Lex.rel (by omega)
        · intro h
          cases h with
          | cons h => exact absurd rfl hxy
          | rel h => omega

theorem strcmp_antisymm_sign (a b : CStr) : strcmp a b < 0 ↔ 0 < strcmp b a := by
  induction a generalizing b with
  | nil =>
    cases b with
    | nil => simp [strcmp_nil_left, peek]
    | cons y bs => rw [strcmp_nil_left, strcmp_cons_nil]; simp [peek]
  | cons x as ih =>
    cases b with
    | nil => rw [strcmp_nil_left, strcmp_cons_nil]; simp [peek]
    | cons y bs =>
      rw [strcmp_cons_cons, strcmp_cons_cons]
      by_cases h : x ≠ 0 ∧ x = y
      · have h2 : y ≠ 0 ∧ y = x := ⟨h.2 ▸ h.1, h.2.symm⟩
        rw [if_pos h, if_pos h2]; exact ih bs
      · have h2 : ¬ (y ≠ 0 ∧ y = x) := fun h3 => h ⟨h3.2 ▸ h3.1, h3.2.symm⟩
        rw [if_neg h, if_neg h2]; omega

/-- On strings without NUL the order of `std::sort` is the lexicographic one. -/
theorem wordLE_iff_not_lex {a b : CStr} (ha : NoNul a) (hb : NoNul b) :
    wordLE a b ↔ ¬ List.Lex (fun x y : Nat => x < y) b a := by
  rw [← strcmp_neg_iff_lex hb ha, strcmp_antisymm_sign b a]
  unfold wordLE; omega

/-! ## `ArrayFromWordList` computes the words of the blob -/

theorem blobWords_nil : blobWords [] = [] := by
  simp [blobWords, List.splitOnP_nil]

theorem blobWords_cons_sep {c : Nat} (hc : c ≤ 32) (s : CStr) :
    blobWords (c :: s) = blobWords s := by
  simp [blobWords, List.splitOnP_cons, hc]

theorem blobWords_run (s : CStr) (hne : s.takeWhile (fun c => decide (32 < c)) ≠ []) :
    blobWords s = s.takeWhile (fun c => decide (32 < c)) ::
      blobWords (s.dropWhile (fun c => decide (32 < c))) := by
  have hrun : ∀ x ∈ s.takeWhile (fun c => decide (32 < c)), ¬ (decide (x ≤ 32) = true) := by
    intro x hx
    have := List.mem_takeWhile_imp hx
    simp at this ⊢; omega
  have hsplit := (List.takeWhile_append_dropWhile (fun c => decide (32 < c)) s).symm
  cases hd : s.dropWhile (fun c => decide (32 < c)) with
  | nil =>
    have hts : s.takeWhile (fun c => decide (32 < c)) = s := by
      rw [hd, List.append_nil] at hsplit; exact hsplit.symm
    rw [hts] at hrun hne ⊢
    simp only [blobWords]
    rw [List.splitOnP_eq_single _ _ hrun, List.splitOnP_nil]
    simp [hne]
  | cons sep as =>
    have hsep : decide (sep ≤ 32) = true := by
      have := List.head_dropWhile_not (fun c => decide (32 < c)) s (by rw [hd]; simp)
      simp [hd] at this ⊢; omega
    rw [hd] at hsplit
    conv_lhs => rw [hsplit]
    simp only [blobWords]
    rw [List.splitOnP_first _ _ hrun sep hsep, List.splitOnP_cons, if_pos hsep]
    simp [hne]

theorem takeWhile_run_cons {c : Nat} (hc : 32 < c) (s : CStr) :
    (c :: s).takeWhile (fun c => decide (32 < c)) =
      c :: s.takeWhile (fun c => decide (32 < c)) := by
  simp [List.takeWhile_cons, hc]

theorem dropWhile_run_cons {c : Nat} (hc : 32 < c) (s : CStr) :
    (c :: s).dropWhile (fun c => decide (32 < c)) = s.dropWhile (fun c => decide (32 < c)) := by
  simp [List.dropWhile_cons, hc]

theorem dropWhile_sep_cons {c : Nat} (hc : c ≤ 32) (s : CStr) :
    (c :: s).dropWhile (fun c => decide (32 < c)) = c :: s := by
  simp [List.dropWhile_cons]; omega

theorem countWords_eq (prev : Bool) (s : CStr) :
    countWords prev s =
      (if prev then blobWords s
        else blobWords (s.dropWhile (fun c => decide (32 < c)))).length := by
  induction s generalizing prev with
  | nil => cases prev <;> simp [countWords, blobWords_nil]
  | cons ch s ih =>
    by_cases hc : ch ≤ 32
    · rw [countWords, ih]
      simp only [hc, decide_True, Bool.not_true, Bool.false_and, if_true]
      rw [dropWhile_sep_cons hc, blobWords_cons_sep hc]
      cases prev <;> simp
    · have hc2 : 32 < ch := by omega
      rw [countWords, ih]
      simp only [hc, decide_False, Bool.not_false, Bool.true_and]
      rw [dropWhile_run_cons hc2, blobWords_run (ch :: s) (by simp [takeWhile_run_cons hc2]),
        dropWhile_run_cons hc2]
      cases prev <;> simp
      omega

theorem storeWords_fst (prev pos : Nat) (s : CStr) : (storeWords prev pos s).1 = zeroed s := by
  induction s generalizing prev pos with
  | nil => rfl
  | cons ch s ih =>
    by_cases hc : ch > 32
    · simp [storeWords, hc, ih, zeroed]
    · simp [storeWords, hc, ih, zeroed]

theorem takeWhile_zeroed (s : CStr) :
    (zeroed s ++ [0]).takeWhile (fun c => decide (c ≠ 0)) =
      s.takeWhile (fun c => decide (32 < c)) := by
  induction s with
  | nil => simp [zeroed]
  | cons ch s ih =>
    by_cases hc : ch > 32
    · have h0 : ch ≠ 0 := by omega
      simp only [zeroed, List.map_cons, if_pos hc, List.cons_append] at ih ⊢
      rw [List.takeWhile_cons, List.takeWhile_cons]
      simp only [h0, hc, ne_eq, not_false_eq_true, decide_True, if_true]
      rw [ih]
    · simp [zeroed, hc, List.takeWhile_cons]

theorem cstrAt_append_left (pre rest : List Nat) :
    cstrAt (pre ++ rest) pre.length = rest.takeWhile (fun c => decide (c ≠ 0)) := by
  simp [cstrAt]

/-- The strings designated by the offsets the second loop stores are the
words of the blob (those that start at or after the current position). -/
theorem storeWords_snd (prev : Nat) (s pre : CStr) :
    (storeWords prev pre.length s).2.map (cstrAt (pre ++ zeroed s ++ [0])) =
      if prev = 0 then blobWords s
      else blobWords (s.dropWhile (fun c => decide (32 < c))) := by
  induction s generalizing prev pre with
  | nil => simp [storeWords, blobWords_nil]
  | cons ch s ih =>
    have hpre : pre ++ zeroed (ch :: s) ++ [0] =
        (pre ++ [if ch > 32 then ch else 0]) ++ zeroed s ++ [0] := by
      simp [zeroed]
    have hlen : pre.length + 1 = (pre ++ [if ch > 32 then ch else 0]).length := by simp
    by_cases hc : ch > 32
    · have hch : ch ≠ 0 := by omega
      have ih1 := ih ch (pre ++ [if ch > 32 then ch else 0])
      rw [← hpre, ← hlen, if_neg hch] at ih1
      simp only [storeWords, if_pos hc]
      rw [dropWhile_run_cons hc, blobWords_run (ch :: s) (by simp [takeWhile_run_cons hc]),
        dropWhile_run_cons hc]
      by_cases hp : prev = 0
      · simp only [hp, if_true, List.map_cons, ih1]
        congr 1
        have : pre ++ zeroed (ch :: s) ++ [0] = pre ++ (zeroed (ch :: s) ++ [0]) := by simp
        rw [this, cstrAt_append_left, takeWhile_zeroed]
      · simp only [hp, if_false, ih1]
    · have hc2 : ch ≤ 32 := by omega
      have ih1 := ih 0 (pre ++ [if ch > 32 then ch else 0])
      rw [← hpre, ← hlen, if_pos rfl] at ih1
      simp only [storeWords, if_neg hc]
      rw [ih1, dropWhile_sep_cons hc2, blobWords_cons_sep hc2]
      simp

/-- The strings `keywords[0 .. len)` of `ArrayFromWordList` are the words of
the blob, in the order of the blob. -/
theorem ArrayFromWordList_words (s : CStr) :
    ((ArrayFromWordList s).2.1.take (ArrayFromWordList s).2.2).map
      (cstrAt (ArrayFromWordList s).1) = blobWords s := by
  unfold ArrayFromWordList
  simp only [List.take_left']
  by_cases h : countWords true s ≠ 0
  · simp only [if_pos h, storeWords_fst]
    have := storeWords_snd 0 s []
    simpa using this
  · have h0 : countWords true s = 0 := by omega
    rw [countWords_eq] at h0
    simp only [if_true, List.length_eq_zero] at h0
    simp [h, h0]

/-- The count stored in `*len` is the number of words of the blob. -/
theorem ArrayFromWordList_len (s : CStr) : (ArrayFromWordList s).2.2 = (blobWords s).length := by
  have := congrArg List.length (ArrayFromWordList_words s)
  rw [List.length_map, List.length_take] at this
  rw [← this]
  unfold ArrayFromWordList
  simp

/-- After `ArrayFromWordList` and `std::sort`, the array holds the words of
the (optionally case-folded) blob, sorted when the attribute asks for it. -/
theorem SetWords_eq (s : CStr) (attr : KeywordAttr) :
    SetWords s attr =
      if attr.preSorted then blobWords (if attr.makeLower then makeLower s else s)
      else sortWords (blobWords (if attr.makeLower then makeLower s else s)) := by
  unfold SetWords
  simp only [ArrayFromWordList_words]
  cases attr.preSorted <;> simp

/-- Every word of a blob is non-empty and made of bytes above 0x20. -/
theorem blobWords_mem {s w : CStr} (hw : w ∈ blobWords s) : w ≠ [] ∧ ∀ b ∈ w, 32 < b := by
  generalize hn : s.length = n
  induction n using Nat.strong_induction_on generalizing s with
  | _ n ih =>
    cases s with
    | nil => simp [blobWords_nil] at hw
    | cons c s =>
      by_cases hc : c ≤ 32
      · rw [blobWords_cons_sep hc] at hw
        exact ih s.length (by simp at hn; omega) hw rfl
      · have hc2 : 32 < c := by omega
        rw [blobWords_run (c :: s) (by simp [takeWhile_run_cons hc2])] at hw
        rcases List.mem_cons.mp hw with h | h
        · subst h
          refine ⟨by simp [takeWhile_run_cons hc2], fun b hb => ?_⟩
          simpa using List.mem_takeWhile_imp hb
        · refine ih _ ?_ h rfl
          have := (List.dropWhile_sublist (l := s) (fun c => decide (32 < c))).length_le
          rw [dropWhile_run_cons hc2]
          simp at hn; omega

/-! ## The bucket table built by `Set` -/

theorem bucketIndex_of_indexable {h : WordListH} (hh : h.WellFormed) {c : Nat}
    (hc : h.Indexable c) : bucketIndex h c = c - h.MinIndexChar ∧
      c - h.MinIndexChar < h.rangesSize := by
  obtain ⟨h0, h1, h2, h3, h4⟩ := hh
  obtain ⟨hc1, hc2⟩ := hc
  unfold bucketIndex
  omega

theorem bucketIndex_not_indexable {h : WordListH} (hh : h.WellFormed) {c : Nat}
    (hc : ¬ h.Indexable c) (hb : c < 256) : bucketIndex h c > h.rangesSize - 1 := by
  obtain ⟨h0, h1, h2, h3, h4⟩ := hh
  unfold WordListH.Indexable at hc
  unfold bucketIndex
  omega

/-- A table entry packed from two 16-bit indices unpacks to them. -/
theorem ofPacked_packRange {h : WordListH} (hh : h.WellFormed) {a b : Nat}
    (ha : a < 65536) (hb : b < 65536) :
    Range.ofPacked (packRange h a b) = { start := a, end_ := b } ∧
      (packRange h a b = 0 ↔ a = 0 ∧ b = 0) := by
  have hor : a ||| (b <<< 16) = b * 65536 + a := by
    have h1 : (2 : Nat) ^ 16 * b + a = 2 ^ 16 * b ||| a :=
      Nat.mul_add_lt_is_or (by simpa using ha) b
    rw [Nat.or_comm, Nat.shiftLeft_eq, Nat.mul_comm b, ← h1]
  have hpow : 2 ^ 32 ≤ 2 ^ h.rangeBits := Nat.pow_le_pow_right (by norm_num) hh.2.2.2.2
  have hlt : b * 65536 + a < 2 ^ h.rangeBits := by
    have : b * 65536 + a < 2 ^ 32 := by norm_num; omega
    omega
  have hval : packRange h a b = b * 65536 + a := by
    unfold packRange; rw [hor, Nat.mod_eq_of_lt hlt]
  have hmask : (b * 65536 + a) &&& 0xffff = (b * 65536 + a) % 2 ^ 16 :=
    Nat.and_pow_two_sub_one_eq_mod _ 16
  refine ⟨?_, ?_⟩
  · unfold Range.ofPacked
    rw [hval, hmask, Nat.shiftRight_eq_div_pow]
    norm_num
    constructor <;> omega
  · rw [hval]; omega

theorem skipSame_spec {c : Nat} (hc : c ≠ 0) (A : List CStr) (k : Nat) :
    skipSame c (A ++ [[]]) k =
      some (k + (A.takeWhile (fun w => decide (peek w = c))).length) := by
  induction A generalizing k with
  | nil => simp [skipSame, peek, Ne.symm hc]
  | cons w A ih =>
    by_cases hw : peek w = c
    · simp [skipSame, hw, ih, List.takeWhile_cons]; omega
    · simp [skipSame, hw, List.takeWhile_cons]

/-- In a list sorted by first byte, what follows the leading run of one byte
starts with larger bytes. -/
theorem dropWhile_run_gt {c0 : Nat} {L : List CStr}
    (hge : ∀ x ∈ L, c0 ≤ peek x) (hs : L.Pairwise (fun a b => peek a ≤ peek b)) :
    ∀ x ∈ L.dropWhile (fun w => decide (peek w = c0)), c0 < peek x := by
  intro x hx
  cases hd : L.dropWhile (fun w => decide (peek w = c0)) with
  | nil => rw [hd] at hx; simp at hx
  | cons y M =>
    have hy : peek y ≠ c0 := by
      have := List.head_dropWhile_not (fun w => decide (peek w = c0)) L (by rw [hd]; simp)
      simpa [hd] using this
    have hyL : y ∈ L := List.dropWhile_subset _ (by rw [hd]; simp)
    have hyc : c0 < peek y := lt_of_le_of_ne (hge y hyL) (Ne.symm hy)
    have hs2 : (y :: M).Pairwise (fun a b => peek a ≤ peek b) := by
      rw [← hd]; exact hs.sublist (List.dropWhile_sublist _)
    rw [hd] at hx
    rcases List.mem_cons.mp hx with h | h
    · rw [h]; exact hyc
    · exact lt_of_lt_of_le hyc (List.rel_of_pairwise_cons hs2 h)

theorem bucketOf_eq_nil_of_ne {c : Nat} {L : List CStr} (hL : ∀ x ∈ L, peek x ≠ c) :
    bucketOf c L = [] := by
  unfold bucketOf
  rw [List.filter_eq_nil_iff]
  intro x hx; simpa using hL x hx

theorem bucketOf_eq_self {c : Nat} {L : List CStr} (hL : ∀ x ∈ L, peek x = c) :
    bucketOf c L = L := by
  unfold bucketOf
  rw [List.filter_eq_self]
  intro x hx; simpa using hL x hx

theorem below_eq_nil {c : Nat} {L : List CStr} (hL : ∀ x ∈ L, c ≤ peek x) :
    below c L = [] := by
  unfold below
  rw [List.filter_eq_nil_iff]
  intro x hx; have := hL x hx; simp; omega

theorem below_eq_self {c : Nat} {L : List CStr} (hL : ∀ x ∈ L, peek x < c) :
    below c L = L := by
  unfold below
  rw [List.filter_eq_self]
  intro x hx; simpa using hL x hx

theorem bucketOf_append (c : Nat) (A B : List CStr) :
    bucketOf c (A ++ B) = bucketOf c A ++ bucketOf c B := by
  simp [bucketOf]

theorem below_append (c : Nat) (A B : List CStr) :
    below c (A ++ B) = below c A ++ below c B := by
  simp [below]

/-- The loop of `Set` over a list sorted by first byte: every byte that
occurs gets the entry of its run, the other entries are left as they were. -/
theorem setRanges_spec {h : WordListH} (hh : h.WellFormed) :
    ∀ (n : Nat) (L pre : List CStr) (r : List Nat) (fuel : Nat), L.length = n →
      L.length ≤ fuel → r.length = h.rangesSize →
      (∀ w ∈ L, h.Indexable (peek w)) →
      L.Pairwise (fun a b => peek a ≤ peek b) →
      ∃ out, setRanges h (pre ++ L ++ [[]]) (pre.length + L.length) fuel pre.length r = some out ∧
        out.length = h.rangesSize ∧
        ∀ c, h.Indexable c →
          out[c - h.MinIndexChar]? =
            if bucketOf c L = [] then r[c - h.MinIndexChar]?
            else some (packRange h (pre.length + (below c L).length)
              (pre.length + (below c L).length + (bucketOf c L).length)) := by
  intro n
  induction n using Nat.strong_induction_on with
  | _ n ih =>
    intro L pre r fuel hn hfuel hr hidx hsorted
    cases L with
    | nil =>
      refine ⟨r, ?_, hr, ?_⟩
      · cases fuel <;> simp [setRanges]
      · intro c _; simp [bucketOf]
    | cons w L' =>
      cases fuel with
      | zero => simp at hfuel
      | succ f =>
        have hw : h.Indexable (peek w) := hidx w (List.mem_cons_self _ _)
        have hc0 : peek w ≠ 0 := by
          have := hh.1; have := hw.1; omega
        obtain ⟨hbi, hbl⟩ := bucketIndex_of_indexable hh hw
        have hsplit : L' = L'.takeWhile (fun x => decide (peek x = peek w)) ++
            L'.dropWhile (fun x => decide (peek x = peek w)) :=
          (List.takeWhile_append_dropWhile _ _).symm
        generalize hrun : L'.takeWhile (fun x => decide (peek x = peek w)) = run at hsplit
        generalize hL2 : L'.dropWhile (fun x => decide (peek x = peek w)) = L2 at hsplit
        have hrunc : ∀ x ∈ run, peek x = peek w := by
          intro x hx; rw [← hrun] at hx
          simpa using List.mem_takeWhile_imp hx
        have hge : ∀ x ∈ L', peek w ≤ peek x := fun x hx => List.rel_of_pairwise_cons hsorted hx
        have hL2c : ∀ x ∈ L2, peek w < peek x := by
          rw [← hL2]; exact dropWhile_run_gt hge (List.Pairwise.of_cons hsorted)
        have hget : (pre ++ w :: L' ++ [[]])[pre.length]? = some w := by
          have : pre ++ w :: L' ++ [[]] = pre ++ (w :: (L' ++ [[]])) := by simp
          rw [this, List.getElem?_append_right (Nat.le_refl _)]
          simp
        have hdrop : (pre ++ w :: L' ++ [[]]).drop (pre.length + 1) = L' ++ [[]] := by
          have : pre ++ w :: L' ++ [[]] = (pre ++ [w]) ++ (L' ++ [[]]) := by simp
          rw [this]
          exact List.drop_left' (by simp)
        have hskip := skipSame_spec hc0 L' (pre.length + 1)
        rw [hrun] at hskip
        have hwords : pre ++ w :: L' ++ [[]] = (pre ++ w :: run) ++ L2 ++ [[]] := by
          rw [hsplit]; simp
        have hj : pre.length + 1 + run.length = (pre ++ w :: run).length := by
          simp; omega
        have hlen2 : pre.length + (w :: L').length = (pre ++ w :: run).length + L2.length := by
          rw [hsplit]; simp; omega
        have hL2len : L2.length < n := by
          rw [← hn, hsplit]; simp; omega
        obtain ⟨out, hout, holen, hspec⟩ := ih L2.length hL2len L2 (pre ++ w :: run)
          (r.set (peek w - h.MinIndexChar) (packRange h pre.length (pre.length + 1 + run.length)))
          f rfl (by rw [hsplit] at hfuel; simp at hfuel; omega) (by simpa using hr)
          (fun x hx => hidx x (List.mem_cons_of_mem _ (by rw [hsplit]; simp [hx])))
          ((List.Pairwise.of_cons hsorted).sublist (by rw [← hL2]; exact List.dropWhile_sublist _))
        refine ⟨out, ?_, holen, ?_⟩
        · rw [setRanges]
          have hlt : pre.length < pre.length + (w :: L').length := by simp
          simp only [hlt, if_true, hget, hdrop, hskip, hbi, hbl]
          rw [hwords, hlen2, hj]
          rw [hj] at hout
          exact hout
        · intro c hc
          have hLdec : w :: L' = (w :: run) ++ L2 := by rw [hsplit]; simp
          have hwrun : ∀ x ∈ w :: run, peek x = peek w := by
            intro x hx
            rcases List.mem_cons.mp hx with h1 | h1
            · rw [h1]
            · exact hrunc x h1
          rw [hspec c hc, hLdec, bucketOf_append, below_append]
          rcases Nat.lt_trichotomy c (peek w) with hlt | heq | hgt
          · -- a byte below the current one occurs nowhere from here on
            have h1 : bucketOf c (w :: run) = [] :=
              bucketOf_eq_nil_of_ne (fun x hx => by rw [hwrun x hx]; omega)
            have h2 : bucketOf c L2 = [] :=
              bucketOf_eq_nil_of_ne (fun x hx => by have := hL2c x hx; omega)
            rw [h1, h2]
            simp only [List.append_nil, if_true]
            rw [List.getElem?_set_ne (by have := hc.1; have := hw.1; omega)]
          · -- the current byte: its run is the whole bucket
            subst heq
            have h1 : bucketOf (peek w) (w :: run) = w :: run := bucketOf_eq_self hwrun
            have h2 : bucketOf (peek w) L2 = [] :=
              bucketOf_eq_nil_of_ne (fun x hx => by have := hL2c x hx; omega)
            have h3 : below (peek w) (w :: run) = [] :=
              below_eq_nil (fun x hx => by rw [hwrun x hx])
            have h4 : below (peek w) L2 = [] :=
              below_eq_nil (fun x hx => by have := hL2c x hx; omega)
            rw [h1, h2, h3, h4]
            simp only [List.append_nil, if_true, List.length_nil, Nat.add_zero,
              List.cons_ne_nil, if_false, List.length_cons]
            rw [List.getElem?_set_self (by rw [hr]; exact hbl)]
            congr 2
            omega
          · -- a larger byte: the run counts among the words below it
            have h1 : bucketOf c (w :: run) = [] :=
              bucketOf_eq_nil_of_ne (fun x hx => by rw [hwrun x hx]; omega)
            have h3 : below c (w :: run) = w :: run :=
              below_eq_self (fun x hx => by rw [hwrun x hx]; omega)
            rw [h1, h3]
            simp only [List.nil_append]
            by_cases hb : bucketOf c L2 = []
            · simp only [hb, if_true]
              rw [List.getElem?_set_ne (by have := hc.1; have := hw.1; omega)]
            · simp only [hb, if_false]
              congr 2 <;> simp <;> omega

theorem wordLE_peek {a b : CStr} (hab : wordLE a b) : peek a ≤ peek b := by
  unfold wordLE at hab
  cases a with
  | nil => simp [peek]
  | cons x as =>
    cases b with
    | nil => rw [strcmp_cons_nil] at hab; simp [peek]; omega
    | cons y bs =>
      rw [strcmp_cons_cons] at hab
      simp only [peek, List.headD_cons]
      split at hab
      · rename_i h1; omega
      · omega

/-- A list sorted by first byte is the words below `c`, then the words that
start with `c`, then words that start with larger bytes. -/
theorem sorted_partition (c : Nat) :
    ∀ L : List CStr, L.Pairwise (fun a b => peek a ≤ peek b) →
      ∃ rest, L = below c L ++ bucketOf c L ++ rest ∧ ∀ x ∈ rest, c < peek x := by
  intro L
  induction L with
  | nil => intro _; exact ⟨[], by simp [below, bucketOf], by simp⟩
  | cons w L ih =>
    intro hs
    obtain ⟨rest, hrest, hgt⟩ := ih (List.Pairwise.of_cons hs)
    have hge : ∀ x ∈ L, peek w ≤ peek x := fun x hx => List.rel_of_pairwise_cons hs hx
    rcases Nat.lt_trichotomy (peek w) c with hlt | heq | hgt2
    · refine ⟨rest, ?_, hgt⟩
      have h1 : below c (w :: L) = w :: below c L := by simp [below, hlt]
      have h2 : bucketOf c (w :: L) = bucketOf c L := by
        simp [bucketOf, List.filter_cons, Nat.ne_of_lt hlt]
      rw [h1, h2]; simp only [List.cons_append]; rw [← hrest]
    · refine ⟨rest, ?_, hgt⟩
      have h0 : below c L = [] := below_eq_nil (fun x hx => by have := hge x hx; omega)
      have h1 : below c (w :: L) = [] := by
        change below c ([w] ++ L) = []
        rw [below_append, h0]; simp [below]; omega
      have h2 : bucketOf c (w :: L) = w :: bucketOf c L := by simp [bucketOf, heq]
      rw [h0] at hrest
      rw [h1, h2]; simp only [List.nil_append, List.cons_append] at hrest ⊢; rw [← hrest]
    · refine ⟨w :: L, ?_, ?_⟩
      · have h1 : below c (w :: L) = [] :=
          below_eq_nil (fun x hx => by
            rcases List.mem_cons.mp hx with h | h
            · rw [h]; omega
            · have := hge x h; omega)
        have h2 : bucketOf c (w :: L) = [] :=
          bucketOf_eq_nil_of_ne (fun x hx => by
            rcases List.mem_cons.mp hx with h | h
            · rw [h]; omega
            · have := hge x h; omega)
        rw [h1, h2]; rfl
      · intro x hx
        rcases List.mem_cons.mp hx with h | h
        · rw [h]; exact hgt2
        · have := hge x h; omega

theorem mem_bucketOf {c : Nat} {ws : List CStr} {w : CStr} :
    w ∈ bucketOf c ws ↔ w ∈ ws ∧ peek w = c := by
  simp [bucketOf]

/-- The loop over a bucket: it answers whether some entry of the bucket makes
the body return `true`, when the body is defined on every entry. -/
theorem scanRange_spec (body : CStr → Option Bool) (f : CStr → Bool) :
    ∀ (blk rest : List CStr) (start : Nat), blk ≠ [] → (∀ w ∈ blk, body w = some (f w)) →
      scanRange body (blk ++ rest) { start := start, end_ := start + blk.length } =
        some (blk.any f) := by
  intro blk
  induction blk with
  | nil => intro _ _ h; exact absurd rfl h
  | cons w blk ih =>
    intro rest start _ hbody
    have hw := hbody w (List.mem_cons_self _ _)
    simp only [List.cons_append, scanRange, hw, List.any_cons]
    cases hf : f w with
    | true => simp
    | false =>
      cases blk with
      | nil => simp
      | cons w2 blk2 =>
        have hlt : start + 1 < start + (w :: w2 :: blk2).length := by simp
        simp only [hlt, if_true, Bool.false_or]
        have := ih rest (start + 1) (by simp)
          (fun x hx => hbody x (List.mem_cons_of_mem _ hx))
        have he : start + (w :: w2 :: blk2).length = start + 1 + (w2 :: blk2).length := by
          simp; omega
        rw [he]; exact this

theorem Valid.ranges_get {h : WordListH} {wl : WordList} {ws : List CStr}
    (hh : h.WellFormed) (hv : wl.Valid h ws) {c : Nat} (hc : h.Indexable c) :
    wl.ranges[bucketIndex h c]? = some (tableEntry h ws c) := by
  rw [(bucketIndex_of_indexable hh hc).1]
  exact hv.2.2.2.2.2 c hc

/-- Decoding the table entry of a byte that starts some word. -/
theorem tableEntry_decode {h : WordListH} (hh : h.WellFormed) {ws : List CStr}
    (hlen : ws.length < 65536) (hs : ws.Pairwise (fun a b => peek a ≤ peek b)) {c : Nat}
    (hne : bucketOf c ws ≠ []) :
    tableEntry h ws c ≠ 0 ∧
    Range.ofPacked (tableEntry h ws c) =
      { start := (below c ws).length,
        end_ := (below c ws).length + (bucketOf c ws).length } ∧
    (Range.ofPacked (tableEntry h ws c)).Length h = (bucketOf c ws).length ∧
    ∃ rest, ws ++ [[]] = below c ws ++ bucketOf c ws ++ rest := by
  obtain ⟨rest, hrest, _⟩ := sorted_partition c ws hs
  have hl := congrArg List.length hrest
  simp only [List.length_append] at hl
  have hpos : 0 < (bucketOf c ws).length := List.length_pos.mpr hne
  have ha : (below c ws).length < 65536 := by omega
  have hb : (below c ws).length + (bucketOf c ws).length < 65536 := by omega
  obtain ⟨hdec, hzero⟩ := ofPacked_packRange hh ha hb
  have hte : tableEntry h ws c = packRange h (below c ws).length
      ((below c ws).length + (bucketOf c ws).length) := by
    unfold tableEntry; rw [if_neg hne]
  rw [hte]
  refine ⟨?_, hdec, ?_, ?_⟩
  · intro h0; have := hzero.mp h0; omega
  · rw [hdec]
    unfold Range.Length
    have hpow : 2 ^ 32 ≤ 2 ^ h.rangeBits := Nat.pow_le_pow_right (by norm_num) hh.2.2.2.2
    have h32 : (2 : Nat) ^ 32 = 4294967296 := by norm_num
    simp only
    have : (below c ws).length + (bucketOf c ws).length + 2 ^ h.rangeBits - (below c ws).length
        = (bucketOf c ws).length + 2 ^ h.rangeBits := by omega
    rw [this, Nat.add_mod_right, Nat.mod_eq_of_lt (by omega)]
  · refine ⟨rest ++ [[]], ?_⟩
    rw [← List.append_assoc, ← hrest]

theorem Clear_ranges (wl : WordList) : wl.Clear.ranges = wl.ranges := by
  unfold WordList.Clear
  cases wl.words <;> rfl

theorem Clear_words (wl : WordList) : wl.Clear.words = none := by
  unfold WordList.Clear
  cases hw : wl.words with
  | none => exact hw
  | some _ => rfl

/-- After `Clear()` and `memset` the table of a word list holds `rangesSize`
zeros, whatever it held before. -/
theorem zeroRanges_Clear {h : WordListH} {old : WordList}
    (hold : old.ranges.length = h.rangesSize) :
    zeroRanges old.Clear.ranges = List.replicate h.rangesSize 0 := by
  rw [Clear_ranges, zeroRanges, ← hold]
  exact List.map_const' old.ranges 0

/-- The table `Set` builds, whatever the number of words: when the array is
grouped by ascending first byte and each word starts with an indexable byte,
`Set` completes and the table holds the entry of every indexable byte. -/
theorem Set_table {h : WordListH} (hh : h.WellFormed) (old : WordList)
    (hold : old.ranges.length = h.rangesSize) (s : CStr)
    (attr : KeywordAttr) (hs : (SetWords s attr).Pairwise (fun a b => peek a ≤ peek b))
    (hidx : ∀ w ∈ SetWords s attr, h.Indexable (peek w)) :
    ∃ wl, WordList.Set h old s attr = some wl ∧ wl.words = some (SetWords s attr ++ [[]]) ∧
      wl.ranges.length = h.rangesSize ∧
      ∀ c, h.Indexable c →
        wl.ranges[c - h.MinIndexChar]? = some (tableEntry h (SetWords s attr) c) := by
  obtain ⟨out, hout, holen, hspec⟩ := setRanges_spec hh (SetWords s attr).length
    (SetWords s attr) [] (List.replicate h.rangesSize 0) (SetWords s attr).length rfl
    (Nat.le_refl _) (by simp) hidx hs
  simp only [List.nil_append, List.length_nil, Nat.zero_add] at hout hspec
  refine ⟨{ words := some (SetWords s attr ++ [[]]), ranges := out }, ?_, rfl, holen, ?_⟩
  · unfold WordList.Set
    simp only [zeroRanges_Clear hold, hout]
  · intro c hc
    have hcl := (bucketIndex_of_indexable hh hc).2
    simp only
    rw [hspec c hc]
    unfold tableEntry
    by_cases hb : bucketOf c (SetWords s attr) = []
    · simp [hb, List.getElem?_replicate, hcl]
    · simp [hb]

/-- The result of `Set` satisfies the invariant, when the array (as sorted
or as given) is grouped by ascending first byte, holds at most 0xffff words and
each word starts with an indexable byte. -/
theorem Set_valid {h : WordListH} (hh : h.WellFormed) (old : WordList)
    (hold : old.ranges.length = h.rangesSize) (s : CStr)
    (attr : KeywordAttr) (hlen : (SetWords s attr).length < 65536)
    (hs : (SetWords s attr).Pairwise (fun a b => peek a ≤ peek b))
    (hidx : ∀ w ∈ SetWords s attr, h.Indexable (peek w)) :
    ∃ wl, WordList.Set h old s attr = some wl ∧ wl.Valid h (SetWords s attr) := by
  obtain ⟨wl, hset, hwords, hrl, htab⟩ := Set_table hh old hold s attr hs hidx
  exact ⟨wl, hset, hwords, hrl, hlen, hs, hidx, htab⟩

theorem mid_decomp {B : List CStr} (hB : B ≠ []) :
    ∃ B1 w B2, B = B1 ++ w :: B2 ∧ B1.length = B.length / 2 := by
  have hpos : 0 < B.length := List.length_pos.mpr hB
  have hlt : B.length / 2 < B.length := Nat.div_lt_self hpos (by norm_num)
  refine ⟨B.take (B.length / 2), B[B.length / 2], B.drop (B.length / 2 + 1), ?_, ?_⟩
  · rw [← List.drop_eq_getElem_cons hlt, List.take_append_drop]
  · rw [List.length_take]; omega

theorem getElem?_mid (A B1 B2 C : List CStr) (w : CStr) :
    (A ++ (B1 ++ w :: B2) ++ C)[A.length + B1.length]? = some w := by
  have : A ++ (B1 ++ w :: B2) ++ C = (A ++ B1) ++ (w :: (B2 ++ C)) := by simp
  rw [this, List.getElem?_append_right (by simp)]
  simp

/-- The binary search reads inside the bucket only, so it is defined, and it
answers `true` only at an entry that passes its test. -/
theorem binarySearch_sound (hit : Int → Bool) (s : CStr) :
    ∀ (fuel : Nat) (A B C : List CStr), B.length ≤ fuel → B ≠ [] →
      ∃ b, binarySearch hit (A ++ B ++ C) s fuel A.length B.length = some b ∧
        (b = true → ∃ w ∈ B, hit ((peek (skipCommon w.tail s.tail).1 : Int) -
          (peek (skipCommon w.tail s.tail).2 : Int)) = true) := by
  intro fuel
  induction fuel with
  | zero =>
    intro A B C hf hB
    have := List.length_pos.mpr hB
    omega
  | succ f ih =>
    intro A B C hf hB
    obtain ⟨B1, w, B2, hdec, hmid⟩ := mid_decomp hB
    have hlenB : B.length = B1.length + (B2.length + 1) := by rw [hdec]; simp
    rw [binarySearch]
    simp only [Nat.shiftRight_eq_div_pow, Nat.pow_one, ← hmid]
    have hget := getElem?_mid A B1 B2 C w
    rw [← hdec] at hget
    simp only [hget]
    by_cases hhit : hit ((peek (skipCommon w.tail s.tail).1 : Int) -
        (peek (skipCommon w.tail s.tail).2 : Int)) = true
    · simp only [hhit, if_true]
      exact ⟨true, rfl, fun _ => ⟨w, by rw [hdec]; simp, hhit⟩⟩
    · simp only [hhit, if_false]
      by_cases hneg : (peek (skipCommon w.tail s.tail).1 : Int) -
          (peek (skipCommon w.tail s.tail).2 : Int) < 0
      · simp only [hneg, if_true]
        by_cases hc : B.length - (B1.length + 1) ≠ 0
        · rw [if_pos hc]
          have hB2 : B2 ≠ [] := by
            intro h0; rw [h0] at hlenB; simp at hlenB; omega
          obtain ⟨b, hb, hbt⟩ := ih (A ++ B1 ++ [w]) B2 C (by omega) hB2
          have hw : A ++ B ++ C = A ++ B1 ++ [w] ++ B2 ++ C := by rw [hdec]; simp
          have hl1 : A.length + B1.length + 1 = (A ++ B1 ++ [w]).length := by simp; omega
          have hl2 : B.length - (B1.length + 1) = B2.length := by omega
          rw [hw, hl1, hl2]
          exact ⟨b, hb, fun hbtrue => by
            obtain ⟨x, hx, hxh⟩ := hbt hbtrue
            exact ⟨x, by rw [hdec]; simp [hx], hxh⟩⟩
        · rw [if_neg hc]
          exact ⟨false, rfl, fun h => by cases h⟩
      · simp only [hneg, if_false]
        by_cases hc : B1.length ≠ 0
        · rw [if_pos hc]
          have hB1 : B1 ≠ [] := by
            intro h0; rw [h0] at hc; simp at hc
          obtain ⟨b, hb, hbt⟩ := ih A B1 (w :: B2 ++ C) (by omega) hB1
          have hw : A ++ B ++ C = A ++ B1 ++ (w :: B2 ++ C) := by rw [hdec]; simp
          rw [hw]
          exact ⟨b, hb, fun hbtrue => by
            obtain ⟨x, hx, hxh⟩ := hbt hbtrue
            exact ⟨x, by rw [hdec]; simp [hx], hxh⟩⟩
        · rw [if_neg hc]
          exact ⟨false, rfl, fun h => by cases h⟩

theorem diff_eq_strcmp {w s : CStr} (hw : w ≠ []) (hs : s ≠ []) (hp : peek w = peek s)
    (h0 : peek w ≠ 0) :
    (peek (skipCommon w.tail s.tail).1 : Int) - (peek (skipCommon w.tail s.tail).2 : Int) =
      strcmp w s := by
  cases w with
  | nil => exact absurd rfl hw
  | cons x w =>
    cases s with
    | nil => exact absurd rfl hs
    | cons y s =>
      simp only [peek, List.headD_cons] at hp h0
      rw [strcmp_cons_cons, if_pos ⟨h0, hp⟩]
      rfl

/-- On a bucket sorted by `strcmp`, the binary search of `InList` finds a
word exactly when it is in the bucket. -/
theorem binarySearch_spec {s : CStr} (hs : NoNul s) (hsne : s ≠ []) :
    ∀ (fuel : Nat) (A B C : List CStr), B.length ≤ fuel → B ≠ [] →
      B.Pairwise wordLE → (∀ w ∈ B, NoNul w ∧ w ≠ [] ∧ peek w = peek s) →
      binarySearch (fun diff => decide (diff = 0)) (A ++ B ++ C) s fuel A.length B.length =
        some (decide (s ∈ B)) := by
  have hs0 : peek s ≠ 0 := fun h => hsne ((peek_eq_zero_iff hs).mp h)
  intro fuel
  induction fuel with
  | zero =>
    intro A B C hf hB
    have := List.length_pos.mpr hB
    omega
  | succ f ih =>
    intro A B C hf hB hsorted hwf
    obtain ⟨B1, w, B2, hdec, hmid⟩ := mid_decomp hB
    have hlenB : B.length = B1.length + (B2.length + 1) := by rw [hdec]; simp
    have hwB : w ∈ B := by rw [hdec]; simp
    obtain ⟨hwn, hwne, hwp⟩ := hwf w hwB
    rw [binarySearch]
    simp only [Nat.shiftRight_eq_div_pow, Nat.pow_one, ← hmid]
    have hget := getElem?_mid A B1 B2 C w
    rw [← hdec] at hget
    simp only [hget]
    rw [diff_eq_strcmp hwne hsne hwp (by rw [hwp]; exact hs0)]
    rw [hdec] at hsorted
    have hs1 : ∀ x ∈ B1, wordLE x w := fun x hx =>
      (List.pairwise_append.mp hsorted).2.2 x hx w (List.mem_cons_self _ _)
    have hs2 : ∀ x ∈ B2, wordLE w x := fun x hx =>
      List.rel_of_pairwise_cons (List.pairwise_append.mp hsorted).2.1 hx
    by_cases hz : strcmp w s = 0
    · have : w = s := (strcmp_eq_zero_iff hwn hs).mp hz
      simp only [hz, decide_True, if_true]
      rw [← this]; simp [hwB]
    · simp only [hz, decide_False, Bool.false_eq_true, if_false]
      have hws : w ≠ s := fun h => hz ((strcmp_eq_zero_iff hwn hs).mpr h)
      by_cases hneg : strcmp w s < 0
      · simp only [hneg, if_true]
        have hpos : 0 < strcmp s w := (strcmp_antisymm_sign w s).mp hneg
        have hn1 : s ∉ B1 := fun hm => by
          have := hs1 s hm; unfold wordLE at this; omega
        have hmem : s ∈ B ↔ s ∈ B2 := by
          rw [hdec]; simp [hn1, Ne.symm hws]
        by_cases hc : B.length - (B1.length + 1) ≠ 0
        · rw [if_pos hc]
          have hB2 : B2 ≠ [] := by
            intro h0; rw [h0] at hlenB; simp at hlenB; omega
          have := ih (A ++ B1 ++ [w]) B2 C (by omega) hB2
            (List.Pairwise.of_cons (List.pairwise_append.mp hsorted).2.1)
            (fun x hx => hwf x (by rw [hdec]; simp [hx]))
          have hw : A ++ B ++ C = A ++ B1 ++ [w] ++ B2 ++ C := by rw [hdec]; simp
          have hl1 : A.length + B1.length + 1 = (A ++ B1 ++ [w]).length := by simp; omega
          have hl2 : B.length - (B1.length + 1) = B2.length := by omega
          rw [hw, hl1, hl2, this]
          simp only [hmem]
        · rw [if_neg hc]
          have hB2 : B2 = [] := by
            apply List.eq_nil_of_length_eq_zero; omega
          rw [hB2] at hmem
          simp [hmem]
      · simp only [hneg, if_false]
        have hpos : strcmp s w < 0 := (strcmp_antisymm_sign s w).mpr (by omega)
        have hn2 : s ∉ B2 := fun hm => by
          have := hs2 s hm; unfold wordLE at this; omega
        have hmem : s ∈ B ↔ s ∈ B1 := by
          rw [hdec]; simp [hn2, Ne.symm hws]
        by_cases hc : B1.length ≠ 0
        · rw [if_pos hc]
          have hB1 : B1 ≠ [] := by
            intro h0; rw [h0] at hc; simp at hc
          have := ih A B1 (w :: B2 ++ C) (by omega) hB1
            (List.pairwise_append.mp hsorted).1
            (fun x hx => hwf x (by rw [hdec]; simp [hx]))
          have hw : A ++ B ++ C = A ++ B1 ++ (w :: B2 ++ C) := by rw [hdec]; simp
          rw [hw, this]
          simp only [hmem]
        · rw [if_neg hc]
          have hB1 : B1 = [] := by
            apply List.eq_nil_of_length_eq_zero; omega
          rw [hB1] at hmem
          simp [hmem]

/-! ## The words `Set` stores -/

/-- The blob after the optional case folding of `Set`. -/
theorem SetWords_perm (s : CStr) (attr : KeywordAttr) :
    (SetWords s attr).Perm (blobWords (if attr.makeLower then makeLower s else s)) := by
  rw [SetWords_eq]
  cases attr.preSorted
  · simpa [sortWords] using List.perm_insertionSort wordLE _
  · simp

theorem SetWords_sorted (s : CStr) (attr : KeywordAttr) (hp : attr.preSorted = false) :
    (SetWords s attr).Pairwise wordLE := by
  rw [SetWords_eq, hp]
  exact List.sorted_insertionSort wordLE _

theorem SetWords_mem {s : CStr} {attr : KeywordAttr} {w : CStr} (hw : w ∈ SetWords s attr) :
    w ≠ [] ∧ ∀ b ∈ w, 32 < b :=
  blobWords_mem ((SetWords_perm s attr).mem_iff.mp hw)

theorem noNul_of_gt {w : CStr} (hw : ∀ b ∈ w, 32 < b) : NoNul w :=
  fun b hb => by have := hw b hb; omega

theorem pairwise_peek_of_wordLE {ws : List CStr} (hs : ws.Pairwise wordLE) :
    ws.Pairwise (fun a b => peek a ≤ peek b) :=
  hs.imp (fun hab => wordLE_peek hab)

/-! ## The lookups on a valid word list -/

/-- The scan of the bucket of the byte `c`, as the lookups start it from the
table entry. -/
theorem bucket_scan {h : WordListH} (hh : h.WellFormed) {wl : WordList} {ws : List CStr}
    (hv : wl.Valid h ws) (c : Nat) (body : CStr → Option Bool) (f : CStr → Bool)
    (hbody : ∀ w ∈ bucketOf c ws, body w = some (f w)) :
    (if tableEntry h ws c ≠ 0 then
        scanRange body ((ws ++ [[]]).drop (Range.ofPacked (tableEntry h ws c)).start)
          (Range.ofPacked (tableEntry h ws c))
      else some false) = some ((bucketOf c ws).any f) := by
  by_cases hb : bucketOf c ws = []
  · have : tableEntry h ws c = 0 := by unfold tableEntry; rw [if_pos hb]
    simp [this, hb]
  · obtain ⟨hne, hdec, _, rest, hrest⟩ := tableEntry_decode hh hv.2.2.1 hv.2.2.2.1 hb
    rw [if_pos hne, hdec]
    simp only
    rw [hrest, List.append_assoc, List.drop_left]
    exact scanRange_spec body f _ _ _ hb hbody

/-- The scan of the `^` bucket by `InList`, `InListPrefixed` and
`InListAbbreviated`. -/
theorem caretBucket_spec {h : WordListH} (hh : h.WellFormed) {wl : WordList} {ws : List CStr}
    (hv : wl.Valid h ws) (s : CStr) :
    caretBucket h (ws ++ [[]]) wl.ranges s =
      some ((bucketOf 94 ws).any (fun w => decide (peek (skipCommon w.tail s).1 = 0))) := by
  have h94 : h.Indexable 94 := ⟨hh.2.1, hh.2.2.1⟩
  unfold caretBucket
  rw [Valid.ranges_get hh hv h94]
  exact bucket_scan hh hv 94 (caretBody s) _ (fun w _ => rfl)

/-- What the `^` bucket answers, in terms of the entries: some entry `^p` has
`p` as an initial segment of the query. -/
theorem caret_any_iff {ws : List CStr} (hws : ∀ w ∈ ws, NoNul w) (s : CStr) :
    (bucketOf 94 ws).any (fun w => decide (peek (skipCommon w.tail s).1 = 0)) = true ↔
      ∃ p, (94 :: p) ∈ ws ∧ p <+: s := by
  rw [List.any_eq_true]
  constructor
  · rintro ⟨w, hw, hp⟩
    obtain ⟨hwm, hwp⟩ := mem_bucketOf.mp hw
    cases w with
    | nil => simp [peek] at hwp
    | cons x p =>
      simp only [peek, List.headD_cons] at hwp
      subst hwp
      refine ⟨p, hwm, ?_⟩
      have hn : NoNul p := ((hws _ hwm).of_cons).2
      simpa using (skipCommon_fst_end (b := s) hn).mp (by simpa using hp)
  · rintro ⟨p, hpm, hps⟩
    refine ⟨94 :: p, mem_bucketOf.mpr ⟨hpm, rfl⟩, ?_⟩
    have hn : NoNul p := ((hws _ hpm).of_cons).2
    simpa using (skipCommon_fst_end (b := s) hn).mpr hps

/-- A query whose first byte has no bucket (the empty query included) is
answered `false` by the guard on the index. -/
theorem index_guard {h : WordListH} (hh : h.WellFormed) {s : CStr} (hs : IsCStr s)
    (hi : ¬ h.Indexable (peek s)) : bucketIndex h (peek s) > h.rangesSize - 1 := by
  apply bucketIndex_not_indexable hh hi
  cases s with
  | nil => simp [peek]
  | cons x s => simpa [peek] using (hs x (List.mem_cons_self _ _)).2

theorem index_ok {h : WordListH} (hh : h.WellFormed) {c : Nat} (hi : h.Indexable c) :
    ¬ (bucketIndex h c > h.rangesSize - 1) := by
  have := (bucketIndex_of_indexable hh hi)
  omega

theorem tail_eq_iff_of_peek {w s : CStr} (hw : w ≠ []) (hs : s ≠ []) (hp : peek w = peek s) :
    w.tail = s.tail ↔ w = s := by
  cases w with
  | nil => exact absurd rfl hw
  | cons x w =>
    cases s with
    | nil => exact absurd rfl hs
    | cons y s =>
      simp only [peek, List.headD_cons] at hp
      simp [hp]

/-- The search of the bucket of the first byte of the query by `InList`,
linear or binary according to the size of the bucket. -/
theorem InList_found {h : WordListH} (hh : h.WellFormed) {wl : WordList} {ws : List CStr}
    (hv : wl.Valid h ws) (hsorted : ws.Pairwise wordLE)
    (hws : ∀ w ∈ ws, w ≠ [] ∧ NoNul w) {s : CStr} (hs : NoNul s) (hsne : s ≠ []) :
    (if tableEntry h ws (peek s) ≠ 0 then
        if (Range.ofPacked (tableEntry h ws (peek s))).Length h < WordListLinearSearchThreshold
        then
          scanRange (InList.body s)
            ((ws ++ [[]]).drop (Range.ofPacked (tableEntry h ws (peek s))).start)
            (Range.ofPacked (tableEntry h ws (peek s)))
        else
          binarySearch (fun diff => decide (diff = 0)) (ws ++ [[]]) s
            ((Range.ofPacked (tableEntry h ws (peek s))).Length h)
            (Range.ofPacked (tableEntry h ws (peek s))).start
            ((Range.ofPacked (tableEntry h ws (peek s))).Length h)
      else some false) = some (decide (s ∈ ws)) := by
  have hmem : s ∈ ws ↔ s ∈ bucketOf (peek s) ws := by
    rw [mem_bucketOf]; simp
  by_cases hlin : tableEntry h ws (peek s) ≠ 0 ∧
      ¬ (Range.ofPacked (tableEntry h ws (peek s))).Length h < WordListLinearSearchThreshold
  · obtain ⟨hne, hbig⟩ := hlin
    rw [if_pos hne, if_neg hbig]
    have hb : bucketOf (peek s) ws ≠ [] := by
      intro h0; apply hne; unfold tableEntry; rw [if_pos h0]
    obtain ⟨_, hdec, hlen, rest, hrest⟩ := tableEntry_decode hh hv.2.2.1 hv.2.2.2.1 hb
    rw [hlen, hdec, hrest]
    simp only
    rw [binarySearch_spec hs hsne _ _ _ _ (Nat.le_refl _) hb
      ((hsorted.sublist (List.filter_sublist _)))
      (fun w hw => by
        obtain ⟨hwm, hwp⟩ := mem_bucketOf.mp hw
        exact ⟨(hws w hwm).2, (hws w hwm).1, hwp⟩)]
    simp only [hmem]
  · have hbody : ∀ w ∈ bucketOf (peek s) ws,
        InList.body s w = some (decide (w = s)) := by
      intro w hw
      obtain ⟨hwm, hwp⟩ := mem_bucketOf.mp hw
      unfold InList.body
      simp only [Option.some.injEq, decide_eq_decide]
      rw [skipCommon_both_end (hws w hwm).2.tail hs.tail,
        tail_eq_iff_of_peek (hws w hwm).1 hsne hwp]
    have key := bucket_scan hh hv (peek s) (InList.body s) _ hbody
    have hany : (bucketOf (peek s) ws).any (fun w => decide (w = s)) = decide (s ∈ ws) := by
      rw [Bool.eq_iff_iff, List.any_eq_true, decide_eq_true_iff, hmem]
      constructor
      · rintro ⟨w, hw, heq⟩
        have hwe : w = s := of_decide_eq_true heq
        rw [hwe] at hw; exact hw
      · intro hm; exact ⟨s, hm, by simp⟩
    rw [hany] at key
    by_cases hne : tableEntry h ws (peek s) ≠ 0
    · have hsmall : (Range.ofPacked (tableEntry h ws (peek s))).Length h <
          WordListLinearSearchThreshold := by
        by_contra hc; exact hlin ⟨hne, hc⟩
      rw [if_pos hne] at key ⊢
      rw [if_pos hsmall]; exact key
    · rw [if_neg hne] at key ⊢
      exact key

/-- The answer of `InList` on a valid, sorted word list, for a query whose
first byte has a bucket: the query is a stored word, or the `^` bucket has an
entry that matches. -/
theorem InList_valid {h : WordListH} (hh : h.WellFormed) {wl : WordList} {ws : List CStr}
    (hv : wl.Valid h ws) (hsorted : ws.Pairwise wordLE)
    (hws : ∀ w ∈ ws, w ≠ [] ∧ NoNul w) {s : CStr} (hs : NoNul s)
    (hi : h.Indexable (peek s)) :
    wl.InList h s = some (decide (s ∈ ws) ||
      (bucketOf 94 ws).any (fun w => decide (peek (skipCommon w.tail s).1 = 0))) := by
  have hsne : s ≠ [] := by
    intro h0; rw [h0] at hi; have := hh.1; have := hi.1; simp [peek] at this; omega
  unfold WordList.InList
  rw [hv.1]
  simp only [index_ok hh hi, if_false, Valid.ranges_get hh hv hi]
  rw [InList_found hh hv hsorted hws hs hsne, caretBucket_spec hh hv]
  cases decide (s ∈ ws) <;> simp

/-- A query whose first byte has no bucket is answered `false` by `InList`. -/
theorem InList_guard {h : WordListH} (hh : h.WellFormed) {wl : WordList} {s : CStr}
    (hs : IsCStr s) (hi : ¬ h.Indexable (peek s)) : wl.InList h s = some false := by
  unfold WordList.InList
  cases wl.words with
  | none => rfl
  | some words => simp only [index_guard hh hs hi, if_true]

/-- The loop of `Set` succeeds on every array grouped by first byte whose
words start with indexable bytes, whatever its length. -/
theorem Set_isSome {h : WordListH} (hh : h.WellFormed) (old : WordList)
    (hold : old.ranges.length = h.rangesSize) (s : CStr)
    (attr : KeywordAttr) (hs : (SetWords s attr).Pairwise (fun a b => peek a ≤ peek b))
    (hidx : ∀ w ∈ SetWords s attr, h.Indexable (peek w)) :
    ∃ wl, WordList.Set h old s attr = some wl := by
  obtain ⟨wl, hset, _⟩ := Set_table hh old hold s attr hs hidx
  exact ⟨wl, hset⟩

theorem Set_words {h : WordListH} {old wl : WordList} {s : CStr} {attr : KeywordAttr}
    (hset : WordList.Set h old s attr = some wl) :
    wl.words = some (SetWords s attr ++ [[]]) := by
  unfold WordList.Set at hset
  simp only at hset
  split at hset
  · cases hset
  · cases hset; rfl

theorem SetWords_ascending (s : CStr) (attr : KeywordAttr) (hp : attr.preSorted = false) :
    Ascending (SetWords s attr) := by
  unfold Ascending
  refine (SetWords_sorted s attr hp).imp_of_mem ?_
  intro a b ha hb hab
  exact (wordLE_iff_not_lex (noNul_of_gt (SetWords_mem ha).2)
    (noNul_of_gt (SetWords_mem hb).2)).mp hab

/-- The search of the bucket of the first byte of the query by `InList` and
`InListPrefixed` is defined on every valid word list, sorted or not, whatever
the test `hit` and whatever the body of the linear scan answers. -/
theorem found_defined {h : WordListH} (hh : h.WellFormed) {wl : WordList} {ws : List CStr}
    (hv : wl.Valid h ws) (hit : Int → Bool) (f : CStr → Bool) (s : CStr) (c : Nat) :
    ∃ b,
      (if tableEntry h ws c ≠ 0 then
        if (Range.ofPacked (tableEntry h ws c)).Length h < WordListLinearSearchThreshold
        then
          scanRange (fun w => some (f w))
            ((ws ++ [[]]).drop (Range.ofPacked (tableEntry h ws c)).start)
            (Range.ofPacked (tableEntry h ws c))
        else
          binarySearch hit (ws ++ [[]]) s
            ((Range.ofPacked (tableEntry h ws c)).Length h)
            (Range.ofPacked (tableEntry h ws c)).start
            ((Range.ofPacked (tableEntry h ws c)).Length h)
      else some false) = some b ∧
      (b = true → ∃ w ∈ bucketOf c ws, f w = true ∨
        hit ((peek (skipCommon w.tail s.tail).1 : Int) -
          (peek (skipCommon w.tail s.tail).2 : Int)) = true) := by
  by_cases hb : bucketOf c ws = []
  · have : tableEntry h ws c = 0 := by unfold tableEntry; rw [if_pos hb]
    exact ⟨false, by simp [this], fun h => by cases h⟩
  · obtain ⟨hne, hdec, hlen, rest, hrest⟩ := tableEntry_decode hh hv.2.2.1 hv.2.2.2.1 hb
    rw [if_pos hne]
    by_cases hsmall : (Range.ofPacked (tableEntry h ws c)).Length h <
        WordListLinearSearchThreshold
    · rw [if_pos hsmall, hdec]
      simp only
      rw [hrest, List.append_assoc, List.drop_left,
        scanRange_spec (fun w => some (f w)) f _ _ _ hb (fun _ _ => rfl)]
      refine ⟨_, rfl, fun hany => ?_⟩
      obtain ⟨w, hw, hfw⟩ := List.any_eq_true.mp hany
      exact ⟨w, hw, Or.inl hfw⟩
    · rw [if_neg hsmall, hlen, hdec, hrest]
      simp only
      obtain ⟨b, hbs, hbt⟩ := binarySearch_sound hit s _ (below c ws) (bucketOf c ws) rest
        (Nat.le_refl _) hb
      refine ⟨b, hbs, fun hbtrue => ?_⟩
      obtain ⟨w, hw, hh⟩ := hbt hbtrue
      exact ⟨w, hw, Or.inr hh⟩

/-- On a valid word list that has an entry `^p`, `InList` answers `true` for
every query that starts with `p` and whose first byte has a bucket. -/
theorem InList_caret {h : WordListH} (hh : h.WellFormed) {wl : WordList} {ws : List CStr}
    (hv : wl.Valid h ws) (hws : ∀ w ∈ ws, NoNul w) {p s : CStr} (hp : (94 :: p) ∈ ws)
    (hps : p <+: s) (hi : h.Indexable (peek s)) : wl.InList h s = some true := by
  unfold WordList.InList
  rw [hv.1]
  simp only [index_ok hh hi, if_false, Valid.ranges_get hh hv hi]
  obtain ⟨b, hb, _⟩ := found_defined hh hv (fun diff => decide (diff = 0))
    (fun w => decide (peek (skipCommon w.tail s.tail).1 = 0 ∧
      peek (skipCommon w.tail s.tail).2 = 0)) s (peek s)
  have hbody : InList.body s = fun w => some (decide (peek (skipCommon w.tail s.tail).1 = 0 ∧
      peek (skipCommon w.tail s.tail).2 = 0)) := rfl
  rw [hbody, hb]
  cases b with
  | true => rfl
  | false =>
    simp only
    rw [caretBucket_spec hh hv, (caret_any_iff hws s).mpr ⟨p, hp, hps⟩]

/-! ## A blob beyond the capacity of the table -/

theorem blobWords_word_sep {w : CStr} (hw : w ≠ []) (hgt : ∀ b ∈ w, 32 < b) (rest : CStr) :
    blobWords (w ++ 32 :: rest) = w :: blobWords rest := by
  unfold blobWords
  rw [List.splitOnP_first _ _ (fun x hx => by have := hgt x hx; simp; omega) 32 (by simp)]
  simp [hw]

theorem blobWords_single {w : CStr} (hw : w ≠ []) (hgt : ∀ b ∈ w, 32 < b) :
    blobWords w = [w] := by
  unfold blobWords
  rw [List.splitOnP_eq_single _ _ (fun x hx => by have := hgt x hx; simp; omega)]
  simp [hw]

theorem blobWords_manyWordsBlob (n : Nat) :
    blobWords (manyWordsBlob n) = List.replicate n (bytes "ax") ++ [bytes "b"] := by
  unfold manyWordsBlob
  induction n with
  | zero => exact blobWords_single (by decide) (by decide)
  | succ n ih =>
    have : (List.replicate (n + 1) (bytes "ax ")).flatten ++ bytes "b" =
        bytes "ax" ++ 32 :: ((List.replicate n (bytes "ax ")).flatten ++ bytes "b") := by
      rw [List.replicate_succ, List.flatten_cons]
      have : bytes "ax " = bytes "ax" ++ [32] := by decide
      rw [this]; simp
    rw [this, blobWords_word_sep (by decide) (by decide), ih, List.replicate_succ]
    rfl

theorem SetWords_manyWordsBlob (n : Nat) :
    SetWords (manyWordsBlob n) ⟨false, false⟩ =
      List.replicate n (bytes "ax") ++ [bytes "b"] := by
  rw [SetWords_eq]
  simp only [Bool.false_eq_true, if_false, blobWords_manyWordsBlob, sortWords]
  apply List.Sorted.insertionSort_eq
  unfold List.Sorted
  rw [List.pairwise_append]
  refine ⟨?_, List.pairwise_singleton _ _, ?_⟩
  · rw [List.pairwise_replicate]
    right; decide
  · intro a ha b hb
    rw [List.eq_of_mem_replicate ha, List.mem_singleton.mp hb]
    decide

/-- The word list `Set` builds from `n` words `ax` and one word `b`: the
table entry of `b` packs the indices `n` and `n + 1`, the `^` entry is 0. -/
theorem Set_manyWordsBlob (n : Nat) (hn : 0 < n) :
    ∃ wl, WordList.Set asciiH (WordList.empty asciiH) (manyWordsBlob n) ⟨false, false⟩ = some wl ∧
      wl.words = some (bytes "ax" :: (List.replicate (n - 1) (bytes "ax") ++ [bytes "b"] ++ [[]])) ∧
      wl.ranges[65]? = some (packRange asciiH n (n + 1)) ∧ wl.ranges[61]? = some 0 := by
  have hws := SetWords_manyWordsBlob n
  have hmemw : ∀ w ∈ List.replicate n (bytes "ax") ++ [bytes "b"],
      w = bytes "ax" ∨ w = bytes "b" := by
    intro w hw
    rcases List.mem_append.mp hw with h | h
    · left; exact List.eq_of_mem_replicate h
    · right; exact List.mem_singleton.mp h
  obtain ⟨wl, hset, hwords, _, htab⟩ := Set_table (h := asciiH) (by decide)
    (WordList.empty asciiH) (by decide) (manyWordsBlob n) ⟨false, false⟩
    (pairwise_peek_of_wordLE (SetWords_sorted _ _ rfl))
    (fun w hw => by
      rw [hws] at hw
      rcases hmemw w hw with h | h <;> rw [h] <;> decide)
  rw [hws] at hwords htab
  refine ⟨wl, hset, ?_, ?_, ?_⟩
  · rw [hwords]
    obtain ⟨m, rfl⟩ : ∃ m, n = m + 1 := ⟨n - 1, by omega⟩
    simp [List.replicate_succ]
  · have h98 := htab 98 (by decide)
    have hb : bucketOf 98 (List.replicate n (bytes "ax") ++ [bytes "b"]) = [bytes "b"] := by
      rw [bucketOf_append, bucketOf_eq_nil_of_ne (fun x hx => by
        rw [List.eq_of_mem_replicate hx]; decide)]
      rfl
    have hl : below 98 (List.replicate n (bytes "ax") ++ [bytes "b"]) =
        List.replicate n (bytes "ax") := by
      rw [below_append, below_eq_self (fun x hx => by
        rw [List.eq_of_mem_replicate hx]; decide)]
      simp [below]; decide
    unfold tableEntry at h98
    rw [hb, hl] at h98
    simpa [asciiH] using h98
  · have h94 := htab 94 (by decide)
    have hb : bucketOf 94 (List.replicate n (bytes "ax") ++ [bytes "b"]) = [] :=
      bucketOf_eq_nil_of_ne (fun x hx => by
        rcases hmemw x hx with h | h <;> rw [h] <;> decide)
    unfold tableEntry at h94
    rw [hb] at h94
    simpa [asciiH] using h94

/-- With 65536 words `ax` before it, the word `b` is not found: its table
entry `65536 | (65537 << 16)` is 0x10000 as a 32-bit value and unpacks to the
range of `words[0]`. -/
theorem InList_manyWordsBlob :
    (WordList.Set asciiH (WordList.empty asciiH) (manyWordsBlob 65536) ⟨false, false⟩).bind
      (fun wl => wl.InList asciiH (bytes "b")) = some false := by
  obtain ⟨wl, hset, hwords, h65, h61⟩ := Set_manyWordsBlob 65536 (by norm_num)
  rw [hset]
  show wl.InList asciiH (bytes "b") = some false
  have hp : packRange asciiH 65536 (65536 + 1) = 65536 := by decide
  rw [hp] at h65
  have hi : bucketIndex asciiH (peek (bytes "b")) = 65 := by decide
  have hc : bucketIndex asciiH 94 = 61 := by decide
  have hr : Range.ofPacked 65536 = { start := 0, end_ := 1 } := by decide
  have hlen : Range.Length asciiH { start := 0, end_ := 1 } = 1 := by decide
  have hbody : InList.body (bytes "b") (bytes "ax") = some false := by decide
  unfold WordList.InList caretBucket
  rw [hwords]
  simp only [hi, hc, h65, h61, hr, hlen]
  simp [WordListLinearSearchThreshold, asciiH, scanRange, hbody]

/-! ## The entries with a marker -/

/-- The loop exhausts its second string exactly when that one is an initial
segment of the first. -/
theorem skipCommon_snd_end {a b : CStr} (hb : NoNul b) :
    peek (skipCommon a b).2 = 0 ↔ b <+: a := by
  induction a generalizing b with
  | nil =>
    cases b with
    | nil => simp [skipCommon, peek]
    | cons y bs => simpa [skipCommon, peek] using (hb.of_cons).1
  | cons x as ih =>
    cases b with
    | nil => simp [skipCommon, peek]
    | cons y bs =>
      have hy := (hb.of_cons).1
      by_cases hxy : x = y
      · subst hxy
        simp [skipCommon, hy, ih (hb.of_cons).2, List.cons_prefix_cons]
      · have hyx : ¬ y = x := fun h => hxy h.symm
        simp [skipCommon, hxy, hyx, peek, hy, List.cons_prefix_cons]

/-- An entry with exactly one marker splits at it in one way only. -/
theorem marker_split_unique {m : Nat} {p q p0 q0 : CStr} (hp0 : m ∉ p0) (hq0 : m ∉ q0)
    (h : p ++ m :: q = p0 ++ m :: q0) : p = p0 ∧ q = q0 := by
  induction p generalizing p0 with
  | nil =>
    cases p0 with
    | nil => simpa using h
    | cons y p0 =>
      simp only [List.nil_append, List.cons_append, List.cons.injEq] at h
      exact absurd (h.1 ▸ List.mem_cons_self _ _) hp0
  | cons x p ih =>
    cases p0 with
    | nil =>
      simp only [List.nil_append, List.cons_append, List.cons.injEq] at h
      exfalso; apply hq0; rw [← h.2]; simp
    | cons y p0 =>
      simp only [List.cons_append, List.cons.injEq] at h
      obtain ⟨hp, hq⟩ := ih (fun hm => hp0 (List.mem_cons_of_mem _ hm)) h.2
      exact ⟨by rw [h.1, hp], hq⟩

theorem skipCommon_cons_hit {x : Nat} {b : CStr} (as : CStr) (h : x ≠ 0 ∧ x = peek b) :
    skipCommon (x :: as) b = skipCommon as b.tail := by
  cases b with
  | nil => exact absurd h.2 h.1
  | cons y bs =>
    simp only [peek, List.headD_cons] at h
    simp only [skipCommon, if_pos h, List.tail_cons]

theorem skipCommon_cons_miss {x : Nat} {b : CStr} (as : CStr) (h : ¬ (x ≠ 0 ∧ x = peek b)) :
    skipCommon (x :: as) b = (x :: as, b) := by
  cases b with
  | nil => rfl
  | cons y bs =>
    simp only [peek, List.headD_cons] at h
    simp only [skipCommon, if_neg h]

theorem cons_prefix_iff_peek {x : Nat} (hx : x ≠ 0) (p b : CStr) :
    (x :: p) <+: b ↔ (x ≠ 0 ∧ x = peek b) ∧ p <+: b.tail := by
  cases b with
  | nil => simp [peek, hx]
  | cons y bs => simp [peek, hx, List.cons_prefix_cons]

theorem abbreviated_loop_one_hit {m x : Nat} {b : CStr} (sub : Bool) (hm : m ≠ 0)
    (h : x ≠ 0 ∧ x = peek b) :
    InListAbbreviated.loop m sub [x] b = some (sub, [], b.tail) := by
  rw [InListAbbreviated.loop, if_pos h, if_neg hm]

theorem abbreviated_loop_one_miss {m x : Nat} {b : CStr} (sub : Bool)
    (h : ¬ (x ≠ 0 ∧ x = peek b)) :
    InListAbbreviated.loop m sub [x] b = some (sub, [x], b) := by
  rw [InListAbbreviated.loop, if_neg h]

theorem abbreviated_loop_two_marker {m x : Nat} {b : CStr} (sub : Bool) (a : CStr)
    (h : x ≠ 0 ∧ x = peek b) :
    InListAbbreviated.loop m sub (x :: m :: a) b = InListAbbreviated.loop m true a b.tail := by
  rw [InListAbbreviated.loop, if_pos h, if_pos rfl]

theorem abbreviated_loop_two_hit {m x y : Nat} {b : CStr} (sub : Bool) (a : CStr)
    (h : x ≠ 0 ∧ x = peek b) (hy : y ≠ m) :
    InListAbbreviated.loop m sub (x :: y :: a) b =
      InListAbbreviated.loop m sub (y :: a) b.tail := by
  rw [InListAbbreviated.loop, if_pos h, if_neg hy]

theorem abbreviated_loop_two_miss {m x y : Nat} {b : CStr} (sub : Bool) (a : CStr)
    (h : ¬ (x ≠ 0 ∧ x = peek b)) :
    InListAbbreviated.loop m sub (x :: y :: a) b = some (sub, x :: y :: a, b) := by
  rw [InListAbbreviated.loop, if_neg h]

/-- The loop of `InListAbbreviated` on the text after the marker is the plain
comparison loop. -/
theorem abbreviated_loop_after {m : Nat} (hm : m ≠ 0) (sub : Bool) :
    ∀ (q b : CStr), m ∉ q →
      InListAbbreviated.loop m sub q b = some (sub, (skipCommon q b).1, (skipCommon q b).2) := by
  intro q
  induction q with
  | nil => intro b _; cases b <;> simp [InListAbbreviated.loop, skipCommon]
  | cons x q ih =>
    intro b hq
    have hxq : m ∉ q := fun h => hq (List.mem_cons_of_mem _ h)
    by_cases hxy : x ≠ 0 ∧ x = peek b
    · rw [skipCommon_cons_hit _ hxy]
      cases q with
      | nil =>
        rw [abbreviated_loop_one_hit sub hm hxy]
        cases b.tail <;> rfl
      | cons x2 q2 =>
        have hx2 : x2 ≠ m := fun h => hq (by simp [h])
        rw [abbreviated_loop_two_hit sub _ hxy hx2]
        exact ih _ hxq
    · rw [skipCommon_cons_miss _ hxy]
      cases q with
      | nil => rw [abbreviated_loop_one_miss sub hxy]
      | cons x2 q2 => rw [abbreviated_loop_two_miss sub _ hxy]

/-- The loop of `InListAbbreviated` on an entry that still has a non-empty
part `p` before its marker: when `p` starts the query the loop goes on after
the marker with the flag set, otherwise it stops inside `p` with the flag as it
was. -/
theorem abbreviated_loop_before {m : Nat} (sub : Bool) (q : CStr) :
    ∀ (p b : CStr), p ≠ [] → m ∉ p → NoNul p →
      (p <+: b → InListAbbreviated.loop m sub (p ++ m :: q) b =
        InListAbbreviated.loop m true q (b.drop p.length)) ∧
      (¬ p <+: b → ∃ a2 b2, InListAbbreviated.loop m sub (p ++ m :: q) b = some (sub, a2, b2) ∧
        peek a2 ≠ 0) := by
  intro p
  induction p with
  | nil => intro b h; exact absurd rfl h
  | cons x p ih =>
    intro b _ hmp hn
    have hx0 : x ≠ 0 := (hn.of_cons).1
    have hpx : peek (x :: (p ++ m :: q)) ≠ 0 := by simpa [peek] using hx0
    rw [cons_prefix_iff_peek hx0]
    by_cases hxy : x ≠ 0 ∧ x = peek b
    · cases p with
      | nil =>
        refine ⟨fun _ => ?_, fun h => absurd ⟨hxy, List.nil_prefix⟩ h⟩
        simp only [List.cons_append, List.nil_append, List.length_cons, List.length_nil]
        rw [abbreviated_loop_two_marker sub _ hxy]
        simp
      | cons x2 p2 =>
        have hx2 : x2 ≠ m := fun h => hmp (by simp [h])
        have ih2 := ih b.tail (by simp) (fun h => hmp (List.mem_cons_of_mem _ h)) (hn.of_cons).2
        have hstep : InListAbbreviated.loop m sub ((x :: x2 :: p2) ++ m :: q) b =
            InListAbbreviated.loop m sub ((x2 :: p2) ++ m :: q) b.tail := by
          simp only [List.cons_append]
          exact abbreviated_loop_two_hit sub _ hxy hx2
        rw [hstep]
        constructor
        · intro h
          rw [ih2.1 h.2]
          simp
        · intro h
          exact ih2.2 (fun h3 => h ⟨hxy, h3⟩)
    · refine ⟨fun h => absurd h.1 hxy, fun _ => ⟨x :: (p ++ m :: q), b, ?_, hpx⟩⟩
      cases p with
      | nil => exact abbreviated_loop_two_miss sub _ hxy
      | cons x2 p2 => exact abbreviated_loop_two_miss sub _ hxy

theorem prefix_drop_iff (p s q : CStr) :
    (p <+: s ∧ s.drop p.length <+: q) ↔ ∃ q2, q2 <+: q ∧ s = p ++ q2 := by
  constructor
  · rintro ⟨⟨r, hr⟩, hq⟩
    refine ⟨r, ?_, hr.symm⟩
    rw [← hr, List.drop_left] at hq
    exact hq
  · rintro ⟨q2, hq2, rfl⟩
    exact ⟨List.prefix_append _ _, by rw [List.drop_left]; exact hq2⟩

/-- The body of the scan of `InListAbbreviated` on an entry `p·marker·q` of
the bucket of the query: it is defined, and it returns `true` exactly when the
query is `p` followed by an initial segment of `q`. -/
theorem abbreviated_body {m : Nat} {p q s : CStr} (hp : p ≠ []) (hmp : m ∉ p) (hmq : m ∉ q)
    (hn : NoNul (p ++ m :: q)) (hs : NoNul s) (hsne : s ≠ [])
    (hpk : peek (p ++ m :: q) = peek s) :
    ∃ b, InListAbbreviated.body s m (p ++ m :: q) = some b ∧
      (b = true ↔ ∃ q2, q2 <+: q ∧ s = p ++ q2) := by
  have hm0 : m ≠ 0 := hn m (by simp)
  cases p with
  | nil => exact absurd rfl hp
  | cons x0 p1 =>
    cases s with
    | nil => exact absurd rfl hsne
    | cons y0 s1 =>
      simp only [List.cons_append, peek, List.headD_cons] at hpk
      subst hpk
      have hs1 : NoNul s1 := (hs.of_cons).2
      have hiff : (∃ q2, q2 <+: q ∧ x0 :: s1 = x0 :: p1 ++ q2) ↔
          (p1 <+: s1 ∧ s1.drop p1.length <+: q) := by
        rw [prefix_drop_iff]
        simp
      rw [hiff]
      unfold InListAbbreviated.body
      simp only [List.cons_append, List.tail_cons]
      cases p1 with
      | nil =>
        have hpa : peek (m :: q) = m := rfl
        simp only [List.nil_append, hpa, if_true, List.cons_ne_nil, if_false, List.tail_cons]
        rw [abbreviated_loop_after hm0 true q s1 hmq]
        refine ⟨_, rfl, ?_⟩
        simp only [List.length_nil, List.drop_zero, List.nil_prefix, true_and]
        rw [← skipCommon_snd_end (a := q) hs1]
        simp
      | cons x1 p2 =>
        have hx1 : x1 ≠ m := fun h => hmp (by simp [h])
        have hpa : peek (x1 :: p2 ++ m :: q) = x1 := rfl
        simp only [hpa, hx1, if_false]
        have hnp : NoNul (x1 :: p2) := fun b hb => hn b (by
          rcases List.mem_cons.mp hb with h | h <;> simp [h])
        obtain ⟨hyes, hno⟩ := abbreviated_loop_before false q (x1 :: p2) s1 (by simp)
          (fun h => hmp (List.mem_cons_of_mem _ h)) hnp
        by_cases hpre : (x1 :: p2) <+: s1
        · rw [hyes hpre, abbreviated_loop_after hm0 true q _ hmq]
          refine ⟨_, rfl, ?_⟩
          have hd : NoNul (s1.drop (x1 :: p2).length) := fun b hb =>
            hs1 b (List.mem_of_mem_drop hb)
          rw [← skipCommon_snd_end (a := q) hd]
          simp [hpre]
        · obtain ⟨a2, b2, hloop, ha2⟩ := hno hpre
          rw [hloop]
          refine ⟨_, rfl, ?_⟩
          simp [hpre, ha2]

/-- The scan of a bucket whose body is defined on every entry: it is defined,
and it answers `true` exactly when the body returns `true` at some entry. -/
theorem bucket_scan_iff {h : WordListH} (hh : h.WellFormed) {wl : WordList} {ws : List CStr}
    (hv : wl.Valid h ws) (c : Nat) (body : CStr → Option Bool)
    (hbody : ∀ w ∈ bucketOf c ws, ∃ b, body w = some b) :
    ∃ r, (if tableEntry h ws c ≠ 0 then
        scanRange body ((ws ++ [[]]).drop (Range.ofPacked (tableEntry h ws c)).start)
          (Range.ofPacked (tableEntry h ws c))
      else some false) = some r ∧
      (r = true ↔ ∃ w ∈ bucketOf c ws, body w = some true) := by
  refine ⟨_, bucket_scan hh hv c body (fun w => (body w).getD false) (fun w hw => by
    obtain ⟨b, hb⟩ := hbody w hw
    show body w = some ((body w).getD false)
    rw [hb]; rfl), ?_⟩
  rw [List.any_eq_true]
  constructor
  · rintro ⟨w, hw, hg⟩
    obtain ⟨b, hb⟩ := hbody w hw
    rw [hb] at hg
    exact ⟨w, hw, by rw [hb]; simpa using hg⟩
  · rintro ⟨w, hw, hb⟩
    exact ⟨w, hw, by rw [hb]; rfl⟩

theorem peek_append_of_ne_nil {p : CStr} (hp : p ≠ []) (r : CStr) : peek (p ++ r) = peek p := by
  cases p with
  | nil => exact absurd rfl hp
  | cons x p => rfl

theorem caret_bucket_empty {ws : List CStr} (hcaret : ∀ w ∈ ws, peek w ≠ 94) :
    bucketOf 94 ws = [] :=
  bucketOf_eq_nil_of_ne hcaret

/-- The answer of `InListAbbreviated` on a valid word list without `^` entry
whose entries all have the form `p·marker·q` with `p` non-empty and a single
marker. -/
theorem InListAbbreviated_valid {h : WordListH} (hh : h.WellFormed) {wl : WordList}
    {ws : List CStr} (hv : wl.Valid h ws) (hws : ∀ w ∈ ws, NoNul w) (marker : Nat)
    (hform : ∀ w ∈ ws, ∃ p q, w = p ++ marker :: q ∧ p ≠ [] ∧ marker ∉ p ∧ marker ∉ q)
    (hcaret : ∀ w ∈ ws, peek w ≠ 94) {s : CStr} (hs : IsCStr s) :
    ∃ b, wl.InListAbbreviated h s marker = some b ∧
      (b = true ↔ ∃ p q q2, (p ++ marker :: q) ∈ ws ∧ q2 <+: q ∧ s = p ++ q2) := by
  have hpne : ∀ p q, (p ++ marker :: q) ∈ ws → p ≠ [] ∧ marker ∉ p ∧ marker ∉ q := by
    intro p q hw
    obtain ⟨p0, q0, he, hp0, hmp0, hmq0⟩ := hform _ hw
    obtain ⟨h1, h2⟩ := marker_split_unique hmp0 hmq0 he
    rw [h1, h2]; exact ⟨hp0, hmp0, hmq0⟩
  by_cases hi : h.Indexable (peek s)
  · have hsne : s ≠ [] := by
      intro h0; rw [h0] at hi; have := hh.1; have := hi.1; simp [peek] at this; omega
    have hdef : ∀ w ∈ bucketOf (peek s) ws, ∃ b, InListAbbreviated.body s marker w = some b := by
      intro w hw
      obtain ⟨hwm, hwp⟩ := mem_bucketOf.mp hw
      obtain ⟨p, q, he, hp, hmp, hmq⟩ := hform w hwm
      obtain ⟨b, hb, _⟩ := abbreviated_body hp hmp hmq (he ▸ hws w hwm) hs.noNul hsne
        (he ▸ hwp)
      exact ⟨b, he ▸ hb⟩
    obtain ⟨r, hr, hriff⟩ := bucket_scan_iff hh hv (peek s) (InListAbbreviated.body s marker) hdef
    refine ⟨r, ?_, ?_⟩
    · unfold WordList.InListAbbreviated
      rw [hv.1]
      simp only [index_ok hh hi, if_false, Valid.ranges_get hh hv hi]
      rw [hr]
      cases r with
      | true => rfl
      | false =>
        simp only
        rw [caretBucket_spec hh hv, caret_bucket_empty hcaret]
        rfl
    · rw [hriff]
      constructor
      · rintro ⟨w, hw, hb⟩
        obtain ⟨hwm, hwp⟩ := mem_bucketOf.mp hw
        obtain ⟨p, q, he, hp, hmp, hmq⟩ := hform w hwm
        obtain ⟨b, hb2, hbiff⟩ := abbreviated_body hp hmp hmq (he ▸ hws w hwm) hs.noNul hsne
          (he ▸ hwp)
        rw [he, hb2] at hb
        obtain ⟨q2, hq2, hsq⟩ := hbiff.mp (by simpa using hb)
        exact ⟨p, q, q2, he ▸ hwm, hq2, hsq⟩
      · rintro ⟨p, q, q2, hw, hq2, hsq⟩
        obtain ⟨hp, hmp, hmq⟩ := hpne p q hw
        have hpk : peek (p ++ marker :: q) = peek s := by
          rw [hsq, peek_append_of_ne_nil hp, peek_append_of_ne_nil hp]
        obtain ⟨b, hb2, hbiff⟩ := abbreviated_body hp hmp hmq (hws _ hw) hs.noNul hsne hpk
        refine ⟨p ++ marker :: q, mem_bucketOf.mpr ⟨hw, hpk⟩, ?_⟩
        rw [hb2, hbiff.mpr ⟨q2, hq2, hsq⟩]
  · refine ⟨false, ?_, ?_⟩
    · unfold WordList.InListAbbreviated
      rw [hv.1]
      simp only [index_guard hh hs hi, if_true]
    · constructor
      · intro h0; cases h0
      · rintro ⟨p, q, q2, hw, _, hsq⟩
        exfalso; apply hi
        obtain ⟨hp, _, _⟩ := hpne p q hw
        have := hv.2.2.2.2.1 _ hw
        rw [peek_append_of_ne_nil hp] at this
        rw [hsq, peek_append_of_ne_nil hp]
        exact this

/-! ## `InListAbridged` -/

theorem abridged_loop_one_hit {m x : Nat} {b : CStr} (hm : m ≠ 0) (h : x ≠ 0 ∧ x = peek b) :
    InListAbridged.loop m [x] b = some ([], b.tail) := by
  rw [InListAbridged.loop, if_pos h, if_neg hm]

theorem abridged_loop_one_miss {m x : Nat} {b : CStr} (h : ¬ (x ≠ 0 ∧ x = peek b)) :
    InListAbridged.loop m [x] b = some ([x], b) := by
  rw [InListAbridged.loop, if_neg h]

theorem abridged_loop_two_marker {m x : Nat} {b : CStr} (a : CStr) (h : x ≠ 0 ∧ x = peek b) :
    InListAbridged.loop m (x :: m :: a) b =
      if strlen a ≥ strlen b then some (a, b)
      else InListAbridged.loop m a ((b.drop (strlen b - strlen a - 1)).tail) := by
  rw [InListAbridged.loop, if_pos h, if_pos rfl]

theorem abridged_loop_two_hit {m x y : Nat} {b : CStr} (a : CStr) (h : x ≠ 0 ∧ x = peek b)
    (hy : y ≠ m) :
    InListAbridged.loop m (x :: y :: a) b = InListAbridged.loop m (y :: a) b.tail := by
  rw [InListAbridged.loop, if_pos h, if_neg hy]

theorem abridged_loop_two_miss {m x y : Nat} {b : CStr} (a : CStr)
    (h : ¬ (x ≠ 0 ∧ x = peek b)) :
    InListAbridged.loop m (x :: y :: a) b = some (x :: y :: a, b) := by
  rw [InListAbridged.loop, if_neg h]

/-- With a marker other than NUL the loop of `InListAbridged` is defined on
every entry. -/
theorem abridged_loop_defined {m : Nat} (hm : m ≠ 0) :
    ∀ (n : Nat) (a b : CStr), a.length ≤ n → ∃ r, InListAbridged.loop m a b = some r := by
  intro n
  induction n with
  | zero =>
    intro a b ha
    have : a = [] := List.eq_nil_of_length_eq_zero (by omega)
    subst this
    exact ⟨_, by rw [InListAbridged.loop]⟩
  | succ n ih =>
    intro a b ha
    match a, ha with
    | [], _ => exact ⟨_, by rw [InListAbridged.loop]⟩
    | [x], _ =>
      by_cases hxy : x ≠ 0 ∧ x = peek b
      · exact ⟨_, abridged_loop_one_hit hm hxy⟩
      · exact ⟨_, abridged_loop_one_miss hxy⟩
    | x :: y :: a2, ha =>
      simp only [List.length_cons] at ha
      by_cases hxy : x ≠ 0 ∧ x = peek b
      · by_cases hy : y = m
        · subst hy
          rw [abridged_loop_two_marker _ hxy]
          split
          · exact ⟨_, rfl⟩
          · exact ih a2 _ (by omega)
        · rw [abridged_loop_two_hit _ hxy hy]
          exact ih (y :: a2) _ (by simp; omega)
      · exact ⟨_, abridged_loop_two_miss _ hxy⟩

/-- The loop of `InListAbridged` on the text after the marker is the plain
comparison loop. -/
theorem abridged_loop_after {m : Nat} (hm : m ≠ 0) :
    ∀ (q b : CStr), m ∉ q → InListAbridged.loop m q b = some (skipCommon q b) := by
  intro q
  induction q with
  | nil => intro b _; cases b <;> simp [InListAbridged.loop, skipCommon]
  | cons x q ih =>
    intro b hq
    have hxq : m ∉ q := fun h => hq (List.mem_cons_of_mem _ h)
    by_cases hxy : x ≠ 0 ∧ x = peek b
    · rw [skipCommon_cons_hit _ hxy]
      cases q with
      | nil =>
        rw [abridged_loop_one_hit hm hxy]
        cases b.tail <;> rfl
      | cons x2 q2 =>
        have hx2 : x2 ≠ m := fun h => hq (by simp [h])
        rw [abridged_loop_two_hit _ hxy hx2]
        exact ih _ hxq
    · rw [skipCommon_cons_miss _ hxy]
      cases q with
      | nil => rw [abridged_loop_one_miss hxy]
      | cons x2 q2 => rw [abridged_loop_two_miss _ hxy]

theorem strlen_cons_of_ne {x : Nat} (hx : x ≠ 0) (r : CStr) : strlen (x :: r) = strlen r + 1 := by
  rw [strlen, if_neg hx]

/-- The loop of `InListAbridged` on an entry `p·marker·q`: when the query is
`p` followed by `r` the loop reaches the marker with `b` on the last byte of
`p`; it stops there when `r` is shorter than `q`, and otherwise goes on with
`q` against the last `strlen q` bytes of the query.  When `p` does not start
the query the loop stops inside `p`. -/
theorem abridged_loop_before {m : Nat} (q : CStr) :
    ∀ (p : CStr), p ≠ [] → m ∉ p → NoNul p →
      (∀ r, (strlen q ≥ strlen r + 1 →
          ∃ x, x ≠ 0 ∧ InListAbridged.loop m (p ++ m :: q) (p ++ r) = some (q, x :: r)) ∧
        (¬ strlen q ≥ strlen r + 1 →
          InListAbridged.loop m (p ++ m :: q) (p ++ r) =
            InListAbridged.loop m q (r.drop (strlen r - strlen q)))) ∧
      (∀ b, ¬ p <+: b → ∃ a2 b2, InListAbridged.loop m (p ++ m :: q) b = some (a2, b2) ∧
        peek a2 ≠ 0) := by
  intro p
  induction p with
  | nil => intro h; exact absurd rfl h
  | cons x p ih =>
    intro _ hmp hn
    have hx0 : x ≠ 0 := (hn.of_cons).1
    have hpx : peek (x :: (p ++ m :: q)) ≠ 0 := by simpa [peek] using hx0
    have hmiss : ∀ b, ¬ (x ≠ 0 ∧ x = peek b) →
        ∃ a2 b2, InListAbridged.loop m ((x :: p) ++ m :: q) b = some (a2, b2) ∧ peek a2 ≠ 0 := by
      intro b hxy
      refine ⟨x :: (p ++ m :: q), b, ?_, hpx⟩
      cases p with
      | nil => exact abridged_loop_two_miss _ hxy
      | cons x2 p2 => exact abridged_loop_two_miss _ hxy
    cases p with
    | nil =>
      refine ⟨fun r => ?_, fun b hb => ?_⟩
      · have hhit : x ≠ 0 ∧ x = peek ([x] ++ r) := ⟨hx0, rfl⟩
        have hstep := abridged_loop_two_marker (m := m) q hhit
        simp only [List.cons_append, List.nil_append] at hstep ⊢
        rw [strlen_cons_of_ne hx0] at hstep
        constructor
        · intro hge
          exact ⟨x, hx0, by rw [hstep, if_pos hge]⟩
        · intro hlt
          rw [hstep, if_neg hlt, List.tail_drop]
          have : strlen r + 1 - strlen q - 1 + 1 = (strlen r - strlen q) + 1 := by omega
          rw [this, List.drop_succ_cons]
      · apply hmiss
        intro hxy
        exact hb ((cons_prefix_iff_peek hx0 [] b).mpr ⟨hxy, List.nil_prefix⟩)
    | cons x2 p2 =>
      have hx2 : x2 ≠ m := fun h => hmp (by simp [h])
      obtain ⟨ihit, imiss⟩ := ih (by simp) (fun h => hmp (List.mem_cons_of_mem _ h))
        (hn.of_cons).2
      refine ⟨fun r => ?_, fun b hb => ?_⟩
      · have hhit : x ≠ 0 ∧ x = peek ((x :: x2 :: p2) ++ r) := ⟨hx0, rfl⟩
        have hstep : InListAbridged.loop m ((x :: x2 :: p2) ++ m :: q) ((x :: x2 :: p2) ++ r) =
            InListAbridged.loop m ((x2 :: p2) ++ m :: q) ((x2 :: p2) ++ r) :=
          abridged_loop_two_hit _ hhit hx2
        rw [hstep]
        exact ihit r
      · by_cases hxy : x ≠ 0 ∧ x = peek b
        · have hstep : InListAbridged.loop m ((x :: x2 :: p2) ++ m :: q) b =
              InListAbridged.loop m ((x2 :: p2) ++ m :: q) b.tail :=
            abridged_loop_two_hit _ hxy hx2
          rw [hstep]
          apply imiss
          intro h3
          exact hb ((cons_prefix_iff_peek hx0 _ b).mpr ⟨hxy, h3⟩)
        · exact hmiss b hxy

theorem NoNul.append_left {a b : CStr} (h : NoNul (a ++ b)) : NoNul a :=
  fun x hx => h x (List.mem_append_left _ hx)

theorem NoNul.append_right {a b : CStr} (h : NoNul (a ++ b)) : NoNul b :=
  fun x hx => h x (List.mem_append_right _ hx)

/-- The body of the first scan of `InListAbridged` on an entry `p·marker·q`:
it is defined, and it returns `true` exactly when the query starts with `p`,
ends with `q` and is at least as long as the two together. -/
theorem abridged_body {m : Nat} {p q s : CStr} (hp : p ≠ []) (hmp : m ∉ p) (hmq : m ∉ q)
    (hn : NoNul (p ++ m :: q)) (hs : NoNul s) :
    ∃ b, InListAbridged.body s m (p ++ m :: q) = some b ∧
      (b = true ↔ ∃ mid, s = p ++ mid ++ q) := by
  have hm0 : m ≠ 0 := hn m (by simp)
  have hnp : NoNul p := hn.append_left
  have hnq : NoNul q := (hn.append_right.of_cons).2
  obtain ⟨hhit, hmiss⟩ := abridged_loop_before (m := m) q p hp hmp hnp
  unfold InListAbridged.body
  by_cases hpre : p <+: s
  · obtain ⟨r, rfl⟩ := hpre
    have hnr : NoNul r := hs.append_right
    have hiff : (∃ mid, p ++ r = p ++ mid ++ q) ↔ q <:+ r := by
      constructor
      · rintro ⟨mid, hmid⟩
        rw [List.append_assoc] at hmid
        exact ⟨mid, (List.append_cancel_left hmid).symm⟩
      · rintro ⟨mid, hmid⟩
        exact ⟨mid, by rw [List.append_assoc, hmid]⟩
    rw [hiff]
    by_cases hge : strlen q ≥ strlen r + 1
    · obtain ⟨x, hx, hloop⟩ := (hhit r).1 hge
      rw [hloop]
      refine ⟨_, rfl, ?_⟩
      have hlen : ¬ q <:+ r := by
        intro hsuf
        have := hsuf.length_le
        rw [strlen_eq_length hnq, strlen_eq_length hnr] at hge
        omega
      simp [peek, hx, hlen]
    · rw [(hhit r).2 hge, abridged_loop_after hm0 q _ hmq]
      refine ⟨_, rfl, ?_⟩
      have hd : NoNul (r.drop (strlen r - strlen q)) := fun b hb =>
        hnr b (List.mem_of_mem_drop hb)
      simp only [decide_eq_true_iff]
      rw [skipCommon_both_end hnq hd, strlen_eq_length hnq, strlen_eq_length hnr,
        List.suffix_iff_eq_drop]
  · obtain ⟨a2, b2, hloop, ha2⟩ := hmiss s hpre
    rw [hloop]
    refine ⟨_, rfl, ?_⟩
    have hno : ¬ ∃ mid, s = p ++ mid ++ q := by
      rintro ⟨mid, hmid⟩
      exact hpre ⟨mid ++ q, by rw [hmid, List.append_assoc]⟩
    constructor
    · intro hb
      simp only [decide_eq_true_iff] at hb
      exact absurd hb.1 ha2
    · intro hex; exact absurd hex hno

/-- The body of the second scan of `InListAbridged` on an entry `marker·q`:
it returns `true` exactly when the query ends with `q`. -/
theorem abridged_suffixBody {w s : CStr} (hw : NoNul w) (hs : NoNul s) :
    InListAbridged.suffixBody s w = some (decide (w.tail <:+ s)) := by
  unfold InListAbridged.suffixBody
  simp only [strlen_eq_length hw.tail, strlen_eq_length hs]
  by_cases hgt : w.tail.length > s.length
  · rw [if_pos hgt]
    have : ¬ w.tail <:+ s := fun hsuf => by have := hsuf.length_le; omega
    simp [this]
  · rw [if_neg hgt]
    have hd : NoNul (s.drop (s.length - w.tail.length)) := fun b hb =>
      hs b (List.mem_of_mem_drop hb)
    simp only [Option.some.injEq, decide_eq_decide]
    rw [skipCommon_both_end hw.tail hd, List.suffix_iff_eq_drop]

/-- The first scan of `InListAbridged` on an entry `marker·q` whose `q` has
no marker, for a query that starts with the marker: it returns `true` only for
the query `marker·q` itself. -/
theorem abridged_body_suffix_entry {m : Nat} {q s : CStr} (hmq : m ∉ q)
    (hn : NoNul (m :: q)) (hs : NoNul s) :
    ∃ b, InListAbridged.body s m (m :: q) = some b ∧ (b = true → q <:+ s) := by
  have hm0 : m ≠ 0 := (hn.of_cons).1
  have hnq : NoNul q := (hn.of_cons).2
  unfold InListAbridged.body
  by_cases hxy : m ≠ 0 ∧ m = peek s
  · cases q with
    | nil =>
      rw [abridged_loop_one_hit hm0 hxy]
      exact ⟨_, rfl, fun _ => List.nil_suffix⟩
    | cons y q2 =>
      have hy : y ≠ m := fun h => hmq (by simp [h])
      rw [abridged_loop_two_hit _ hxy hy, abridged_loop_after hm0 _ _ hmq]
      refine ⟨_, rfl, fun hb => ?_⟩
      simp only [decide_eq_true_iff] at hb
      have heq := (skipCommon_both_end hnq hs.tail).mp hb
      rw [heq]
      exact List.tail_suffix s
  · cases q with
    | nil =>
      rw [abridged_loop_one_miss hxy]
      exact ⟨_, rfl, fun _ => List.nil_suffix⟩
    | cons y q2 =>
      rw [abridged_loop_two_miss _ hxy]
      refine ⟨_, rfl, fun hb => ?_⟩
      simp [peek, hm0] at hb

/-- The second half of `InListAbridged` on a valid word list: whether some
entry that starts with the marker has the rest of its text at the end of the
query. -/
theorem suffixBucket_spec {h : WordListH} (hh : h.WellFormed) {wl : WordList} {ws : List CStr}
    (hv : wl.Valid h ws) (hws : ∀ w ∈ ws, NoNul w) {marker : Nat} (hm : marker < 256)
    {s : CStr} (hs : NoNul s) :
    InListAbridged.suffixBucket h (ws ++ [[]]) wl.ranges s marker =
      some ((bucketOf marker ws).any (fun w => decide (w.tail <:+ s))) := by
  unfold InListAbridged.suffixBucket
  by_cases hi : h.Indexable marker
  · simp only [index_ok hh hi, if_false, Valid.ranges_get hh hv hi]
    exact bucket_scan hh hv marker (InListAbridged.suffixBody s) _
      (fun w hw => abridged_suffixBody (hws w (mem_bucketOf.mp hw).1) hs)
  · simp only [bucketIndex_not_indexable hh hi hm, if_true]
    have : bucketOf marker ws = [] :=
      bucketOf_eq_nil_of_ne (fun x hx hp => hi (hp ▸ hv.2.2.2.2.1 x hx))
    rw [this]; rfl

/-- The shape of `InListAbridged` on a valid word list for a query whose
first byte has a bucket: the first scan, then the second half. -/
theorem InListAbridged_shape {h : WordListH} (hh : h.WellFormed) {wl : WordList}
    {ws : List CStr} (hv : wl.Valid h ws) (hws : ∀ w ∈ ws, NoNul w) {marker : Nat}
    (hm : marker < 256) {s : CStr} (hs : NoNul s) (hi : h.Indexable (peek s))
    (hdef : ∀ w ∈ bucketOf (peek s) ws, ∃ b, InListAbridged.body s marker w = some b) :
    ∃ b, wl.InListAbridged h s marker = some b ∧
      (b = true ↔ (∃ w ∈ bucketOf (peek s) ws, InListAbridged.body s marker w = some true) ∨
        ∃ w ∈ bucketOf marker ws, w.tail <:+ s) := by
  obtain ⟨r, hr, hriff⟩ := bucket_scan_iff hh hv (peek s) (InListAbridged.body s marker) hdef
  unfold WordList.InListAbridged
  rw [hv.1]
  simp only [index_ok hh hi, if_false, Valid.ranges_get hh hv hi]
  rw [hr]
  cases r with
  | true => exact ⟨true, rfl, fun _ => Or.inl (hriff.mp rfl), fun _ => rfl⟩
  | false =>
    simp only
    rw [suffixBucket_spec hh hv hws hm hs]
    refine ⟨_, rfl, ?_⟩
    rw [List.any_eq_true]
    constructor
    · rintro ⟨w, hw, hd⟩
      exact Or.inr ⟨w, hw, of_decide_eq_true hd⟩
    · rintro (h1 | ⟨w, hw, hd⟩)
      · have := hriff.mpr h1; cases this
      · exact ⟨w, hw, decide_eq_true hd⟩

theorem InListAbridged_guard {h : WordListH} (hh : h.WellFormed) {wl : WordList} {s : CStr}
    (marker : Nat) (hs : IsCStr s) (hi : ¬ h.Indexable (peek s)) :
    wl.InListAbridged h s marker = some false := by
  unfold WordList.InListAbridged
  cases wl.words with
  | none => rfl
  | some words => simp only [index_guard hh hs hi, if_true]

/-! ## `Set` replaces the previous content -/

theorem setRanges_length {h : WordListH} {words : List CStr} {len : Nat} :
    ∀ (fuel i : Nat) (ranges out : List Nat),
      setRanges h words len fuel i ranges = some out → out.length = ranges.length := by
  intro fuel
  induction fuel with
  | zero =>
    intro i ranges out hout
    unfold setRanges at hout
    split at hout
    · cases hout
    · cases hout; rfl
  | succ fuel ih =>
    intro i ranges out hout
    unfold setRanges at hout
    split at hout
    · split at hout
      · cases hout
      · simp only at hout
        split at hout
        · cases hout
        · split at hout
          · rw [ih _ _ _ hout, List.length_set]
          · cases hout
    · cases hout; rfl

/-- The table of the list `Set` returns has as many entries as the table of
the list it was called on. -/
theorem Set_ranges_length {h : WordListH} {old wl : WordList} {s : CStr} {attr : KeywordAttr}
    (hset : WordList.Set h old s attr = some wl) : wl.ranges.length = old.ranges.length := by
  unfold WordList.Set at hset
  simp only at hset
  split at hset
  · cases hset
  · rename_i ranges hr
    cases hset
    simp only
    rw [setRanges_length _ _ _ _ hr, zeroRanges, List.length_map, Clear_ranges]

/-- What is left of a state after `Clear()` and `memset` depends on the size
of its table only. -/
theorem zeroRanges_Clear_congr {wl1 wl2 : WordList}
    (hlen : wl1.ranges.length = wl2.ranges.length) :
    zeroRanges wl1.Clear.ranges = zeroRanges wl2.Clear.ranges := by
  rw [Clear_ranges, Clear_ranges, zeroRanges, zeroRanges, List.map_const', List.map_const', hlen]

theorem Set_congr {h : WordListH} {wl1 wl2 : WordList}
    (hlen : wl1.ranges.length = wl2.ranges.length) (s : CStr) (attr : KeywordAttr) :
    WordList.Set h wl1 s attr = WordList.Set h wl2 s attr := by
  unfold WordList.Set
  simp only [zeroRanges_Clear_congr hlen]

/-- The array of a blob whose words are in ascending order is the same with
and without the pre-sorted attribute. -/
theorem SetWords_preSorted (blob : CStr) (ml : Bool)
    (hasc : Ascending (blobWords (if ml then makeLower blob else blob))) :
    SetWords blob ⟨ml, true⟩ = SetWords blob ⟨ml, false⟩ := by
  rw [SetWords_eq, SetWords_eq]
  simp only [if_true, Bool.false_eq_true, if_false]
  have hsorted : (blobWords (if ml then makeLower blob else blob)).Sorted wordLE := by
    refine List.Pairwise.imp_of_mem ?_ hasc
    intro a b ha hb hab
    exact (wordLE_iff_not_lex (noNul_of_gt (blobWords_mem ha).2)
      (noNul_of_gt (blobWords_mem hb).2)).mpr hab
  exact (List.Sorted.insertionSort_eq hsorted).symm

/-! ## `ColouriseDiffLine` -/

theorem StrStartsWith_iff {s lit : CStr} : StrStartsWith s lit = true ↔ ∃ r, s = lit ++ r := by
  unfold StrStartsWith
  rw [List.isPrefixOf_iff_prefix]
  constructor
  · rintro ⟨r, hr⟩; exact ⟨r, hr.symm⟩
  · rintro ⟨r, hr⟩; exact ⟨r, hr.symm⟩

/-- The class of a buffer that starts with `--- `. -/
theorem ColouriseDiffLine_minus (k : SciLexerH) (r : CStr) :
    ColouriseDiffLine k (bytes "--- " ++ r) =
      if atoi r ≠ 0 ∧ strchr (bytes "--- " ++ r) 47 = false then k.SCE_DIFF_POSITION
      else k.SCE_DIFF_HEADER := by
  have h1 : bytes "--- " = [45, 45, 45, 32] := by decide
  have h2 : bytes "diff " = [100, 105, 102, 102, 32] := by decide
  have h3 : bytes "Index: " = [73, 110, 100, 101, 120, 58, 32] := by decide
  have h4 : bytes "---" = [45, 45, 45] := by decide
  rw [h1]
  unfold ColouriseDiffLine
  rw [h2, h3, h4]
  simp [StrStartsWith, List.isPrefixOf, IsEOLChar]

/-- The class of a buffer that starts with `+++ `. -/
theorem ColouriseDiffLine_plus (k : SciLexerH) (r : CStr) :
    ColouriseDiffLine k (bytes "+++ " ++ r) =
      if atoi r ≠ 0 ∧ strchr (bytes "+++ " ++ r) 47 = false then k.SCE_DIFF_POSITION
      else k.SCE_DIFF_HEADER := by
  have h1 : bytes "+++ " = [43, 43, 43, 32] := by decide
  have h2 : bytes "diff " = [100, 105, 102, 102, 32] := by decide
  have h3 : bytes "Index: " = [73, 110, 100, 101, 120, 58, 32] := by decide
  have h4 : bytes "---" = [45, 45, 45] := by decide
  rw [h1]
  unfold ColouriseDiffLine
  rw [h1, h2, h3, h4]
  simp [StrStartsWith, List.isPrefixOf]

/-- The class of a buffer that starts with `*** `. -/
theorem ColouriseDiffLine_star (k : SciLexerH) (r : CStr) :
    ColouriseDiffLine k (bytes "*** " ++ r) =
      if atoi r ≠ 0 ∧ strchr (bytes "*** " ++ r) 47 = false then k.SCE_DIFF_POSITION
      else k.SCE_DIFF_HEADER := by
  have h1 : bytes "*** " = [42, 42, 42, 32] := by decide
  have h2 : bytes "diff " = [100, 105, 102, 102, 32] := by decide
  have h3 : bytes "Index: " = [73, 110, 100, 101, 120, 58, 32] := by decide
  have h4 : bytes "---" = [45, 45, 45] := by decide
  have h5 : bytes "+++ " = [43, 43, 43, 32] := by decide
  have h6 : bytes "====" = [61, 61, 61, 61] := by decide
  have h7 : bytes "***" = [42, 42, 42] := by decide
  rw [h1]
  unfold ColouriseDiffLine
  rw [h2, h3, h4, h5, h6, h7]
  simp [StrStartsWith, List.isPrefixOf]

theorem classifyByRules_nil (k : SciLexerH) (line : CStr) :
    classifyByRules k [] line =
      if line.getD 0 0 != 32 then k.SCE_DIFF_COMMENT else k.SCE_DIFF_DEFAULT := rfl

theorem classifyByRules_cons (k : SciLexerH) (r : DiffRule) (rs : List DiffRule) (line : CStr) :
    classifyByRules k (r :: rs) line =
      if r.applies line then r.style line else classifyByRules k rs line := by
  unfold classifyByRules
  rw [List.find?_cons]
  cases r.applies line <;> simp

/-! ## Lines and positions of a document -/

theorem LineStart_zero (doc : Document) : doc.LineStart 0 = 0 := by
  simp [Document.LineStart]

theorem LineStart_cons (l : List Nat) (ls : Document) (n : Nat) :
    Document.LineStart (l :: ls) (n + 1) = l.length + Document.LineStart ls n := by
  simp [Document.LineStart]

theorem Length_cons (l : List Nat) (ls : Document) :
    Document.Length (l :: ls) = l.length + Document.Length ls := by
  simp [Document.Length]

theorem LineStart_succ (doc : Document) (i : Nat) :
    doc.LineStart (i + 1) = doc.LineStart i + (doc.getD i []).length := by
  induction doc generalizing i with
  | nil => simp [Document.LineStart]
  | cons l ls ih =>
    cases i with
    | zero => simp [Document.LineStart]
    | succ j =>
      rw [LineStart_cons, LineStart_cons, ih j]
      simp [Nat.add_assoc]

theorem LineStart_mono (doc : Document) {i j : Nat} (hij : i ≤ j) :
    doc.LineStart i ≤ doc.LineStart j := by
  induction hij with
  | refl => exact Nat.le_refl _
  | step _ ih =>
    rw [LineStart_succ]
    exact Nat.le_trans ih (Nat.le_add_right _ _)

theorem LineStart_of_length_le (doc : Document) {i : Nat} (hi : doc.length ≤ i) :
    doc.LineStart i = doc.Length := by
  unfold Document.LineStart Document.Length
  rw [List.take_of_length_le hi]

theorem LineStart_le_Length (doc : Document) (i : Nat) : doc.LineStart i ≤ doc.Length := by
  rw [← LineStart_of_length_le doc (Nat.le_add_left doc.length i)]
  exact LineStart_mono doc (Nat.le_add_right _ _)

/-- A position inside the document lies in the line `GetLine` returns. -/
theorem GetLine_spec (doc : Document) (p : Nat) (hp : p < doc.Length) :
    doc.LineStart (doc.GetLine p) ≤ p ∧ p < doc.LineStart (doc.GetLine p + 1) := by
  induction doc generalizing p with
  | nil => simp [Document.Length] at hp
  | cons l ls ih =>
    cases ls with
    | nil =>
      have hl : Document.Length [l] = l.length := by simp [Document.Length]
      rw [hl] at hp
      simp only [Document.GetLine]
      rw [LineStart_zero, LineStart_cons, LineStart_zero]
      omega
    | cons l2 ls =>
      rw [Length_cons] at hp
      unfold Document.GetLine
      by_cases hlt : p < l.length
      · rw [if_pos hlt, LineStart_zero, LineStart_cons, LineStart_zero]
        omega
      · rw [if_neg hlt, LineStart_cons, LineStart_cons]
        have := ih (p - l.length) (by omega)
        omega

theorem GetLine_of_Length_le (doc : Document) (p : Nat) (hp : doc.Length ≤ p) :
    doc.GetLine p = doc.length - 1 := by
  induction doc generalizing p with
  | nil => rfl
  | cons l ls ih =>
    cases ls with
    | nil => rfl
    | cons l2 ls =>
      rw [Length_cons] at hp
      unfold Document.GetLine
      rw [if_neg (by omega), ih (p - l.length) (by omega)]
      simp

/-- The line of a position between the start of line `i` and the start of
the next line is `i`. -/
theorem GetLine_unique (doc : Document) {p i : Nat} (h1 : doc.LineStart i ≤ p)
    (h2 : p < doc.LineStart (i + 1)) : doc.GetLine p = i := by
  have hp : p < doc.Length := Nat.lt_of_lt_of_le h2 (LineStart_le_Length doc _)
  obtain ⟨h3, h4⟩ := GetLine_spec doc p hp
  by_contra hne
  rcases Nat.lt_or_gt_of_ne hne with hlt | hgt
  · have := LineStart_mono doc (show doc.GetLine p + 1 ≤ i from hlt)
    omega
  · have := LineStart_mono doc (show i + 1 ≤ doc.GetLine p from hgt)
    omega

/-- The bytes `GetRange` copies for line `i`: the first 15 bytes of the
line, up to the first NUL among them. -/
theorem GetRange_line (doc : Document) (i : Nat) :
    doc.GetRange (doc.LineStart i) (doc.LineStart (i + 1)) DIFF_BUFFER_START_SIZE =
      ((doc.getD i []).take 15).takeWhile (fun b => b != 0) := by
  unfold Document.GetRange DIFF_BUFFER_START_SIZE
  congr 1
  rw [LineStart_succ]
  by_cases hi : i < doc.length
  · have hsplit : doc.flatten = (doc.take i).flatten ++ (doc.getD i [] ++ (doc.drop (i + 1)).flatten) := by
      conv_lhs => rw [← List.take_append_drop i doc]
      rw [List.flatten_append, List.drop_eq_getElem_cons hi, List.flatten_cons]
      simp [List.getD_eq_getElem?_getD, List.getElem?_eq_getElem hi]
    rw [hsplit]
    unfold Document.LineStart
    rw [List.drop_left]
    have hm : min ((doc.take i).flatten.length + (doc.getD i []).length)
        ((doc.take i).flatten.length + 16 - 1) - (doc.take i).flatten.length =
        min (doc.getD i []).length 15 := by omega
    rw [hm, List.take_append_of_le_length (Nat.min_le_left _ _)]
    rw [Nat.min_comm, ← List.take_take, List.take_length]
  · have hnil : doc.getD i [] = [] := by
      simp [List.getD_eq_getElem?_getD, List.getElem?_eq_none (Nat.le_of_not_lt hi)]
    rw [hnil]
    simp

/-! ## The style runs of `ColouriseDiffDoc` -/

theorem ColorTo_startSeg (st : StyleStore) {pos : Nat} (style : Int) (h : st.startSeg ≤ pos) :
    (st.ColorTo pos style).startSeg = pos := by
  unfold StyleStore.ColorTo
  rw [if_neg (Nat.not_lt.mpr h)]

theorem ColorTo_styleAt (st : StyleStore) {pos : Nat} (style : Int) (h : st.startSeg ≤ pos)
    (p : Nat) :
    (st.ColorTo pos style).styleAt p =
      if st.startSeg ≤ p ∧ p < pos then some style else st.styleAt p := by
  unfold StyleStore.ColorTo
  rw [if_neg (Nat.not_lt.mpr h)]

theorem run_nil (st : StyleStore) : st.run [] = st := rfl

theorem run_cons (st : StyleStore) (c : Nat × Int) (cs : List (Nat × Int)) :
    st.run (c :: cs) = (st.ColorTo c.1 c.2).run cs := rfl

theorem run_append (st : StyleStore) (cs ds : List (Nat × Int)) :
    st.run (cs ++ ds) = (st.run cs).run ds := by
  unfold StyleStore.run
  rw [List.foldl_append]

/-- The loop of `ColouriseDiffDoc` from line `i` on, started with the segment
start at or before the start of line `i` and with every byte between them in a
line of class `initStyle`: it completes, and after its calls and the closing
`ColorTo(endPos, initStyle)` every byte from the segment start to `endPos` has
the class of its line, the other bytes are as before. -/
theorem ColouriseDiffDoc_loop_spec (k : SciLexerH) (sc : ScintillaH) (fold : Bool)
    (doc : Document) (maxLines endPos : Nat)
    (hend : endPos ≤ doc.LineStart (maxLines + 1))
    (hls : ∀ j, j ≤ maxLines → doc.LineStart j ≤ endPos) :
    ∀ (fuel i : Nat) (cur : Int) (prevLevel : Nat) (st : StyleStore),
      fuel = maxLines + 1 - i → st.startSeg ≤ doc.LineStart i → st.startSeg ≤ endPos →
      (∀ p, st.startSeg ≤ p → p < doc.LineStart i →
        ColouriseDiffDoc.lineType k doc (doc.GetLine p) = cur) →
      ∃ c l last,
        ColouriseDiffDoc.loop k sc fold doc maxLines fuel i (doc.LineStart i)
          (doc.LineStart (i + 1)) cur prevLevel = some (c, l, last) ∧
        ((st.run c).ColorTo endPos last).startSeg = endPos ∧
        (∀ p, st.startSeg ≤ p → p < endPos →
          ((st.run c).ColorTo endPos last).styleAt p =
            some (ColouriseDiffDoc.lineType k doc (doc.GetLine p))) ∧
        (∀ p, p < st.startSeg ∨ endPos ≤ p →
          ((st.run c).ColorTo endPos last).styleAt p = st.styleAt p) ∧
        (∀ x ∈ c, doc.LineStart i ≤ x.1 ∧ x.1 ≤ endPos) ∧
        (c.map Prod.fst).Pairwise (fun a b => a ≤ b) := by
  have base : ∀ (i : Nat) (cur : Int) (st : StyleStore), ¬ i ≤ maxLines →
      st.startSeg ≤ endPos →
      (∀ p, st.startSeg ≤ p → p < doc.LineStart i →
        ColouriseDiffDoc.lineType k doc (doc.GetLine p) = cur) →
      ((st.run []).ColorTo endPos cur).startSeg = endPos ∧
      (∀ p, st.startSeg ≤ p → p < endPos →
        ((st.run []).ColorTo endPos cur).styleAt p =
          some (ColouriseDiffDoc.lineType k doc (doc.GetLine p))) ∧
      (∀ p, p < st.startSeg ∨ endPos ≤ p →
        ((st.run []).ColorTo endPos cur).styleAt p = st.styleAt p) := by
    intro i cur st hi hse hpend
    have hle : endPos ≤ doc.LineStart i :=
      Nat.le_trans hend (LineStart_mono doc (by omega))
    rw [run_nil]
    refine ⟨ColorTo_startSeg st cur hse, ?_, ?_⟩
    · intro p hp1 hp2
      rw [ColorTo_styleAt st cur hse, if_pos ⟨hp1, hp2⟩, hpend p hp1 (by omega)]
    · intro p hp
      rw [ColorTo_styleAt st cur hse, if_neg (by omega)]
  intro fuel
  induction fuel with
  | zero =>
    intro i cur prevLevel st hfuel _ hse hpend
    have hi : ¬ i ≤ maxLines := by omega
    refine ⟨[], [], cur, ?_, ?_⟩
    · unfold ColouriseDiffDoc.loop
      rw [if_neg hi]
    · obtain ⟨h1, h2, h3⟩ := base i cur st hi hse hpend
      exact ⟨h1, h2, h3, by simp, by simp⟩
  | succ fuel ih =>
    intro i cur prevLevel st hfuel hsi hse hpend
    by_cases hi : i ≤ maxLines
    · have hline : ∀ p, doc.LineStart i ≤ p → p < doc.LineStart (i + 1) →
          ColouriseDiffDoc.lineType k doc (doc.GetLine p) =
            ColouriseDiffDoc.lineType k doc i := by
        intro p h1 h2
        rw [GetLine_unique doc h1 h2]
      have hmono : doc.LineStart i ≤ doc.LineStart (i + 1) := LineStart_mono doc (by omega)
      have hie : doc.LineStart i ≤ endPos := hls i hi
      by_cases hne : cur ≠ ColouriseDiffDoc.lineType k doc i
      · obtain ⟨c, l, last, hloop, h1, h2, h3, h4, h5⟩ :=
          ih (i + 1) (ColouriseDiffDoc.lineType k doc i)
            (if fold then ColouriseDiffDoc.nextLevel k sc (ColouriseDiffDoc.lineType k doc i)
              ((doc.GetRange (doc.LineStart i) (doc.LineStart (i + 1))
                DIFF_BUFFER_START_SIZE).getD 0 0) prevLevel else prevLevel)
            (st.ColorTo (doc.LineStart i) cur) (by omega)
            (by rw [ColorTo_startSeg st cur hsi]; exact hmono)
            (by rw [ColorTo_startSeg st cur hsi]; exact hie)
            (by
              intro p hp1 hp2
              rw [ColorTo_startSeg st cur hsi] at hp1
              exact hline p hp1 hp2)
        have hl : ∃ l1, ColouriseDiffDoc.loop k sc fold doc maxLines (fuel + 1) i
            (doc.LineStart i) (doc.LineStart (i + 1)) cur prevLevel =
            some ((doc.LineStart i, cur) :: c, l1, last) := by
          unfold ColouriseDiffDoc.loop
          rw [if_pos hi]
          simp only
          rw [show ColouriseDiffLine k (doc.GetRange (doc.LineStart i) (doc.LineStart (i + 1))
            DIFF_BUFFER_START_SIZE) = ColouriseDiffDoc.lineType k doc i from rfl]
          rw [if_pos hne, if_pos hne, hloop]
          exact ⟨_, rfl⟩
        obtain ⟨l1, hl1⟩ := hl
        refine ⟨(doc.LineStart i, cur) :: c, l1, last, hl1, ?_⟩
        · rw [run_cons]
          rw [ColorTo_startSeg st cur hsi] at h2 h3
          refine ⟨h1, ?_, ?_, ?_, ?_⟩
          · intro p hp1 hp2
            by_cases hlt : p < doc.LineStart i
            · rw [h3 p (Or.inl hlt), ColorTo_styleAt st cur hsi, if_pos ⟨hp1, hlt⟩,
                hpend p hp1 hlt]
            · exact h2 p (by omega) hp2
          · intro p hp
            rcases hp with hp | hp
            · rw [h3 p (Or.inl (by omega)), ColorTo_styleAt st cur hsi, if_neg (by omega)]
            · rw [h3 p (Or.inr hp), ColorTo_styleAt st cur hsi, if_neg (by omega)]
          · intro x hx
            rcases List.mem_cons.mp hx with rfl | hx
            · exact ⟨Nat.le_refl _, hie⟩
            · exact ⟨Nat.le_trans hmono (h4 x hx).1, (h4 x hx).2⟩
          · rw [List.map_cons, List.pairwise_cons]
            refine ⟨?_, h5⟩
            intro a ha
            obtain ⟨x, hx, rfl⟩ := List.mem_map.mp ha
            exact Nat.le_trans hmono (h4 x hx).1
      · have heq : cur = ColouriseDiffDoc.lineType k doc i := not_not.mp hne
        obtain ⟨c, l, last, hloop, h1, h2, h3, h4, h5⟩ :=
          ih (i + 1) cur
            (if fold then ColouriseDiffDoc.nextLevel k sc (ColouriseDiffDoc.lineType k doc i)
              ((doc.GetRange (doc.LineStart i) (doc.LineStart (i + 1))
                DIFF_BUFFER_START_SIZE).getD 0 0) prevLevel else prevLevel)
            st (by omega) (Nat.le_trans hsi hmono) hse
            (by
              intro p hp1 hp2
              by_cases hlt : p < doc.LineStart i
              · exact hpend p hp1 hlt
              · rw [hline p (by omega) hp2, heq])
        have hl : ∃ l1, ColouriseDiffDoc.loop k sc fold doc maxLines (fuel + 1) i
            (doc.LineStart i) (doc.LineStart (i + 1)) cur prevLevel = some (c, l1, last) := by
          unfold ColouriseDiffDoc.loop
          rw [if_pos hi]
          simp only
          rw [show ColouriseDiffLine k (doc.GetRange (doc.LineStart i) (doc.LineStart (i + 1))
            DIFF_BUFFER_START_SIZE) = ColouriseDiffDoc.lineType k doc i from rfl]
          rw [if_neg hne, if_neg hne, hloop]
          exact ⟨_, rfl⟩
        obtain ⟨l1, hl1⟩ := hl
        refine ⟨c, l1, last, hl1, h1, h2, h3, ?_, h5⟩
        · intro x hx
          exact ⟨Nat.le_trans hmono (h4 x hx).1, (h4 x hx).2⟩
    · refine ⟨[], [], cur, ?_, ?_⟩
      · unfold ColouriseDiffDoc.loop
        rw [if_neg hi]
      · obtain ⟨h1, h2, h3⟩ := base i cur st hi hse hpend
        exact ⟨h1, h2, h3, by simp, by simp⟩

/-- The calls of `ColouriseDiffDoc` on a range that starts at a line start
and ends inside the document: the scan completes, and once its `ColorTo` calls
are carried out every byte of the range has the class of its line and every
other byte is as before; the positions of the calls lie in the range, in
non-decreasing order, and the last one is the end of the range. -/
theorem ColouriseDiffDoc_spec (k : SciLexerH) (sc : ScintillaH) (fold : Bool) (doc : Document)
    (LevelAt : Nat → Nat) (startPos lengthDoc : Nat) (initStyle : Int) (st : StyleStore)
    (hstart : doc.LineStart (doc.GetLine startPos) = startPos)
    (hend : startPos + lengthDoc ≤ doc.Length) :
    ∃ calls, ColouriseDiffDoc k sc fold doc LevelAt startPos lengthDoc initStyle = some calls ∧
      (∀ p, startPos ≤ p → p < startPos + lengthDoc →
        ((st.StartSegment startPos).run calls.ColorTo).styleAt p =
          some (ColouriseDiffDoc.lineType k doc (doc.GetLine p))) ∧
      (∀ p, p < startPos ∨ startPos + lengthDoc ≤ p →
        ((st.StartSegment startPos).run calls.ColorTo).styleAt p = st.styleAt p) ∧
      (∀ x ∈ calls.ColorTo, startPos ≤ x.1 ∧ x.1 ≤ startPos + lengthDoc) ∧
      (calls.ColorTo.map Prod.fst).Pairwise (fun a b => a ≤ b) ∧
      calls.ColorTo.getLast?.map Prod.fst = some (startPos + lengthDoc) := by
  have hbounds : startPos + lengthDoc ≤
        doc.LineStart (doc.GetLine (if startPos + lengthDoc = doc.Length then
          startPos + lengthDoc else startPos + lengthDoc - 1) + 1) ∧
      ∀ j, j ≤ doc.GetLine (if startPos + lengthDoc = doc.Length then
          startPos + lengthDoc else startPos + lengthDoc - 1) →
        doc.LineStart j ≤ startPos + lengthDoc := by
    by_cases he : startPos + lengthDoc = doc.Length
    · rw [if_pos he, GetLine_of_Length_le doc _ (Nat.le_of_eq he.symm)]
      constructor
      · rw [LineStart_of_length_le doc (by omega)]
        exact Nat.le_of_eq he
      · intro j _
        rw [he]
        exact LineStart_le_Length doc j
    · rw [if_neg he]
      obtain ⟨h1, h2⟩ := GetLine_spec doc (startPos + lengthDoc - 1) (by omega)
      constructor
      · omega
      · intro j hj
        have := LineStart_mono doc hj
        omega
  obtain ⟨hb1, hb2⟩ := hbounds
  obtain ⟨c, l, last, hloop, _, h2, h3, h4, h5⟩ :=
    ColouriseDiffDoc_loop_spec k sc fold doc _ (startPos + lengthDoc) hb1 hb2 _
      (doc.GetLine startPos) initStyle
      (if doc.GetLine startPos > 0 then LevelAt (doc.GetLine startPos - 1)
        else sc.SC_FOLDLEVELBASE)
      (st.StartSegment startPos) rfl (Nat.le_of_eq hstart.symm) (Nat.le_add_right _ _)
      (by
        intro p hp1 hp2
        rw [hstart] at hp2
        exact absurd hp1 (Nat.not_le.mpr hp2))
  refine ⟨{ ColorTo := c ++ [(startPos + lengthDoc, last)], SetLevel := l }, ?_, ?_, ?_, ?_, ?_, ?_⟩
  · unfold ColouriseDiffDoc
    simp only [hloop]
  · intro p hp1 hp2
    simp only [run_append, run_cons, run_nil]
    exact h2 p hp1 hp2
  · intro p hp
    simp only [run_append, run_cons, run_nil]
    exact h3 p hp
  · intro x hx
    rcases List.mem_append.mp hx with hx | hx
    · rw [← hstart]
      exact ⟨(h4 x hx).1, by rw [hstart]; exact (h4 x hx).2⟩
    · rw [List.mem_singleton.mp hx]
      exact ⟨Nat.le_add_right _ _, Nat.le_refl _⟩
  · simp only [List.map_append, List.map_cons, List.map_nil]
    rw [List.pairwise_append]
    refine ⟨h5, by simp, ?_⟩
    intro a ha b hb
    obtain ⟨x, hx, rfl⟩ := List.mem_map.mp ha
    rw [List.mem_singleton.mp hb]
    exact (h4 x hx).2
  · simp

/-- The class of a line is the class of the C string made of its first 15
bytes. -/
theorem lineType_eq (k : SciLexerH) (doc : Document) (i : Nat) :
    ColouriseDiffDoc.lineType k doc i =
      ColouriseDiffLine k (((doc.getD i []).take 15).takeWhile (fun b => b != 0)) := by
  unfold ColouriseDiffDoc.lineType
  rw [GetRange_line]

/-! ## The line state of `ColouriseRustDoc` -/

theorem toInt32_natCast {n : Nat} (hn : n < 2 ^ 32) : toInt32 (n : Int) = n := by
  unfold toInt32
  have : ((n : Int) % 2 ^ 32) = ((n % 2 ^ 32 : Nat) : Int) := by
    push_cast
    rfl
  rw [this, Int.toNat_ofNat, Nat.mod_eq_of_lt hn]

/-- The packed line state as a sum, when each field fits its bits. -/
theorem packRustLineState_eq_sum {sb cl hc attr lt : Nat} (hsb : sb < 256) (hcl : cl < 256)
    (hhc : hc < 256) (hattr : attr = 0 ∨ attr = 4) (hlt : lt = 0 ∨ lt = 1 ∨ lt = 2) :
    packRustLineState sb cl hc attr lt =
      hc * 2 ^ 19 + (cl * 2 ^ 11 + (sb * 2 ^ 3 + (attr + lt))) := by
  unfold packRustLineState
  rw [toInt32_natCast (by omega), toInt32_natCast (by omega), toInt32_natCast (by omega)]
  have hal : attr ||| lt = attr + lt ∧ attr + lt < 2 ^ 3 := by
    rcases hattr with rfl | rfl <;> rcases hlt with rfl | rfl | rfl <;> decide
  have h1 : sb <<< 3 ||| (attr + lt) = sb * 2 ^ 3 + (attr + lt) := by
    rw [Nat.shiftLeft_eq, Nat.mul_comm, ← Nat.mul_add_lt_is_or hal.2]
  have h2 : cl <<< 11 ||| (sb * 2 ^ 3 + (attr + lt)) =
      cl * 2 ^ 11 + (sb * 2 ^ 3 + (attr + lt)) := by
    rw [Nat.shiftLeft_eq, Nat.mul_comm cl, ← Nat.mul_add_lt_is_or (by omega)]
  have h3 : hc <<< 19 ||| (cl * 2 ^ 11 + (sb * 2 ^ 3 + (attr + lt))) =
      hc * 2 ^ 19 + (cl * 2 ^ 11 + (sb * 2 ^ 3 + (attr + lt))) := by
    rw [Nat.shiftLeft_eq, Nat.mul_comm hc, ← Nat.mul_add_lt_is_or (by omega)]
  have hre : ∀ A B C a l : Nat,
      A ||| B ||| C ||| a ||| l = C ||| (B ||| (A ||| (a ||| l))) := by
    intro A B C a l
    ac_rfl
  rw [hre, hal.1, h1, h2, h3]
  exact Nat.mod_eq_of_lt (by omega)

theorem and_255 (x : Nat) : x &&& 0xff = x % 256 :=
  Nat.and_pow_two_sub_one_eq_mod x 8

theorem and_4 (x : Nat) : x &&& 4 = x / 4 % 2 * 4 := by
  have := Nat.and_two_pow x 2
  rw [Nat.toNat_testBit] at this
  exact this

/-! ## The cursor -/

theorem SCE_RUST_eq_iff {k : RustLexerH} (hk : k.Distinct) (a b : RustStyle) :
    k.SCE_RUST a = k.SCE_RUST b ↔ a = b :=
  ⟨hk a b, fun h => by rw [h]⟩

theorem SafeGetCharAt_of_drop {doc : Document} {p c : Nat} {T : List Nat}
    (h : doc.flatten.drop p = c :: T) : doc.SafeGetCharAt p = c := by
  unfold Document.SafeGetCharAt
  have hlt : p < doc.flatten.length := by
    by_contra hge
    rw [List.drop_eq_nil_of_le (Nat.le_of_not_lt hge)] at h
    cases h
  rw [List.getD_eq_getElem?_getD, List.getElem?_eq_getElem hlt]
  have := List.drop_eq_getElem_cons hlt
  rw [h] at this
  simp only [List.cons.injEq] at this
  simp [this.1]

theorem drop_succ_of_drop {l : List Nat} {p c : Nat} {T : List Nat} (h : l.drop p = c :: T) :
    l.drop (p + 1) = T := by
  rw [← List.drop_drop, h]
  rfl

theorem drop_add_of_drop {l : List Nat} {p : Nat} {A T : List Nat} (h : l.drop p = A ++ T) :
    l.drop (p + A.length) = T := by
  rw [← List.drop_drop, h, List.drop_left]

theorem length_le_of_drop {l : List Nat} {p : Nat} {A T : List Nat} (h : l.drop p = A ++ T)
    (hA : A ≠ []) : p + A.length ≤ l.length := by
  have hlen := congrArg List.length h
  rw [List.length_drop, List.length_append] at hlen
  have hpos : 0 < A.length := List.length_pos.mpr hA
  omega

/-- The cursor `sc1` is the cursor `sc` moved `n` bytes forward in the same
state, with the same style runs. -/
def StyleContext.Moved (sc sc1 : StyleContext) (n : Nat) : Prop :=
  sc1.currentPos = sc.currentPos + n ∧ sc1.doc = sc.doc ∧ sc1.endPos = sc.endPos ∧
  sc1.lengthDocument = sc.lengthDocument ∧ sc1.state = sc.state ∧ sc1.styler = sc.styler ∧
  sc1.Coherent

theorem StyleContext.Moved.trans {a b c : StyleContext} {n m : Nat} (h1 : a.Moved b n) (h2 : b.Moved c m) :
    a.Moved c (n + m) := by
  obtain ⟨p1, d1, e1, l1, s1, y1, _⟩ := h1
  obtain ⟨p2, d2, e2, l2, s2, y2, c2⟩ := h2
  exact ⟨by rw [p2, p1, Nat.add_assoc], d2.trans d1, e2.trans e1, l2.trans l1, s2.trans s1,
    y2.trans y1, c2⟩

theorem StyleContext.Moved.refl {a : StyleContext} (h : a.Coherent) : a.Moved a 0 :=
  ⟨rfl, rfl, rfl, rfl, rfl, rfl, h⟩

theorem Forward_moved {sc : StyleContext} (hc : sc.Coherent) (h : sc.currentPos < sc.endPos) :
    sc.Moved sc.Forward 1 := by
  obtain ⟨_, h2, h3, h4⟩ := hc
  unfold StyleContext.Forward
  rw [if_pos h]
  refine ⟨rfl, rfl, rfl, rfl, rfl, rfl, ?_, rfl, h3, ?_⟩
  · exact h2
  · exact Nat.le_trans h4 (Nat.le_succ _)

theorem Advance_moved {sc : StyleContext} (n : Nat) (hc : sc.Coherent)
    (h : sc.currentPos + n ≤ sc.endPos) : sc.Moved (sc.Advance n) n := by
  induction n generalizing sc with
  | zero => exact StyleContext.Moved.refl hc
  | succ n ih =>
    have h1 := Forward_moved hc (by omega)
    have h2 := @ih sc.Forward h1.2.2.2.2.2.2 (by rw [h1.1, h1.2.2.1]; omega)
    have := h1.trans h2
    rw [Nat.add_comm] at this
    exact this

theorem SetLineState_moved {sc : StyleContext} (hc : sc.Coherent) (line state : Nat) :
    sc.Moved (sc.SetLineState line state) 0 :=
  ⟨rfl, rfl, rfl, rfl, rfl, rfl, hc⟩

/-- The cursor after `SetState` at a position inside the document: the open
run is closed with the old state and a run starts at the position. -/
theorem SetState_spec {sc : StyleContext} (hc : sc.Coherent)
    (hle : sc.currentPos ≤ sc.lengthDocument) (state : Int) :
    (sc.SetState state).currentPos = sc.currentPos ∧ (sc.SetState state).doc = sc.doc ∧
    (sc.SetState state).endPos = sc.endPos ∧
    (sc.SetState state).lengthDocument = sc.lengthDocument ∧
    (sc.SetState state).state = state ∧ (sc.SetState state).Coherent ∧
    (sc.SetState state).ch = sc.ch ∧ (sc.SetState state).chNext = sc.chNext ∧
    (sc.SetState state).chPrev = sc.chPrev ∧
    (sc.SetState state).styler.startSeg = sc.currentPos ∧
    ∀ p, (sc.SetState state).styler.styleAt p =
      if sc.styler.startSeg ≤ p ∧ p < sc.currentPos then some sc.state
      else sc.styler.styleAt p := by
  obtain ⟨h1, h2, h3, h4⟩ := hc
  have hmin : min sc.currentPos sc.lengthDocument = sc.currentPos := Nat.min_eq_left hle
  unfold StyleContext.SetState
  rw [hmin]
  refine ⟨rfl, rfl, rfl, rfl, rfl, ⟨h1, h2, h3, ?_⟩, rfl, rfl, rfl, ?_, ?_⟩
  · exact Nat.le_of_eq (ColorTo_startSeg sc.styler sc.state h4)
  · exact ColorTo_startSeg sc.styler sc.state h4
  · intro p
    exact ColorTo_styleAt sc.styler sc.state h4 p

/-! ## Raw strings in `ColouriseRustDoc` -/

theorem stateCase_default {k : RustLexerH} (hk : k.Distinct) (h : WordListH)
    (keywordLists : Nat → WordList) (s : RustScan)
    (hs : s.sc.state = k.SCE_RUST .DEFAULT) :
    ColouriseRustDoc.stateCase k h keywordLists s = (s, false) := by
  unfold ColouriseRustDoc.stateCase
  simp [hs, SCE_RUST_eq_iff hk]

theorem defaultCase_of_ne (k : RustLexerH) (s : RustScan)
    (hs : s.sc.state ≠ k.SCE_RUST .DEFAULT) :
    ColouriseRustDoc.defaultCase k s = (s, false) := by
  unfold ColouriseRustDoc.defaultCase
  simp only [if_neg hs]

theorem lineEnd_sc (k : RustLexerH) (s : RustScan) :
    (ColouriseRustDoc.lineEnd k s).sc =
      (if s.sc.atLineEnd = true then
        s.sc.SetLineState s.sc.currentLine
          (packRustLineState s.squareBracket s.commentLevel s.hashCount s.lineStateAttribute
            s.lineStateLineType)
      else s.sc).Forward := by
  cases hsp : k.isspacechar s.sc.ch <;> cases hat : s.sc.atLineEnd <;>
    simp [ColouriseRustDoc.lineEnd, hsp, hat]

theorem lineEnd_hashCount (k : RustLexerH) (s : RustScan) :
    (ColouriseRustDoc.lineEnd k s).hashCount = s.hashCount := by
  cases hsp : k.isspacechar s.sc.ch <;> cases hat : s.sc.atLineEnd <;>
    simp [ColouriseRustDoc.lineEnd, hsp, hat]

/-- The end of a round moves the cursor one byte forward and keeps the state,
the style runs and the hash count. -/
theorem lineEnd_spec (k : RustLexerH) (s : RustScan) (hc : s.sc.Coherent)
    (h : s.sc.currentPos < s.sc.endPos) :
    s.sc.Moved (ColouriseRustDoc.lineEnd k s).sc 1 ∧
    (ColouriseRustDoc.lineEnd k s).hashCount = s.hashCount := by
  refine ⟨?_, lineEnd_hashCount k s⟩
  rw [lineEnd_sc]
  by_cases h2 : s.sc.atLineEnd = true
  · rw [if_pos h2]
    have hm := SetLineState_moved hc s.sc.currentLine
      (packRustLineState s.squareBracket s.commentLevel s.hashCount s.lineStateAttribute
        s.lineStateLineType)
    have hf := Forward_moved hm.2.2.2.2.2.2 (by rw [hm.1, hm.2.2.1]; omega)
    exact hm.trans hf
  · rw [if_neg h2]
    exact Forward_moved hc h

/-- In a raw string state a byte other than a quote or a brace changes
nothing in the `switch`. -/
theorem stateCase_raw_other {k : RustLexerH} (hk : k.Distinct)
    (hord : k.SCE_RUST .RAW_STRING ≤ k.SCE_RUST .RAW_BYTESTRING) (h : WordListH)
    (keywordLists : Nat → WordList) (s : RustScan)
    (hs : s.sc.state = k.SCE_RUST .RAW_STRING ∨ s.sc.state = k.SCE_RUST .RAW_BYTESTRING)
    (h34 : s.sc.ch ≠ 34) (h123 : s.sc.ch ≠ 123) (h125 : s.sc.ch ≠ 125) :
    ColouriseRustDoc.stateCase k h keywordLists s = (s, false) := by
  have hlt : ¬ s.sc.state < k.SCE_RUST .RAW_STRING := by
    rcases hs with hs | hs <;> rw [hs] <;> omega
  unfold ColouriseRustDoc.stateCase
  rcases hs with hs | hs
  · simp [hs, SCE_RUST_eq_iff hk, h34, h123, h125]
  · simp only [hs] at hlt
    simp [hs, SCE_RUST_eq_iff hk, h34, h123, h125]
    intro _ hc
    exact absurd hc hlt

/-- In a raw string state a quote that does not close the string changes
nothing in the `switch`. -/
theorem stateCase_raw_quote_open {k : RustLexerH} (hk : k.Distinct) (h : WordListH)
    (keywordLists : Nat → WordList) (s : RustScan)
    (hs : s.sc.state = k.SCE_RUST .RAW_STRING ∨ s.sc.state = k.SCE_RUST .RAW_BYTESTRING)
    (h34 : s.sc.ch = 34)
    (hopen : ¬ (s.hashCount = 0 ∨ (s.sc.chNext = 35 ∧
      (IsRustRawString s.sc.doc (s.sc.currentPos + 1) false s.hashCount).2 = true))) :
    ColouriseRustDoc.stateCase k h keywordLists s = (s, false) := by
  unfold ColouriseRustDoc.stateCase
  rcases hs with hs | hs <;> simp [hs, SCE_RUST_eq_iff hk, h34] <;> intro hc <;>
    exact absurd hc hopen

/-- In a raw string state a quote that closes the string: the cursor goes over
the hashes and one byte more, and the default state is set there. -/
theorem stateCase_raw_quote_close {k : RustLexerH} (hk : k.Distinct) (h : WordListH)
    (keywordLists : Nat → WordList) (s : RustScan)
    (hs : s.sc.state = k.SCE_RUST .RAW_STRING ∨ s.sc.state = k.SCE_RUST .RAW_BYTESTRING)
    (h34 : s.sc.ch = 34)
    (hclose : s.hashCount = 0 ∨ (s.sc.chNext = 35 ∧
      (IsRustRawString s.sc.doc (s.sc.currentPos + 1) false s.hashCount).2 = true)) :
    ColouriseRustDoc.stateCase k h keywordLists s =
      ({ s with
          sc := (s.sc.Advance s.hashCount.toNat).ForwardSetState (k.SCE_RUST .DEFAULT)
          hashCount := 0 }, false) := by
  unfold ColouriseRustDoc.stateCase
  rcases hs with hs | hs <;> simp [hs, SCE_RUST_eq_iff hk, h34] <;> intro h0 hn <;>
    rcases hclose with hc | ⟨hc1, hc2⟩ <;>
    first
    | exact absurd hc h0
    | (rw [hn hc1] at hc2; cases hc2)

theorem IsRustRawString_end (doc : Document) {pos : Nat} {T : List Nat}
    (h : doc.flatten.drop pos = T) (hashCount : Int) :
    (IsRustRawString doc pos false hashCount).2 = decide ((countHash T : Int) = hashCount) := by
  unfold IsRustRawString
  simp [h]

theorem countHash_replicate (m : Nat) (T : List Nat) (hT : T.head? ≠ some 35) :
    countHash (List.replicate m 35 ++ T) = m := by
  induction m with
  | zero =>
    cases T with
    | nil => rfl
    | cons c T =>
      have hc : c ≠ 35 := fun hc => hT (by rw [hc]; rfl)
      simp only [List.replicate_zero, List.nil_append]
      unfold countHash
      split
      · rename_i heq
        simp only [List.cons.injEq] at heq
        exact absurd heq.1.symm (fun h => hc h.symm)
      · rfl
  | succ m ih =>
    rw [List.replicate_succ, List.cons_append]
    unfold countHash
    simp [ih]

theorem IsRustRawString_start (doc : Document) {pos m : Nat} {T : List Nat}
    (h : doc.flatten.drop pos = List.replicate m 35 ++ 34 :: T) (hashCount : Int) :
    IsRustRawString doc pos true hashCount = ((m : Int), true) := by
  have hcount : countHash (doc.flatten.drop pos) = m := by
    rw [h]
    exact countHash_replicate m (34 :: T) (by simp)
  have hq : doc.SafeGetCharAt (pos + m) = 34 := by
    have := drop_add_of_drop h
    rw [List.length_replicate] at this
    exact SafeGetCharAt_of_drop this
  unfold IsRustRawString
  simp [hcount, hq]

/-- One round on a byte of a raw string that is no brace and no closing
quote: the cursor moves one byte, the state and the hash count stay. -/
theorem step_raw_body {k : RustLexerH} (hk : k.Distinct)
    (hord : k.SCE_RUST .RAW_STRING ≤ k.SCE_RUST .RAW_BYTESTRING) (h : WordListH)
    (keywordLists : Nat → WordList) (s : RustScan) (n c : Nat) (T : List Nat)
    (hc : s.sc.Coherent)
    (hs : s.sc.state = k.SCE_RUST .RAW_STRING ∨ s.sc.state = k.SCE_RUST .RAW_BYTESTRING)
    (hn : s.hashCount = (n : Int)) (htext : s.sc.doc.flatten.drop s.sc.currentPos = c :: T)
    (hlt : s.sc.currentPos < s.sc.endPos) (h123 : c ≠ 123) (h125 : c ≠ 125)
    (hopen : closesRaw n (c :: T) = false) :
    s.sc.Moved (ColouriseRustDoc.step k h keywordLists s).sc 1 ∧
    (ColouriseRustDoc.step k h keywordLists s).hashCount = (n : Int) := by
  have hch : s.sc.ch = c := by rw [hc.1]; exact SafeGetCharAt_of_drop htext
  have hstate : ColouriseRustDoc.stateCase k h keywordLists s = (s, false) := by
    by_cases h34 : c = 34
    · refine stateCase_raw_quote_open hk h keywordLists s hs (by rw [hch, h34]) ?_
      rw [IsRustRawString_end s.sc.doc (drop_succ_of_drop htext), hn]
      rw [h34] at hopen
      simp only [closesRaw, List.head?_cons, List.tail_cons, beq_self_eq_true, Bool.true_and,
        Bool.or_eq_false_iff, beq_eq_false_iff_ne, ne_eq] at hopen
      intro hcl
      rcases hcl with h0 | ⟨_, h1⟩
      · exact hopen.1 (by exact_mod_cast h0)
      · exact hopen.2 (by exact_mod_cast of_decide_eq_true h1)
    · exact stateCase_raw_other hk hord h keywordLists s hs (by rw [hch]; exact h34)
        (by rw [hch]; exact h123) (by rw [hch]; exact h125)
  have hne : s.sc.state ≠ k.SCE_RUST .DEFAULT := by
    rcases hs with hs | hs <;> rw [hs] <;> intro he <;>
      exact absurd (hk _ _ he) (by decide)
  have hstep : ColouriseRustDoc.step k h keywordLists s = ColouriseRustDoc.lineEnd k s := by
    unfold ColouriseRustDoc.step
    simp only [hstate, defaultCase_of_ne k s hne]
    rfl
  rw [hstep]
  have := lineEnd_spec k s hc hlt
  exact ⟨this.1, this.2.trans hn⟩

/-- The rounds on the text of a raw string up to its closing quote: after `j`
of them the cursor is `j` bytes further, in the same state and with the same
hash count. -/
theorem steps_raw_body {k : RustLexerH} (hk : k.Distinct)
    (hord : k.SCE_RUST .RAW_STRING ≤ k.SCE_RUST .RAW_BYTESTRING) (h : WordListH)
    (keywordLists : Nat → WordList) (s : RustScan) (n : Nat) (body T : List Nat)
    (hc : s.sc.Coherent)
    (hs : s.sc.state = k.SCE_RUST .RAW_STRING ∨ s.sc.state = k.SCE_RUST .RAW_BYTESTRING)
    (hn : s.hashCount = (n : Int))
    (htext : s.sc.doc.flatten.drop s.sc.currentPos = body ++ T)
    (hrange : s.sc.currentPos + body.length ≤ s.sc.endPos)
    (hbrace : ∀ c ∈ body, c ≠ 123 ∧ c ≠ 125)
    (hfirst : ∀ i, i < body.length → closesRaw n ((body ++ T).drop i) = false) :
    ∀ j, j ≤ body.length →
      s.sc.Moved ((ColouriseRustDoc.step k h keywordLists)^[j] s).sc j ∧
      ((ColouriseRustDoc.step k h keywordLists)^[j] s).hashCount = (n : Int) := by
  intro j
  induction j with
  | zero =>
    intro _
    exact ⟨StyleContext.Moved.refl hc, hn⟩
  | succ j ih =>
    intro hj
    obtain ⟨hm, hnj⟩ := ih (by omega)
    have hjlt : j < body.length := by omega
    have hjlt2 : j < (body ++ T).length := by rw [List.length_append]; omega
    have hdrop : (body ++ T).drop j = body[j] :: (body ++ T).drop (j + 1) := by
      rw [List.drop_eq_getElem_cons hjlt2, List.getElem_append_left hjlt]
    have htj : ((ColouriseRustDoc.step k h keywordLists)^[j] s).sc.doc.flatten.drop
        ((ColouriseRustDoc.step k h keywordLists)^[j] s).sc.currentPos =
        body[j] :: (body ++ T).drop (j + 1) := by
      rw [hm.2.1, hm.1, ← List.drop_drop, htext, hdrop]
    have hmem := hbrace body[j] (List.getElem_mem hjlt)
    have hstep := step_raw_body hk hord h keywordLists
      ((ColouriseRustDoc.step k h keywordLists)^[j] s) n body[j] ((body ++ T).drop (j + 1))
      hm.2.2.2.2.2.2 (by rw [hm.2.2.2.2.1]; exact hs) hnj htj
      (by rw [hm.1, hm.2.2.1]; omega) hmem.1 hmem.2 (by rw [← hdrop]; exact hfirst j hjlt)
    rw [Function.iterate_succ_apply']
    exact ⟨hm.trans hstep.1, hstep.2⟩

/-- The round at the `r` or `b` that opens a raw string with `n` hashes, in
the default state: the run before it is closed, the raw string state is
entered, the cursor goes to the byte after the opening quote, and `hashCount`
is `n`. -/
theorem step_raw_open {k : RustLexerH} (hk : k.Distinct) (h : WordListH)
    (keywordLists : Nat → WordList) (s : RustScan) (byteString : Bool) (n : Nat)
    (T : List Nat) (hc : s.sc.Coherent) (hs : s.sc.state = k.SCE_RUST .DEFAULT)
    (htext : s.sc.doc.flatten.drop s.sc.currentPos = rawOpener byteString n ++ T)
    (hrange : s.sc.currentPos + (rawOpener byteString n).length ≤ s.sc.endPos) :
    (s.sc.SetState (if byteString then k.SCE_RUST .RAW_BYTESTRING
      else k.SCE_RUST .RAW_STRING)).Moved
      (ColouriseRustDoc.step k h keywordLists s).sc (rawOpener byteString n).length ∧
    (ColouriseRustDoc.step k h keywordLists s).hashCount = (n : Int) := by
  have hle : s.sc.currentPos ≤ s.sc.lengthDocument := by
    have := length_le_of_drop htext (by cases byteString <;> simp [rawOpener])
    rw [hc.2.2.1]
    unfold Document.Length
    omega
  have hstate := stateCase_default hk h keywordLists s hs
  cases byteString with
  | false =>
    cases n with
    | zero =>
      have ht : s.sc.doc.flatten.drop s.sc.currentPos = 114 :: 34 :: T := by
        rw [htext]; rfl
      have hch : s.sc.ch = 114 := by rw [hc.1]; exact SafeGetCharAt_of_drop ht
      have hchn : s.sc.chNext = 34 := by
        rw [hc.2.1]; exact SafeGetCharAt_of_drop (drop_succ_of_drop ht)
      have hlen : (rawOpener false 0).length = 2 := rfl
      rw [hlen] at hrange ⊢
      have hd : ColouriseRustDoc.defaultCase k s =
          ({ s with hashCount := 0, sc := (s.sc.SetState (k.SCE_RUST .RAW_STRING)).Forward },
            false) := by
        unfold ColouriseRustDoc.defaultCase
        simp [hs, hch, hchn, StyleContext.Match]
      have hstep : ColouriseRustDoc.step k h keywordLists s =
          ColouriseRustDoc.lineEnd k
            { s with hashCount := 0, sc := (s.sc.SetState (k.SCE_RUST .RAW_STRING)).Forward } := by
        unfold ColouriseRustDoc.step
        simp only [hstate, hd]
        rfl
      rw [hstep]
      have hss := SetState_spec hc hle (k.SCE_RUST .RAW_STRING)
      have hf := Forward_moved hss.2.2.2.2.2.1 (by rw [hss.1, hss.2.2.1]; omega)
      have hl := lineEnd_spec k
        { s with hashCount := 0, sc := (s.sc.SetState (k.SCE_RUST .RAW_STRING)).Forward }
        hf.2.2.2.2.2.2 (by
          show (s.sc.SetState (k.SCE_RUST .RAW_STRING)).Forward.currentPos <
            (s.sc.SetState (k.SCE_RUST .RAW_STRING)).Forward.endPos
          rw [hf.1, hf.2.2.1, hss.1, hss.2.2.1]; omega)
      exact ⟨hf.trans hl.1, hl.2⟩
    | succ m =>
      have ht : s.sc.doc.flatten.drop s.sc.currentPos =
          114 :: 35 :: (List.replicate m 35 ++ 34 :: T) := by
        rw [htext]; simp [rawOpener, List.replicate_succ]
      have hch : s.sc.ch = 114 := by rw [hc.1]; exact SafeGetCharAt_of_drop ht
      have hchn : s.sc.chNext = 35 := by
        rw [hc.2.1]; exact SafeGetCharAt_of_drop (drop_succ_of_drop ht)
      have hlen : (rawOpener false (m + 1)).length = (m + 1 + 1) + 1 := by
        simp [rawOpener]
      rw [hlen] at hrange ⊢
      have hraw : IsRustRawString s.sc.doc (s.sc.currentPos + 2) true s.hashCount =
          ((m : Int), true) :=
        IsRustRawString_start s.sc.doc (drop_succ_of_drop (drop_succ_of_drop ht)) s.hashCount
      have hd : ColouriseRustDoc.defaultCase k s =
          ({ s with
            hashCount := (m : Int) + 1
            sc := (s.sc.SetState (k.SCE_RUST .RAW_STRING)).Advance (m + 1 + 1) }, false) := by
        unfold ColouriseRustDoc.defaultCase
        simp [hs, hch, hchn, StyleContext.Match, hraw]
        rfl
      have hstep : ColouriseRustDoc.step k h keywordLists s =
          ColouriseRustDoc.lineEnd k
            { s with
              hashCount := (m : Int) + 1
              sc := (s.sc.SetState (k.SCE_RUST .RAW_STRING)).Advance (m + 1 + 1) } := by
        unfold ColouriseRustDoc.step
        simp only [hstate, hd]
        rfl
      rw [hstep]
      have hss := SetState_spec hc hle (k.SCE_RUST .RAW_STRING)
      have hf := Advance_moved (m + 1 + 1) hss.2.2.2.2.2.1 (by rw [hss.1, hss.2.2.1]; omega)
      have hl := lineEnd_spec k
        { s with
          hashCount := (m : Int) + 1
          sc := (s.sc.SetState (k.SCE_RUST .RAW_STRING)).Advance (m + 1 + 1) }
        hf.2.2.2.2.2.2 (by
          show ((s.sc.SetState (k.SCE_RUST .RAW_STRING)).Advance (m + 1 + 1)).currentPos <
            ((s.sc.SetState (k.SCE_RUST .RAW_STRING)).Advance (m + 1 + 1)).endPos
          rw [hf.1, hf.2.2.1, hss.1, hss.2.2.1]; omega)
      refine ⟨hf.trans hl.1, ?_⟩
      rw [hl.2]
      push_cast
      rfl
  | true =>
    have ht : s.sc.doc.flatten.drop s.sc.currentPos =
        98 :: 114 :: (List.replicate n 35 ++ 34 :: T) := by
      rw [htext]; simp [rawOpener]
    have hch : s.sc.ch = 98 := by rw [hc.1]; exact SafeGetCharAt_of_drop ht
    have hchn : s.sc.chNext = 114 := by
      rw [hc.2.1]; exact SafeGetCharAt_of_drop (drop_succ_of_drop ht)
    have hlen : (rawOpener true n).length = (n + 2) + 1 := by
      simp [rawOpener]
    rw [hlen] at hrange ⊢
    have hraw : IsRustRawString s.sc.doc (s.sc.currentPos + 2) true s.hashCount =
        ((n : Int), true) :=
      IsRustRawString_start s.sc.doc (drop_succ_of_drop (drop_succ_of_drop ht)) s.hashCount
    have hd : ColouriseRustDoc.defaultCase k s =
        ({ s with
          hashCount := (n : Int)
          sc := (s.sc.SetState (k.SCE_RUST .RAW_BYTESTRING)).Advance (n + 2) }, false) := by
      unfold ColouriseRustDoc.defaultCase
      simp [hs, hch, hchn, StyleContext.Match, hraw]
      rfl
    have hstep : ColouriseRustDoc.step k h keywordLists s =
        ColouriseRustDoc.lineEnd k
          { s with
            hashCount := (n : Int)
            sc := (s.sc.SetState (k.SCE_RUST .RAW_BYTESTRING)).Advance (n + 2) } := by
      unfold ColouriseRustDoc.step
      simp only [hstate, hd]
      rfl
    rw [hstep]
    have hss := SetState_spec hc hle (k.SCE_RUST .RAW_BYTESTRING)
    have hf := Advance_moved (n + 2) hss.2.2.2.2.2.1 (by rw [hss.1, hss.2.2.1]; omega)
    have hl := lineEnd_spec k
      { s with
        hashCount := (n : Int)
        sc := (s.sc.SetState (k.SCE_RUST .RAW_BYTESTRING)).Advance (n + 2) }
      hf.2.2.2.2.2.2 (by
        show ((s.sc.SetState (k.SCE_RUST .RAW_BYTESTRING)).Advance (n + 2)).currentPos <
          ((s.sc.SetState (k.SCE_RUST .RAW_BYTESTRING)).Advance (n + 2)).endPos
        rw [hf.1, hf.2.2.1, hss.1, hss.2.2.1]; omega)
    exact ⟨hf.trans hl.1, hl.2⟩

/-- The `switch` at the quote that closes a raw string with `n` hashes: the
cursor goes to the byte after the hashes, the run of the string is closed there
and the default state is set; `hashCount` is 0. -/
theorem stateCase_raw_close {k : RustLexerH} (hk : k.Distinct) (h : WordListH)
    (keywordLists : Nat → WordList) (s : RustScan) (n : Nat) (rest : List Nat)
    (hc : s.sc.Coherent)
    (hs : s.sc.state = k.SCE_RUST .RAW_STRING ∨ s.sc.state = k.SCE_RUST .RAW_BYTESTRING)
    (hn : s.hashCount = (n : Int))
    (htext : s.sc.doc.flatten.drop s.sc.currentPos = 34 :: (List.replicate n 35 ++ rest))
    (hrange : s.sc.currentPos + 1 + n ≤ s.sc.endPos)
    (hlast : closesRaw n (34 :: (List.replicate n 35 ++ rest)) = true) :
    (ColouriseRustDoc.stateCase k h keywordLists s).2 = false ∧
    (ColouriseRustDoc.stateCase k h keywordLists s).1.hashCount = 0 ∧
    (ColouriseRustDoc.stateCase k h keywordLists s).1.sc.state = k.SCE_RUST .DEFAULT ∧
    (ColouriseRustDoc.stateCase k h keywordLists s).1.sc.currentPos =
      s.sc.currentPos + 1 + n ∧
    ∀ p, (ColouriseRustDoc.stateCase k h keywordLists s).1.sc.styler.styleAt p =
      if s.sc.styler.startSeg ≤ p ∧ p < s.sc.currentPos + 1 + n then some s.sc.state
      else s.sc.styler.styleAt p := by
  have hch : s.sc.ch = 34 := by rw [hc.1]; exact SafeGetCharAt_of_drop htext
  have hcond : s.hashCount = 0 ∨ (s.sc.chNext = 35 ∧
      (IsRustRawString s.sc.doc (s.sc.currentPos + 1) false s.hashCount).2 = true) := by
    cases n with
    | zero => left; rw [hn]; rfl
    | succ m =>
      right
      constructor
      · rw [hc.2.1]
        have := drop_succ_of_drop htext
        rw [List.replicate_succ, List.cons_append] at this
        exact SafeGetCharAt_of_drop this
      · rw [IsRustRawString_end s.sc.doc (drop_succ_of_drop htext), hn]
        simp only [closesRaw, List.head?_cons, List.tail_cons, beq_self_eq_true, Bool.true_and,
          Bool.or_eq_true, beq_iff_eq] at hlast
        rcases hlast with h0 | h1
        · omega
        · rw [h1]
          simp
  rw [stateCase_raw_quote_close hk h keywordLists s hs hch hcond]
  simp only [StyleContext.ForwardSetState]
  have hto : s.hashCount.toNat = n := by rw [hn]; rfl
  rw [hto]
  have ha := Advance_moved n hc (by omega)
  have hf := Forward_moved ha.2.2.2.2.2.2 (by rw [ha.1, ha.2.2.1]; omega)
  have hm := ha.trans hf
  have hlen : s.sc.currentPos + (34 :: List.replicate n 35).length ≤ s.sc.doc.flatten.length :=
    length_le_of_drop (A := 34 :: List.replicate n 35) (T := rest)
      (by rw [htext]; rfl) (by simp)
  simp only [List.length_cons, List.length_replicate] at hlen
  have hss := SetState_spec hm.2.2.2.2.2.2 (by
    rw [hm.1, hm.2.2.2.1, hc.2.2.1]
    unfold Document.Length
    omega) (k.SCE_RUST .DEFAULT)
  refine ⟨trivial, trivial, hss.2.2.2.2.1, ?_, ?_⟩
  · show ((s.sc.Advance n).Forward.SetState (k.SCE_RUST .DEFAULT)).currentPos = _
    rw [hss.1, hm.1]
    omega
  · intro p
    show ((s.sc.Advance n).Forward.SetState (k.SCE_RUST .DEFAULT)).styler.styleAt p = _
    rw [hss.2.2.2.2.2.2.2.2.2.2 p, hm.2.2.2.2.2.1, hm.2.2.2.2.1, hm.1]
    have : s.sc.currentPos + (n + 1) = s.sc.currentPos + 1 + n := by omega
    rw [this]

/-! ## `FoldNullDoc` -/

theorem GetLine_lt_length (doc : Document) (p : Nat) (h : doc ≠ []) :
    doc.GetLine p < doc.length := by
  induction doc generalizing p with
  | nil => exact absurd rfl h
  | cons l ls ih =>
    cases ls with
    | nil => simp [Document.GetLine]
    | cons l2 ls2 =>
      unfold Document.GetLine
      split
      · simp
      · have := ih (p - l.length) (by simp)
        simp only [List.length_cons] at this ⊢
        omega

theorem GetLine_le_last (doc : Document) (p : Nat) : doc.GetLine p ≤ doc.GetLine doc.Length := by
  rw [GetLine_of_Length_le doc doc.Length (Nat.le_refl _)]
  by_cases h : doc = []
  · subst h
    simp [Document.GetLine]
  · have := GetLine_lt_length doc p h
    omega

theorem NextLine_unique (sc : ScintillaH) (I : Nat → Nat) (docLines line n m : Nat)
    (hn : FoldNullDoc.NextLine sc I docLines line n)
    (hm : FoldNullDoc.NextLine sc I docLines line m) : n = m := by
  obtain ⟨hn1, hn2, hn3, hn4⟩ := hn
  obtain ⟨hm1, hm2, hm3, hm4⟩ := hm
  rcases Nat.lt_trichotomy n m with h | h | h
  · rcases hn4 with h4 | h4
    · omega
    · exact absurd h4 (hm3 n hn1 h)
  · exact h
  · rcases hm4 with h4 | h4
    · omega
    · exact absurd h4 (hn3 m hm1 h)

theorem skipBlank_spec (sc : ScintillaH) (I : Nat → Nat) (docLines : Nat) :
    ∀ fuel lineNext, lineNext ≤ docLines → docLines - lineNext ≤ fuel →
      lineNext ≤ (FoldNullDoc.skipBlank sc I docLines fuel lineNext (I lineNext)).1 ∧
      (FoldNullDoc.skipBlank sc I docLines fuel lineNext (I lineNext)).1 ≤ docLines ∧
      (FoldNullDoc.skipBlank sc I docLines fuel lineNext (I lineNext)).2 =
        I (FoldNullDoc.skipBlank sc I docLines fuel lineNext (I lineNext)).1 ∧
      (∀ l, lineNext ≤ l →
        l < (FoldNullDoc.skipBlank sc I docLines fuel lineNext (I lineNext)).1 →
        I l &&& sc.SC_FOLDLEVELWHITEFLAG ≠ 0) ∧
      ((FoldNullDoc.skipBlank sc I docLines fuel lineNext (I lineNext)).1 = docLines ∨
        I (FoldNullDoc.skipBlank sc I docLines fuel lineNext (I lineNext)).1 &&&
          sc.SC_FOLDLEVELWHITEFLAG = 0) := by
  intro fuel
  induction fuel with
  | zero =>
    intro lineNext h1 h2
    simp only [FoldNullDoc.skipBlank]
    refine ⟨Nat.le_refl _, h1, trivial, fun l a b => by omega, Or.inl (by omega)⟩
  | succ fuel ih =>
    intro lineNext h1 h2
    unfold FoldNullDoc.skipBlank
    split
    · rename_i hc
      obtain ⟨a1, a2, a3, a4, a5⟩ := ih (lineNext + 1) (by omega) (by omega)
      refine ⟨by omega, a2, a3, ?_, a5⟩
      intro l hl1 hl2
      rcases Nat.eq_or_lt_of_le hl1 with h | h
      · rw [← h]
        exact hc.2
      · exact a4 l h hl2
    · rename_i hc
      refine ⟨Nat.le_refl _, h1, rfl, fun l a b => by omega, ?_⟩
      by_cases hlt : lineNext < docLines
      · right
        by_contra hne
        exact hc ⟨hlt, hne⟩
      · left
        omega

theorem Written_mono (sc : ScintillaH) (I : Nat → Nat) (docLines first c : Nat)
    (x : Nat × Nat) (hc : I c &&& sc.SC_FOLDLEVELWHITEFLAG = 0 ∨ c = docLines)
    (hfc : first < c) (h : FoldNullDoc.Written sc I docLines c x) :
    FoldNullDoc.Written sc I docLines first x := by
  rcases h with ⟨h1, h2⟩ | ⟨h1, h2, h3⟩
  · left
    refine ⟨?_, h2⟩
    rcases h1 with h | h | h
    · exact Or.inl h
    · exact Or.inr (Or.inl h)
    · rcases hc with hc | hc
      · left
        rw [h]
        exact hc
      · right
        left
        omega
  · right
    exact ⟨by omega, h2, h3⟩

theorem FoldNullDoc_loop_spec (sc : ScintillaH) (I : Nat → Nat) (docLines maxLines : Nat)
    (hmax : maxLines ≤ docLines) :
    ∀ fuel c, c ≤ docLines →
      ∀ x ∈ FoldNullDoc.loop sc I docLines maxLines fuel c (I c),
        c ≤ x.1 ∧ FoldNullDoc.Written sc I docLines c x := by
  intro fuel
  induction fuel with
  | zero =>
    intro c _ x hx
    simp [FoldNullDoc.loop] at hx
  | succ fuel ih =>
    intro c hc x hx
    unfold FoldNullDoc.loop at hx
    split at hx
    swap
    · simp at hx
    rename_i hcm
    by_cases hlast : c + 1 ≤ docLines
    · -- a following line exists
      simp only [hlast, if_true] at hx
      obtain ⟨a1, a2, a3, a4, a5⟩ :=
        skipBlank_spec sc I docLines (docLines - (c + 1)) (c + 1) hlast (Nat.le_refl _)
      generalize FoldNullDoc.skipBlank sc I docLines (docLines - (c + 1)) (c + 1) (I (c + 1)) = r
        at hx a1 a2 a3 a4 a5
      have hnext : FoldNullDoc.NextLine sc I docLines c r.1 :=
        ⟨by omega, a2, fun l h1 h2 => a4 l (by omega) h2, a5⟩
      rw [List.mem_cons, List.mem_append] at hx
      rcases hx with hx | hx | hx
      · subst hx
        refine ⟨Nat.le_refl _, Or.inl ⟨Or.inr (Or.inr rfl), Or.inl ⟨r.1, hnext, ?_⟩⟩⟩
        simp only [a3]
      · rw [List.mem_map] at hx
        obtain ⟨l, hl, rfl⟩ := hx
        rw [List.mem_range'_1] at hl
        have hl1 : c + 1 ≤ l := hl.1
        have hl2 : l < r.1 := by omega
        refine ⟨by simp only; omega, Or.inr ⟨by simp only; omega, a4 l hl1 hl2, r.1, ?_, ?_⟩⟩
        · exact ⟨hl2, a2, fun l' h1 h2 => a4 l' (by simp only at h1; omega) h2, a5⟩
        · simp only [a3]
      · rw [a3] at hx
        obtain ⟨b1, b2⟩ := ih r.1 a2 x hx
        refine ⟨by omega, Written_mono sc I docLines c r.1 x ?_ (by omega) b2⟩
        rcases a5 with h | h
        · exact Or.inr h
        · exact Or.inl h
    · -- the last line
      have hcd : c = docLines := by omega
      have hsk : FoldNullDoc.skipBlank sc I docLines (docLines - (c + 1)) (c + 1) (I c) =
          (c + 1, I c) := by
        have : docLines - (c + 1) = 0 := by omega
        rw [this]
        rfl
      simp only [hlast, if_false, hsk] at hx
      rw [List.mem_cons, List.mem_append] at hx
      rcases hx with hx | hx | hx
      · subst hx
        exact ⟨Nat.le_refl _, Or.inl ⟨Or.inr (Or.inr rfl), Or.inr ⟨hcd, rfl⟩⟩⟩
      · simp at hx
      · exfalso
        cases fuel with
        | zero => simp [FoldNullDoc.loop] at hx
        | succ f =>
          unfold FoldNullDoc.loop at hx
          rw [if_neg (by omega)] at hx
          simp at hx

theorem backtrack_spec (sc : ScintillaH) (I : Nat → Nat) :
    ∀ line indent, indent = I line →
      (FoldNullDoc.backtrack sc I line indent).1 ≤ line ∧
      (FoldNullDoc.backtrack sc I line indent).2 = I (FoldNullDoc.backtrack sc I line indent).1 ∧
      (I (FoldNullDoc.backtrack sc I line indent).1 &&& sc.SC_FOLDLEVELWHITEFLAG = 0 ∨
        (FoldNullDoc.backtrack sc I line indent).1 = 0) := by
  intro line
  induction line with
  | zero =>
    intro indent h
    simp [FoldNullDoc.backtrack, h]
  | succ n ih =>
    intro indent _
    unfold FoldNullDoc.backtrack
    split
    · rename_i h
      exact ⟨by simp, rfl, Or.inl h⟩
    · obtain ⟨a, b, c⟩ := ih (I n) rfl
      exact ⟨by omega, b, c⟩

theorem FoldNullDoc_spec (sc : ScintillaH) (fold : Int) (doc : Document) (I : Nat → Nat)
    (startPos lengthDoc : Nat) :
    ∀ x ∈ FoldNullDoc sc fold doc I startPos lengthDoc,
      FoldNullDoc.Written sc I (doc.GetLine doc.Length) 0 x := by
  intro x hx
  unfold FoldNullDoc at hx
  simp only at hx
  split at hx
  · simp at hx
  obtain ⟨b1, b2, b3⟩ :=
    backtrack_spec sc I (doc.GetLine startPos) (I (doc.GetLine startPos)) rfl
  generalize FoldNullDoc.backtrack sc I (doc.GetLine startPos) (I (doc.GetLine startPos)) = b
    at hx b1 b2 b3
  have hb : b.1 ≤ doc.GetLine doc.Length := Nat.le_trans b1 (GetLine_le_last doc startPos)
  have hmax : (if startPos + lengthDoc = doc.Length then doc.GetLine doc.Length
      else doc.GetLine (startPos + lengthDoc - 1)) ≤ doc.GetLine doc.Length := by
    split
    · exact Nat.le_refl _
    · exact GetLine_le_last doc _
  rw [b2] at hx
  obtain ⟨_, h2⟩ := FoldNullDoc_loop_spec sc I _ _ hmax _ b.1 hb x hx
  rcases Nat.eq_zero_or_pos b.1 with h0 | h0
  · rw [h0] at h2
    exact h2
  · rcases b3 with h | h
    · exact Written_mono sc I _ 0 b.1 x (Or.inl h) h0 h2
    · omega

theorem clearBits_of_and_eq_zero (x m : Nat) (h : x &&& m = 0) : clearBits x m = x := by
  simp [clearBits, h]

theorem clearBits_lt_two_pow (x m n : Nat) (h : x < 2 ^ n) : clearBits x m < 2 ^ n := by
  unfold clearBits
  exact Nat.xor_lt_two_pow h (Nat.lt_of_le_of_lt Nat.and_le_left h)

theorem FoldNullDoc_lev_lt (sc : ScintillaH) (a b : Nat) (ha : a < 2 ^ 16)
    (hH : sc.SC_FOLDLEVELHEADERFLAG < 2 ^ 16) : FoldNullDoc.lev sc a b < 2 ^ 16 := by
  unfold FoldNullDoc.lev
  apply clearBits_lt_two_pow
  split
  · exact Nat.or_lt_two_pow ha hH
  · exact ha

theorem FoldNullDoc_lev_nonblank (sc : ScintillaH) (a b : Nat)
    (hH : sc.SC_FOLDLEVELHEADERFLAG ≠ 0)
    (hHM : sc.SC_FOLDLEVELHEADERFLAG &&& sc.SC_FOLDLEVELNUMBERMASK = 0)
    (hHW : sc.SC_FOLDLEVELHEADERFLAG &&& sc.SC_FOLDLEVELWHITEFLAG = 0)
    (hnb : a &&& sc.SC_FOLDLEVELWHITEFLAG = 0) (haH : a &&& sc.SC_FOLDLEVELHEADERFLAG = 0) :
    FoldNullDoc.lev sc a b &&& sc.SC_FOLDLEVELNUMBERMASK = a &&& sc.SC_FOLDLEVELNUMBERMASK ∧
    FoldNullDoc.lev sc a b &&& sc.SC_FOLDLEVELWHITEFLAG = 0 ∧
    (FoldNullDoc.lev sc a b &&& sc.SC_FOLDLEVELHEADERFLAG ≠ 0 ↔
      a &&& sc.SC_FOLDLEVELNUMBERMASK < b &&& sc.SC_FOLDLEVELNUMBERMASK) := by
  unfold FoldNullDoc.lev
  by_cases hlt : a &&& sc.SC_FOLDLEVELNUMBERMASK < b &&& sc.SC_FOLDLEVELNUMBERMASK
  · rw [if_pos ⟨hnb, hlt⟩]
    have hw : (a ||| sc.SC_FOLDLEVELHEADERFLAG) &&& sc.SC_FOLDLEVELWHITEFLAG = 0 := by
      rw [Nat.and_distrib_right, hnb, hHW]
      rfl
    rw [clearBits_of_and_eq_zero _ _ hw]
    refine ⟨?_, hw, ?_⟩
    · rw [Nat.and_distrib_right, hHM, Nat.or_zero]
    · rw [Nat.and_distrib_right, haH, Nat.and_self, Nat.zero_or]
      exact ⟨fun _ => hlt, fun _ => hH⟩
  · rw [if_neg (fun h => hlt h.2), clearBits_of_and_eq_zero _ _ hnb]
    refine ⟨rfl, hnb, ?_⟩
    rw [haH]
    exact ⟨fun h => absurd rfl h, fun h => absurd h hlt⟩

theorem ColouriseDiffDoc_nextLevel_lt (k : SciLexerH) (sc : ScintillaH) (lineType : Int)
    (first prevLevel : Nat) (hB : sc.SC_FOLDLEVELBASE + 2 < 2 ^ 16)
    (hH : sc.SC_FOLDLEVELHEADERFLAG < 2 ^ 16) (hM : sc.SC_FOLDLEVELNUMBERMASK + 1 < 2 ^ 16)
    (hp : prevLevel < 2 ^ 16) :
    ColouriseDiffDoc.nextLevel k sc lineType first prevLevel < 2 ^ 16 := by
  unfold ColouriseDiffDoc.nextLevel
  split
  · exact Nat.or_lt_two_pow (by omega) hH
  split
  · exact Nat.or_lt_two_pow (by omega) hH
  split
  · exact Nat.or_lt_two_pow (by omega) hH
  split
  · have : prevLevel &&& sc.SC_FOLDLEVELNUMBERMASK ≤ sc.SC_FOLDLEVELNUMBERMASK :=
      Nat.and_le_right
    omega
  · exact hp

theorem ColouriseDiffDoc_loop_levels (k : SciLexerH) (sc : ScintillaH) (fold : Bool)
    (doc : Document) (maxLines : Nat) (hB : sc.SC_FOLDLEVELBASE + 2 < 2 ^ 16)
    (hH : sc.SC_FOLDLEVELHEADERFLAG < 2 ^ 16) (hM : sc.SC_FOLDLEVELNUMBERMASK + 1 < 2 ^ 16) :
    ∀ (fuel i ls lsn : Nat) (cur : Int) (prevLevel : Nat) c l last, prevLevel < 2 ^ 16 →
      ColouriseDiffDoc.loop k sc fold doc maxLines fuel i ls lsn cur prevLevel =
        some (c, l, last) →
      ∀ x ∈ l, x.2 < 2 ^ 16 := by
  intro fuel
  induction fuel with
  | zero =>
    intro i ls lsn cur prevLevel c l last _ h x hx
    unfold ColouriseDiffDoc.loop at h
    split at h
    · cases h
    · cases h
      simp at hx
  | succ fuel ih =>
    intro i ls lsn cur prevLevel c l last hp h x hx
    unfold ColouriseDiffDoc.loop at h
    split at h
    swap
    · cases h
      simp at hx
    simp only at h
    split at h
    · cases h
    rename_i c1 l1 last1 hrec
    cases h
    have hn := ColouriseDiffDoc_nextLevel_lt k sc
      (ColouriseDiffLine k (doc.GetRange ls lsn DIFF_BUFFER_START_SIZE))
      ((doc.GetRange ls lsn DIFF_BUFFER_START_SIZE).getD 0 0) prevLevel hB hH hM hp
    rw [List.mem_append] at hx
    rcases hx with hx | hx
    · cases fold
      · simp at hx
      · simp only [if_true, List.mem_append, List.mem_singleton] at hx
        rcases hx with hx | hx
        · split at hx
          · rw [List.mem_singleton] at hx
            rw [hx]
            exact clearBits_lt_two_pow _ _ _ hp
          · simp at hx
        · rw [hx]
          exact hn
    · refine ih _ _ _ _ _ _ _ _ ?_ hrec x hx
      cases fold
      · exact hp
      · exact hn

/-! ## The fold levels of the structural folders -/

theorem shiftLeft16_and_eq_zero (b m : Nat) (hm : m < 2 ^ 16) : (b <<< 16) &&& m = 0 := by
  have h1 : m = (2 ^ 16 - 1) &&& m := by
    rw [Nat.and_comm, Nat.and_pow_two_sub_one_eq_mod, Nat.mod_eq_of_lt hm]
  rw [h1, ← Nat.and_assoc, Nat.and_pow_two_sub_one_eq_mod, Nat.shiftLeft_eq]
  simp

theorem toInt32_of_fits (d : Int) (h0 : 0 ≤ d) (h1 : d.toNat < 2 ^ 15) :
    toInt32 d = d.toNat := by
  unfold toInt32
  congr 1
  apply Int.emod_eq_of_lt h0
  have : (d.toNat : Int) = d := Int.toNat_of_nonneg h0
  omega

theorem FitsNumberMask.lt (sc : ScintillaH) (hsc : sc.FoldFields) {d : Int}
    (h : FitsNumberMask sc d) : d.toNat < 2 ^ 15 := by
  have : d.toNat &&& sc.SC_FOLDLEVELNUMBERMASK ≤ sc.SC_FOLDLEVELNUMBERMASK := Nat.and_le_right
  rw [h.2] at this
  exact Nat.lt_of_le_of_lt this hsc.1

theorem foldLevel_eq (sc : ScintillaH) (hsc : sc.FoldFields) (u n : Int)
    (hu : FitsNumberMask sc u) (hn : FitsNumberMask sc n) :
    foldLevel sc u n =
      2 ^ 16 * n.toNat + (u.toNat ||| (if u < n then sc.SC_FOLDLEVELHEADERFLAG else 0)) := by
  have hu1 := hu.lt sc hsc
  have hn1 := hn.lt sc hsc
  have hlow : u.toNat ||| (if u < n then sc.SC_FOLDLEVELHEADERFLAG else 0) < 2 ^ 16 := by
    apply Nat.or_lt_two_pow
    · omega
    · split
      · exact hsc.2.1
      · norm_num
  rw [Nat.mul_add_lt_is_or hlow]
  unfold foldLevel
  rw [toInt32_of_fits u hu.1 hu1, toInt32_of_fits n hn.1 hn1]
  have hmod : (n.toNat <<< 16) % 2 ^ 32 = 2 ^ 16 * n.toNat := by
    rw [Nat.shiftLeft_eq, Nat.mul_comm]
    apply Nat.mod_eq_of_lt
    omega
  rw [hmod]
  split
  · rw [Nat.or_comm (2 ^ 16 * n.toNat) (u.toNat ||| sc.SC_FOLDLEVELHEADERFLAG), Nat.or_assoc,
      Nat.or_assoc, Nat.or_comm (2 ^ 16 * n.toNat)]
  · rw [Nat.or_zero, Nat.or_comm]

theorem foldLevel_current (sc : ScintillaH) (hsc : sc.FoldFields) (u n : Int)
    (hu : FitsNumberMask sc u) (hn : FitsNumberMask sc n) :
    (foldCurrentDepth sc (foldLevel sc u n) : Int) = u := by
  have hn1 := hn.lt sc hsc
  have hM : sc.SC_FOLDLEVELNUMBERMASK < 2 ^ 16 := Nat.lt_trans hsc.1 (by norm_num)
  have hlow : u.toNat ||| (if u < n then sc.SC_FOLDLEVELHEADERFLAG else 0) < 2 ^ 16 := by
    apply Nat.or_lt_two_pow
    · have := hu.lt sc hsc
      omega
    · split
      · exact hsc.2.1
      · norm_num
  rw [foldLevel_eq sc hsc u n hu hn, Nat.mul_add_lt_is_or hlow]
  unfold foldCurrentDepth
  rw [Nat.and_distrib_right, Nat.and_distrib_right, hu.2]
  have h1 : (2 ^ 16 * n.toNat) &&& sc.SC_FOLDLEVELNUMBERMASK = 0 := by
    rw [Nat.mul_comm, ← Nat.shiftLeft_eq]
    exact shiftLeft16_and_eq_zero _ _ hM
  have h2 : (if u < n then sc.SC_FOLDLEVELHEADERFLAG else 0) &&& sc.SC_FOLDLEVELNUMBERMASK =
      0 := by
    split
    · exact hsc.2.2
    · simp
  rw [h1, h2, Nat.zero_or, Nat.or_zero]
  exact Int.toNat_of_nonneg hu.1

theorem foldLevel_next (sc : ScintillaH) (hsc : sc.FoldFields) (u n : Int)
    (hu : FitsNumberMask sc u) (hn : FitsNumberMask sc n) :
    shiftRight16 (foldLevel sc u n) = n := by
  have hn1 := hn.lt sc hsc
  have hlow : u.toNat ||| (if u < n then sc.SC_FOLDLEVELHEADERFLAG else 0) < 2 ^ 16 := by
    apply Nat.or_lt_two_pow
    · have := hu.lt sc hsc
      omega
    · split
      · exact hsc.2.1
      · norm_num
  rw [foldLevel_eq sc hsc u n hu hn]
  unfold shiftRight16
  have hlt : 2 ^ 16 * n.toNat + (u.toNat ||| (if u < n then sc.SC_FOLDLEVELHEADERFLAG else 0)) <
      2 ^ 31 := by omega
  rw [if_pos hlt, Nat.shiftRight_eq_div_pow]
  have : (2 ^ 16 * n.toNat + (u.toNat ||| (if u < n then sc.SC_FOLDLEVELHEADERFLAG else 0))) /
      2 ^ 16 = n.toNat := by
    rw [Nat.mul_add_div (by norm_num), Nat.div_eq_of_lt hlow, Nat.add_zero]
  rw [this]
  exact Int.toNat_of_nonneg hn.1

/-- The invariant of a pass: when the depths fit, the levels set so far are
continuous, they are those of lines before `lineCurrent`, and `levelCurrent`
is the next-depth field of the level stored for the line before
`lineCurrent`. -/
def FoldPass.Chain (sc : ScintillaH) (p : FoldPass) : Prop :=
  p.Fits sc →
    (∀ x ∈ p.calls, x.1 < p.lineCurrent ∧
      (0 < x.1 → (foldCurrentDepth sc x.2 : Int) = shiftRight16 (p.LevelAt (x.1 - 1)))) ∧
    (0 < p.lineCurrent → p.levelCurrent = shiftRight16 (p.LevelAt (p.lineCurrent - 1)))

theorem FoldPass.Chain.continuous {sc : ScintillaH} {p : FoldPass} (h : p.Chain sc)
    (hf : p.Fits sc) : p.Continuous sc :=
  fun x hx h0 => ((h hf).1 x hx).2 h0

theorem FoldPass.start_chain (sc : ScintillaH) (doc : Document) (LevelAt : Nat → Nat)
    (startPos : Nat) : (FoldPass.start sc doc LevelAt startPos).Chain sc := by
  intro _
  refine ⟨fun x hx => by simp [FoldPass.start] at hx, fun h => ?_⟩
  simp only [FoldPass.start] at h ⊢
  rw [if_pos h]

theorem FoldPass.lineEnd_chain (sc : ScintillaH) (hsc : sc.FoldFields) (b : Bool)
    (p : FoldPass) (n : Int) (h : p.Chain sc) : (p.lineEnd sc b n).Chain sc := by
  intro hf
  have hf0 : p.Fits sc := fun t ht => hf t (by simp [FoldPass.lineEnd, ht])
  have hnew : FitsNumberMask sc p.levelCurrent ∧ FitsNumberMask sc n :=
    hf (p.lineCurrent, p.levelCurrent, n) (by simp [FoldPass.lineEnd])
  obtain ⟨h1, h2⟩ := h hf0
  have hold : ∀ x ∈ p.calls, x.1 < (p.lineEnd sc b n).lineCurrent ∧
      (0 < x.1 → (foldCurrentDepth sc x.2 : Int) =
        shiftRight16 ((p.lineEnd sc b n).LevelAt (x.1 - 1))) := by
    intro x hx
    obtain ⟨a1, a2⟩ := h1 x hx
    refine ⟨by simp only [FoldPass.lineEnd]; omega, fun h0 => ?_⟩
    simp only [FoldPass.lineEnd]
    rw [if_neg (by omega)]
    exact a2 h0
  refine ⟨?_, fun _ => ?_⟩
  · intro x hx
    simp only [FoldPass.lineEnd] at hx
    split at hx
    · exact hold x hx
    · rw [List.mem_append, List.mem_singleton] at hx
      rcases hx with hx | hx
      · exact hold x hx
      · subst hx
        refine ⟨by simp [FoldPass.lineEnd], fun h0 => ?_⟩
        simp only [FoldPass.lineEnd]
        rw [if_neg (by omega), foldLevel_current sc hsc _ _ hnew.1 hnew.2]
        exact h2 h0
  · simp only [FoldPass.lineEnd, Nat.add_sub_cancel, if_true]
    exact (foldLevel_next sc hsc _ _ hnew.1 hnew.2).symm

theorem FoldMakeDoc_step_pass (k : MakeLexerH) (sc : ScintillaH) (doc : Document)
    (StyleAt : Nat → Int) (endPos : Nat) (s : FoldMakeScan) :
    (FoldMakeDoc.step k sc doc StyleAt endPos s).pass = s.pass ∨
      ∃ b n, (FoldMakeDoc.step k sc doc StyleAt endPos s).pass = s.pass.lineEnd sc b n := by
  unfold FoldMakeDoc.step
  lift_lets
  intros
  split
  · exact Or.inr ⟨_, _, rfl⟩
  · exact Or.inl rfl

theorem FoldAsyDoc_step_pass (k : AsyLexerH) (sc : ScintillaH)
    (C : Document → (Nat → Int) → Nat → Int → Int → Nat) (doc : Document)
    (StyleAt : Nat → Int) (GetLineState : Nat → Nat) (endPos : Nat) (s : FoldAsyScan) :
    (FoldAsyDoc.step k sc C doc StyleAt GetLineState endPos s).pass = s.pass ∨
      ∃ b n, (FoldAsyDoc.step k sc C doc StyleAt GetLineState endPos s).pass =
        s.pass.lineEnd sc b n := by
  unfold FoldAsyDoc.step
  lift_lets
  intros
  split
  · exact Or.inr ⟨_, _, rfl⟩
  · exact Or.inl rfl

theorem FoldRustDoc_step_pass (k : RustLexerH) (sc : ScintillaH)
    (C : Document → (Nat → Int) → Nat → Int → Int → Nat) (doc : Document)
    (StyleAt : Nat → Int) (GetLineState : Nat → Nat) (endPos : Nat) (s : FoldRustScan) :
    (FoldRustDoc.step k sc C doc StyleAt GetLineState endPos s).pass = s.pass ∨
      ∃ b n, (FoldRustDoc.step k sc C doc StyleAt GetLineState endPos s).pass =
        s.pass.lineEnd sc b n := by
  unfold FoldRustDoc.step
  lift_lets
  intros
  split
  · exact Or.inr ⟨_, _, rfl⟩
  · exact Or.inl rfl

theorem FoldJsDoc_step_pass (k : JsLexerH) (sc : ScintillaH)
    (C : Document → (Nat → Int) → Nat → Int → Int → Nat) (doc : Document)
    (StyleAt : Nat → Int) (GetLineState : Nat → Nat) (endPos : Nat) (s : FoldJsScan) :
    (FoldJsDoc.step k sc C doc StyleAt GetLineState endPos s).pass = s.pass ∨
      ∃ b n, (FoldJsDoc.step k sc C doc StyleAt GetLineState endPos s).pass =
        s.pass.lineEnd sc b n := by
  unfold FoldJsDoc.step
  lift_lets
  intros
  split
  · exact Or.inr ⟨_, _, rfl⟩
  · exact Or.inl rfl

theorem FoldMakeDoc_loop_chain (k : MakeLexerH) (sc : ScintillaH) (hsc : sc.FoldFields)
    (doc : Document) (StyleAt : Nat → Int) (endPos : Nat) :
    ∀ fuel s, s.pass.Chain sc → (FoldMakeDoc.loop k sc doc StyleAt endPos fuel s).pass.Chain sc := by
  intro fuel
  induction fuel with
  | zero => exact fun s h => h
  | succ fuel ih =>
    intro s h
    unfold FoldMakeDoc.loop
    split
    · apply ih
      rcases FoldMakeDoc_step_pass k sc doc StyleAt endPos s with e | ⟨b, n, e⟩
      · rw [e]
        exact h
      · rw [e]
        exact FoldPass.lineEnd_chain sc hsc b _ n h
    · exact h

theorem FoldAsyDoc_loop_chain (k : AsyLexerH) (sc : ScintillaH) (hsc : sc.FoldFields)
    (C : Document → (Nat → Int) → Nat → Int → Int → Nat) (doc : Document)
    (StyleAt : Nat → Int) (GetLineState : Nat → Nat) (endPos : Nat) :
    ∀ fuel s, s.pass.Chain sc →
      (FoldAsyDoc.loop k sc C doc StyleAt GetLineState endPos fuel s).pass.Chain sc := by
  intro fuel
  induction fuel with
  | zero => exact fun s h => h
  | succ fuel ih =>
    intro s h
    unfold FoldAsyDoc.loop
    split
    · apply ih
      rcases FoldAsyDoc_step_pass k sc C doc StyleAt GetLineState endPos s with e | ⟨b, n, e⟩
      · rw [e]
        exact h
      · rw [e]
        exact FoldPass.lineEnd_chain sc hsc b _ n h
    · exact h

theorem FoldRustDoc_loop_chain (k : RustLexerH) (sc : ScintillaH) (hsc : sc.FoldFields)
    (C : Document → (Nat → Int) → Nat → Int → Int → Nat) (doc : Document)
    (StyleAt : Nat → Int) (GetLineState : Nat → Nat) (endPos : Nat) :
    ∀ fuel s, s.pass.Chain sc →
      (FoldRustDoc.loop k sc C doc StyleAt GetLineState endPos fuel s).pass.Chain sc := by
  intro fuel
  induction fuel with
  | zero => exact fun s h => h
  | succ fuel ih =>
    intro s h
    unfold FoldRustDoc.loop
    split
    · apply ih
      rcases FoldRustDoc_step_pass k sc C doc StyleAt GetLineState endPos s with e | ⟨b, n, e⟩
      · rw [e]
        exact h
      · rw [e]
        exact FoldPass.lineEnd_chain sc hsc b _ n h
    · exact h

theorem FoldJsDoc_loop_chain (k : JsLexerH) (sc : ScintillaH) (hsc : sc.FoldFields)
    (C : Document → (Nat → Int) → Nat → Int → Int → Nat) (doc : Document)
    (StyleAt : Nat → Int) (GetLineState : Nat → Nat) (endPos : Nat) :
    ∀ fuel s, s.pass.Chain sc →
      (FoldJsDoc.loop k sc C doc StyleAt GetLineState endPos fuel s).pass.Chain sc := by
  intro fuel
  induction fuel with
  | zero => exact fun s h => h
  | succ fuel ih =>
    intro s h
    unfold FoldJsDoc.loop
    split
    · apply ih
      rcases FoldJsDoc_step_pass k sc C doc StyleAt GetLineState endPos s with e | ⟨b, n, e⟩
      · rw [e]
        exact h
      · rw [e]
        exact FoldPass.lineEnd_chain sc hsc b _ n h
    · exact h

/-! ## Bracket folding in `FoldJsDoc` -/

theorem bracketLevel_eq (ch : Nat) :
    bracketLevel ch =
      (if isOpeningBracket ch then 1 else 0) - (if isClosingBracket ch then 1 else 0) := by
  unfold bracketLevel isOpeningBracket isClosingBracket
  by_cases h1 : ch = 123 <;> by_cases h2 : ch = 91 <;> by_cases h3 : ch = 40 <;>
    by_cases h4 : ch = 125 <;> by_cases h5 : ch = 93 <;> by_cases h6 : ch = 41 <;>
    simp_all

theorem GetLine_LineStart (doc : Document) (l : Nat) (h : doc.getD l [] ≠ []) :
    doc.GetLine (doc.LineStart l) = l := by
  apply GetLine_unique doc (Nat.le_refl _)
  rw [LineStart_succ]
  have : 0 < (doc.getD l []).length := List.length_pos.mpr h
  omega

theorem countStyled_diff_succ (doc : Document) (StyleAt : Nat → Int) (style : Int)
    (start j : Nat) :
    ((countStyled doc StyleAt style isOpeningBracket start (j + 1) : Nat) : Int) -
        (countStyled doc StyleAt style isClosingBracket start (j + 1) : Nat) =
      (countStyled doc StyleAt style isOpeningBracket start j : Nat) -
        (countStyled doc StyleAt style isClosingBracket start j : Nat) +
        (if StyleAt (start + j) = style then bracketLevel (doc.SafeGetCharAt (start + j))
          else 0) := by
  simp only [countStyled, bracketLevel_eq]
  by_cases h : StyleAt (start + j) = style
  · by_cases h1 : isOpeningBracket (doc.SafeGetCharAt (start + j)) = true <;>
      by_cases h2 : isClosingBracket (doc.SafeGetCharAt (start + j)) = true <;>
      simp [h, h1, h2] <;> omega
  · simp [h]

theorem FoldJsDoc_step_bracket (k : JsLexerH) (sc : ScintillaH)
    (C : Document → (Nat → Int) → Nat → Int → Int → Nat) (doc : Document)
    (StyleAt : Nat → Int) (GetLineState : Nat → Nat) (first : Nat) (depth : Int) (b : Nat)
    (hstyle : ∀ p, p < doc.LineStart b → doc.LineStart first ≤ p →
      StyleAt p ≠ k.SCE_JS .COMMENTBLOCK ∧ StyleAt p ≠ k.SCE_JS .COMMENTBLOCKDOC ∧
      StyleAt p ≠ k.SCE_JS .STRING_BT ∧ StyleAt p ≠ k.SCE_JS .JSX_TAG)
    (hstate : ∀ l, l < b → first ≤ l →
      JsFoldLineState.ofLineState (GetLineState l) =
        { lineComment := 0, packageImport := 0, lineContinuation := 0 })
    (hbrace : ∀ l, l < b → first ≤ l →
      C doc StyleAt l (k.SCE_JS .OPERATOR) (k.SCE_JS .TASKMARKER) = 0)
    (n j : Nat) (s : FoldJsScan) (hn : first + n < b)
    (hj : j < (doc.getD (first + n) []).length)
    (h : FoldJsDoc.AtByte k sc doc StyleAt GetLineState first b depth n j s) :
    (j + 1 < (doc.getD (first + n) []).length →
      FoldJsDoc.AtByte k sc doc StyleAt GetLineState first b depth n (j + 1)
        (FoldJsDoc.step k sc C doc StyleAt GetLineState (doc.LineStart b) s)) ∧
    (j + 1 = (doc.getD (first + n) []).length →
      FoldJsDoc.AtByte k sc doc StyleAt GetLineState first b depth (n + 1) 0
        (FoldJsDoc.step k sc C doc StyleAt GetLineState (doc.LineStart b) s)) := by
  have hpos1 : doc.LineStart first ≤ s.startPos := by
    rw [h.startPos]
    exact Nat.le_trans (LineStart_mono doc (Nat.le_add_right first n)) (Nat.le_add_right _ _)
  have hnext : doc.LineStart (first + n + 1) ≤ doc.LineStart b := LineStart_mono doc hn
  have hsucc := LineStart_succ doc (first + n)
  have hpos2 : s.startPos < doc.LineStart b := by
    rw [h.startPos]
    omega
  obtain ⟨hs1, hs2, hs3, hs4⟩ := hstyle s.startPos hpos2 hpos1
  have hfc := h.foldCurrent
  rw [hstate (first + n) hn (Nat.le_add_right _ _)] at hfc
  have hbr := hbrace (first + n) hn (Nat.le_add_right _ _)
  have hlsn : s.lineStartNext = doc.LineStart (first + n + 1) := by
    rw [h.lineStartNext]
    exact Nat.min_eq_left hnext
  unfold FoldJsDoc.step
  lift_lets
  intro ch stylePrev style startPos0 chNext0 styleNext0 skip levelNext1 startPos chNext styleNext
    visibleChars1 foldNext bracePos brace levelNext2 pass
  have hstyleEq : style = StyleAt s.startPos := h.styleNext
  have hskip : skip = false := by
    simp only [skip, hstyleEq, hs4, false_and, decide_False]
  have hsp : startPos = s.startPos + 1 := by
    simp only [startPos, hskip, startPos0]
    rfl
  have hcn : chNext = doc.SafeGetCharAt (s.startPos + 1) := by
    simp only [chNext, hskip, chNext0, startPos0]
    rfl
  have hsn : styleNext = StyleAt (s.startPos + 1) := by
    simp only [styleNext, hskip, styleNext0, startPos0]
    rfl
  have hl1 : levelNext1 = s.levelNext +
      (if StyleAt s.startPos = k.SCE_JS .OPERATOR then bracketLevel (doc.SafeGetCharAt s.startPos)
        else 0) := by
    simp only [levelNext1, hstyleEq, hs1, hs2, hs3, hs4, or_self, if_false, ch, h.chNext]
    split <;> simp
  have hbp : bracePos = 0 := by
    simp only [bracePos, h.lineCurrent, hbr]
  have hbrf : brace = false := by
    simp only [brace, hbp, ne_eq, not_true_eq_false, and_false, decide_False]
  have hl2 : levelNext2 = levelNext1 := by
    simp only [levelNext2, hfc, h.foldPrev, hbrf, ne_eq, not_true_eq_false, if_false,
      Nat.or_self, Bool.false_eq_true]
  have hl1' : levelNext1 =
      bracketDepth doc StyleAt (k.SCE_JS .OPERATOR) first depth n +
        (countStyled doc StyleAt (k.SCE_JS .OPERATOR) isOpeningBracket
          (doc.LineStart (first + n)) (j + 1) : Int) -
        (countStyled doc StyleAt (k.SCE_JS .OPERATOR) isClosingBracket
          (doc.LineStart (first + n)) (j + 1) : Int) := by
    have := countStyled_diff_succ doc StyleAt (k.SCE_JS .OPERATOR) (doc.LineStart (first + n)) j
    rw [hl1, h.levelNext, h.startPos]
    omega
  constructor
  · intro hlt
    have hne : ¬ startPos = s.lineStartNext := by
      rw [hsp, hlsn, h.startPos]
      omega
    rw [if_neg hne]
    exact
      { lineCurrent := h.lineCurrent
        lines := h.lines
        levelCurrent := h.levelCurrent
        levels := h.levels
        startPos := by
          show startPos = _
          rw [hsp, h.startPos]
          omega
        levelNext := hl1'
        chNext := by
          show chNext = doc.SafeGetCharAt startPos
          rw [hcn, hsp]
        styleNext := by
          show styleNext = StyleAt startPos
          rw [hsn, hsp]
        lineStartNext := h.lineStartNext
        foldCurrent := h.foldCurrent
        foldPrev := h.foldPrev }
  · intro heq
    have hpe : startPos = s.lineStartNext := by
      rw [hsp, hlsn, h.startPos]
      omega
    rw [if_pos hpe]
    have hlc : pass.lineCurrent = first + (n + 1) := by
      show s.pass.lineCurrent + 1 = _
      rw [h.lineCurrent]
      omega
    exact
      { lineCurrent := hlc
        lines := by
          show s.pass.lines ++ [(s.pass.lineCurrent, s.pass.levelCurrent, levelNext2)] = _
          rw [h.lines, h.lineCurrent, h.levelCurrent, hl2, hl1', heq]
          rfl
        levelCurrent := by
          show levelNext2 = _
          rw [hl2, hl1', heq]
          rfl
        levels := by
          intro t ht
          have ht' : t ∈ s.pass.lines ++ [(s.pass.lineCurrent, s.pass.levelCurrent, levelNext2)] :=
            ht
          rw [List.mem_append, List.mem_singleton] at ht'
          show t.1 < s.pass.lineCurrent + 1 ∧
            (if t.1 = s.pass.lineCurrent then foldLevel sc s.pass.levelCurrent levelNext2
              else s.pass.LevelAt t.1) = foldLevel sc t.2.1 t.2.2
          rcases ht' with ht' | ht'
          · obtain ⟨a1, a2⟩ := h.levels t ht'
            refine ⟨by omega, ?_⟩
            rw [if_neg (by omega)]
            exact a2
          · subst ht'
            exact ⟨by simp, by simp⟩
        startPos := by
          show (if brace = true then bracePos + 1 else startPos) = _
          rw [hbrf, if_neg (by simp), hsp, h.startPos]
          have := LineStart_succ doc (first + n)
          rw [Nat.add_assoc] at this
          omega
        levelNext := by
          show levelNext2 = _
          rw [hl2, hl1', heq]
          simp only [countStyled, Nat.cast_zero, add_zero, sub_zero]
          rfl
        chNext := by
          show (if brace = true then doc.SafeGetCharAt (bracePos + 1) else chNext) =
            doc.SafeGetCharAt (if brace = true then bracePos + 1 else startPos)
          rw [hbrf, if_neg (by simp), if_neg (by simp), hcn, hsp]
        styleNext := by
          show (if brace = true then StyleAt (bracePos + 1) else styleNext) =
            StyleAt (if brace = true then bracePos + 1 else startPos)
          rw [hbrf, if_neg (by simp), if_neg (by simp), hsn, hsp]
        lineStartNext := by
          show min (doc.LineStart (pass.lineCurrent + 1)) (doc.LineStart b) = _
          rw [hlc]
        foldCurrent := by
          show JsFoldLineState.ofLineState (GetLineState (s.pass.lineCurrent + 1)) = _
          rw [h.lineCurrent]
          rfl
        foldPrev := by
          show s.foldCurrent.lineContinuation = 0
          rw [hfc] }

theorem FoldJsDoc_loop_bracket (k : JsLexerH) (sc : ScintillaH)
    (C : Document → (Nat → Int) → Nat → Int → Int → Nat) (doc : Document)
    (StyleAt : Nat → Int) (GetLineState : Nat → Nat) (first : Nat) (depth : Int) (b : Nat)
    (hne : ∀ l, l < b → first ≤ l → doc.getD l [] ≠ [])
    (hstyle : ∀ p, p < doc.LineStart b → doc.LineStart first ≤ p →
      StyleAt p ≠ k.SCE_JS .COMMENTBLOCK ∧ StyleAt p ≠ k.SCE_JS .COMMENTBLOCKDOC ∧
      StyleAt p ≠ k.SCE_JS .STRING_BT ∧ StyleAt p ≠ k.SCE_JS .JSX_TAG)
    (hstate : ∀ l, l < b → first ≤ l →
      JsFoldLineState.ofLineState (GetLineState l) =
        { lineComment := 0, packageImport := 0, lineContinuation := 0 })
    (hbrace : ∀ l, l < b → first ≤ l →
      C doc StyleAt l (k.SCE_JS .OPERATOR) (k.SCE_JS .TASKMARKER) = 0) :
    ∀ fuel n j s, first + n ≤ b → (first + n < b → j < (doc.getD (first + n) []).length) →
      (first + n = b → j = 0) →
      FoldJsDoc.AtByte k sc doc StyleAt GetLineState first b depth n j s →
      doc.LineStart b - s.startPos ≤ fuel →
      FoldJsDoc.AtByte k sc doc StyleAt GetLineState first b depth (b - first) 0
        (FoldJsDoc.loop k sc C doc StyleAt GetLineState (doc.LineStart b) fuel s) := by
  have hdone : ∀ n j s, first + n ≤ b →
      (first + n < b → j < (doc.getD (first + n) []).length) → (first + n = b → j = 0) →
      FoldJsDoc.AtByte k sc doc StyleAt GetLineState first b depth n j s →
      ¬ s.startPos < doc.LineStart b →
      FoldJsDoc.AtByte k sc doc StyleAt GetLineState first b depth (b - first) 0 s := by
    intro n j s h1 h2 h3 h hge
    have heq : first + n = b := by
      by_contra hc
      have hlt : first + n < b := Nat.lt_of_le_of_ne h1 hc
      have := h2 hlt
      have := LineStart_succ doc (first + n)
      have := LineStart_mono doc (show first + n + 1 ≤ b from hlt)
      have := h.startPos
      omega
    have hj := h3 heq
    have hn : n = b - first := by omega
    subst hj
    subst hn
    exact h
  intro fuel
  induction fuel with
  | zero =>
    intro n j s h1 h2 h3 h hf
    exact hdone n j s h1 h2 h3 h (by omega)
  | succ fuel ih =>
    intro n j s h1 h2 h3 h hf
    unfold FoldJsDoc.loop
    split
    · rename_i hlt
      have hn : first + n < b := by
        by_contra hc
        have heq : first + n = b := by omega
        have := h3 heq
        have := h.startPos
        rw [heq] at this
        omega
      have hj := h2 hn
      obtain ⟨c1, c2⟩ := FoldJsDoc_step_bracket k sc C doc StyleAt GetLineState first depth b
        hstyle hstate hbrace n j s hn hj h
      rcases Nat.lt_or_ge (j + 1) (doc.getD (first + n) []).length with hc | hc
      · have h' := c1 hc
        refine ih n (j + 1) _ h1 (fun _ => hc) (fun heq => by omega) h' ?_
        have := h'.startPos
        have := h.startPos
        omega
      · have h' := c2 (by omega)
        refine ih (n + 1) 0 _ (by omega) (fun hlt2 => ?_) (fun _ => rfl) h' ?_
        · exact List.length_pos.mpr (hne _ hlt2 (by omega))
        · have := h'.startPos
          have := h.startPos
          have := LineStart_succ doc (first + n)
          rw [Nat.add_assoc] at this
          omega
    · rename_i hge
      exact hdone n j s h1 h2 h3 h hge

theorem bracketFoldLines_mem (doc : Document) (StyleAt : Nat → Int) (style : Int) (first : Nat)
    (depth : Int) :
    ∀ n t, t ∈ bracketFoldLines doc StyleAt style first depth n →
      first ≤ t.1 ∧ t.1 < first + n ∧
      t.2.1 = bracketDepth doc StyleAt style first depth (t.1 - first) ∧
      t.2.2 = t.2.1 + (openingBrackets doc StyleAt style t.1 : Int) -
        (closingBrackets doc StyleAt style t.1 : Int) := by
  intro n
  induction n with
  | zero =>
    intro t ht
    simp [bracketFoldLines] at ht
  | succ n ih =>
    intro t ht
    unfold bracketFoldLines at ht
    rw [List.mem_append, List.mem_singleton] at ht
    rcases ht with ht | ht
    · obtain ⟨a, b, c, d⟩ := ih t ht
      exact ⟨a, by omega, c, d⟩
    · subst ht
      refine ⟨by simp, by simp, ?_, rfl⟩
      simp

theorem bracketFoldLines_lines (doc : Document) (StyleAt : Nat → Int) (style : Int)
    (first : Nat) (depth : Int) :
    ∀ n, (bracketFoldLines doc StyleAt style first depth n).map Prod.fst = List.range' first n := by
  intro n
  induction n with
  | zero => rfl
  | succ n ih =>
    unfold bracketFoldLines
    rw [List.map_append, ih, List.range'_concat]
    simp

theorem FoldJsDoc_start_bracket (k : JsLexerH) (sc : ScintillaH)
    (C : Document → (Nat → Int) → Nat → Int → Int → Nat) (doc : Document)
    (StyleAt : Nat → Int) (GetLineState LevelAt : Nat → Nat) (a b : Nat) (initStyle : Int)
    (hab : a < b) (hne : doc.getD a [] ≠ [])
    (hstate0 : 0 < a → (JsFoldLineState.ofLineState (GetLineState (a - 1))).lineContinuation = 0)
    (hbrace0 : 0 < a → C doc StyleAt (a - 1) (k.SCE_JS .OPERATOR) (k.SCE_JS .TASKMARKER) = 0) :
    FoldJsDoc.AtByte k sc doc StyleAt GetLineState a b
      (if 0 < a then shiftRight16 (LevelAt (a - 1)) else (sc.SC_FOLDLEVELBASE : Int)) 0 0
      (FoldJsDoc.start k sc C doc StyleAt GetLineState LevelAt (doc.LineStart a)
        (doc.LineStart b - doc.LineStart a) initStyle) := by
  have hgl : doc.GetLine (doc.LineStart a) = a := GetLine_LineStart doc a hne
  have hle : doc.LineStart a ≤ doc.LineStart b := LineStart_mono doc (Nat.le_of_lt hab)
  have hend : doc.LineStart a + (doc.LineStart b - doc.LineStart a) = doc.LineStart b := by
    omega
  have hbp : (if (FoldPass.start sc doc LevelAt (doc.LineStart a)).lineCurrent > 0 then
      C doc StyleAt ((FoldPass.start sc doc LevelAt (doc.LineStart a)).lineCurrent - 1)
        (k.SCE_JS .OPERATOR) (k.SCE_JS .TASKMARKER) else 0) = 0 := by
    simp only [FoldPass.start, hgl]
    split
    · rename_i h0
      exact hbrace0 h0
    · rfl
  unfold FoldJsDoc.start
  simp only [hbp, ne_eq, not_true_eq_false, if_false, hend]
  exact
    { lineCurrent := by simp [FoldPass.start, hgl]
      lines := rfl
      levelCurrent := by
        simp only [FoldPass.start, hgl, bracketDepth]
      levels := by
        intro t ht
        simp [FoldPass.start] at ht
      startPos := rfl
      levelNext := by
        simp only [FoldPass.start, hgl, bracketDepth, countStyled]
        simp
      chNext := rfl
      styleNext := rfl
      lineStartNext := by
        simp only [FoldPass.start, hgl]
      foldCurrent := by
        simp only [FoldPass.start, hgl]
        rfl
      foldPrev := by
        simp only [FoldPass.start, hgl]
        split
        · rename_i h0
          exact hstate0 h0
        · rfl }

/-! ## The style assignments of `ColouriseMakeDoc` -/

theorem CallsOk.nil (lo hi : Nat) : CallsOk lo hi [] := by
  simp [CallsOk]

theorem CallsOk.mono {lo hi hi1 : Nat} {calls : List (Nat × Int)} (h : CallsOk lo hi calls)
    (hle : hi ≤ hi1) : CallsOk lo hi1 calls :=
  ⟨h.1, fun x hx => ⟨(h.2 x hx).1, Nat.le_trans (h.2 x hx).2 hle⟩⟩

theorem CallsOk.snoc {lo hi : Nat} {calls : List (Nat × Int)} (h : CallsOk lo hi calls)
    (p : Nat) (st : Int) (h1 : lo ≤ p) (h2 : hi ≤ p) : CallsOk lo p (calls ++ [(p, st)]) := by
  constructor
  · rw [List.map_append, List.pairwise_append]
    refine ⟨h.1, by simp, ?_⟩
    intro a ha b hb
    rw [List.mem_map] at ha
    obtain ⟨x, hx, rfl⟩ := ha
    simp only [List.map_cons, List.map_nil, List.mem_singleton] at hb
    rw [hb]
    exact Nat.le_trans (h.2 x hx).2 h2
  · intro x hx
    rw [List.mem_append, List.mem_singleton] at hx
    rcases hx with hx | hx
    · exact ⟨(h.2 x hx).1, Nat.le_trans (h.2 x hx).2 h2⟩
    · rw [hx]
      exact ⟨h1, Nat.le_refl _⟩

theorem SafeGetCharAt_of_le (doc : Document) (pos : Nat) (h : doc.Length ≤ pos) :
    doc.SafeGetCharAt pos = 0 := by
  unfold Document.SafeGetCharAt
  exact List.getD_eq_default _ _ h

theorem skipSpaces_isSome (k : MakeLexerH) (doc : Document) (h0 : k.IsASpace 0 = false) :
    ∀ fuel pos, 0 < fuel → doc.Length + 1 ≤ pos + fuel →
      ∃ r, ColouriseMakeDoc.skipSpaces k doc fuel pos = some r := by
  intro fuel
  induction fuel with
  | zero =>
    intro pos h
    exact absurd h (Nat.lt_irrefl 0)
  | succ fuel ih =>
    intro pos _ h
    unfold ColouriseMakeDoc.skipSpaces
    split
    · rename_i hsp
      have hlt : pos < doc.Length := by
        by_contra hc
        have : doc.SafeGetCharAt pos = 0 := SafeGetCharAt_of_le doc pos (by omega)
        rw [this, h0] at hsp
        cases hsp
      exact ih (pos + 1) (by omega) (by omega)
    · exact ⟨_, rfl⟩

theorem StateCaseOk_ite {s : MakeScan} {c : Prop} [Decidable c]
    {a b : Option (MakeScan × Bool)} (ha : c → ColouriseMakeDoc.StateCaseOk s a)
    (hb : ¬ c → ColouriseMakeDoc.StateCaseOk s b) :
    ColouriseMakeDoc.StateCaseOk s (if c then a else b) := by
  split
  · exact ha (by assumption)
  · exact hb (by assumption)

theorem ColouriseMakeDoc_stateCase_spec (k : MakeLexerH) (h : WordListH)
    (keywordLists : Nat → WordList) (doc : Document) (atLineStart : Bool) (chPrev : Nat)
    (s : MakeScan) (h0 : k.IsASpace 0 = false) (hi : s.i ≤ doc.Length) :
    ColouriseMakeDoc.StateCaseOk s
      (ColouriseMakeDoc.stateCase k h keywordLists doc atLineStart chPrev s) := by
  obtain ⟨pos, hpos⟩ := skipSpaces_isSome k doc h0 (doc.Length + 2 - s.i) s.i (by omega) (by omega)
  unfold ColouriseMakeDoc.stateCase
  simp only [hpos]
  repeat' (apply StateCaseOk_ite <;> intro _)
  all_goals refine ⟨_, _, rfl, rfl, rfl, rfl, ?_⟩
  all_goals simp
  all_goals split_ifs <;> simp

theorem IsEOLChar_cases {c : Nat} (h : IsEOLChar c = true) : c = 13 ∨ c = 10 := by
  unfold IsEOLChar at h
  simpa using h

theorem ColouriseMakeDoc_expansion_spec (k : MakeLexerH) (doc : Document) (endPos : Nat)
    (hE : ColouriseMakeDoc.RangeEnd k doc endPos) :
    ∀ fuel pos chNext, endPos ≤ pos + fuel → pos ≤ endPos →
      (pos < endPos ∨ endPos = doc.Length) →
      pos ≤ (ColouriseMakeDoc.expansion k doc endPos fuel pos (doc.SafeGetCharAt pos) chNext).1 ∧
      (ColouriseMakeDoc.expansion k doc endPos fuel pos (doc.SafeGetCharAt pos) chNext).1
        ≤ endPos ∧
      ((ColouriseMakeDoc.expansion k doc endPos fuel pos (doc.SafeGetCharAt pos) chNext).1
          < endPos ∨
        ((ColouriseMakeDoc.expansion k doc endPos fuel pos (doc.SafeGetCharAt pos) chNext).2.1
            ≠ 41 ∧
          (ColouriseMakeDoc.expansion k doc endPos fuel pos (doc.SafeGetCharAt pos) chNext).2.1
            ≠ 36 ∧
          (ColouriseMakeDoc.expansion k doc endPos fuel pos (doc.SafeGetCharAt pos) chNext).2.1
            ≠ 44)) := by
  intro fuel
  induction fuel with
  | zero =>
    intro pos chNext h1 h2 h3
    have hp : pos = endPos := by omega
    have hN : endPos = doc.Length := by omega
    have h0 : doc.SafeGetCharAt pos = 0 := SafeGetCharAt_of_le doc pos (by omega)
    simp only [ColouriseMakeDoc.expansion, h0]
    exact ⟨Nat.le_refl _, h2, Or.inr ⟨by decide, by decide, by decide⟩⟩
  | succ fuel ih =>
    intro pos chNext h1 h2 h3
    unfold ColouriseMakeDoc.expansion
    split
    · rename_i hc
      simp only []
      split
      · exact ⟨Nat.le_refl _, h2, Or.inl hc.1⟩
      · split
        · exact ⟨Nat.le_refl _, h2, Or.inl hc.1⟩
        · rename_i hns
          have hnext : pos + 1 < endPos ∨ endPos = doc.Length := by
            rcases hE with hE | ⟨hpos, _, hsp⟩
            · exact Or.inr hE
            · left
              by_contra hcon
              have : endPos - 1 = pos := by omega
              rw [this] at hsp
              exact hns (Or.inl hsp)
          have := ih (pos + 1) (doc.SafeGetCharAt (pos + 1)) (by omega) (by omega) hnext
          exact ⟨by omega, this.2.1, this.2.2⟩
    · rename_i hc
      have hc2 : ¬ pos < endPos ∨ doc.SafeGetCharAt pos = 41 := by
        by_contra hcon
        push_neg at hcon
        exact hc ⟨hcon.1, hcon.2⟩
      rcases hc2 with hc2 | hc2
      · have hp : pos = endPos := by omega
        have hN : endPos = doc.Length := by omega
        have h0 : doc.SafeGetCharAt pos = 0 := SafeGetCharAt_of_le doc pos (by omega)
        simp only [h0]
        exact ⟨Nat.le_refl _, h2, Or.inr ⟨by decide, by decide, by decide⟩⟩
      · rcases h3 with h3 | h3
        · exact ⟨Nat.le_refl _, h2, Or.inl h3⟩
        · by_cases hp : pos < endPos
          · exact ⟨Nat.le_refl _, h2, Or.inl hp⟩
          · have h0 : doc.SafeGetCharAt pos = 0 := SafeGetCharAt_of_le doc pos (by omega)
            rw [h0] at hc2
            cases hc2

theorem SafeGetCharAt_lt_of_ne_zero (doc : Document) (pos : Nat)
    (h : doc.SafeGetCharAt pos ≠ 0) : pos < doc.Length := by
  by_contra hc
  exact h (SafeGetCharAt_of_le doc pos (by omega))

theorem ColouriseMakeDoc_expansion_entry (k : MakeLexerH) (doc : Document) (endPos : Nat)
    (hE : ColouriseMakeDoc.RangeEnd k doc endPos) (h40 : k.IsASpace 40 = false)
    (i chNext : Nat) (hi : i < endPos) (hch : doc.SafeGetCharAt i = 36)
    (hcn : chNext = doc.SafeGetCharAt (i + 1))
    (hcase : chNext = 40 ∨ (chNext = 36 ∧ doc.SafeGetCharAt (i + 2) = 40)) :
    i + 2 ≤ (ColouriseMakeDoc.expansion k doc endPos
        (endPos - (if chNext = 36 then i + 1 + 1 else i + 1))
        (if chNext = 36 then i + 1 + 1 else i + 1) chNext chNext).1 ∧
      (ColouriseMakeDoc.expansion k doc endPos
        (endPos - (if chNext = 36 then i + 1 + 1 else i + 1))
        (if chNext = 36 then i + 1 + 1 else i + 1) chNext chNext).1 ≤ endPos ∧
      ((ColouriseMakeDoc.expansion k doc endPos
          (endPos - (if chNext = 36 then i + 1 + 1 else i + 1))
          (if chNext = 36 then i + 1 + 1 else i + 1) chNext chNext).1 < endPos ∨
        ((ColouriseMakeDoc.expansion k doc endPos
            (endPos - (if chNext = 36 then i + 1 + 1 else i + 1))
            (if chNext = 36 then i + 1 + 1 else i + 1) chNext chNext).2.1 ≠ 41 ∧
          (ColouriseMakeDoc.expansion k doc endPos
            (endPos - (if chNext = 36 then i + 1 + 1 else i + 1))
            (if chNext = 36 then i + 1 + 1 else i + 1) chNext chNext).2.1 ≠ 36 ∧
          (ColouriseMakeDoc.expansion k doc endPos
            (endPos - (if chNext = 36 then i + 1 + 1 else i + 1))
            (if chNext = 36 then i + 1 + 1 else i + 1) chNext chNext).2.1 ≠ 44)) := by
  rcases hcase with hA | ⟨hB, hB2⟩
  · -- the expansion starts with the bytes 36 40
    subst hA
    have h1N : i + 1 < doc.Length :=
      SafeGetCharAt_lt_of_ne_zero doc (i + 1) (by rw [← hcn]; decide)
    have hlt : i + 1 < endPos ∧ (i + 1 + 1 < endPos ∨ endPos = doc.Length) := by
      rcases hE with hE | ⟨hpos, heol, _⟩
      · exact ⟨by omega, Or.inr hE⟩
      · have hc := IsEOLChar_cases heol
        have h1 : endPos - 1 ≠ i := by
          intro hcon
          rw [hcon, hch] at hc
          omega
        have h2 : endPos - 1 ≠ i + 1 := by
          intro hcon
          rw [hcon, ← hcn] at hc
          omega
        exact ⟨by omega, Or.inl (by omega)⟩
    rw [if_neg (by decide)]
    obtain ⟨f, hf⟩ : ∃ f, endPos - (i + 1) = f + 1 := ⟨endPos - (i + 1) - 1, by omega⟩
    rw [hf]
    unfold ColouriseMakeDoc.expansion
    rw [if_pos ⟨hlt.1, by decide⟩]
    simp only []
    rw [if_neg (fun hc => absurd hc.1 (by decide)), if_neg (by simp [h40])]
    have := ColouriseMakeDoc_expansion_spec k doc endPos hE f (i + 1 + 1)
      (doc.SafeGetCharAt (i + 1 + 1)) (by omega) (by omega) hlt.2
    exact ⟨this.1, this.2.1, this.2.2⟩
  · -- the expansion starts with the bytes 36 36 40
    subst hB
    have h2N : i + 2 < doc.Length :=
      SafeGetCharAt_lt_of_ne_zero doc (i + 2) (by rw [hB2]; decide)
    have hlt : i + 2 < endPos ∧ (i + 2 + 1 < endPos ∨ endPos = doc.Length) := by
      rcases hE with hE | ⟨hpos, heol, _⟩
      · exact ⟨by omega, Or.inr hE⟩
      · have hc := IsEOLChar_cases heol
        have h1 : endPos - 1 ≠ i := by
          intro hcon
          rw [hcon, hch] at hc
          omega
        have h2 : endPos - 1 ≠ i + 1 := by
          intro hcon
          rw [hcon, ← hcn] at hc
          omega
        have h3 : endPos - 1 ≠ i + 2 := by
          intro hcon
          rw [hcon, hB2] at hc
          omega
        exact ⟨by omega, Or.inl (by omega)⟩
    rw [if_pos rfl]
    obtain ⟨f, hf⟩ : ∃ f, endPos - (i + 1 + 1) = f + 1 := ⟨endPos - (i + 1 + 1) - 1, by omega⟩
    rw [hf]
    unfold ColouriseMakeDoc.expansion
    rw [if_pos ⟨hlt.1, by decide⟩]
    simp only []
    split
    · exact ⟨Nat.le_refl _, by omega, Or.inl hlt.1⟩
    · split
      · exact ⟨Nat.le_refl _, by omega, Or.inl hlt.1⟩
      · have := ColouriseMakeDoc_expansion_spec k doc endPos hE f (i + 1 + 1 + 1)
          (doc.SafeGetCharAt (i + 1 + 1 + 1)) (by omega) (by omega) hlt.2
        exact ⟨by omega, this.2.1, this.2.2⟩

theorem CallsOk.snoc_le {lo hi hi1 : Nat} {calls : List (Nat × Int)} (h : CallsOk lo hi calls)
    (p : Nat) (st : Int) (h1 : lo ≤ p) (h2 : hi ≤ p) (h3 : p ≤ hi1) :
    CallsOk lo hi1 (calls ++ [(p, st)]) :=
  (h.snoc p st h1 h2).mono h3

theorem ColouriseMakeDoc_defaultCase_spec (k : MakeLexerH) (doc : Document)
    (startPos endPos : Nat) (atLineStart : Bool) (s : MakeScan)
    (hE : ColouriseMakeDoc.RangeEnd k doc endPos) (h40 : k.IsASpace 40 = false)
    (hi : s.i < endPos) (hlo : startPos ≤ s.i) (hch : s.ch = doc.SafeGetCharAt s.i)
    (hcn : s.chNext = doc.SafeGetCharAt (s.i + 1)) (hcalls : CallsOk startPos s.i s.calls) :
    s.i ≤ (ColouriseMakeDoc.defaultCase k doc endPos atLineStart s).i ∧
      (ColouriseMakeDoc.defaultCase k doc endPos atLineStart s).chNext =
        doc.SafeGetCharAt ((ColouriseMakeDoc.defaultCase k doc endPos atLineStart s).i + 1) ∧
      CallsOk startPos (min ((ColouriseMakeDoc.defaultCase k doc endPos atLineStart s).i + 1) endPos)
        (ColouriseMakeDoc.defaultCase k doc endPos atLineStart s).calls := by
  have hmin : s.i ≤ min (s.i + 1) endPos := by omega
  have hsame : s.i ≤ s.i ∧ s.chNext = doc.SafeGetCharAt (s.i + 1) ∧
      CallsOk startPos (min (s.i + 1) endPos) s.calls := ⟨Nat.le_refl _, hcn, hcalls.mono hmin⟩
  have hpush : ∀ st, s.i ≤ s.i ∧ s.chNext = doc.SafeGetCharAt (s.i + 1) ∧
      CallsOk startPos (min (s.i + 1) endPos) (s.calls ++ [(s.i, st)]) :=
    fun st => ⟨Nat.le_refl _, hcn, hcalls.snoc_le s.i st hlo (Nat.le_refl _) hmin⟩
  unfold ColouriseMakeDoc.defaultCase
  split
  · exact hsame
  split
  · exact hpush _
  split
  · rename_i hcase
    have hch36 : doc.SafeGetCharAt s.i = 36 := by
      rw [← hch]
      rcases hcase with hc | hc
      · exact hc.1
      · exact hc.1
    have hcase2 : s.chNext = 40 ∨ (s.chNext = 36 ∧ doc.SafeGetCharAt (s.i + 2) = 40) := by
      rcases hcase with hc | hc
      · exact Or.inl hc.2
      · exact Or.inr hc.2
    have hx := ColouriseMakeDoc_expansion_entry k doc endPos hE h40 s.i s.chNext hi hch36 hcn hcase2
    lift_lets
    intro pos0 r pos ch chNext calls0 s1
    have h1 : s.i + 2 ≤ pos := hx.1
    have h2 : pos ≤ endPos := hx.2.1
    have h3 : pos < endPos ∨ (ch ≠ 41 ∧ ch ≠ 36 ∧ ch ≠ 44) := hx.2.2
    have hc0 : CallsOk startPos s.i calls0 := hcalls.snoc s.i _ hlo (Nat.le_refl _)
    refine ⟨by show s.i ≤ pos; omega, rfl, ?_⟩
    show CallsOk startPos (min (pos + 1) endPos) s1.calls
    by_cases hc : ch = 41 ∨ ch = 36
    · have hlt : pos < endPos := by
        rcases h3 with h3 | h3
        · exact h3
        · rcases hc with hc | hc
          · exact absurd hc h3.1
          · exact absurd hc h3.2.1
      have : s1.calls = calls0 ++ [(pos + 1, k.SCE_MAKE .VARIABLE2)] := by
        simp only [s1, if_pos hc]
      rw [this]
      exact hc0.snoc_le (pos + 1) _ (by omega) (by omega) (by omega)
    · have hs1 : s1.calls = calls0 ++ [(s.i + 2, k.SCE_MAKE .OPERATOR), (pos, k.SCE_MAKE .FUNCTION)] ++
          (if ch = 44 then [(pos + 1, k.SCE_MAKE .OPERATOR)] else []) := by
        simp only [s1, if_neg hc]
      rw [hs1]
      have hc2 : CallsOk startPos pos
          (calls0 ++ [(s.i + 2, k.SCE_MAKE .OPERATOR), (pos, k.SCE_MAKE .FUNCTION)]) := by
        have : calls0 ++ [(s.i + 2, k.SCE_MAKE .OPERATOR), (pos, k.SCE_MAKE .FUNCTION)] =
            (calls0 ++ [(s.i + 2, k.SCE_MAKE .OPERATOR)]) ++ [(pos, k.SCE_MAKE .FUNCTION)] := by
          simp
        rw [this]
        exact (hc0.snoc (s.i + 2) _ (by omega) (by omega)).snoc pos _ (by omega) h1
      by_cases h44 : ch = 44
      · have hlt : pos < endPos := by
          rcases h3 with h3 | h3
          · exact h3
          · exact absurd h44 h3.2.2
        rw [if_pos h44]
        exact hc2.snoc_le (pos + 1) _ (by omega) (by omega) (by omega)
      · rw [if_neg h44, List.append_nil]
        exact hc2.mono (by omega)
  split
  · exact hpush _
  split
  · exact hpush _
  split
  · exact hpush _
  split
  · exact hpush _
  split
  · exact hpush _
  · exact hsame

theorem ColouriseMakeDoc_step_spec (k : MakeLexerH) (h : WordListH)
    (keywordLists : Nat → WordList) (doc : Document) (startPos endPos : Nat) (s : MakeScan)
    (h0 : k.IsASpace 0 = false) (h40 : k.IsASpace 40 = false)
    (hE : ColouriseMakeDoc.RangeEnd k doc endPos) (hle : endPos ≤ doc.Length)
    (hinv : ColouriseMakeDoc.Inv doc startPos endPos s) (hi : s.i < endPos) :
    ∃ s1, ColouriseMakeDoc.step k h keywordLists doc endPos s = some s1 ∧ s.i < s1.i ∧
      ColouriseMakeDoc.Inv doc startPos endPos s1 := by
  obtain ⟨hcn, hlo, hcalls⟩ := hinv
  rw [Nat.min_eq_left (Nat.le_of_lt hi)] at hcalls
  unfold ColouriseMakeDoc.step
  lift_lets
  intro chPrev s0 atEOL atLineStart
  have hsc := ColouriseMakeDoc_stateCase_spec k h keywordLists doc atLineStart chPrev s0 h0
    (show s.i ≤ doc.Length by omega)
  obtain ⟨s1, c, heq, hi1, hch1, hcn1, hc⟩ := hsc
  have hi1 : s1.i = s.i := hi1
  have hch1 : s1.ch = doc.SafeGetCharAt s.i := by rw [hch1]; exact hcn
  have hcn1 : s1.chNext = doc.SafeGetCharAt (s.i + 1) := hcn1
  rw [heq]
  rcases hc with ⟨rfl, hc⟩ | ⟨rfl, st, hc⟩
  · have hcalls1 : CallsOk startPos s.i s1.calls := by
      rcases hc with hc | ⟨st, hc⟩
      · rw [hc]
        exact hcalls
      · rw [hc]
        exact hcalls.snoc s.i st hlo (Nat.le_refl _)
    simp -zeta only []
    split
    · lift_lets
      intro s2 s3
      have h3 : s3.calls = s1.calls ∧ s.i + 1 ≤ s3.i ∧ s3.chNext = doc.SafeGetCharAt (s3.i + 1) := by
        by_cases hcr : s2.ch = 13 ∧ s2.chNext = 10
        · have hs3 : s3 = { s2 with
              i := s2.i + 1, ch := s2.chNext, chNext := doc.SafeGetCharAt (s2.i + 1 + 1) } :=
            if_pos hcr
          rw [hs3]
          refine ⟨rfl, ?_, rfl⟩
          show s.i + 1 ≤ s1.i + 1 + 1
          omega
        · have hs3 : s3 = s2 := if_neg hcr
          rw [hs3]
          refine ⟨rfl, ?_, rfl⟩
          show s.i + 1 ≤ s1.i + 1
          omega
      refine ⟨_, rfl, ?_, ?_, ?_, ?_⟩
      · show s.i < s3.i + 1
        omega
      · exact h3.2.2
      · show startPos ≤ s3.i + 1
        omega
      · show CallsOk startPos (min (s3.i + 1) endPos) s3.calls
        rw [h3.1]
        exact hcalls1.mono (by omega)
    · have hd := ColouriseMakeDoc_defaultCase_spec k doc startPos endPos atLineStart s1 hE h40
        (by omega) (by omega) (by rw [hch1, hi1]) (by rw [hcn1, hi1]) (by rw [hi1]; exact hcalls1)
      lift_lets
      intro s2 s3 s4
      have h3 : s3.i = s2.i ∧ s3.chNext = s2.chNext ∧ s3.calls = s2.calls := by
        by_cases hc3 : atEOL = true ∨ s2.i + 1 = endPos
        · have hs3 : s3 = { s2 with lineCurrent := s2.lineCurrent + 1, visibleChars := 0 } :=
            if_pos hc3
          rw [hs3]
          exact ⟨rfl, rfl, rfl⟩
        · have hs3 : s3 = s2 := if_neg hc3
          rw [hs3]
          exact ⟨rfl, rfl, rfl⟩
      have h4 : s4.i = s2.i ∧ s4.chNext = s2.chNext ∧ s4.calls = s2.calls := by
        by_cases hc4 : ¬ k.isspacechar s3.ch = true ∧ ¬ (s3.visibleChars = 0 ∧ s3.ch = 45)
        · have hs4 : s4 = { s3 with visibleChars := s3.visibleChars + 1 } := if_pos hc4
          rw [hs4]
          exact h3
        · have hs4 : s4 = s3 := if_neg hc4
          rw [hs4]
          exact h3
      have e1 : s4.i = (ColouriseMakeDoc.defaultCase k doc endPos atLineStart s1).i := h4.1
      have e2 : s4.chNext = (ColouriseMakeDoc.defaultCase k doc endPos atLineStart s1).chNext :=
        h4.2.1
      have e3 : s4.calls = (ColouriseMakeDoc.defaultCase k doc endPos atLineStart s1).calls :=
        h4.2.2
      have hd1 := hd.1
      refine ⟨_, rfl, ?_, ?_, ?_, ?_⟩
      · show s.i < s4.i + 1
        omega
      · show s4.chNext = doc.SafeGetCharAt (s4.i + 1)
        rw [e1, e2]
        exact hd.2.1
      · show startPos ≤ s4.i + 1
        omega
      · show CallsOk startPos (min (s4.i + 1) endPos) s4.calls
        rw [e1, e3]
        exact hd.2.2
  · simp -zeta only []
    refine ⟨_, rfl, ?_, ?_, ?_, ?_⟩
    · show s.i < s1.i + 1
      omega
    · show s1.chNext = doc.SafeGetCharAt (s1.i + 1)
      rw [hcn1, hi1]
    · show startPos ≤ s1.i + 1
      omega
    · show CallsOk startPos (min (s1.i + 1) endPos) s1.calls
      rw [hc, hi1]
      exact hcalls.snoc_le (s.i + 1) st (by omega) (by omega) (by omega)

theorem ColouriseMakeDoc_loop_spec (k : MakeLexerH) (h : WordListH)
    (keywordLists : Nat → WordList) (doc : Document) (startPos endPos : Nat)
    (h0 : k.IsASpace 0 = false) (h40 : k.IsASpace 40 = false)
    (hE : ColouriseMakeDoc.RangeEnd k doc endPos) (hle : endPos ≤ doc.Length) :
    ∀ fuel s, endPos ≤ s.i + fuel → ColouriseMakeDoc.Inv doc startPos endPos s →
      ∃ s1, ColouriseMakeDoc.loop k h keywordLists doc endPos fuel s = some s1 ∧
        endPos ≤ s1.i ∧ ColouriseMakeDoc.Inv doc startPos endPos s1 := by
  intro fuel
  induction fuel with
  | zero =>
    intro s hf hinv
    unfold ColouriseMakeDoc.loop
    rw [if_neg (by omega)]
    exact ⟨s, rfl, by omega, hinv⟩
  | succ fuel ih =>
    intro s hf hinv
    unfold ColouriseMakeDoc.loop
    split
    · rename_i hi
      obtain ⟨s1, hs1, hlt, hinv1⟩ :=
        ColouriseMakeDoc_step_spec k h keywordLists doc startPos endPos s h0 h40 hE hle hinv hi
      rw [hs1]
      exact ih s1 (by omega) hinv1
    · exact ⟨s, rfl, by omega, hinv⟩

theorem run_styleAt_of_sorted : ∀ (calls : List (Nat × Int)) (st : StyleStore),
    (calls.map Prod.fst).Pairwise (fun a b => a ≤ b) → (∀ x ∈ calls, st.startSeg ≤ x.1) →
    ∀ p, (p < st.startSeg → (st.run calls).styleAt p = st.styleAt p) ∧
      (st.startSeg ≤ p → (st.run calls).styleAt p =
        ((calls.find? (fun x => decide (p < x.1))).map (fun x => some x.2)).getD
          (st.styleAt p)) := by
  intro calls
  induction calls with
  | nil =>
    intro st _ _ p
    exact ⟨fun _ => rfl, fun _ => rfl⟩
  | cons c cs ih =>
    intro st hmono hlo p
    rw [List.map_cons, List.pairwise_cons] at hmono
    have hc : st.startSeg ≤ c.1 := hlo c (List.mem_cons_self _ _)
    have hst : st.ColorTo c.1 c.2 =
        { startSeg := c.1
          styleAt := fun q => if st.startSeg ≤ q ∧ q < c.1 then some c.2 else st.styleAt q } := by
      unfold StyleStore.ColorTo
      rw [if_neg (by omega)]
    have hlo1 : ∀ x ∈ cs, (st.ColorTo c.1 c.2).startSeg ≤ x.1 := by
      intro x hx
      rw [hst]
      exact hmono.1 x.1 (List.mem_map_of_mem _ hx)
    have h := ih (st.ColorTo c.1 c.2) hmono.2 hlo1 p
    rw [run_cons]
    constructor
    · intro hp
      rw [h.1 (by rw [hst]; show p < c.1; omega), hst]
      show (if st.startSeg ≤ p ∧ p < c.1 then some c.2 else st.styleAt p) = st.styleAt p
      rw [if_neg (by omega)]
    · intro hp
      by_cases hpc : p < c.1
      · rw [h.1 (by rw [hst]; exact hpc), hst, List.find?_cons_of_pos _ (by simpa using hpc)]
        show (if st.startSeg ≤ p ∧ p < c.1 then some c.2 else st.styleAt p) = some c.2
        rw [if_pos ⟨hp, hpc⟩]
      · rw [h.2 (by rw [hst]; show c.1 ≤ p; omega), List.find?_cons_of_neg _ (by simpa using hpc)]
        congr 1
        rw [hst]
        show (if st.startSeg ≤ p ∧ p < c.1 then some c.2 else st.styleAt p) = st.styleAt p
        rw [if_neg (fun hh => hpc hh.2)]

/-! ## The rounds of the loop of `ColouriseRustDoc` -/

@[simp] theorem endPos_GetNextChar (sc : StyleContext) : sc.GetNextChar.endPos = sc.endPos := rfl

@[simp] theorem currentPos_GetNextChar (sc : StyleContext) :
    sc.GetNextChar.currentPos = sc.currentPos := rfl

@[simp] theorem state_GetNextChar (sc : StyleContext) : sc.GetNextChar.state = sc.state := rfl

@[simp] theorem endPos_Forward (sc : StyleContext) : sc.Forward.endPos = sc.endPos := by
  unfold StyleContext.Forward
  split <;> rfl

@[simp] theorem state_Forward (sc : StyleContext) : sc.Forward.state = sc.state := by
  unfold StyleContext.Forward
  split <;> rfl

@[simp] theorem rem_Forward (sc : StyleContext) : sc.Forward.rem = sc.rem - 1 := by
  unfold StyleContext.Forward StyleContext.rem
  split
  · show sc.endPos - (sc.currentPos + 1) = sc.endPos - sc.currentPos - 1
    omega
  · show sc.endPos - sc.currentPos = sc.endPos - sc.currentPos - 1
    omega

@[simp] theorem endPos_Advance (sc : StyleContext) (n : Nat) :
    (sc.Advance n).endPos = sc.endPos := by
  induction n generalizing sc with
  | zero => rfl
  | succ n ih =>
    unfold StyleContext.Advance
    rw [ih, endPos_Forward]

@[simp] theorem state_Advance (sc : StyleContext) (n : Nat) :
    (sc.Advance n).state = sc.state := by
  induction n generalizing sc with
  | zero => rfl
  | succ n ih =>
    unfold StyleContext.Advance
    rw [ih, state_Forward]

@[simp] theorem rem_Advance (sc : StyleContext) (n : Nat) : (sc.Advance n).rem = sc.rem - n := by
  induction n generalizing sc with
  | zero => rfl
  | succ n ih =>
    unfold StyleContext.Advance
    rw [ih, rem_Forward]
    omega

@[simp] theorem endPos_SetState (sc : StyleContext) (x : Int) :
    (sc.SetState x).endPos = sc.endPos := rfl

@[simp] theorem rem_SetState (sc : StyleContext) (x : Int) : (sc.SetState x).rem = sc.rem := rfl

@[simp] theorem endPos_ChangeState (sc : StyleContext) (x : Int) :
    (sc.ChangeState x).endPos = sc.endPos := rfl

@[simp] theorem state_ChangeState (sc : StyleContext) (x : Int) :
    (sc.ChangeState x).state = x := rfl

@[simp] theorem rem_ChangeState (sc : StyleContext) (x : Int) :
    (sc.ChangeState x).rem = sc.rem := rfl

@[simp] theorem endPos_ForwardSetState (sc : StyleContext) (x : Int) :
    (sc.ForwardSetState x).endPos = sc.endPos := by
  unfold StyleContext.ForwardSetState
  simp

@[simp] theorem state_ForwardSetState (sc : StyleContext) (x : Int) :
    (sc.ForwardSetState x).state = x := rfl

@[simp] theorem rem_ForwardSetState (sc : StyleContext) (x : Int) :
    (sc.ForwardSetState x).rem = sc.rem - 1 := by
  unfold StyleContext.ForwardSetState
  simp

@[simp] theorem endPos_Rewind (sc : StyleContext) : sc.Rewind.endPos = sc.endPos := rfl

@[simp] theorem rem_Rewind (sc : StyleContext) :
    sc.Rewind.rem = sc.endPos - (sc.currentPos - 1) := rfl

@[simp] theorem endPos_SetLineState (sc : StyleContext) (l v : Nat) :
    (sc.SetLineState l v).endPos = sc.endPos := rfl

@[simp] theorem state_SetLineState (sc : StyleContext) (l v : Nat) :
    (sc.SetLineState l v).state = sc.state := rfl

@[simp] theorem rem_SetLineState (sc : StyleContext) (l v : Nat) :
    (sc.SetLineState l v).rem = sc.rem := rfl

theorem SameCursor_ite {s : RustScan} {c : Prop} [Decidable c] {a b : RustScan}
    (ha : c → ColouriseRustDoc.SameCursor s a) (hb : ¬ c → ColouriseRustDoc.SameCursor s b) :
    ColouriseRustDoc.SameCursor s (if c then a else b) := by
  split
  · exact ha (by assumption)
  · exact hb (by assumption)

theorem classify_fields (k : RustLexerH) (h : WordListH) (keywordLists : Nat → WordList)
    (s : RustScan) :
    ColouriseRustDoc.SameCursor s (ColouriseRustDoc.classify k h keywordLists s) := by
  unfold ColouriseRustDoc.classify
  lift_lets
  intros
  repeat' (apply SameCursor_ite <;> intro _)
  all_goals exact ⟨rfl, rfl, rfl, rfl⟩

theorem RoundOk_ite {k : RustLexerH} {s : RustScan} {c : Prop} [Decidable c]
    {a b : RustScan × Bool} (ha : c → ColouriseRustDoc.RoundOk k s a)
    (hb : ¬ c → ColouriseRustDoc.RoundOk k s b) :
    ColouriseRustDoc.RoundOk k s (if c then a else b) := by
  split
  · exact ha (by assumption)
  · exact hb (by assumption)

theorem RoundOk_same {k : RustLexerH} {s : RustScan} (hs : ColouriseRustDoc.OuterOk k s) :
    ColouriseRustDoc.RoundOk k s (s, false) :=
  ⟨rfl, Nat.le_refl _, hs, fun h => by cases h⟩

theorem ColouriseRustDoc_stateCase_ok (k : RustLexerH) (hk : k.Distinct)
    (htm : k.TaskMarkerMoves) (h : WordListH) (keywordLists : Nat → WordList) (s : RustScan)
    (hs : ColouriseRustDoc.OuterOk k s) :
    ColouriseRustDoc.RoundOk k s (ColouriseRustDoc.stateCase k h keywordLists s) := by
  have ht := htm s.sc s.visibleChars s.visibleCharsBefore (k.SCE_RUST .TASKMARKER)
  unfold ColouriseRustDoc.stateCase
  lift_lets
  intro sc s2 s1 rt scF state e scE src scR e2 ra scA
  have hrt1 : rt.1.endPos = s.sc.endPos := ht.1
  have hrt2 : rt.1.rem ≤ s.sc.rem := by
    have h2 := ht.2.1
    show rt.1.endPos - rt.1.currentPos ≤ s.sc.endPos - s.sc.currentPos
    rw [hrt1]
    exact Nat.sub_le_sub_left h2 _
  have hrt3 : rt.2.2 = true → rt.1.rem < s.sc.rem ∨ s.sc.rem = 0 := by
    intro hb
    by_cases hlt : s.sc.currentPos < s.sc.endPos
    · left
      have h3 : s.sc.currentPos < rt.1.currentPos := ht.2.2 hb hlt
      show rt.1.endPos - rt.1.currentPos < s.sc.endPos - s.sc.currentPos
      rw [hrt1]
      omega
    · right
      show s.sc.endPos - s.sc.currentPos = 0
      omega
  have hs2 : s2.sc.endPos = s.sc.endPos ∧ s2.sc.rem ≤ s.sc.rem ∧ s2.escSeq = s.escSeq := by
    by_cases h1 : s.lineStateAttribute ≠ 0
    · have e1 : s2 = { s with sc := sc.ChangeState (k.SCE_RUST .ATTRIBUTE) } := if_pos h1
      rw [e1]
      exact ⟨rfl, Nat.le_refl _, rfl⟩
    · by_cases h2 : sc.ch = 33
      · have e1 : s2 = { s with sc := (sc.ChangeState (k.SCE_RUST .MACRO)).Forward } :=
          (if_neg h1).trans (if_pos h2)
        rw [e1]
        refine ⟨by simp [sc], ?_, rfl⟩
        show (s.sc.ChangeState (k.SCE_RUST .MACRO)).Forward.rem ≤ s.sc.rem
        rw [rem_Forward, rem_ChangeState]
        exact Nat.sub_le _ _
      · have e1 : s2 = ColouriseRustDoc.classify k h keywordLists s :=
          (if_neg h1).trans (if_neg h2)
        rw [e1]
        have hc := classify_fields k h keywordLists s
        exact ⟨hc.1, Nat.le_of_eq hc.2.1, hc.2.2.2⟩
  have hs1 : s1.sc.endPos = s.sc.endPos ∧ s1.sc.rem ≤ s.sc.rem ∧ s1.escSeq = s.escSeq := by
    by_cases h1 : sc.state = k.SCE_RUST .IDENTIFIER
    · by_cases h2 : s2.sc.state ≠ k.SCE_RUST .WORD ∧ s2.sc.ch ≠ 46
      · have e1 : s1 = { s2 with kwType := k.SCE_RUST .DEFAULT } := (if_pos h1).trans (if_pos h2)
        rw [e1]
        exact hs2
      · have e1 : s1 = s2 := (if_pos h1).trans (if_neg h2)
        rw [e1]
        exact hs2
    · have e1 : s1 = s := if_neg h1
      rw [e1]
      exact ⟨rfl, Nat.le_refl _, rfl⟩
  have hscR : scR.endPos = s.sc.endPos ∧ scR.rem - 1 ≤ s.sc.rem := by
    by_cases h1 : sc.ch ≠ 125
    · have e1 : scR = sc.Rewind.ChangeState s.escSeq.outerState := if_pos h1
      rw [e1]
      refine ⟨rfl, ?_⟩
      show s.sc.endPos - (s.sc.currentPos - 1) - 1 ≤ s.sc.endPos - s.sc.currentPos
      omega
    · have e1 : scR = sc := if_neg h1
      rw [e1]
      exact ⟨rfl, Nat.sub_le _ _⟩
  have hscA : scA.endPos = s.sc.endPos ∧ scA.rem ≤ s.sc.rem := by
    by_cases h1 : ra.1.brace = true ∧ sc.ch = 125
    · have e1 : scA = sc.Forward := if_pos h1
      rw [e1]
      refine ⟨by simp [sc], ?_⟩
      show s.sc.Forward.rem ≤ s.sc.rem
      rw [rem_Forward]
      exact Nat.sub_le _ _
    · have e1 : scA = sc := if_neg h1
      rw [e1]
      exact ⟨rfl, Nat.le_refl _⟩
  refine RoundOk_ite (fun _ => ?_) (fun _ => ?_)
  · refine ⟨?_, ?_, ⟨hs.1, hs.2⟩, ?_⟩ <;> simp [sc]
  refine RoundOk_ite (fun _ => ?_) (fun _ => ?_)
  · refine RoundOk_ite (fun _ => ?_) (fun _ => ?_)
    · refine ⟨?_, ?_, ⟨hs.1, hs.2⟩, ?_⟩ <;> simp [sc]
    · exact RoundOk_same hs
  refine RoundOk_ite (fun _ => ?_) (fun _ => ?_)
  · refine RoundOk_ite (fun _ => ?_) (fun _ => ?_)
    · refine ⟨?_, ?_, ?_, by simp⟩
      · show (s1.sc.SetState (k.SCE_RUST .DEFAULT)).endPos = s.sc.endPos
        exact hs1.1
      · show (s1.sc.SetState (k.SCE_RUST .DEFAULT)).rem ≤ s.sc.rem
        exact hs1.2.1
      · show s1.escSeq.outerState ≠ _ ∧ s1.escSeq.outerState ≠ _
        rw [hs1.2.2]
        exact hs
    · exact RoundOk_same hs
  refine RoundOk_ite (fun _ => ?_) (fun _ => ?_)
  · refine RoundOk_ite (fun _ => ?_) (fun _ => ?_)
    · refine ⟨?_, ?_, ⟨hs.1, hs.2⟩, ?_⟩ <;> simp [sc]
    · exact ⟨hrt1, hrt2, ⟨hs.1, hs.2⟩, by simp⟩
  refine RoundOk_ite (fun _ => ?_) (fun _ => ?_)
  · refine RoundOk_ite (fun _ => ?_) (fun _ => ?_)
    · refine RoundOk_ite (fun _ => ?_) (fun _ => ?_)
      · refine ⟨?_, ?_, ⟨hs.1, hs.2⟩, ?_⟩ <;> solve | simp [sc, scF] | (simp [sc, scF]; omega)
      · refine ⟨?_, ?_, ⟨hs.1, hs.2⟩, ?_⟩ <;> simp [sc, scF]
    · refine RoundOk_ite (fun _ => ?_) (fun _ => ?_)
      · refine ⟨?_, ?_, ⟨hs.1, hs.2⟩, ?_⟩ <;> simp [sc, scF]
      · exact ⟨hrt1, hrt2, ⟨hs.1, hs.2⟩,
          fun hb => (hrt3 hb).elim Or.inl (fun h0 => Or.inr (Or.inl h0))⟩
  refine RoundOk_ite (fun hstr => ?_) (fun _ => ?_)
  · have hO : sc.state ≠ k.SCE_RUST .ESCAPECHAR ∧ sc.state ≠ k.SCE_RUST .PLACEHOLDER := by
      rcases hstr with h1 | h1 | h1 | h1 <;> rw [h1] <;>
        exact ⟨fun hc => (by cases hk _ _ hc), fun hc => (by cases hk _ _ hc)⟩
    repeat' (refine RoundOk_ite (fun _ => ?_) (fun _ => ?_))
    all_goals first
    | exact RoundOk_same hs
    | (refine ⟨?_, ?_, ⟨hs.1, hs.2⟩, ?_⟩ <;>
        solve | simp [sc, scF, scE] | (simp [sc, scF, scE]; omega))
    | (refine ⟨?_, ?_, ⟨hO.1, hO.2⟩, ?_⟩ <;>
        solve | simp [sc, scF, scE] | (simp [sc, scF, scE]; omega))
  refine RoundOk_ite (fun hph => ?_) (fun _ => ?_)
  · refine RoundOk_ite (fun _ => ?_) (fun _ => ?_)
    · refine RoundOk_ite (fun _ => ?_) (fun _ => ?_)
      · refine ⟨?_, ?_, ⟨hs.1, hs.2⟩, fun _ => Or.inr (Or.inr ⟨Or.inr hph, ?_⟩)⟩
        · simp [sc]
        · simp [sc]
          omega
        · intro hp
          rcases hp with hp | hp
          · exact hs.1 hp
          · exact hs.2 hp
      · refine ⟨?_, ?_, ⟨hs.1, hs.2⟩, fun _ => Or.inr (Or.inr ⟨Or.inr hph, ?_⟩)⟩
        · show (scR.ForwardSetState s.escSeq.outerState).endPos = s.sc.endPos
          rw [endPos_ForwardSetState]
          exact hscR.1
        · show (scR.ForwardSetState s.escSeq.outerState).rem ≤ s.sc.rem
          rw [rem_ForwardSetState]
          exact hscR.2
        · intro hp
          rcases hp with hp | hp
          · exact hs.1 hp
          · exact hs.2 hp
    · exact RoundOk_same hs
  refine RoundOk_ite (fun hchr => ?_) (fun _ => ?_)
  · have hO : sc.state ≠ k.SCE_RUST .ESCAPECHAR ∧ sc.state ≠ k.SCE_RUST .PLACEHOLDER := by
      rcases hchr with h1 | h1 <;> rw [h1] <;>
        exact ⟨fun hc => (by cases hk _ _ hc), fun hc => (by cases hk _ _ hc)⟩
    repeat' (refine RoundOk_ite (fun _ => ?_) (fun _ => ?_))
    all_goals first
    | exact RoundOk_same hs
    | (refine ⟨?_, ?_, ⟨hs.1, hs.2⟩, ?_⟩ <;>
        solve | simp [sc, scF, scE])
    | (refine ⟨?_, ?_, ⟨hO.1, hO.2⟩, ?_⟩ <;>
        solve | simp [sc, scF, scE] | (simp [sc, scF, scE]; omega))
  refine RoundOk_ite (fun hesc => ?_) (fun _ => ?_)
  · refine RoundOk_ite (fun _ => ?_) (fun _ => ?_)
    · refine ⟨?_, ?_, ⟨hs.1, hs.2⟩, fun _ => Or.inr (Or.inr ⟨Or.inl hesc, ?_⟩)⟩
      · show (scA.SetState ra.1.outerState).endPos = s.sc.endPos
        exact hscA.1
      · show (scA.SetState ra.1.outerState).rem ≤ s.sc.rem
        exact hscA.2
      · intro hp
        rcases hp with hp | hp
        · exact hs.1 hp
        · exact hs.2 hp
    · exact ⟨rfl, Nat.le_refl _, ⟨hs.1, hs.2⟩, by simp⟩
  · exact RoundOk_same hs

theorem ColouriseRustDoc_defaultCase_ok (k : RustLexerH) (s : RustScan)
    (hs : ColouriseRustDoc.OuterOk k s) :
    ColouriseRustDoc.RoundOk k s (ColouriseRustDoc.defaultCase k s) := by
  unfold ColouriseRustDoc.defaultCase
  lift_lets
  intro sc chNext scC sc2 scAt r scId scOp
  have hsc2 : sc2.endPos = s.sc.endPos ∧ sc2.rem = s.sc.rem - 2 := by
    by_cases h1 : scC.ch = 33 ∨ scC.ch = chNext ∧ scC.chNext ≠ chNext
    · have e1 : sc2 = scC.ChangeState (if chNext = 47 then k.SCE_RUST .COMMENTLINEDOC
          else k.SCE_RUST .COMMENTBLOCKDOC) := if_pos h1
      rw [e1]
      constructor <;> simp [scC, sc]
    · have e1 : sc2 = scC := if_neg h1
      rw [e1]
      constructor <;> simp [scC, sc]
  have hcont : sc2.rem < s.sc.rem ∨ s.sc.rem = 0 := by
    rw [hsc2.2]
    omega
  have hle : sc2.rem ≤ s.sc.rem := by
    rw [hsc2.2]
    omega
  refine RoundOk_ite (fun _ => ?_) (fun _ => ?_)
  · refine RoundOk_ite (fun _ => ?_) (fun _ => ?_)
    · refine RoundOk_ite (fun _ => ?_) (fun _ => ?_)
      · exact ⟨hsc2.1, hle, ⟨hs.1, hs.2⟩, fun _ => hcont.elim Or.inl (fun h0 => Or.inr (Or.inl h0))⟩
      · exact ⟨hsc2.1, hle, ⟨hs.1, hs.2⟩, fun _ => hcont.elim Or.inl (fun h0 => Or.inr (Or.inl h0))⟩
    repeat' (refine RoundOk_ite (fun _ => ?_) (fun _ => ?_))
    all_goals first
    | exact RoundOk_same hs
    | (refine ⟨?_, ?_, ⟨hs.1, hs.2⟩, ?_⟩ <;>
        solve
        | simp [sc, scAt, scId, scOp]
        | (simp [sc, scAt, scId, scOp]; omega)
        | (simp only []; split <;> simp [sc, scAt, scId, scOp]))
  · exact RoundOk_same hs

theorem lineEnd_escSeq (k : RustLexerH) (s : RustScan) :
    (ColouriseRustDoc.lineEnd k s).escSeq = s.escSeq := by
  cases hsp : k.isspacechar s.sc.ch <;> cases hat : s.sc.atLineEnd <;>
    simp [ColouriseRustDoc.lineEnd, hsp, hat]

theorem lineEnd_rem (k : RustLexerH) (s : RustScan) :
    (ColouriseRustDoc.lineEnd k s).sc.endPos = s.sc.endPos ∧
      (ColouriseRustDoc.lineEnd k s).sc.rem = s.sc.rem - 1 := by
  rw [lineEnd_sc]
  split <;> simp

theorem Pending_ne_default {k : RustLexerH} (hk : k.Distinct) {s : RustScan}
    (hp : ColouriseRustDoc.Pending k s) : s.sc.state ≠ k.SCE_RUST .DEFAULT := by
  rcases hp with hp | hp <;> rw [hp] <;> exact fun hc => (by cases hk _ _ hc)

/-- One round of the loop of `ColouriseRustDoc`: the end of the range stays,
the number of bytes left does not grow, the outer state stays outside the two
pending states, and inside the range the cursor moves forward, or it stays and
the round leaves a pending state. -/
theorem ColouriseRustDoc_step_ok (k : RustLexerH) (hk : k.Distinct) (htm : k.TaskMarkerMoves)
    (h : WordListH) (keywordLists : Nat → WordList) (s : RustScan)
    (hs : ColouriseRustDoc.OuterOk k s) :
    (ColouriseRustDoc.step k h keywordLists s).sc.endPos = s.sc.endPos ∧
      (ColouriseRustDoc.step k h keywordLists s).sc.rem ≤ s.sc.rem ∧
      ColouriseRustDoc.OuterOk k (ColouriseRustDoc.step k h keywordLists s) ∧
      (0 < s.sc.rem →
        (ColouriseRustDoc.step k h keywordLists s).sc.rem < s.sc.rem ∨
          (ColouriseRustDoc.Pending k s ∧
            ¬ ColouriseRustDoc.Pending k (ColouriseRustDoc.step k h keywordLists s))) := by
  have h1 := ColouriseRustDoc_stateCase_ok k hk htm h keywordLists s hs
  have h2 := ColouriseRustDoc_defaultCase_ok k (ColouriseRustDoc.stateCase k h keywordLists s).1
    h1.2.2.1
  unfold ColouriseRustDoc.step
  lift_lets
  intro r r1
  obtain ⟨a1, a2, a3, a4⟩ := h1
  obtain ⟨b1, b2, b3, b4⟩ := h2
  have a2 : r.1.sc.rem ≤ s.sc.rem := a2
  have b2 : r1.1.sc.rem ≤ r.1.sc.rem := b2
  by_cases hc : r.2 = true
  · rw [if_pos hc]
    refine ⟨a1, a2, a3, fun hmore => ?_⟩
    rcases a4 hc with h4 | h4 | h4
    · exact Or.inl h4
    · omega
    · exact Or.inr h4
  · rw [if_neg hc]
    by_cases hc1 : r1.2 = true
    · rw [if_pos hc1]
      refine ⟨b1.trans a1, Nat.le_trans b2 a2, b3, fun hmore => Or.inl ?_⟩
      rcases b4 hc1 with h4 | h4 | h4
      · exact Nat.lt_of_lt_of_le h4 a2
      · have h4 : r.1.sc.rem = 0 := h4
        omega
      · have hne := Pending_ne_default hk h4.1
        have hd := defaultCase_of_ne k r.1 hne
        have : r1.2 = false := by
          show (ColouriseRustDoc.defaultCase k r.1).2 = false
          rw [hd]
        rw [this] at hc1
        cases hc1
    · rw [if_neg hc1]
      have hl := lineEnd_rem k r1.1
      refine ⟨hl.1.trans (b1.trans a1), ?_, ?_, fun hmore => Or.inl ?_⟩
      · rw [hl.2]
        omega
      · show (ColouriseRustDoc.lineEnd k r1.1).escSeq.outerState ≠ _ ∧
          (ColouriseRustDoc.lineEnd k r1.1).escSeq.outerState ≠ _
        rw [lineEnd_escSeq]
        exact b3
      · rw [hl.2]
        omega

theorem ColouriseRustDoc_roundsLeft_step (k : RustLexerH) (hk : k.Distinct)
    (htm : k.TaskMarkerMoves) (h : WordListH) (keywordLists : Nat → WordList) (s : RustScan)
    (hs : ColouriseRustDoc.OuterOk k s) (hmore : 0 < s.sc.rem) :
    ColouriseRustDoc.roundsLeft k (ColouriseRustDoc.step k h keywordLists s) <
      ColouriseRustDoc.roundsLeft k s := by
  obtain ⟨_, h2, _, h4⟩ := ColouriseRustDoc_step_ok k hk htm h keywordLists s hs
  unfold ColouriseRustDoc.roundsLeft
  rcases h4 hmore with h4 | ⟨h4, h5⟩
  · split <;> split <;> omega
  · rw [if_pos h4, if_neg h5]
    omega

theorem More_iff_rem (sc : StyleContext) : sc.More = true ↔ 0 < sc.rem := by
  unfold StyleContext.More StyleContext.rem
  simp

theorem ColouriseRustDoc_loop_total (k : RustLexerH) (hk : k.Distinct)
    (htm : k.TaskMarkerMoves) (h : WordListH) (keywordLists : Nat → WordList) :
    ∀ fuel s, ColouriseRustDoc.OuterOk k s → ColouriseRustDoc.roundsLeft k s ≤ fuel →
      ∃ s1, ColouriseRustDoc.loop k h keywordLists fuel s = some s1 := by
  intro fuel
  induction fuel with
  | zero =>
    intro s _ hf
    have h0 : s.sc.rem = 0 := by
      unfold ColouriseRustDoc.roundsLeft at hf
      omega
    have hm : ¬ s.sc.More = true := by
      rw [More_iff_rem]
      omega
    unfold ColouriseRustDoc.loop
    rw [if_neg hm]
    exact ⟨s, rfl⟩
  | succ fuel ih =>
    intro s hs hf
    unfold ColouriseRustDoc.loop
    split
    · rename_i hm
      rw [More_iff_rem] at hm
      have hlt := ColouriseRustDoc_roundsLeft_step k hk htm h keywordLists s hs hm
      exact ih _ (ColouriseRustDoc_step_ok k hk htm h keywordLists s hs).2.2.1 (by omega)
    · exact ⟨s, rfl⟩

theorem ColouriseRustDoc_start_ok (k : RustLexerH) (hk : k.Distinct) (doc : Document)
    (styler : StyleStore) (lineStates : Nat → Nat) (startPos lengthDoc : Nat) (initStyle : Int) :
    ColouriseRustDoc.OuterOk k
        (ColouriseRustDoc.start k doc styler lineStates startPos lengthDoc initStyle) ∧
      (ColouriseRustDoc.start k doc styler lineStates startPos lengthDoc initStyle).sc.rem ≤
        lengthDoc + 1 := by
  have hO : k.SCE_RUST .DEFAULT ≠ k.SCE_RUST .ESCAPECHAR ∧
      k.SCE_RUST .DEFAULT ≠ k.SCE_RUST .PLACEHOLDER :=
    ⟨fun hc => (by cases hk _ _ hc), fun hc => (by cases hk _ _ hc)⟩
  have hrem : (StyleContext.init doc styler lineStates startPos lengthDoc initStyle).rem ≤
      lengthDoc + 1 := by
    show (if startPos + lengthDoc = doc.Length then startPos + lengthDoc + 1
      else startPos + lengthDoc) - startPos ≤ lengthDoc + 1
    split <;> omega
  unfold ColouriseRustDoc.start
  lift_lets
  intro sc s
  split
  · exact ⟨hO, hrem⟩
  · split
    · refine ⟨hO, ?_⟩
      show (sc.SetState (k.SCE_RUST .COMMENTLINE)).Forward.rem ≤ lengthDoc + 1
      rw [rem_Forward, rem_SetState]
      exact Nat.le_trans (Nat.sub_le _ _) hrem
    · exact ⟨hO, hrem⟩

theorem ColouriseRustDoc_iterate_ok (k : RustLexerH) (hk : k.Distinct)
    (htm : k.TaskMarkerMoves) (h : WordListH) (keywordLists : Nat → WordList) (s : RustScan)
    (hs : ColouriseRustDoc.OuterOk k s) (j : Nat) :
    ColouriseRustDoc.OuterOk k ((ColouriseRustDoc.step k h keywordLists)^[j] s) := by
  induction j with
  | zero => exact hs
  | succ j ih =>
    rw [Function.iterate_succ_apply']
    exact (ColouriseRustDoc_step_ok k hk htm h keywordLists _ ih).2.2.1

/-! ## The bucket table and the guards of the lookups -/

theorem getElem?_mid_iff {α : Type} (P : α → Prop) (A B C : List α)
    (hA : ∀ a ∈ A, ¬ P a) (hB : ∀ b ∈ B, P b) (hC : ∀ c ∈ C, ¬ P c) (i : Nat) (w : α)
    (hw : (A ++ B ++ C)[i]? = some w) :
    (A.length ≤ i ∧ i < A.length + B.length) ↔ P w := by
  by_cases h1 : i < A.length
  · rw [List.append_assoc, List.getElem?_append_left h1] at hw
    constructor
    · intro h
      omega
    · intro h
      exact absurd h (hA _ (List.getElem?_mem hw))
  · by_cases h2 : i < A.length + B.length
    · rw [List.getElem?_append_left (by rw [List.length_append]; exact h2),
        List.getElem?_append_right (by omega)] at hw
      constructor
      · intro _
        exact hB _ (List.getElem?_mem hw)
      · intro _
        exact ⟨by omega, h2⟩
    · rw [List.getElem?_append_right (by rw [List.length_append]; omega)] at hw
      constructor
      · intro h
        omega
      · intro h
        exact absurd h (hC _ (List.getElem?_mem hw))

/-! ## The fold levels of `ColouriseDiffDoc` -/

theorem ColouriseDiffDoc_loop_fold (k : SciLexerH) (sc : ScintillaH) (fold : Bool)
    (doc : Document) (maxLines : Nat) :
    ∀ (fuel i : Nat) (initStyle : Int) (prevLevel : Nat), fuel = maxLines + 1 - i →
      ∃ c last, ColouriseDiffDoc.loop k sc fold doc maxLines fuel i (doc.LineStart i)
          (doc.LineStart (i + 1)) initStyle prevLevel =
        some (c, (if fold then diffFoldCalls k sc doc fuel i prevLevel else []), last) := by
  intro fuel
  induction fuel with
  | zero =>
    intro i initStyle prevLevel hf
    unfold ColouriseDiffDoc.loop
    rw [if_neg (by omega)]
    refine ⟨[], initStyle, ?_⟩
    cases fold <;> rfl
  | succ fuel ih =>
    intro i initStyle prevLevel hf
    unfold ColouriseDiffDoc.loop
    rw [if_pos (by omega)]
    lift_lets
    intro lineBuffer lineType colour initStyle1 nextLevel levels prevLevel1
    obtain ⟨c, last, hrec⟩ := ih (i + 1) initStyle1 prevLevel1 (by omega)
    rw [hrec]
    refine ⟨colour ++ c, last, ?_⟩
    have hn : nextLevel = diffLineLevel k sc doc i prevLevel := rfl
    cases fold
    · rfl
    · simp only [if_true]
      have hp : prevLevel1 = nextLevel := rfl
      have hl : levels = (if nextLevel &&& sc.SC_FOLDLEVELHEADERFLAG ≠ 0 ∧
          nextLevel = prevLevel then
            [((i : Int) - 1, clearBits prevLevel sc.SC_FOLDLEVELHEADERFLAG)]
          else []) ++ [((i : Int), nextLevel)] := rfl
      rw [hl, hp, hn]
      simp only [diffFoldCalls, List.append_assoc, List.singleton_append]

theorem ColouriseDiffDoc_fold_calls (k : SciLexerH) (sc : ScintillaH) (fold : Bool)
    (doc : Document) (LevelAt : Nat → Nat) (startPos lengthDoc : Nat) (initStyle : Int) :
    ∃ calls, ColouriseDiffDoc k sc fold doc LevelAt startPos lengthDoc initStyle = some calls ∧
      calls.SetLevel =
        if fold then
          diffFoldCalls k sc doc
            (doc.GetLine (if startPos + lengthDoc = doc.Length then startPos + lengthDoc
              else startPos + lengthDoc - 1) + 1 - doc.GetLine startPos)
            (doc.GetLine startPos)
            (if doc.GetLine startPos > 0 then LevelAt (doc.GetLine startPos - 1)
              else sc.SC_FOLDLEVELBASE)
        else [] := by
  obtain ⟨c, last, hloop⟩ := ColouriseDiffDoc_loop_fold k sc fold doc
    (doc.GetLine (if startPos + lengthDoc = doc.Length then startPos + lengthDoc
      else startPos + lengthDoc - 1))
    _ (doc.GetLine startPos) initStyle
    (if doc.GetLine startPos > 0 then LevelAt (doc.GetLine startPos - 1)
      else sc.SC_FOLDLEVELBASE) rfl
  unfold ColouriseDiffDoc
  simp only [hloop]
  exact ⟨_, rfl, rfl⟩

theorem diffFoldCalls_nonneg (k : SciLexerH) (sc : ScintillaH) (doc : Document)
    (hB : sc.SC_FOLDLEVELBASE &&& sc.SC_FOLDLEVELHEADERFLAG = 0) :
    ∀ n line prev, (line = 0 → prev = sc.SC_FOLDLEVELBASE) →
      ∀ x ∈ diffFoldCalls k sc doc n line prev, 0 ≤ x.1 := by
  intro n
  induction n with
  | zero =>
    intro line prev _ x hx
    simp [diffFoldCalls] at hx
  | succ n ih =>
    intro line prev h0 x hx
    unfold diffFoldCalls at hx
    rw [List.mem_append, List.mem_cons] at hx
    rcases hx with hx | hx | hx
    · split at hx
      · rename_i hc
        rw [List.mem_singleton] at hx
        rw [hx]
        have hl : line ≠ 0 := by
          intro hl
          have hp := h0 hl
          rw [hc.2, hp, hB] at hc
          exact hc.1 rfl
        show 0 ≤ (line : Int) - 1
        omega
      · cases hx
    · rw [hx]
      exact Int.natCast_nonneg line
    · exact ih (line + 1) _ (fun hc => by omega) x hx

/-! ## The header flag of the structural folders -/

theorem foldLevel_header (sc : ScintillaH) (hsc : sc.FoldFields)
    (hH : sc.SC_FOLDLEVELHEADERFLAG ≠ 0) (u n : Int)
    (hu : FitsNumberMask sc u) (hn : FitsNumberMask sc n) :
    foldLevel sc u n &&& sc.SC_FOLDLEVELHEADERFLAG ≠ 0 ↔ u < n := by
  have hlow : u.toNat ||| (if u < n then sc.SC_FOLDLEVELHEADERFLAG else 0) < 2 ^ 16 := by
    apply Nat.or_lt_two_pow
    · have := hu.lt sc hsc
      omega
    · split
      · exact hsc.2.1
      · norm_num
  rw [foldLevel_eq sc hsc u n hu hn, Nat.mul_add_lt_is_or hlow, Nat.and_distrib_right,
    Nat.and_distrib_right]
  have h1 : (2 ^ 16 * n.toNat) &&& sc.SC_FOLDLEVELHEADERFLAG = 0 := by
    rw [Nat.mul_comm, ← Nat.shiftLeft_eq]
    exact shiftLeft16_and_eq_zero _ _ hsc.2.1
  have h2 : u.toNat &&& sc.SC_FOLDLEVELHEADERFLAG = 0 := by
    rw [← hu.2, Nat.and_assoc, Nat.and_comm sc.SC_FOLDLEVELNUMBERMASK, hsc.2.2, Nat.and_zero]
  rw [h1, h2, Nat.zero_or, Nat.zero_or]
  split
  · rename_i hlt
    rw [Nat.and_self]
    exact ⟨fun _ => hlt, fun _ => hH⟩
  · rename_i hlt
    rw [Nat.zero_and]
    exact ⟨fun h => absurd rfl h, fun h => absurd h hlt⟩

theorem FoldPass.start_fromLines (sc : ScintillaH) (doc : Document) (LevelAt : Nat → Nat)
    (startPos : Nat) : (FoldPass.start sc doc LevelAt startPos).FromLines sc := by
  intro x hx
  simp [FoldPass.start] at hx

theorem FoldPass.lineEnd_fromLines (sc : ScintillaH) (b : Bool) (p : FoldPass) (n : Int)
    (h : p.FromLines sc) : (p.lineEnd sc b n).FromLines sc := by
  have hold : ∀ x ∈ p.calls, ∃ t ∈ (p.lineEnd sc b n).lines,
      x = (t.1, foldLevel sc t.2.1 t.2.2) := by
    intro x hx
    obtain ⟨t, ht, e⟩ := h x hx
    exact ⟨t, by simp [FoldPass.lineEnd, ht], e⟩
  intro x hx
  simp only [FoldPass.lineEnd] at hx
  split at hx
  · exact hold x hx
  · rw [List.mem_append, List.mem_singleton] at hx
    rcases hx with hx | hx
    · exact hold x hx
    · exact ⟨(p.lineCurrent, p.levelCurrent, n), by simp [FoldPass.lineEnd], hx⟩

theorem FoldMakeDoc_loop_fromLines (k : MakeLexerH) (sc : ScintillaH)
    (doc : Document) (StyleAt : Nat → Int) (endPos : Nat) :
    ∀ fuel s, s.pass.FromLines sc →
      (FoldMakeDoc.loop k sc doc StyleAt endPos fuel s).pass.FromLines sc := by
  intro fuel
  induction fuel with
  | zero => exact fun s h => h
  | succ fuel ih =>
    intro s h
    unfold FoldMakeDoc.loop
    split
    · apply ih
      rcases FoldMakeDoc_step_pass k sc doc StyleAt endPos s with e | ⟨b, n, e⟩
      · rw [e]
        exact h
      · rw [e]
        exact FoldPass.lineEnd_fromLines sc b _ n h
    · exact h

theorem FoldAsyDoc_loop_fromLines (k : AsyLexerH) (sc : ScintillaH)
    (C : Document → (Nat → Int) → Nat → Int → Int → Nat) (doc : Document)
    (StyleAt : Nat → Int) (GetLineState : Nat → Nat) (endPos : Nat) :
    ∀ fuel s, s.pass.FromLines sc →
      (FoldAsyDoc.loop k sc C doc StyleAt GetLineState endPos fuel s).pass.FromLines sc := by
  intro fuel
  induction fuel with
  | zero => exact fun s h => h
  | succ fuel ih =>
    intro s h
    unfold FoldAsyDoc.loop
    split
    · apply ih
      rcases FoldAsyDoc_step_pass k sc C doc StyleAt GetLineState endPos s with e | ⟨b, n, e⟩
      · rw [e]
        exact h
      · rw [e]
        exact FoldPass.lineEnd_fromLines sc b _ n h
    · exact h

theorem FoldRustDoc_loop_fromLines (k : RustLexerH) (sc : ScintillaH)
    (C : Document → (Nat → Int) → Nat → Int → Int → Nat) (doc : Document)
    (StyleAt : Nat → Int) (GetLineState : Nat → Nat) (endPos : Nat) :
    ∀ fuel s, s.pass.FromLines sc →
      (FoldRustDoc.loop k sc C doc StyleAt GetLineState endPos fuel s).pass.FromLines sc := by
  intro fuel
  induction fuel with
  | zero => exact fun s h => h
  | succ fuel ih =>
    intro s h
    unfold FoldRustDoc.loop
    split
    · apply ih
      rcases FoldRustDoc_step_pass k sc C doc StyleAt GetLineState endPos s with e | ⟨b, n, e⟩
      · rw [e]
        exact h
      · rw [e]
        exact FoldPass.lineEnd_fromLines sc b _ n h
    · exact h

theorem FoldJsDoc_loop_fromLines (k : JsLexerH) (sc : ScintillaH)
    (C : Document → (Nat → Int) → Nat → Int → Int → Nat) (doc : Document)
    (StyleAt : Nat → Int) (GetLineState : Nat → Nat) (endPos : Nat) :
    ∀ fuel s, s.pass.FromLines sc →
      (FoldJsDoc.loop k sc C doc StyleAt GetLineState endPos fuel s).pass.FromLines sc := by
  intro fuel
  induction fuel with
  | zero => exact fun s h => h
  | succ fuel ih =>
    intro s h
    unfold FoldJsDoc.loop
    split
    · apply ih
      rcases FoldJsDoc_step_pass k sc C doc StyleAt GetLineState endPos s with e | ⟨b, n, e⟩
      · rw [e]
        exact h
      · rw [e]
        exact FoldPass.lineEnd_fromLines sc b _ n h
    · exact h

/-- In a pass whose depths fit the number mask, every level written has the
header flag exactly when its current-depth field is below its next-depth
field. -/
theorem FoldPass.header_iff (sc : ScintillaH) (hsc : sc.FoldFields)
    (hH : sc.SC_FOLDLEVELHEADERFLAG ≠ 0) (p : FoldPass) (h : p.FromLines sc) (hf : p.Fits sc) :
    ∀ x ∈ p.calls, (x.2 &&& sc.SC_FOLDLEVELHEADERFLAG ≠ 0 ↔
      (foldCurrentDepth sc x.2 : Int) < shiftRight16 x.2) := by
  intro x hx
  obtain ⟨t, ht, e⟩ := h x hx
  obtain ⟨f1, f2⟩ := hf t ht
  rw [e]
  show foldLevel sc t.2.1 t.2.2 &&& sc.SC_FOLDLEVELHEADERFLAG ≠ 0 ↔
    (foldCurrentDepth sc (foldLevel sc t.2.1 t.2.2) : Int) <
      shiftRight16 (foldLevel sc t.2.1 t.2.2)
  rw [foldLevel_current sc hsc _ _ f1 f2, foldLevel_next sc hsc _ _ f1 f2]
  exact foldLevel_header sc hsc hH _ _ f1 f2


/-! ## The classification of identifiers by `ColouriseRustDoc` -/

theorem GetCurrent_eq_currentText (sc : StyleContext) (len : Nat)
    (hlen : sc.currentText.length < len) (hnul : 0 ∉ sc.currentText) :
    sc.GetCurrent len = sc.currentText := by
  have e : (sc.doc.flatten.drop sc.styler.startSeg).take
      (min (sc.currentPos - sc.styler.startSeg) (len - 1)) = sc.currentText := by
    unfold StyleContext.currentText at *
    rw [List.length_take] at hlen
    by_cases hc : sc.currentPos - sc.styler.startSeg ≤ len - 1
    · rw [Nat.min_eq_left hc]
    · rw [Nat.min_eq_right (by omega)]
      have hl : (sc.doc.flatten.drop sc.styler.startSeg).length ≤ len - 1 := by omega
      rw [List.take_of_length_le hl, List.take_of_length_le (by omega)]
  unfold StyleContext.GetCurrent
  rw [e, List.takeWhile_eq_self_iff]
  intro b hb
  simp only [bne_iff_ne, ne_eq]
  rintro rfl
  exact hnul hb

theorem ColouriseRustDoc.classify_spec (k : RustLexerH) (h : WordListH)
    (keywordLists : Nat → WordList) (s : RustScan) (text : CStr)
    (hg : s.sc.GetCurrent 128 = text) :
    ∃ st, (ColouriseRustDoc.classify k h keywordLists s).sc = s.sc.ChangeState st ∧
      (∀ d, firstRustDictionary h keywordLists text = some d → st = k.SCE_RUST d) ∧
      (firstRustDictionary h keywordLists text = none →
        (s.sc.ch = 46 → st = s.sc.state) ∧
        (s.sc.ch ≠ 46 → s.sc.doc.LexGetNextChar k.isspacechar s.sc.currentPos = 40 →
          st = if s.kwType = k.SCE_RUST .FUNCTION_DEFINITION then
            k.SCE_RUST .FUNCTION_DEFINITION else k.SCE_RUST .FUNCTION) ∧
        (s.sc.ch ≠ 46 → s.sc.doc.LexGetNextChar k.isspacechar s.sc.currentPos = 33 →
          st = k.SCE_RUST .MACRO)) := by
  have hself : s.sc = s.sc.ChangeState s.sc.state := rfl
  unfold ColouriseRustDoc.classify
  simp only [hg]
  by_cases h0 : inKeywordList h keywordLists KeywordIndex_Keyword text = true
  · rw [if_pos h0]
    exact ⟨_, rfl, by simp [firstRustDictionary, rustDictionaryOrder, List.find?, h0], by
      simp [firstRustDictionary, rustDictionaryOrder, List.find?, h0]⟩
  rw [if_neg h0]
  by_cases h1 : inKeywordList h keywordLists KeywordIndex_ReservedKeyword text = true
  · rw [if_pos h1]
    exact ⟨_, rfl, by simp [firstRustDictionary, rustDictionaryOrder, List.find?, h0, h1], by
      simp [firstRustDictionary, rustDictionaryOrder, List.find?, h0, h1]⟩
  rw [if_neg h1]
  by_cases h2 : inKeywordList h keywordLists KeywordIndex_PrimitiveType text = true
  · rw [if_pos h2]
    exact ⟨_, rfl, by simp [firstRustDictionary, rustDictionaryOrder, List.find?, h0, h1, h2], by
      simp [firstRustDictionary, rustDictionaryOrder, List.find?, h0, h1, h2]⟩
  rw [if_neg h2]
  by_cases h3 : inKeywordList h keywordLists KeywordIndex_Struct text = true
  · rw [if_pos h3]
    exact ⟨_, rfl, by
      simp [firstRustDictionary, rustDictionaryOrder, List.find?, h0, h1, h2, h3], by
      simp [firstRustDictionary, rustDictionaryOrder, List.find?, h0, h1, h2, h3]⟩
  rw [if_neg h3]
  by_cases h4 : inKeywordList h keywordLists KeywordIndex_Trait text = true
  · rw [if_pos h4]
    exact ⟨_, rfl, by
      simp [firstRustDictionary, rustDictionaryOrder, List.find?, h0, h1, h2, h3, h4], by
      simp [firstRustDictionary, rustDictionaryOrder, List.find?, h0, h1, h2, h3, h4]⟩
  rw [if_neg h4]
  by_cases h5 : inKeywordList h keywordLists KeywordIndex_Enumeration text = true
  · rw [if_pos h5]
    exact ⟨_, rfl, by
      simp [firstRustDictionary, rustDictionaryOrder, List.find?, h0, h1, h2, h3, h4, h5], by
      simp [firstRustDictionary, rustDictionaryOrder, List.find?, h0, h1, h2, h3, h4, h5]⟩
  rw [if_neg h5]
  by_cases h6 : inKeywordList h keywordLists KeywordIndex_Union text = true
  · rw [if_pos h6]
    exact ⟨_, rfl, by
      simp [firstRustDictionary, rustDictionaryOrder, List.find?, h0, h1, h2, h3, h4, h5, h6], by
      simp [firstRustDictionary, rustDictionaryOrder, List.find?, h0, h1, h2, h3, h4, h5, h6]⟩
  rw [if_neg h6]
  by_cases h7 : inKeywordList h keywordLists KeywordIndex_Constant text = true
  · rw [if_pos h7]
    exact ⟨_, rfl, by
      simp [firstRustDictionary, rustDictionaryOrder, List.find?, h0, h1, h2, h3, h4, h5, h6,
        h7], by
      simp [firstRustDictionary, rustDictionaryOrder, List.find?, h0, h1, h2, h3, h4, h5, h6,
        h7]⟩
  rw [if_neg h7]
  have hnone : ∀ d, firstRustDictionary h keywordLists text ≠ some d := by
    simp [firstRustDictionary, rustDictionaryOrder, List.find?, h0, h1, h2, h3, h4, h5, h6, h7]
  by_cases hdot : s.sc.ch = 46
  · rw [if_neg (not_not.mpr hdot)]
    exact ⟨s.sc.state, hself, fun d hd => absurd hd (hnone d),
      fun _ => ⟨fun _ => rfl, fun hc => absurd hdot hc, fun hc => absurd hdot hc⟩⟩
  rw [if_pos hdot]
  by_cases hp : s.sc.doc.LexGetNextChar k.isspacechar s.sc.currentPos = 40
  · rw [if_pos hp]
    refine ⟨_, rfl, fun d hd => absurd hd (hnone d),
      fun _ => ⟨fun hc => absurd hc hdot, fun _ _ => ?_, fun _ hc => ?_⟩⟩
    · split
      · rename_i hk
        exact hk
      · rfl
    · rw [hp] at hc
      exact absurd hc (by decide)
  rw [if_neg hp]
  by_cases hb : s.sc.doc.LexGetNextChar k.isspacechar s.sc.currentPos = 33
  · rw [if_pos hb]
    exact ⟨_, rfl, fun d hd => absurd hd (hnone d),
      fun _ => ⟨fun hc => absurd hc hdot, fun _ hc => absurd hc hp, fun _ _ => rfl⟩⟩
  rw [if_neg hb]
  have hrest : ∀ st, (∀ d, firstRustDictionary h keywordLists text = some d → st = k.SCE_RUST d) ∧
      (firstRustDictionary h keywordLists text = none →
        (s.sc.ch = 46 → st = s.sc.state) ∧
        (s.sc.ch ≠ 46 → s.sc.doc.LexGetNextChar k.isspacechar s.sc.currentPos = 40 →
          st = if s.kwType = k.SCE_RUST .FUNCTION_DEFINITION then
            k.SCE_RUST .FUNCTION_DEFINITION else k.SCE_RUST .FUNCTION) ∧
        (s.sc.ch ≠ 46 → s.sc.doc.LexGetNextChar k.isspacechar s.sc.currentPos = 33 →
          st = k.SCE_RUST .MACRO)) :=
    fun st => ⟨fun d hd => absurd hd (hnone d),
      fun _ => ⟨fun hc => absurd hc hdot, fun _ hc => absurd hc hp, fun _ hc => absurd hc hb⟩⟩
  split
  · split
    · exact ⟨_, rfl, hrest _⟩
    · split
      · exact ⟨_, rfl, hrest _⟩
      · exact ⟨_, hself, hrest _⟩
  · exact ⟨_, hself, hrest _⟩

theorem ColouriseRustDoc.stateCase_identifier (k : RustLexerH) (h : WordListH)
    (keywordLists : Nat → WordList) (s : RustScan) (hk : k.Distinct)
    (hstate : s.sc.state = k.SCE_RUST .IDENTIFIER)
    (hend : k.IsIdentifierCharEx s.sc.ch = false)
    (hattr : s.lineStateAttribute = 0) (hbang : s.sc.ch ≠ 33) :
  (ColouriseRustDoc.stateCase k h keywordLists s).1.sc =
      (ColouriseRustDoc.classify k h keywordLists s).sc.SetState (k.SCE_RUST .DEFAULT) ∧
    (ColouriseRustDoc.stateCase k h keywordLists s).2 = false := by
    unfold ColouriseRustDoc.stateCase
    have n1 : ¬ (s.sc.state = k.SCE_RUST .OPERATOR ∨ s.sc.state = k.SCE_RUST .ATTRIBUTE) := by
      rw [hstate, SCE_RUST_eq_iff hk, SCE_RUST_eq_iff hk]
      decide
    have n2 : ¬ s.sc.state = k.SCE_RUST .NUMBER := by
      rw [hstate, SCE_RUST_eq_iff hk]
      decide
    have n3 : s.sc.state = k.SCE_RUST .IDENTIFIER ∨ s.sc.state = k.SCE_RUST .VARIABLE ∨
      s.sc.state = k.SCE_RUST .LIFETIME := Or.inl hstate
    have n4 : ¬ k.IsIdentifierCharEx s.sc.ch = true := by rw [hend]; decide
    have n5 : ¬ s.lineStateAttribute ≠ 0 := not_not.mpr hattr
    have n6 : ¬ s.sc.ch = 33 := hbang
    lift_lets
    intro sc s2 s1
    intros
    have m1 : ¬ (sc.state = k.SCE_RUST .OPERATOR ∨ sc.state = k.SCE_RUST .ATTRIBUTE) := n1
    have m2 : ¬ sc.state = k.SCE_RUST .NUMBER := n2
    have m3 : sc.state = k.SCE_RUST .IDENTIFIER ∨ sc.state = k.SCE_RUST .VARIABLE ∨
      sc.state = k.SCE_RUST .LIFETIME := n3
    have m4 : ¬ k.IsIdentifierCharEx sc.ch = true := n4
    have m6 : ¬ sc.ch = 33 := hbang
    have e2 : s2 = ColouriseRustDoc.classify k h keywordLists s := by
      show (if s.lineStateAttribute ≠ 0 then _ else if sc.ch = 33 then _ else _) = _
      rw [if_neg n5, if_neg m6]
    have e1 : s1 = if s2.sc.state ≠ k.SCE_RUST .WORD ∧ s2.sc.ch ≠ 46 then
        { s2 with kwType := k.SCE_RUST .DEFAULT } else s2 := if_pos hstate
    rw [if_neg m1, if_neg m2, if_pos m3, if_pos m4]
    show s1.sc.SetState _ = _ ∧ _
    rw [e1, ← e2]
    constructor
    · split <;> rfl
    · rfl

/-! ## Character literals in `ColouriseRustDoc` -/

theorem Forward_line {sc : StyleContext} (h : sc.currentPos < sc.endPos)
    (hat : sc.atLineEnd = false) :
    sc.Forward.currentLine = sc.currentLine ∧ sc.Forward.lineDocEnd = sc.lineDocEnd ∧
    sc.Forward.lineStartNext = sc.lineStartNext ∧
    sc.Forward.atLineEnd = decide (sc.lineEndPos ≤ sc.currentPos + 1) := by
  unfold StyleContext.Forward StyleContext.lineEndPos
  rw [if_pos h]
  simp only [StyleContext.GetNextChar, hat, Bool.false_eq_true, if_false, true_and]
  split <;> rfl

theorem lineEnd_fields (k : RustLexerH) (u : RustScan) :
    (ColouriseRustDoc.lineEnd k u).commentLevel = u.commentLevel ∧
    (ColouriseRustDoc.lineEnd k u).squareBracket = u.squareBracket ∧
    (ColouriseRustDoc.lineEnd k u).hashCount = u.hashCount ∧
    (ColouriseRustDoc.lineEnd k u).lineStateAttribute = u.lineStateAttribute ∧
    ((ColouriseRustDoc.lineEnd k u).lineStateLineType = u.lineStateLineType ∨
      (ColouriseRustDoc.lineEnd k u).lineStateLineType = 0) := by
  cases hsp : k.isspacechar u.sc.ch <;> cases hat : u.sc.atLineEnd <;>
    simp [ColouriseRustDoc.lineEnd, hsp, hat]

theorem Forward_lineStates (sc : StyleContext) : sc.Forward.lineStates = sc.lineStates := by
  unfold StyleContext.Forward
  split <;> rfl

/-- The line state that the line-end block writes at a line end. -/
theorem lineEnd_lineStates (k : RustLexerH) (u : RustScan) (hat : u.sc.atLineEnd = true) :
    (ColouriseRustDoc.lineEnd k u).sc.lineStates u.sc.currentLine =
      packRustLineState u.squareBracket u.commentLevel u.hashCount u.lineStateAttribute
        u.lineStateLineType := by
  rw [lineEnd_sc, if_pos hat, Forward_lineStates]
  simp [StyleContext.SetLineState]

/-- The line-end block inside a block comment. -/
theorem lineEnd_inComment (k : RustLexerH) (e : StyleContext) (s0 u : RustScan) (m d : Nat)
    (hu : ColouriseRustDoc.InComment e s0 u m d) (hlt : u.sc.currentPos < u.sc.endPos) :
    ColouriseRustDoc.InComment e s0 (ColouriseRustDoc.lineEnd k u) (m + 1) d := by
  obtain ⟨hm, h1, h2, h3, h4, h5⟩ := hu
  obtain ⟨f1, f2, f3, f4, f5⟩ := lineEnd_fields k u
  have hmv : e.Moved u.sc m := hm
  have := hmv.trans (lineEnd_spec k u hm.2.2.2.2.2.2 hlt).1
  refine ⟨this, by rw [f1, h1], by rw [f2, h2], by rw [f3, h3], by rw [f4, h4], ?_⟩
  rcases f5 with f5 | f5
  · rw [f5]
    exact h5
  · exact Or.inr f5

theorem stateCase_comment_close {k : RustLexerH} (hk : k.Distinct) (h : WordListH)
    (keywordLists : Nat → WordList) (t : RustScan)
    (hs : t.sc.state = k.SCE_RUST .COMMENTBLOCK ∨ t.sc.state = k.SCE_RUST .COMMENTBLOCKDOC)
    (hm : t.sc.Match 42 47 = true) :
    ColouriseRustDoc.stateCase k h keywordLists t =
      (if t.commentLevel - 1 = 0 then
        { t with sc := t.sc.Forward.ForwardSetState (k.SCE_RUST .DEFAULT),
                 commentLevel := t.commentLevel - 1 }
      else { t with sc := t.sc.Forward, commentLevel := t.commentLevel - 1 }, false) := by
  unfold ColouriseRustDoc.stateCase
  rcases hs with hs | hs <;> simp only [hs, SCE_RUST_eq_iff hk, hm] <;> simp <;> split <;> rfl

theorem stateCase_comment_open {k : RustLexerH} (hk : k.Distinct) (h : WordListH)
    (keywordLists : Nat → WordList) (t : RustScan)
    (hs : t.sc.state = k.SCE_RUST .COMMENTBLOCK ∨ t.sc.state = k.SCE_RUST .COMMENTBLOCKDOC)
    (hm : t.sc.Match 42 47 = false) (hm2 : t.sc.Match 47 42 = true) :
    ColouriseRustDoc.stateCase k h keywordLists t =
      ({ t with sc := t.sc.Forward, commentLevel := t.commentLevel + 1 }, false) := by
  unfold ColouriseRustDoc.stateCase
  rcases hs with hs | hs <;> simp only [hs, SCE_RUST_eq_iff hk, hm, hm2] <;> simp

theorem stateCase_comment_other {k : RustLexerH} (hk : k.Distinct) (hno : k.NoTaskMarker)
    (h : WordListH) (keywordLists : Nat → WordList) (t : RustScan)
    (hs : t.sc.state = k.SCE_RUST .COMMENTBLOCK ∨ t.sc.state = k.SCE_RUST .COMMENTBLOCKDOC)
    (hm : t.sc.Match 42 47 = false) (hm2 : t.sc.Match 47 42 = false) :
    ColouriseRustDoc.stateCase k h keywordLists t =
      ({ t with visibleChars := (k.HighlightTaskMarker t.sc t.visibleChars t.visibleCharsBefore
          (k.SCE_RUST .TASKMARKER)).2.1 }, false) := by
  obtain ⟨n1, n2⟩ := hno t.sc t.visibleChars t.visibleCharsBefore (k.SCE_RUST .TASKMARKER)
  unfold ColouriseRustDoc.stateCase
  rcases hs with hs | hs <;> simp only [hs, SCE_RUST_eq_iff hk, hm, hm2, n1, n2] <;> simp

/-- A round in which the `switch` does not end with `continue` and leaves a
state other than the default state ends with the line-end block. -/
theorem step_of_stateCase (k : RustLexerH) (h : WordListH) (keywordLists : Nat → WordList)
    (t u : RustScan) (hstate : ColouriseRustDoc.stateCase k h keywordLists t = (u, false))
    (hne : u.sc.state ≠ k.SCE_RUST .DEFAULT) :
    ColouriseRustDoc.step k h keywordLists t = ColouriseRustDoc.lineEnd k u := by
  unfold ColouriseRustDoc.step
  simp only [hstate, defaultCase_of_ne k u hne]
  rfl

theorem Match_of_drop {sc : StyleContext} (hc : sc.Coherent) {a b : Nat} {rest : List Nat}
    (htext : sc.doc.flatten.drop sc.currentPos = a :: b :: rest) (x y : Nat) :
    sc.Match x y = (decide (a = x) && decide (b = y)) := by
  have h1 : sc.ch = a := by rw [hc.1]; exact SafeGetCharAt_of_drop htext
  have h2 : sc.chNext = b := by
    rw [hc.2.1]
    exact SafeGetCharAt_of_drop (drop_succ_of_drop htext)
  unfold StyleContext.Match
  rw [h1, h2]
  rfl

theorem unpack_pack_commentLevel {sb cl hc attr lt : Nat} (hsb : sb < 256) (hcl : cl < 256)
    (hhc : hc < 256) (hattr : attr = 0 ∨ attr = 4) (hlt : lt = 0 ∨ lt = 1 ∨ lt = 2) :
    (unpackRustLineState (packRustLineState sb cl hc attr lt)).2.1 = cl := by
  rw [packRustLineState_eq_sum hsb hcl hhc hattr hlt]
  unfold unpackRustLineState
  simp only [Nat.shiftRight_eq_div_pow, and_255]
  have htwo : (2 : Nat) ^ 19 = 524288 ∧ (2 : Nat) ^ 11 = 2048 ∧ (2 : Nat) ^ 3 = 8 := by
    norm_num
  obtain ⟨e19, e11, e3⟩ := htwo
  rw [e19, e11, e3]
  rcases hattr with rfl | rfl <;> rcases hlt with rfl | rfl | rfl <;> omega

/-- The round at `/*` in the default state: the run before it is closed, a
block-comment state is entered with `commentLevel` 1, and the cursor goes to
the byte after the opener. -/
theorem step_comment_open {k : RustLexerH} (hk : k.Distinct) (h : WordListH)
    (keywordLists : Nat → WordList) (s : RustScan) (rest : List Nat)
    (hc : s.sc.Coherent) (hs : s.sc.state = k.SCE_RUST .DEFAULT)
    (htext : s.sc.doc.flatten.drop s.sc.currentPos = 47 :: 42 :: rest)
    (hrange : s.sc.currentPos + 2 ≤ s.sc.endPos) :
    ∃ e : StyleContext,
      ColouriseRustDoc.step k h keywordLists s =
        { s with sc := e, visibleCharsBefore := s.visibleChars, commentLevel := 1 } ∧
      (e.state = k.SCE_RUST .COMMENTBLOCK ∨ e.state = k.SCE_RUST .COMMENTBLOCKDOC) ∧
      e.currentPos = s.sc.currentPos + 2 ∧ e.doc = s.sc.doc ∧ e.endPos = s.sc.endPos ∧
      e.lengthDocument = s.sc.lengthDocument ∧ e.Coherent ∧
      e.styler.startSeg = s.sc.currentPos := by
  have hch : s.sc.ch = 47 := by rw [hc.1]; exact SafeGetCharAt_of_drop htext
  have hnext : s.sc.chNext = 42 := by
    rw [hc.2.1]
    exact SafeGetCharAt_of_drop (drop_succ_of_drop htext)
  have hlen : s.sc.currentPos ≤ s.sc.lengthDocument := by
    have := congrArg List.length htext
    rw [List.length_drop, List.length_cons, List.length_cons] at this
    rw [hc.2.2.1]
    unfold Document.Length
    omega
  obtain ⟨e1, e2, e3, e4, e5, e6, _, _, _, e10, _⟩ :=
    SetState_spec hc hlen (k.SCE_RUST .COMMENTBLOCK)
  have hadv := Advance_moved 2 e6 (by rw [e1, e3]; exact hrange)
  obtain ⟨a1, a2, a3, a4, a5, a6, a7⟩ := hadv
  have hd : ColouriseRustDoc.defaultCase k s =
      ({ s with
          sc := if ((s.sc.SetState (k.SCE_RUST .COMMENTBLOCK)).Advance 2).ch = 33 ∨
                (((s.sc.SetState (k.SCE_RUST .COMMENTBLOCK)).Advance 2).ch = 42 ∧
                  ((s.sc.SetState (k.SCE_RUST .COMMENTBLOCK)).Advance 2).chNext ≠ 42) then
              ((s.sc.SetState (k.SCE_RUST .COMMENTBLOCK)).Advance 2).ChangeState
                (k.SCE_RUST .COMMENTBLOCKDOC)
            else (s.sc.SetState (k.SCE_RUST .COMMENTBLOCK)).Advance 2
          visibleCharsBefore := s.visibleChars, commentLevel := 1 }, true) := by
    unfold ColouriseRustDoc.defaultCase
    simp only [hs, if_true, hch, hnext]
    simp
  have hstep : ColouriseRustDoc.step k h keywordLists s =
      (ColouriseRustDoc.defaultCase k s).1 := by
    unfold ColouriseRustDoc.step
    simp only [stateCase_default hk h keywordLists s hs, hd]
    rfl
  rw [hstep, hd]
  refine ⟨_, rfl, ?_⟩
  split
  · exact ⟨Or.inr rfl, by rw [← e1]; exact a1, a2.trans e2, a3.trans e3, a4.trans e4, a7,
      by rw [← e10]; exact congrArg StyleStore.startSeg a6⟩
  · exact ⟨Or.inl (a5.trans e5), by rw [← e1]; exact a1, a2.trans e2, a3.trans e3,
      a4.trans e4, a7, by rw [← e10]; exact congrArg StyleStore.startSeg a6⟩

theorem commentDepths_length :
    ∀ n (text : List Nat) (d : Nat) (D1 : List Nat), text.length ≤ n →
      commentDepths d text = some D1 → 2 ≤ D1.length ∧ D1.length ≤ text.length := by
  intro n
  induction n with
  | zero =>
    intro text d D1 hlen hD1
    have : text = [] := List.length_eq_zero.mp (Nat.le_zero.mp hlen)
    subst this
    simp [commentDepths] at hD1
  | succ n ih =>
    intro text d D1 hlen hD1
    match text, hlen, hD1 with
    | [], _, hD1 => simp [commentDepths] at hD1
    | [_], _, hD1 => simp [commentDepths] at hD1
    | a :: b :: rest, hlen, hD1 =>
      simp only [List.length_cons] at hlen ⊢
      rw [commentDepths] at hD1
      by_cases hopen : a = 47 ∧ b = 42
      · rw [if_pos hopen] at hD1
        obtain ⟨D2, hD2, rfl⟩ := Option.map_eq_some'.mp hD1
        have := ih rest (d + 1) D2 (by omega) hD2
        simp only [List.length_cons]
        omega
      · rw [if_neg hopen] at hD1
        by_cases hclose : a = 42 ∧ b = 47
        · rw [if_pos hclose] at hD1
          by_cases hd1 : d = 1
          · rw [if_pos hd1] at hD1
            have hD1' : D1 = [0, 0] := (Option.some.inj hD1).symm
            subst hD1'
            simp only [List.length_cons, List.length_nil]
            omega
          · rw [if_neg hd1] at hD1
            obtain ⟨D2, hD2, rfl⟩ := Option.map_eq_some'.mp hD1
            have := ih rest (d - 1) D2 (by omega) hD2
            simp only [List.length_cons]
            omega
        · rw [if_neg hclose] at hD1
          obtain ⟨D2, hD2, rfl⟩ := Option.map_eq_some'.mp hD1
          have := ih (b :: rest) d D2 (by simp only [List.length_cons]; omega) hD2
          simp only [List.length_cons] at this ⊢
          omega


/-! ## The stack of nested states of `ColouriseJsDoc` -/

theorem ColouriseJsDoc.docTagStart_stack (k : JsLexerH) (s : JsScan) :
    (ColouriseJsDoc.docTagStart k s).1.nestedState = s.nestedState := by
  unfold ColouriseJsDoc.docTagStart
  lift_lets
  intros
  repeat' split
  all_goals rfl

/-- The round at an inner opener `/*` of a block comment, before the line
end: the depth grows by one and the cursor goes two bytes forward on the
line. -/
theorem step_comment_opener {k : RustLexerH} (hk : k.Distinct) (h : WordListH)
    (keywordLists : Nat → WordList) (e : StyleContext) (s0 t : RustScan) (m d : Nat)
    (rest : List Nat)
    (hcs : e.state = k.SCE_RUST .COMMENTBLOCK ∨ e.state = k.SCE_RUST .COMMENTBLOCKDOC)
    (ht : ColouriseRustDoc.InComment e s0 t m d) (hl : ColouriseRustDoc.OnLine e t m)
    (htext : t.sc.doc.flatten.drop t.sc.currentPos = 47 :: 42 :: rest)
    (hE : e.currentPos + m + 1 < e.lineEndPos) (hrange : e.currentPos + m + 2 ≤ e.endPos) :
    ColouriseRustDoc.InComment e s0 (ColouriseRustDoc.step k h keywordLists t) (m + 2) (d + 1) ∧
    ColouriseRustDoc.OnLine e (ColouriseRustDoc.step k h keywordLists t) (m + 2) := by
  have hne : e.state ≠ k.SCE_RUST .DEFAULT := by
    rcases hcs with hs | hs <;> rw [hs] <;> intro he <;> exact absurd (hk _ _ he) (by decide)
  have hst : t.sc.state = k.SCE_RUST .COMMENTBLOCK ∨
      t.sc.state = k.SCE_RUST .COMMENTBLOCKDOC := by rw [ht.1.2.2.2.2.1]; exact hcs
  have hpos : t.sc.currentPos = e.currentPos + m := ht.1.1
  have hend : t.sc.endPos = e.endPos := ht.1.2.2.1
  have hmatch := Match_of_drop ht.1.2.2.2.2.2.2 htext
  have hm1 : t.sc.Match 42 47 = false := by rw [hmatch]; rfl
  have hm2 : t.sc.Match 47 42 = true := by rw [hmatch]; rfl
  have hstate := stateCase_comment_open hk h keywordLists t hst hm1 hm2
  have hlt : t.sc.currentPos < t.sc.endPos := by rw [hpos, hend]; omega
  have hf := Forward_moved ht.1.2.2.2.2.2.2 hlt
  have hmv : e.Moved t.sc m := ht.1
  obtain ⟨l1, l2, l3, l4⟩ := hl
  have hat : t.sc.atLineEnd = false := by
    rw [l4]
    exact decide_eq_false (by omega)
  have hle : t.sc.lineEndPos = e.lineEndPos := by
    unfold StyleContext.lineEndPos
    rw [l1, l2, l3]
  obtain ⟨f1, f2, f3, f4⟩ := Forward_line hlt hat
  have hu : ColouriseRustDoc.InComment e s0
      { t with sc := t.sc.Forward, commentLevel := t.commentLevel + 1 } (m + 1) (d + 1) := by
    refine ⟨hmv.trans hf, ?_, ht.2.2.1, ht.2.2.2.1, ht.2.2.2.2.1, ht.2.2.2.2.2⟩
    show t.commentLevel + 1 = _
    rw [ht.2.1]
    push_cast
    rfl
  have hult : t.sc.Forward.currentPos < t.sc.Forward.endPos := by
    rw [hf.1, hf.2.2.1, hpos, hend]
    omega
  have hstep := step_of_stateCase k h keywordLists t _ hstate
    (by
      show t.sc.Forward.state ≠ _
      rw [hf.2.2.2.2.1, ht.1.2.2.2.2.1]
      exact hne)
  have hat2 : t.sc.Forward.atLineEnd = false := by
    rw [f4, hle, hpos]
    exact decide_eq_false (by omega)
  have hle2 : t.sc.Forward.lineEndPos = e.lineEndPos := by
    unfold StyleContext.lineEndPos
    rw [f1, f2, f3, l1, l2, l3]
  obtain ⟨g1, g2, g3, g4⟩ := Forward_line hult hat2
  have hsc : (ColouriseRustDoc.step k h keywordLists t).sc = t.sc.Forward.Forward := by
    rw [hstep, lineEnd_sc]
    show (if t.sc.Forward.atLineEnd = true then _ else t.sc.Forward).Forward = _
    rw [if_neg (by rw [hat2]; exact Bool.false_ne_true)]
  refine ⟨?_, ?_, ?_, ?_, ?_⟩
  · rw [hstep]
    exact lineEnd_inComment k e s0 _ (m + 1) (d + 1) hu hult
  · rw [hsc, g1, f1, l1]
  · rw [hsc, g2, f2, l2]
  · rw [hsc, g3, f3, l3]
  · rw [hsc, g4, hle2, hf.1, hpos, Nat.add_assoc, Nat.add_assoc]

/-- The rounds at `n` inner openers in a row. -/
theorem steps_comment_openers {k : RustLexerH} (hk : k.Distinct) (h : WordListH)
    (keywordLists : Nat → WordList) (e : StyleContext) (s0 : RustScan)
    (hcs : e.state = k.SCE_RUST .COMMENTBLOCK ∨ e.state = k.SCE_RUST .COMMENTBLOCKDOC) :
    ∀ (n : Nat) (t : RustScan) (m d : Nat) (rest : List Nat),
      ColouriseRustDoc.InComment e s0 t m d → ColouriseRustDoc.OnLine e t m →
      t.sc.doc.flatten.drop t.sc.currentPos = (List.replicate n [47, 42]).flatten ++ rest →
      e.currentPos + m + 2 * n < e.lineEndPos + 1 → e.currentPos + m + 2 * n ≤ e.endPos →
      ColouriseRustDoc.InComment e s0 ((ColouriseRustDoc.step k h keywordLists)^[n] t)
        (m + 2 * n) (d + n) ∧
      ColouriseRustDoc.OnLine e ((ColouriseRustDoc.step k h keywordLists)^[n] t) (m + 2 * n) := by
  intro n
  induction n with
  | zero => exact fun t m d rest ht hl _ _ _ => ⟨ht, hl⟩
  | succ n ih =>
    intro t m d rest ht hl htext hE hrange
    have htext2 : t.sc.doc.flatten.drop t.sc.currentPos =
        47 :: 42 :: ((List.replicate n [47, 42]).flatten ++ rest) := by
      rw [htext]
      rfl
    obtain ⟨a1, a2⟩ := step_comment_opener hk h keywordLists e s0 t m d _ hcs ht hl htext2
      (by omega) (by omega)
    have htx : (ColouriseRustDoc.step k h keywordLists t).sc.doc.flatten.drop
        (ColouriseRustDoc.step k h keywordLists t).sc.currentPos =
        (List.replicate n [47, 42]).flatten ++ rest := by
      have hd := drop_succ_of_drop (drop_succ_of_drop htext2)
      rw [ht.1.1, Nat.add_assoc, Nat.add_assoc] at hd
      rw [a1.1.2.1, a1.1.1, ← ht.1.2.1]
      exact hd
    obtain ⟨b1, b2⟩ := ih (ColouriseRustDoc.step k h keywordLists t) (m + 2) (d + 1) rest a1 a2
      htx (by omega) (by omega)
    rw [Function.iterate_succ_apply]
    have e1 : m + 2 * (n + 1) = m + 2 + 2 * n := by omega
    have e2 : d + (n + 1) = d + 1 + n := by omega
    rw [e1, e2]
    exact ⟨b1, b2⟩

/-- The round inside a block comment at a byte that starts no `/*` and no
`*/`, at a line end: the line state of the line is written with the depth of
the comment. -/
theorem step_comment_lineEnd {k : RustLexerH} (hk : k.Distinct) (hno : k.NoTaskMarker)
    (h : WordListH) (keywordLists : Nat → WordList) (e : StyleContext) (s0 t : RustScan)
    (m d c : Nat) (rest : List Nat)
    (hcs : e.state = k.SCE_RUST .COMMENTBLOCK ∨ e.state = k.SCE_RUST .COMMENTBLOCKDOC)
    (ht : ColouriseRustDoc.InComment e s0 t m d) (hl : ColouriseRustDoc.OnLine e t m)
    (htext : t.sc.doc.flatten.drop t.sc.currentPos = c :: rest)
    (hc1 : c ≠ 47) (hc2 : c ≠ 42) (hE : e.lineEndPos ≤ e.currentPos + m) :
    ∃ lt, (lt = s0.lineStateLineType ∨ lt = 0) ∧
      (ColouriseRustDoc.step k h keywordLists t).sc.lineStates e.currentLine =
        packRustLineState s0.squareBracket (d : Int) s0.hashCount s0.lineStateAttribute lt := by
  have hne : e.state ≠ k.SCE_RUST .DEFAULT := by
    rcases hcs with hs | hs <;> rw [hs] <;> intro he <;> exact absurd (hk _ _ he) (by decide)
  have hst : t.sc.state = k.SCE_RUST .COMMENTBLOCK ∨
      t.sc.state = k.SCE_RUST .COMMENTBLOCKDOC := by rw [ht.1.2.2.2.2.1]; exact hcs
  have hch : t.sc.ch = c := by
    rw [ht.1.2.2.2.2.2.2.1]
    exact SafeGetCharAt_of_drop htext
  have hm1 : t.sc.Match 42 47 = false := by
    unfold StyleContext.Match
    rw [hch]
    simp [hc2]
  have hm2 : t.sc.Match 47 42 = false := by
    unfold StyleContext.Match
    rw [hch]
    simp [hc1]
  have hstate := stateCase_comment_other hk hno h keywordLists t hst hm1 hm2
  have hstep := step_of_stateCase k h keywordLists t _ hstate
    (by
      show t.sc.state ≠ _
      rw [ht.1.2.2.2.2.1]
      exact hne)
  obtain ⟨l1, _, _, l4⟩ := hl
  have hat : t.sc.atLineEnd = true := by
    rw [l4]
    exact decide_eq_true hE
  refine ⟨t.lineStateLineType, ht.2.2.2.2.2, ?_⟩
  rw [hstep, ← l1]
  have := lineEnd_lineStates k
    { t with visibleChars := (k.HighlightTaskMarker t.sc t.visibleChars t.visibleCharsBefore
        (k.SCE_RUST .TASKMARKER)).2.1 } hat
  rw [this]
  show packRustLineState t.squareBracket t.commentLevel t.hashCount t.lineStateAttribute
    t.lineStateLineType = _
  rw [ht.2.1, ht.2.2.1, ht.2.2.2.1, ht.2.2.2.2.1]

theorem ColouriseMakeDoc.SameScan_eta {m0 m1 : Nat} {a b : MakeScan}
    (hab : ColouriseMakeDoc.SameScan m0 m1 a b) :
    b = { a with makeType := b.makeType, calls := b.calls } := by
  obtain ⟨h1, h2, h3, h4, h5, h6, h7, h8, h9, _⟩ := hab
  cases a
  cases b
  simp only at h1 h2 h3 h4 h5 h6 h7 h8 h9
  subst h1 h2 h3 h4 h5 h6 h7 h8 h9
  rfl

theorem ColouriseMakeDoc.SameResult_ite {m0 m1 : Nat} {c : Prop} [Decidable c]
    {x x1 y y1 : Option (MakeScan × Bool)}
    (h1 : c → ColouriseMakeDoc.SameResult m0 m1 x y)
    (h2 : ¬ c → ColouriseMakeDoc.SameResult m0 m1 x1 y1) :
    ColouriseMakeDoc.SameResult m0 m1 (if c then x else x1) (if c then y else y1) := by
  by_cases hc : c
  · rw [if_pos hc, if_pos hc]
    exact h1 hc
  · rw [if_neg hc, if_neg hc]
    exact h2 hc

set_option maxHeartbeats 1000000 in
/-- The `switch` of `ColouriseMakeDoc` in two scans that differ in the static
`makeType`: it leaves `makeType` alone in both or sets the same value in
both. -/
theorem stateCase_sameScan (k : MakeLexerH) (h : WordListH) (keywordLists : Nat → WordList)
    (doc : Document) (atLineStart : Bool) (chPrev m0 m1 : Nat) (a : MakeScan)
    (mb : Nat) (cb : List (Nat × Int))
    (hmt : (a.makeType = m0 ∧ mb = m1) ∨ a.makeType = mb) :
    ColouriseMakeDoc.SameResult m0 m1
      (ColouriseMakeDoc.stateCase k h keywordLists doc atLineStart chPrev a)
      (ColouriseMakeDoc.stateCase k h keywordLists doc atLineStart chPrev
        { a with makeType := mb, calls := cb }) := by
  unfold ColouriseMakeDoc.stateCase
  simp only []
  cases hsk : ColouriseMakeDoc.skipSpaces k doc (doc.Length + 2 - a.i) a.i <;>
    simp only [] <;>
    (repeat' (refine ColouriseMakeDoc.SameResult_ite (fun _ => ?_) (fun _ => ?_))) <;>
    first
    | exact Or.inl ⟨rfl, rfl⟩
    | exact Or.inr ⟨_, _, _, rfl, rfl, rfl, rfl, rfl, rfl, rfl, rfl, rfl, rfl, rfl, hmt⟩
    | exact Or.inr ⟨_, _, _, rfl, rfl, rfl, rfl, rfl, rfl, rfl, rfl, rfl, rfl, rfl, Or.inr rfl⟩

theorem ColouriseMakeDoc.SameScan_ite {m0 m1 : Nat} {c : Prop} [Decidable c]
    {x x1 y y1 : MakeScan}
    (h1 : c → ColouriseMakeDoc.SameScan m0 m1 x y)
    (h2 : ¬ c → ColouriseMakeDoc.SameScan m0 m1 x1 y1) :
    ColouriseMakeDoc.SameScan m0 m1 (if c then x else x1) (if c then y else y1) := by
  by_cases hc : c
  · rw [if_pos hc, if_pos hc]
    exact h1 hc
  · rw [if_neg hc, if_neg hc]
    exact h2 hc

/-- The block of the default state of `ColouriseMakeDoc` in two scans that
differ in the static `makeType`. -/
theorem defaultCase_sameScan (k : MakeLexerH) (doc : Document) (endPos : Nat)
    (atLineStart : Bool) (m0 m1 : Nat) (a : MakeScan) (mb : Nat) (cb : List (Nat × Int))
    (hmt : (a.makeType = m0 ∧ mb = m1) ∨ a.makeType = mb) :
    ColouriseMakeDoc.SameScan m0 m1 (ColouriseMakeDoc.defaultCase k doc endPos atLineStart a)
      (ColouriseMakeDoc.defaultCase k doc endPos atLineStart
        { a with makeType := mb, calls := cb }) := by
  unfold ColouriseMakeDoc.defaultCase
  simp only []
  (repeat' (refine ColouriseMakeDoc.SameScan_ite (fun _ => ?_) (fun _ => ?_))) <;>
    first
    | exact ⟨rfl, rfl, rfl, rfl, rfl, rfl, rfl, rfl, rfl, hmt⟩
    | exact ⟨rfl, rfl, rfl, rfl, rfl, rfl, rfl, rfl, rfl, Or.inr rfl⟩
    | (generalize ColouriseMakeDoc.expansion k doc endPos _ _ a.chNext a.chNext = r
       by_cases hx : r.2.1 = 41 ∨ r.2.1 = 36
       · simp only [if_pos hx]
         exact ⟨rfl, rfl, rfl, rfl, rfl, rfl, rfl, rfl, rfl, hmt⟩
       · simp only [if_neg hx]
         exact ⟨rfl, rfl, rfl, rfl, rfl, rfl, rfl, rfl, rfl, hmt⟩)

set_option maxHeartbeats 1000000 in
/-- One round of the loop of `ColouriseMakeDoc` in two scans that differ in
the static `makeType`: the round ends in both or in none, and the variables
after it are the same apart from `makeType` and the calls. -/
theorem step_sameScan (k : MakeLexerH) (h : WordListH) (keywordLists : Nat → WordList)
    (doc : Document) (endPos m0 m1 : Nat) (a b : MakeScan)
    (hab : ColouriseMakeDoc.SameScan m0 m1 a b) :
    (ColouriseMakeDoc.step k h keywordLists doc endPos a = none ∧
      ColouriseMakeDoc.step k h keywordLists doc endPos b = none) ∨
    ∃ a1 b1, ColouriseMakeDoc.step k h keywordLists doc endPos a = some a1 ∧
      ColouriseMakeDoc.step k h keywordLists doc endPos b = some b1 ∧
      ColouriseMakeDoc.SameScan m0 m1 a1 b1 := by
  have hmt := hab.2.2.2.2.2.2.2.2.2
  rw [ColouriseMakeDoc.SameScan_eta hab]
  generalize b.makeType = mb at hmt ⊢
  generalize b.calls = cb
  have hst := stateCase_sameScan k h keywordLists doc (decide (a.i = doc.LineStart a.lineCurrent))
    a.ch m0 m1 { a with ch := a.chNext, chNext := doc.SafeGetCharAt (a.i + 1) } mb cb hmt
  unfold ColouriseMakeDoc.step
  simp only [] at hst ⊢
  rcases hst with ⟨h1, h2⟩ | ⟨a1, b1, f, h1, h2, h12⟩
  · rw [h1, h2]
    exact Or.inl ⟨rfl, rfl⟩
  · rw [h1, h2]
    obtain ⟨mb1, cb1, rfl⟩ : ∃ mb1 cb1, b1 = { a1 with makeType := mb1, calls := cb1 } :=
      ⟨_, _, ColouriseMakeDoc.SameScan_eta h12⟩
    have hmt1 := h12.2.2.2.2.2.2.2.2.2
    simp only [] at hmt1
    cases f
    · simp only []
      by_cases hc : a1.state ≠ k.SCE_MAKE .COMMENT ∧ a1.ch = 92 ∧ IsEOLChar a1.chNext = true
      · simp only [if_pos hc]
        by_cases hc2 : a1.chNext = 13 ∧ doc.SafeGetCharAt (a1.i + 1 + 1) = 10
        · simp only [if_pos hc2]
          exact Or.inr ⟨_, _, rfl, rfl, rfl, rfl, rfl, rfl, rfl, rfl, rfl, rfl, rfl, hmt1⟩
        · simp only [if_neg hc2]
          exact Or.inr ⟨_, _, rfl, rfl, rfl, rfl, rfl, rfl, rfl, rfl, rfl, rfl, rfl, hmt1⟩
      · simp only [if_neg hc]
        have hd := defaultCase_sameScan k doc endPos (decide (a.i = doc.LineStart a.lineCurrent))
          m0 m1 a1 mb1 cb1 hmt1
        generalize ColouriseMakeDoc.defaultCase k doc endPos
          (decide (a.i = doc.LineStart a.lineCurrent)) a1 = A at hd ⊢
        generalize ColouriseMakeDoc.defaultCase k doc endPos
          (decide (a.i = doc.LineStart a.lineCurrent))
          { a1 with makeType := mb1, calls := cb1 } = B at hd ⊢
        obtain ⟨mb2, cb2, rfl⟩ : ∃ mb2 cb2, B = { A with makeType := mb2, calls := cb2 } :=
          ⟨_, _, ColouriseMakeDoc.SameScan_eta hd⟩
        have hmt2 := hd.2.2.2.2.2.2.2.2.2
        simp only [] at hmt2
        simp only []
        split_ifs <;>
          exact Or.inr ⟨_, _, rfl, rfl, rfl, rfl, rfl, rfl, rfl, rfl, rfl, rfl, rfl, hmt2⟩
    · exact Or.inr ⟨_, _, rfl, rfl, rfl, rfl, rfl, rfl, rfl, rfl, rfl, rfl, rfl, hmt1⟩

/-- The loop of `ColouriseMakeDoc` in two scans that differ in the static
`makeType`. -/
theorem loop_sameScan (k : MakeLexerH) (h : WordListH) (keywordLists : Nat → WordList)
    (doc : Document) (endPos m0 m1 : Nat) :
    ∀ (fuel : Nat) (a b : MakeScan), ColouriseMakeDoc.SameScan m0 m1 a b →
      (ColouriseMakeDoc.loop k h keywordLists doc endPos fuel a = none ∧
        ColouriseMakeDoc.loop k h keywordLists doc endPos fuel b = none) ∨
      ∃ a1 b1, ColouriseMakeDoc.loop k h keywordLists doc endPos fuel a = some a1 ∧
        ColouriseMakeDoc.loop k h keywordLists doc endPos fuel b = some b1 ∧
        ColouriseMakeDoc.SameScan m0 m1 a1 b1 := by
  intro fuel
  induction fuel with
  | zero =>
    intro a b hab
    unfold ColouriseMakeDoc.loop
    rw [← hab.1]
    by_cases hi : a.i < endPos
    · rw [if_pos hi, if_pos hi]
      exact Or.inl ⟨rfl, rfl⟩
    · rw [if_neg hi, if_neg hi]
      exact Or.inr ⟨a, b, rfl, rfl, hab⟩
  | succ fuel ih =>
    intro a b hab
    unfold ColouriseMakeDoc.loop
    rw [← hab.1]
    by_cases hi : a.i < endPos
    · rw [if_pos hi, if_pos hi]
      rcases step_sameScan k h keywordLists doc endPos m0 m1 a b hab with
        ⟨h1, h2⟩ | ⟨a1, b1, h1, h2, h12⟩
      · rw [h1, h2]
        exact Or.inl ⟨rfl, rfl⟩
      · rw [h1, h2]
        exact ih a1 b1 h12
    · rw [if_neg hi, if_neg hi]
      exact Or.inr ⟨a, b, rfl, rfl, hab⟩

/-- The same `ColorTo` calls on two style stores with the same segment start:
a byte keeps in both what it had, or gets the same style in both. -/
theorem run_pair (p : Nat) (v v1 : Option Int) :
    ∀ (calls : List (Nat × Int)) (st st1 : StyleStore), st.startSeg = st1.startSeg →
      ((st.styleAt p = v ∧ st1.styleAt p = v1) ∨ st.styleAt p = st1.styleAt p) →
      (((st.run calls).styleAt p = v ∧ (st1.run calls).styleAt p = v1) ∨
        (st.run calls).styleAt p = (st1.run calls).styleAt p) := by
  intro calls
  induction calls with
  | nil => exact fun st st1 _ hv => hv
  | cons c cs ih =>
    intro st st1 hseg hv
    rw [run_cons, run_cons]
    refine ih _ _ ?_ ?_
    · unfold StyleStore.ColorTo
      rw [← hseg]
      split <;> first | exact hseg | rfl
    · unfold StyleStore.ColorTo
      rw [← hseg]
      by_cases hc : c.1 < st.startSeg
      · rw [if_pos hc, if_pos hc]
        exact hv
      · rw [if_neg hc, if_neg hc]
        show ((if st.startSeg ≤ p ∧ p < c.1 then some c.2 else st.styleAt p) = v ∧
            (if st.startSeg ≤ p ∧ p < c.1 then some c.2 else st1.styleAt p) = v1) ∨
          (if st.startSeg ≤ p ∧ p < c.1 then some c.2 else st.styleAt p) =
            (if st.startSeg ≤ p ∧ p < c.1 then some c.2 else st1.styleAt p)
        by_cases hp : st.startSeg ≤ p ∧ p < c.1
        · rw [if_pos hp, if_pos hp]
          exact Or.inr rfl
        · rw [if_neg hp, if_neg hp]
          exact hv

/-- The `ColorTo` calls of a scan made a second time give every byte the style
it has after the first time. -/
theorem run_twice (calls : List (Nat × Int)) (st : StyleStore) (startPos p : Nat) :
    ((((st.StartSegment startPos).run calls).StartSegment startPos).run calls).styleAt p =
      ((st.StartSegment startPos).run calls).styleAt p := by
  rcases run_pair p (st.styleAt p) (((st.StartSegment startPos).run calls).styleAt p) calls
      (st.StartSegment startPos) (((st.StartSegment startPos).run calls).StartSegment startPos)
      rfl (Or.inl ⟨rfl, rfl⟩) with ⟨_, h2⟩ | h
  · exact h2
  · exact h.symm

/-- Bytes other than `/` and `*` have the depth of the text before them. -/
theorem commentDepths_skip (d : Nat) : ∀ (w r : List Nat), (∀ c ∈ w, c ≠ 47 ∧ c ≠ 42) →
    commentDepths d (w ++ r) =
      (commentDepths d r).map (fun l => List.replicate w.length d ++ l) := by
  intro w
  induction w with
  | nil =>
    intro r _
    simp
  | cons a w ih =>
    intro r hw
    have ha := hw a (List.mem_cons_self _ _)
    have ih1 := ih r (fun c hc => hw c (List.mem_cons_of_mem _ hc))
    rw [List.cons_append]
    cases hwr : w ++ r with
    | nil =>
      obtain ⟨hw0, hr0⟩ := List.append_eq_nil.mp hwr
      subst hw0
      subst hr0
      simp [commentDepths]
    | cons b rest =>
      rw [commentDepths, if_neg (fun hx => ha.1 hx.1), if_neg (fun hx => ha.2 hx.1), ← hwr, ih1,
        Option.map_map]
      congr 1

/-- A scan inside a block comment stays inside it when its cursor moves
forward in the same state with the same style runs. -/
theorem insideComment_moved {k : RustLexerH} {e : StyleContext} {s0 t u : RustScan}
    {m d n d1 : Nat} (ht : ColouriseRustDoc.InsideComment k e s0 t m d)
    (hmv : t.sc.Moved u.sc n) (hl : u.commentLevel = (d1 : Int))
    (hsq : u.squareBracket = t.squareBracket) (hhc : u.hashCount = t.hashCount)
    (hattr : u.lineStateAttribute = t.lineStateAttribute)
    (hlt : u.lineStateLineType = t.lineStateLineType ∨ u.lineStateLineType = 0) :
    ColouriseRustDoc.InsideComment k e s0 u (m + n) d1 := by
  obtain ⟨⟨t1, t2, t3, t4, t5, _⟩, ⟨y1, y2⟩, _, c2, c3, c4, c5⟩ := ht
  obtain ⟨m1, m2, m3, m4, m5, m6, m7⟩ := hmv
  refine ⟨⟨by rw [m1, t1, Nat.add_assoc], m2.trans t2, m3.trans t3, m4.trans t4, m5.trans t5,
    m7⟩, ⟨by rw [m6]; exact y1, fun p hp1 hp2 => ?_⟩, hl, hsq.trans c2, hhc.trans c3,
    hattr.trans c4, ?_⟩
  · rw [m6] at hp2 ⊢
    exact y2 p hp1 hp2
  · rcases hlt with hlt | hlt
    · rw [hlt]
      exact c5
    · exact Or.inr hlt

/-- The line-end block inside a block comment. -/
theorem lineEnd_insideComment (k : RustLexerH) (e : StyleContext) (s0 u : RustScan) (m d : Nat)
    (hu : ColouriseRustDoc.InsideComment k e s0 u m d) (hlt : u.sc.currentPos < u.sc.endPos) :
    ColouriseRustDoc.InsideComment k e s0 (ColouriseRustDoc.lineEnd k u) (m + 1) d := by
  obtain ⟨f1, f2, f3, f4, f5⟩ := lineEnd_fields k u
  exact insideComment_moved hu (lineEnd_spec k u hu.1.2.2.2.2.2 hlt).1 (f1.trans hu.2.2.1) f2 f3
    f4 f5

/-- Inside a block comment, at a byte that starts no `/*` and no `*/`, the
`switch` calls `HighlightTaskMarker` and ends with `continue` when it returns
`true`. -/
theorem stateCase_comment_marker {k : RustLexerH} (hk : k.Distinct) (h : WordListH)
    (keywordLists : Nat → WordList) (t : RustScan)
    (hs : t.sc.state = k.SCE_RUST .COMMENTBLOCK ∨ t.sc.state = k.SCE_RUST .COMMENTBLOCKDOC)
    (hm : t.sc.Match 42 47 = false) (hm2 : t.sc.Match 47 42 = false) :
    ColouriseRustDoc.stateCase k h keywordLists t =
      ({ t with
          sc := (k.HighlightTaskMarker t.sc t.visibleChars t.visibleCharsBefore
            (k.SCE_RUST .TASKMARKER)).1
          visibleChars := (k.HighlightTaskMarker t.sc t.visibleChars t.visibleCharsBefore
            (k.SCE_RUST .TASKMARKER)).2.1 },
        (k.HighlightTaskMarker t.sc t.visibleChars t.visibleCharsBefore
          (k.SCE_RUST .TASKMARKER)).2.2) := by
  unfold ColouriseRustDoc.stateCase
  rcases hs with hs | hs <;> simp only [hs, SCE_RUST_eq_iff hk, hm, hm2] <;> simp

/-- The cursor after a task marker of `n` bytes inside a block comment. -/
theorem insideComment_marker {k : RustLexerH} {e : StyleContext} {s0 t u : RustScan}
    {m d n : Nat} (ht : ColouriseRustDoc.InsideComment k e s0 t m d)
    (hsc : u.sc = ((t.sc.SetState (k.SCE_RUST .TASKMARKER)).Advance n).SetState t.sc.state)
    (hend : t.sc.currentPos + n ≤ t.sc.endPos)
    (hlen : t.sc.currentPos + n ≤ t.sc.lengthDocument)
    (hl : u.commentLevel = t.commentLevel)
    (hsq : u.squareBracket = t.squareBracket) (hhc : u.hashCount = t.hashCount)
    (hattr : u.lineStateAttribute = t.lineStateAttribute)
    (hlt : u.lineStateLineType = t.lineStateLineType) :
    ColouriseRustDoc.InsideComment k e s0 u (m + n) d := by
  obtain ⟨⟨t1, t2, t3, t4, t5, t6⟩, ⟨y1, y2⟩, c1, c2, c3, c4, c5⟩ := ht
  obtain ⟨a1, a2, a3, a4, a5, a6, _, _, _, a10, a11⟩ :=
    SetState_spec t6 (by omega) (k.SCE_RUST .TASKMARKER)
  obtain ⟨b1, b2, b3, b4, b5, b6, b7⟩ := Advance_moved n a6 (by rw [a1, a3]; exact hend)
  obtain ⟨g1, g2, g3, g4, g5, g6, _, _, _, g10, g11⟩ :=
    SetState_spec b7 (by rw [b1, b4, a1, a4]; exact hlen) t.sc.state
  have hseg := t6.2.2.2
  refine ⟨⟨?_, ?_, ?_, ?_, ?_, ?_⟩, ⟨?_, fun p hp1 hp2 => ?_⟩, hl.trans c1, hsq.trans c2,
    hhc.trans c3, hattr.trans c4, by rw [hlt]; exact c5⟩
  · rw [hsc, g1, b1, a1, t1, Nat.add_assoc]
  · rw [hsc, g2, b2, a2, t2]
  · rw [hsc, g3, b3, a3, t3]
  · rw [hsc, g4, b4, a4, t4]
  · rw [hsc, g5, t5]
  · rw [hsc]
    exact g6
  · rw [hsc, g10, b1, a1]
    omega
  · rw [hsc, g10, b1, a1] at hp2
    rw [hsc, g11 p, b6, a10, b1, a1, b5, a5]
    by_cases hp : t.sc.currentPos ≤ p ∧ p < t.sc.currentPos + n
    · rw [if_pos hp]
      exact Or.inr rfl
    · rw [if_neg hp, a11 p]
      by_cases hq : t.sc.styler.startSeg ≤ p ∧ p < t.sc.currentPos
      · rw [if_pos hq, t5]
        exact Or.inl rfl
      · rw [if_neg hq]
        exact y2 p hp1 (by omega)

/-- A round inside a block comment in which the `switch` does not end with
`continue`. -/
theorem commentRound_of (k : RustLexerH) (h : WordListH) (keywordLists : Nat → WordList)
    (q : Nat) (D : List Nat) (e : StyleContext) (s0 t u : RustScan) (m x : Nat)
    (hstate : ColouriseRustDoc.stateCase k h keywordLists t = (u, false))
    (hu : ColouriseRustDoc.InsideComment k e s0 u m x) (hq : e.currentPos = q + 2)
    (hD : D[m + 2]? = some x) (hne : e.state ≠ k.SCE_RUST .DEFAULT) :
    ColouriseRustDoc.CommentRound k h keywordLists q D s0 t := by
  obtain ⟨hm, _, h1, h2, h3, h4, h5⟩ := hu
  have hstep := step_of_stateCase k h keywordLists t u hstate (by rw [hm.2.2.2.2.1]; exact hne)
  have hw : u.sc.atLineEnd = true →
      (ColouriseRustDoc.lineEnd k u).sc.lineStates u.sc.currentLine =
        packRustLineState s0.squareBracket (x : Int) s0.hashCount s0.lineStateAttribute
          u.lineStateLineType := by
    intro hat
    rw [lineEnd_lineStates k u hat, h1, h2, h3, h4]
  refine ⟨m + 2, x, hD, ?_, Or.inr ⟨?_, ?_, ?_, fun hat => ⟨?_, ?_, ?_⟩⟩⟩
  · rw [hstate]
    exact h1
  · rw [hstate]
  · rw [hstate]
    show u.sc.currentPos = _
    rw [hm.1, hq]
    omega
  · rw [hstate]
    exact hstep
  · rw [hstate] at hat ⊢
    rw [hstep]
    exact hw hat
  · rw [hstate]
    exact h5
  · intro hx hsq hhash hattr htype
    rw [hstate] at hat ⊢
    rw [hstep]
    show (unpackRustLineState ((ColouriseRustDoc.lineEnd k u).sc.lineStates
      u.sc.currentLine)).2.1 = x
    rw [hw hat]
    obtain ⟨sb, hsb⟩ := Int.eq_ofNat_of_zero_le hsq.1
    obtain ⟨hc0, hhc⟩ := Int.eq_ofNat_of_zero_le hhash.1
    have hsb2 : sb < 256 := by
      have := hsq.2
      rw [hsb] at this
      exact_mod_cast this
    have hhc2 : hc0 < 256 := by
      have := hhash.2
      rw [hhc] at this
      exact_mod_cast this
    rw [hsb, hhc]
    refine unpack_pack_commentLevel hsb2 hx hhc2 hattr ?_
    rcases h5 with w2 | w2
    · rw [w2]
      exact htype
    · exact Or.inl w2

/-- A round inside a block comment in which `HighlightTaskMarker` has styled a
task marker. -/
theorem commentRound_marker (k : RustLexerH) (h : WordListH) (keywordLists : Nat → WordList)
    (q : Nat) (D : List Nat) (s0 t u : RustScan) (off x : Nat)
    (hstate : ColouriseRustDoc.stateCase k h keywordLists t = (u, true))
    (hl : u.commentLevel = (x : Int)) (hpos : u.sc.currentPos = q + off + 1)
    (hD : D[off]? = some x) :
    ColouriseRustDoc.CommentRound k h keywordLists q D s0 t := by
  refine ⟨off, x, hD, ?_, Or.inl ⟨?_, ?_, ?_⟩⟩
  · rw [hstate]
    exact hl
  · rw [hstate]
  · rw [hstate]
    exact hpos
  · unfold ColouriseRustDoc.step
    simp only [hstate]
    rfl

/-- The rounds inside a block comment up to its last closer: each is a round
of the comment at the nesting depth of the text, and the last closer is reached
at depth 1. -/
theorem comment_rounds {k : RustLexerH} (hk : k.Distinct) (hmark : k.TaskMarkerStyled)
    (h : WordListH) (keywordLists : Nat → WordList) (q : Nat) (D : List Nat)
    (e : StyleContext) (s0 : RustScan) (hq : e.currentPos = q + 2)
    (hcs : e.state = k.SCE_RUST .COMMENTBLOCK ∨ e.state = k.SCE_RUST .COMMENTBLOCKDOC) :
    ∀ n (text : List Nat) (d : Nat) (t : RustScan) (m : Nat) (pre D1 : List Nat),
      text.length ≤ n → 1 ≤ d → ColouriseRustDoc.InsideComment k e s0 t m d →
      t.sc.doc.flatten.drop t.sc.currentPos = text → commentDepths d text = some D1 →
      D = pre ++ D1 → pre.length = m + 2 → e.currentPos + m + D1.length ≤ e.endPos →
      ∃ j, (∀ i, i < j →
          ((ColouriseRustDoc.step k h keywordLists)^[i] t).sc.state = e.state ∧
          ColouriseRustDoc.CommentRound k h keywordLists q D s0
            ((ColouriseRustDoc.step k h keywordLists)^[i] t)) ∧
        ColouriseRustDoc.InsideComment k e s0 ((ColouriseRustDoc.step k h keywordLists)^[j] t)
          (D.length - 4) 1 ∧
        ((ColouriseRustDoc.step k h keywordLists)^[j] t).sc.Match 42 47 = true := by
  have hne : e.state ≠ k.SCE_RUST .DEFAULT := by
    rcases hcs with hs | hs <;> rw [hs] <;> intro he <;> exact absurd (hk _ _ he) (by decide)
  intro n
  induction n with
  | zero =>
    intro text d t m pre D1 hlen _ _ _ hD1
    have : text = [] := List.length_eq_zero.mp (Nat.le_zero.mp hlen)
    subst this
    simp [commentDepths] at hD1
  | succ n ih =>
    intro text d t m pre D1 hlen hd ht htext hD1 hD hpre hrange
    have hcoh : t.sc.Coherent := ht.1.2.2.2.2.2
    have hst : t.sc.state = k.SCE_RUST .COMMENTBLOCK ∨
        t.sc.state = k.SCE_RUST .COMMENTBLOCKDOC := by rw [ht.1.2.2.2.2.1]; exact hcs
    have hpos : t.sc.currentPos = e.currentPos + m := ht.1.1
    have hend : t.sc.endPos = e.endPos := ht.1.2.2.1
    -- the rounds after this one
    have hrest : ∀ (m1 x : Nat) (text1 pre1 D2 : List Nat),
        ColouriseRustDoc.CommentRound k h keywordLists q D s0 t →
        ColouriseRustDoc.InsideComment k e s0 (ColouriseRustDoc.step k h keywordLists t) m1 x →
        text1.length ≤ n → 1 ≤ x →
        t.sc.doc.flatten.drop (e.currentPos + m1) = text1 →
        commentDepths x text1 = some D2 → D = pre1 ++ D2 → pre1.length = m1 + 2 →
        e.currentPos + m1 + D2.length ≤ e.endPos →
        ∃ j, (∀ i, i < j →
            ((ColouriseRustDoc.step k h keywordLists)^[i] t).sc.state = e.state ∧
            ColouriseRustDoc.CommentRound k h keywordLists q D s0
              ((ColouriseRustDoc.step k h keywordLists)^[i] t)) ∧
          ColouriseRustDoc.InsideComment k e s0
            ((ColouriseRustDoc.step k h keywordLists)^[j] t) (D.length - 4) 1 ∧
          ((ColouriseRustDoc.step k h keywordLists)^[j] t).sc.Match 42 47 = true := by
      intro m1 x text1 pre1 D2 hround hin hlen1 hx htext1 hD2 hDpre hpre1 hrange1
      have htx : (ColouriseRustDoc.step k h keywordLists t).sc.doc.flatten.drop
          (ColouriseRustDoc.step k h keywordLists t).sc.currentPos = text1 := by
        rw [hin.1.2.1, hin.1.1, ← ht.1.2.1]
        exact htext1
      obtain ⟨j, hj1, hj2, hj3⟩ := ih text1 x (ColouriseRustDoc.step k h keywordLists t)
        m1 pre1 D2 hlen1 hx hin htx hD2 hDpre hpre1 hrange1
      refine ⟨j + 1, fun i hi => ?_, ?_, ?_⟩
      · cases i with
        | zero => exact ⟨ht.1.2.2.2.2.1, hround⟩
        | succ i =>
          rw [Function.iterate_succ_apply]
          exact hj1 i (by omega)
      · rw [Function.iterate_succ_apply]
        exact hj2
      · rw [Function.iterate_succ_apply]
        exact hj3
    -- a round that ends with the line-end block
    have hnext : ∀ (u : RustScan) (m1 x : Nat) (text1 pre1 D2 : List Nat),
        ColouriseRustDoc.stateCase k h keywordLists t = (u, false) →
        ColouriseRustDoc.InsideComment k e s0 u m1 x → u.sc.currentPos < u.sc.endPos →
        D[m1 + 2]? = some x → text1.length ≤ n → 1 ≤ x →
        t.sc.doc.flatten.drop (e.currentPos + (m1 + 1)) = text1 →
        commentDepths x text1 = some D2 → D = pre1 ++ D2 → pre1.length = m1 + 1 + 2 →
        e.currentPos + (m1 + 1) + D2.length ≤ e.endPos →
        ∃ j, (∀ i, i < j →
            ((ColouriseRustDoc.step k h keywordLists)^[i] t).sc.state = e.state ∧
            ColouriseRustDoc.CommentRound k h keywordLists q D s0
              ((ColouriseRustDoc.step k h keywordLists)^[i] t)) ∧
          ColouriseRustDoc.InsideComment k e s0
            ((ColouriseRustDoc.step k h keywordLists)^[j] t) (D.length - 4) 1 ∧
          ((ColouriseRustDoc.step k h keywordLists)^[j] t).sc.Match 42 47 = true := by
      intro u m1 x text1 pre1 D2 hstate hu hult hDx hlen1 hx htext1 hD2 hDpre hpre1 hrange1
      have hround := commentRound_of k h keywordLists q D e s0 t u m1 x hstate hu hq hDx hne
      have hstep := step_of_stateCase k h keywordLists t u hstate
        (by rw [hu.1.2.2.2.2.1]; exact hne)
      have hin := lineEnd_insideComment k e s0 u m1 x hu hult
      rw [← hstep] at hin
      exact hrest (m1 + 1) x text1 pre1 D2 hround hin hlen1 hx htext1 hD2 hDpre hpre1 hrange1
    match text, htext, hlen, hD1 with
    | [], _, _, hD1 => simp [commentDepths] at hD1
    | [_], _, _, hD1 => simp [commentDepths] at hD1
    | a :: b :: rest, htext, hlen, hD1 =>
      have hmatch := Match_of_drop hcoh htext
      have hrest2 : t.sc.doc.flatten.drop (t.sc.currentPos + 1 + 1) = rest :=
        drop_succ_of_drop (drop_succ_of_drop htext)
      have hD1full := hD1
      rw [commentDepths] at hD1
      by_cases hopen : a = 47 ∧ b = 42
      · rw [if_pos hopen] at hD1
        obtain ⟨D2, hD2, rfl⟩ := Option.map_eq_some'.mp hD1
        have hm1 : t.sc.Match 42 47 = false := by
          rw [hmatch, hopen.1, hopen.2]
          rfl
        have hm2 : t.sc.Match 47 42 = true := by
          rw [hmatch, hopen.1, hopen.2]
          rfl
        simp only [List.length_cons] at hrange hlen
        have hf := Forward_moved hcoh (by rw [hpos, hend]; omega)
        refine hnext { t with sc := t.sc.Forward, commentLevel := t.commentLevel + 1 } (m + 1)
          (d + 1) rest (pre ++ [d + 1, d + 1]) D2
          (stateCase_comment_open hk h keywordLists t hst hm1 hm2)
          (insideComment_moved ht hf ?_ rfl rfl rfl (Or.inl rfl)) ?_ ?_
          (by omega) (by omega) ?_ hD2 ?_ ?_ (by omega)
        · show t.commentLevel + 1 = _
          rw [ht.2.2.1]
          push_cast
          rfl
        · show t.sc.Forward.currentPos < t.sc.Forward.endPos
          rw [hf.1, hf.2.2.1, hpos, hend]
          omega
        · rw [hD, List.getElem?_append_right (by omega)]
          have : m + 1 + 2 - pre.length = 1 := by omega
          rw [this]
          simp
        · rw [← Nat.add_assoc, ← Nat.add_assoc, ← hpos]
          exact hrest2
        · rw [hD, List.append_assoc]
          rfl
        · rw [List.length_append, hpre]
          rfl
      · rw [if_neg hopen] at hD1
        by_cases hclose : a = 42 ∧ b = 47
        · rw [if_pos hclose] at hD1
          have hm1 : t.sc.Match 42 47 = true := by
            rw [hmatch, hclose.1, hclose.2]
            rfl
          by_cases hd1 : d = 1
          · rw [if_pos hd1] at hD1
            have hD1' : D1 = [0, 0] := (Option.some.inj hD1).symm
            subst hD1'
            subst hd1
            refine ⟨0, fun i hi => absurd hi (Nat.not_lt_zero i), ?_, hm1⟩
            have : D.length - 4 = m := by
              rw [hD, List.length_append, hpre]
              rfl
            rw [this]
            exact ht
          · rw [if_neg hd1] at hD1
            obtain ⟨D2, hD2, rfl⟩ := Option.map_eq_some'.mp hD1
            simp only [List.length_cons] at hrange hlen
            have hf := Forward_moved hcoh (by rw [hpos, hend]; omega)
            have hlev : ¬ t.commentLevel - 1 = 0 := by
              rw [ht.2.2.1]
              omega
            have hstate := stateCase_comment_close hk h keywordLists t hst hm1
            rw [if_neg hlev] at hstate
            refine hnext { t with sc := t.sc.Forward, commentLevel := t.commentLevel - 1 }
              (m + 1) (d - 1) rest (pre ++ [d - 1, d - 1]) D2 hstate
              (insideComment_moved ht hf ?_ rfl rfl rfl (Or.inl rfl)) ?_ ?_
              (by omega) (by omega) ?_ hD2 ?_ ?_ (by omega)
            · show t.commentLevel - 1 = _
              rw [ht.2.2.1]
              omega
            · show t.sc.Forward.currentPos < t.sc.Forward.endPos
              rw [hf.1, hf.2.2.1, hpos, hend]
              omega
            · rw [hD, List.getElem?_append_right (by omega)]
              have : m + 1 + 2 - pre.length = 1 := by omega
              rw [this]
              simp
            · rw [← Nat.add_assoc, ← Nat.add_assoc, ← hpos]
              exact hrest2
            · rw [hD, List.append_assoc]
              rfl
            · rw [List.length_append, hpre]
              rfl
        · rw [if_neg hclose] at hD1
          obtain ⟨D2, hD2, hD12⟩ := Option.map_eq_some'.mp hD1
          have hm1 : t.sc.Match 42 47 = false := by
            rw [hmatch]
            simp only [Bool.and_eq_false_imp, decide_eq_true_eq, decide_eq_false_iff_not]
            exact fun ha hb => hclose ⟨ha, hb⟩
          have hm2 : t.sc.Match 47 42 = false := by
            rw [hmatch]
            simp only [Bool.and_eq_false_imp, decide_eq_true_eq, decide_eq_false_iff_not]
            exact fun ha hb => hopen ⟨ha, hb⟩
          have hstate := stateCase_comment_marker hk h keywordLists t hst hm1 hm2
          obtain ⟨hno, hyes⟩ := hmark t.sc t.visibleChars t.visibleCharsBefore
            (k.SCE_RUST .TASKMARKER) hcoh
          cases hfound : (k.HighlightTaskMarker t.sc t.visibleChars t.visibleCharsBefore
            (k.SCE_RUST .TASKMARKER)).2.2 with
          | false =>
            rw [hfound] at hstate
            subst hD12
            simp only [List.length_cons] at hrange hlen
            refine hnext _ m d (b :: rest) (pre ++ [d]) D2 hstate
              (insideComment_moved (n := 0) ht ?_ ht.2.2.1 rfl rfl rfl (Or.inl rfl)) ?_ ?_
              (by simp only [List.length_cons]; omega) hd ?_ hD2 ?_ ?_ (by omega)
            · show t.sc.Moved (k.HighlightTaskMarker t.sc t.visibleChars t.visibleCharsBefore
                (k.SCE_RUST .TASKMARKER)).1 0
              rw [hno hfound]
              exact StyleContext.Moved.refl hcoh
            · show (k.HighlightTaskMarker t.sc t.visibleChars t.visibleCharsBefore
                (k.SCE_RUST .TASKMARKER)).1.currentPos < (k.HighlightTaskMarker t.sc
                t.visibleChars t.visibleCharsBefore (k.SCE_RUST .TASKMARKER)).1.endPos
              rw [hno hfound, hpos, hend]
              omega
            · rw [hD, List.getElem?_append_right (by omega)]
              have : m + 2 - pre.length = 0 := by omega
              rw [this]
              simp
            · rw [← Nat.add_assoc, ← hpos]
              exact drop_succ_of_drop htext
            · rw [hD, List.append_assoc]
              rfl
            · rw [List.length_append, hpre]
              rfl
          | true =>
            rw [hfound] at hstate
            obtain ⟨w, hw0, ⟨text1, hwt⟩, hwc, hsc⟩ := hyes hfound
            rw [htext] at hwt
            rw [← hwt, commentDepths_skip d w text1 hwc] at hD1full
            obtain ⟨D3, hD3, hD13⟩ := Option.map_eq_some'.mp hD1full
            have hwpos : 0 < w.length := List.length_pos.mpr hw0
            have hlen13 : D1.length = w.length + D3.length := by
              rw [← hD13, List.length_append, List.length_replicate]
            have hlenw : (a :: b :: rest).length = w.length + text1.length := by
              rw [← hwt, List.length_append]
            have hdrop : t.sc.doc.flatten.drop t.sc.currentPos = w ++ text1 := by
              rw [htext, hwt]
            have hu : ColouriseRustDoc.InsideComment k e s0
                { t with
                  sc := (k.HighlightTaskMarker t.sc t.visibleChars t.visibleCharsBefore
                    (k.SCE_RUST .TASKMARKER)).1
                  visibleChars := (k.HighlightTaskMarker t.sc t.visibleChars
                    t.visibleCharsBefore (k.SCE_RUST .TASKMARKER)).2.1 }
                (m + w.length) d := by
              refine insideComment_marker ht hsc ?_ ?_ rfl rfl rfl rfl rfl
              · rw [hpos, hend]
                omega
              · have := length_le_of_drop hdrop hw0
                rw [hcoh.2.2.1]
                unfold Document.Length
                exact this
            have hstep : ColouriseRustDoc.step k h keywordLists t =
                { t with
                  sc := (k.HighlightTaskMarker t.sc t.visibleChars t.visibleCharsBefore
                    (k.SCE_RUST .TASKMARKER)).1
                  visibleChars := (k.HighlightTaskMarker t.sc t.visibleChars
                    t.visibleCharsBefore (k.SCE_RUST .TASKMARKER)).2.1 } := by
              unfold ColouriseRustDoc.step
              simp only [hstate]
              rfl
            have hDw : D[m + w.length + 1]? = some d := by
              rw [hD, List.getElem?_append_right (by omega), ← hD13,
                List.getElem?_append_left (by rw [List.length_replicate]; omega),
                List.getElem?_replicate, if_pos (by omega)]
            have hround := commentRound_marker k h keywordLists q D s0 t _ (m + w.length + 1) d
              hstate hu.2.2.1 (by show _ = q + (m + w.length + 1) + 1; rw [hu.1.1, hq]; omega)
              hDw
            rw [← hstep] at hu
            refine hrest (m + w.length) d text1 (pre ++ List.replicate w.length d) D3 hround hu
              (by omega) hd ?_ hD3 ?_ ?_ (by omega)
            · rw [← Nat.add_assoc, ← hpos]
              exact drop_add_of_drop hdrop
            · rw [hD, ← hD13, List.append_assoc]
            · rw [List.length_append, List.length_replicate, hpre]
              omega

/-- The round at the last closer of a block comment: the cursor goes past the
closer, the run of the comment is closed, and the default state is entered. -/
theorem stateCase_comment_end {k : RustLexerH} (hk : k.Distinct) (h : WordListH)
    (keywordLists : Nat → WordList) (e : StyleContext) (s0 t : RustScan) (m : Nat)
    (hcs : e.state = k.SCE_RUST .COMMENTBLOCK ∨ e.state = k.SCE_RUST .COMMENTBLOCKDOC)
    (ht : ColouriseRustDoc.InsideComment k e s0 t m 1) (hm : t.sc.Match 42 47 = true)
    (hrange : e.currentPos + m + 2 ≤ e.endPos)
    (hlen : e.currentPos + m + 2 ≤ e.lengthDocument) :
    (ColouriseRustDoc.stateCase k h keywordLists t).2 = false ∧
    (ColouriseRustDoc.stateCase k h keywordLists t).1.sc.state = k.SCE_RUST .DEFAULT ∧
    (ColouriseRustDoc.stateCase k h keywordLists t).1.sc.currentPos = e.currentPos + m + 2 ∧
    (ColouriseRustDoc.stateCase k h keywordLists t).1.commentLevel = 0 ∧
    (ColouriseRustDoc.stateCase k h keywordLists t).1.sc.styler.startSeg =
      e.currentPos + m + 2 ∧
    ∀ p, e.styler.startSeg ≤ p → p < e.currentPos + m + 2 →
      (ColouriseRustDoc.stateCase k h keywordLists t).1.sc.styler.styleAt p = some e.state ∨
      (ColouriseRustDoc.stateCase k h keywordLists t).1.sc.styler.styleAt p =
        some (k.SCE_RUST .TASKMARKER) := by
  obtain ⟨⟨t1, t2, t3, t4, t5, t7⟩, ⟨_, y2⟩, hl, _⟩ := ht
  have hst : t.sc.state = k.SCE_RUST .COMMENTBLOCK ∨
      t.sc.state = k.SCE_RUST .COMMENTBLOCKDOC := by rw [t5]; exact hcs
  have hstate := stateCase_comment_close hk h keywordLists t hst hm
  have hlev : t.commentLevel - 1 = 0 := by rw [hl]; rfl
  rw [if_pos hlev] at hstate
  have f1 := Forward_moved t7 (by rw [t1, t3]; omega)
  have f2 := Forward_moved f1.2.2.2.2.2.2 (by rw [f1.1, f1.2.2.1, t1, t3]; omega)
  have f := f1.trans f2
  obtain ⟨g1, _, _, _, g5, _, _, _, _, g10, g11⟩ :=
    SetState_spec f.2.2.2.2.2.2 (by rw [f.1, f.2.2.2.1, t1, t4]; omega) (k.SCE_RUST .DEFAULT)
  rw [hstate]
  refine ⟨rfl, g5, ?_, hlev, ?_, fun p hp1 hp2 => ?_⟩
  · show (t.sc.Forward.Forward.SetState _).currentPos = _
    rw [g1, f.1, t1]
  · show (t.sc.Forward.Forward.SetState _).styler.startSeg = _
    rw [g10, f.1, t1]
  · show (t.sc.Forward.Forward.SetState _).styler.styleAt p = _ ∨
      (t.sc.Forward.Forward.SetState _).styler.styleAt p = _
    rw [g11 p, f.2.2.2.2.2.1, f.1, t1, f.2.2.2.2.1, t5]
    by_cases hp : t.sc.styler.startSeg ≤ p ∧ p < e.currentPos + m + (1 + 1)
    · rw [if_pos hp]
      exact Or.inl rfl
    · rw [if_neg hp]
      exact y2 p hp1 (by omega)

/-- The helper of `rustLexerTodo` styles the marker `TODO` as the theorem on
nested block comments requires. -/
theorem rustLexerTodo_taskMarkerStyled : rustLexerTodo.TaskMarkerStyled := by
  intro sc v vb m _
  by_cases hc : (sc.doc.flatten.drop sc.currentPos).take 4 = [84, 79, 68, 79]
  · have hr : rustLexerTodo.HighlightTaskMarker sc v vb m =
        (((sc.SetState m).Advance 4).SetState sc.state, v + 4, true) := if_pos hc
    rw [hr]
    refine ⟨fun hf => Bool.noConfusion hf, fun _ => ⟨[84, 79, 68, 79], by decide, ?_, ?_, rfl⟩⟩
    · rw [← hc]
      exact List.take_prefix _ _
    · decide
  · have hr : rustLexerTodo.HighlightTaskMarker sc v vb m = (sc, v, false) := if_neg hc
    rw [hr]
    exact ⟨fun _ => rfl, fun hf => absurd hf Bool.false_ne_true⟩

/-! ## The claims -/

/-- C10: for every blob, after `Set(blob)` without the pre-sorted attribute
(and without case folding), the stored word sequence is a rearrangement of the
maximal runs of bytes greater than 0x20 of the blob (no empty word, duplicates
kept) and is in ascending unsigned-byte lexicographic order; `Set` stores that
sequence, followed by the empty sentinel, whenever it completes, and it
completes when every word starts with an indexable byte. -/
theorem set_stores_sorted_runs (blob : CStr) (attr : KeywordAttr)
    (hp : attr.preSorted = false) (hl : attr.makeLower = false) :
    (SetWords blob attr).Perm (blobWords blob) ∧ Ascending (SetWords blob attr) ∧
    ∀ (h : WordListH) (old : WordList),
      (∀ wl, WordList.Set h old blob attr = some wl →
        wl.words = some (SetWords blob attr ++ [[]])) ∧
      (h.WellFormed → old.ranges.length = h.rangesSize →
        (∀ w ∈ blobWords blob, h.Indexable (peek w)) →
        ∃ wl, WordList.Set h old blob attr = some wl) := by
  have hperm := SetWords_perm blob attr
  rw [hl] at hperm
  simp only [Bool.false_eq_true, if_false] at hperm
  refine ⟨hperm, SetWords_ascending blob attr hp, fun h old => ⟨fun wl hset => Set_words hset, ?_⟩⟩
  intro hh hold hidx
  exact Set_isSome hh old hold blob attr (pairwise_peek_of_wordLE (SetWords_sorted blob attr hp))
    (fun w hw => hidx w (hperm.mem_iff.mp hw))

set_option maxRecDepth 100000 in
/-- Witness of C10 on the blob `gamma  alpha beta<TAB>beta`: the two runs of
`beta` are both kept, the double space yields no empty word. -/
theorem set_stores_sorted_runs_witness :
    SetWords (bytes "gamma  alpha beta\tbeta") ⟨false, false⟩ =
      [bytes "alpha", bytes "beta", bytes "beta", bytes "gamma"] ∧
    (SetWords (bytes "gamma  alpha beta\tbeta") ⟨false, false⟩).Perm
      (blobWords (bytes "gamma  alpha beta\tbeta")) ∧
    Ascending (SetWords (bytes "gamma  alpha beta\tbeta") ⟨false, false⟩) :=
  ⟨by decide,
   (set_stores_sorted_runs (bytes "gamma  alpha beta\tbeta") ⟨false, false⟩ rfl rfl).1,
   (set_stores_sorted_runs (bytes "gamma  alpha beta\tbeta") ⟨false, false⟩ rfl rfl).2.1⟩

/-- C4: for every word list and every word, `InList(s)` equals
`InListPrefixed(s, 0)`. -/
theorem inList_eq_inListPrefixed_nul (h : WordListH) (wl : WordList) (s : CStr) :
    wl.InList h s = wl.InListPrefixed h s 0 := by
  have hbody : InList.body s = InListPrefixed.body s 0 := by
    funext w
    simp [InList.body, InListPrefixed.body]
  have hhit : (fun diff : Int => decide (diff = 0)) =
      (fun diff : Int => decide (diff = 0 ∨ diff = ((0 : Nat) : Int))) := by
    funext d
    simp
  unfold WordList.InList WordList.InListPrefixed
  rw [hbody, hhit]

/-- C3: on a bucket `B` of entries that share the first byte of the query and
are sorted in `strcmp` order, located at `words[range.start .. range.end)`, the
binary search `InList` runs on buckets of 5 or more entries and the linear scan
it runs on smaller ones give the same answer: `true` exactly when some entry of
the bucket equals the query. -/
theorem binary_search_agrees_with_linear (h : WordListH) (A B C : List CStr) (range : Range)
    (s : CStr) (hstart : range.start = A.length) (hend : range.end_ = A.length + B.length)
    (hfit : range.end_ < 2 ^ h.rangeBits) (hB : WordListLinearSearchThreshold ≤ B.length)
    (hsorted : B.Pairwise wordLE) (hwf : ∀ w ∈ B, IsCStr w ∧ w ≠ [] ∧ peek w = peek s)
    (hs : IsCStr s) (hsne : s ≠ []) :
    binarySearch (fun diff => decide (diff = 0)) (A ++ B ++ C) s (range.Length h) range.start
        (range.Length h) =
      scanRange (InList.body s) ((A ++ B ++ C).drop range.start) range ∧
    scanRange (InList.body s) ((A ++ B ++ C).drop range.start) range =
      some (decide (∃ w ∈ B, w = s)) := by
  have hBne : B ≠ [] := by
    intro h0; rw [h0] at hB; simp [WordListLinearSearchThreshold] at hB
  have hlen : range.Length h = B.length := by
    unfold Range.Length
    rw [hstart]
    rw [hend] at hfit ⊢
    have : A.length + B.length + 2 ^ h.rangeBits - A.length = B.length + 2 ^ h.rangeBits := by
      omega
    rw [this, Nat.add_mod_right, Nat.mod_eq_of_lt (by omega)]
  have hrange : range = { start := A.length, end_ := A.length + B.length } := by
    cases range; simp only at hstart hend; rw [hstart, hend]
  have hbin := binarySearch_spec hs.noNul hsne B.length A B C (Nat.le_refl _) hBne hsorted
    (fun w hw => ⟨(hwf w hw).1.noNul, (hwf w hw).2⟩)
  have hbody : ∀ w ∈ B, InList.body s w = some (decide (w = s)) := by
    intro w hw
    unfold InList.body
    simp only [Option.some.injEq, decide_eq_decide]
    rw [skipCommon_both_end (hwf w hw).1.noNul.tail hs.noNul.tail,
      tail_eq_iff_of_peek (hwf w hw).2.1 hsne (hwf w hw).2.2]
  have hlin := scanRange_spec (InList.body s) _ B C A.length hBne hbody
  have hany : B.any (fun w => decide (w = s)) = decide (∃ w ∈ B, w = s) := by
    rw [Bool.eq_iff_iff, List.any_eq_true, decide_eq_true_iff]
    simp
  have hmem : decide (s ∈ B) = decide (∃ w ∈ B, w = s) := by
    rw [Bool.eq_iff_iff, decide_eq_true_iff, decide_eq_true_iff]
    simp
  rw [hlen, hstart, List.append_assoc, List.drop_left, hrange, hlin, hany]
  rw [List.append_assoc] at hbin
  rw [hbin, hmem]
  exact ⟨rfl, rfl⟩

set_option maxRecDepth 100000 in
/-- Witness of C3: the bucket `xA xB xY xy xz` and the queries `xy` (found)
and `xq` (not found). -/
theorem binary_search_agrees_with_linear_witness :
    scanRange (InList.body (bytes "xy")) (([] ++ blobWords (bytes "xA xB xY xy xz") ++ [[]]).drop 0)
      { start := 0, end_ := 5 } = some (decide (∃ w ∈ blobWords (bytes "xA xB xY xy xz"),
        w = bytes "xy")) ∧
    binarySearch (fun diff => decide (diff = 0)) ([] ++ blobWords (bytes "xA xB xY xy xz") ++ [[]])
      (bytes "xy") 5 0 5 = some true ∧
    binarySearch (fun diff => decide (diff = 0)) ([] ++ blobWords (bytes "xA xB xY xy xz") ++ [[]])
      (bytes "xq") 5 0 5 = some false :=
  ⟨(binary_search_agrees_with_linear asciiH [] (blobWords (bytes "xA xB xY xy xz")) [[]]
      { start := 0, end_ := 5 } (bytes "xy") (by decide) (by decide) (by decide) (by decide)
      (by decide) (by decide) (by decide) (by decide)).2,
   by decide, by decide⟩

/-- Counterexample to C1 as stated (no bound on the number of words): the
blob made of 65536 words `ax` followed by the word `b` has only words that
start with an indexable byte other than `^`, `b` is one of them, and after
`Set` of that blob `InList("b")` is `false`. -/
theorem inList_misses_word_beyond_capacity :
    asciiH.WellFormed ∧
    blobWords (manyWordsBlob 65536) = List.replicate 65536 (bytes "ax") ++ [bytes "b"] ∧
    asciiH.Indexable 97 ∧ asciiH.Indexable 98 ∧
    (WordList.Set asciiH (WordList.empty asciiH) (manyWordsBlob 65536) ⟨false, false⟩).bind
      (fun wl => wl.InList asciiH (bytes "b")) = some false :=
  ⟨by decide, blobWords_manyWordsBlob 65536, by decide, by decide, InList_manyWordsBlob⟩

/-- C1 (amended): for every blob of fewer than 65536 words whose words all
start with an indexable byte and none of which starts with `^`, `Set(blob)`
without the pre-sorted attribute (and without case folding) completes, and
afterwards `InList(s)` is `true` if and only if `s` is one of the words of the
blob, for every query `s`, the empty one included. -/
theorem inList_iff_blob_word (h : WordListH) (hh : h.WellFormed) (old : WordList)
    (hold : old.ranges.length = h.rangesSize) (blob : CStr) (attr : KeywordAttr) (hp : attr.preSorted = false)
    (hl : attr.makeLower = false)
    (hidx : ∀ w ∈ blobWords blob, h.Indexable (peek w) ∧ peek w ≠ 94)
    (hlen : (blobWords blob).length < 65536) (s : CStr) (hs : IsCStr s) :
    ∃ wl, WordList.Set h old blob attr = some wl ∧
      wl.InList h s = some (decide (s ∈ blobWords blob)) := by
  have hperm := SetWords_perm blob attr
  rw [hl] at hperm
  simp only [Bool.false_eq_true, if_false] at hperm
  have hsorted := SetWords_sorted blob attr hp
  obtain ⟨wl, hset, hv⟩ := Set_valid hh old hold blob attr (by rw [hperm.length_eq]; exact hlen)
    (pairwise_peek_of_wordLE hsorted) (fun w hw => (hidx w (hperm.mem_iff.mp hw)).1)
  refine ⟨wl, hset, ?_⟩
  have hmem : decide (s ∈ SetWords blob attr) = decide (s ∈ blobWords blob) := by
    rw [Bool.eq_iff_iff, decide_eq_true_iff, decide_eq_true_iff, hperm.mem_iff]
  by_cases hi : h.Indexable (peek s)
  · rw [InList_valid hh hv hsorted
      (fun w hw => ⟨(SetWords_mem hw).1, noNul_of_gt (SetWords_mem hw).2⟩) hs.noNul hi]
    have hcaret : bucketOf 94 (SetWords blob attr) = [] :=
      bucketOf_eq_nil_of_ne (fun x hx => (hidx x (hperm.mem_iff.mp hx)).2)
    rw [hcaret, hmem]
    simp
  · rw [InList_guard hh hs hi]
    have : s ∉ blobWords blob := fun hm => hi (hidx s hm).1
    simp [this]

set_option maxRecDepth 100000 in
/-- Witness of C1 (amended), the scenario of the specification: after
`Set("alpha beta gamma")`, `InList("beta")` is `true`, `InList("bet")` and
`InList("delta")` are `false`. -/
theorem inList_iff_blob_word_witness :
    (∃ wl, WordList.Set asciiH (WordList.empty asciiH) (bytes "alpha beta gamma") ⟨false, false⟩ =
        some wl ∧
      wl.InList asciiH (bytes "beta") =
        some (decide (bytes "beta" ∈ blobWords (bytes "alpha beta gamma")))) ∧
    (WordList.Set asciiH (WordList.empty asciiH) (bytes "alpha beta gamma") ⟨false, false⟩).bind
      (fun wl => wl.InList asciiH (bytes "beta")) = some true ∧
    (WordList.Set asciiH (WordList.empty asciiH) (bytes "alpha beta gamma") ⟨false, false⟩).bind
      (fun wl => wl.InList asciiH (bytes "bet")) = some false ∧
    (WordList.Set asciiH (WordList.empty asciiH) (bytes "alpha beta gamma") ⟨false, false⟩).bind
      (fun wl => wl.InList asciiH (bytes "delta")) = some false ∧
    (WordList.Set asciiH (WordList.empty asciiH) (bytes "alpha beta gamma") ⟨false, false⟩).bind
      (fun wl => wl.InList asciiH []) = some false :=
  ⟨inList_iff_blob_word asciiH (by decide) (WordList.empty asciiH) (by decide)
      (bytes "alpha beta gamma")
      ⟨false, false⟩ rfl rfl (by decide) (by decide) (bytes "beta") (by decide),
   by decide, by decide, by decide, by decide⟩

/-- Counterexample to C2 as stated ("whatever the query's first byte is"):
with the entry `^` every query has the text after `^` as an initial segment,
and with the entry `^` followed by the byte 0xC3 the query made of the bytes
0xC3 0xA9 has; `InList` answers `false` for the empty query and for that one,
because their first byte has no bucket. -/
theorem inList_caret_skipped_by_guard :
    (WordList.Set asciiH (WordList.empty asciiH) [94] ⟨false, false⟩).bind
      (fun wl => wl.words) = some [[94], []] ∧
    (WordList.Set asciiH (WordList.empty asciiH) [94] ⟨false, false⟩).bind
      (fun wl => wl.InList asciiH []) = some false ∧
    (WordList.Set asciiH (WordList.empty asciiH) [94, 195] ⟨false, false⟩).bind
      (fun wl => wl.words) = some [[94, 195], []] ∧
    (WordList.Set asciiH (WordList.empty asciiH) [94, 195] ⟨false, false⟩).bind
      (fun wl => wl.InList asciiH [195, 169]) = some false := by
  decide

/-- C2 (amended): for every word list built by `Set` (fewer than 65536
words, each starting with an indexable byte; with the pre-sorted attribute, from
a blob whose words are grouped by ascending first byte) that contains an entry
`^p`, and for every word `s` that has `p` as an initial segment (`s = p`
included) and whose first byte is in the indexable range, `InList(s)` is
`true`. -/
theorem inList_caret_entry (h : WordListH) (hh : h.WellFormed) (old : WordList)
    (hold : old.ranges.length = h.rangesSize) (blob : CStr) (attr : KeywordAttr)
    (hgrp : attr.preSorted = true →
      (SetWords blob attr).Pairwise (fun a b => peek a ≤ peek b))
    (hidx : ∀ w ∈ SetWords blob attr, h.Indexable (peek w))
    (hlen : (SetWords blob attr).length < 65536) (p s : CStr)
    (hp : (94 :: p) ∈ SetWords blob attr) (hps : p <+: s) (hi : h.Indexable (peek s)) :
    ∃ wl, WordList.Set h old blob attr = some wl ∧ wl.InList h s = some true := by
  have hs : (SetWords blob attr).Pairwise (fun a b => peek a ≤ peek b) := by
    cases hpre : attr.preSorted with
    | true => exact hgrp hpre
    | false => exact pairwise_peek_of_wordLE (SetWords_sorted blob attr hpre)
  obtain ⟨wl, hset, hv⟩ := Set_valid hh old hold blob attr hlen hs hidx
  exact ⟨wl, hset, InList_caret hh hv (fun w hw => noNul_of_gt (SetWords_mem hw).2) hp hps hi⟩

set_option maxRecDepth 100000 in
/-- Witness of C2 (amended), the scenario of the specification: after
`Set("^GTK_")`, `InList` is `true` for `GTK_MAJOR_VERSION`, `GTK_X` and
`GTK_`. -/
theorem inList_caret_entry_witness :
    (∃ wl, WordList.Set asciiH (WordList.empty asciiH) (bytes "^GTK_") ⟨false, false⟩ = some wl ∧
      wl.InList asciiH (bytes "GTK_MAJOR_VERSION") = some true) ∧
    (WordList.Set asciiH (WordList.empty asciiH) (bytes "^GTK_") ⟨false, false⟩).bind
      (fun wl => wl.InList asciiH (bytes "GTK_X")) = some true ∧
    (WordList.Set asciiH (WordList.empty asciiH) (bytes "^GTK_") ⟨false, false⟩).bind
      (fun wl => wl.InList asciiH (bytes "GTK_")) = some true :=
  ⟨inList_caret_entry asciiH (by decide) (WordList.empty asciiH) (by decide) (bytes "^GTK_")
      ⟨false, false⟩
      (by decide) (by decide) (by decide) (bytes "GTK_") (bytes "GTK_MAJOR_VERSION")
      (by decide) (by decide) (by decide),
   by decide, by decide⟩

set_option maxRecDepth 100000 in
/-- C5, the code at the failing input: after `Set("xA xB xY xy xz")` the
bucket of `x` has 5 entries and is searched by the binary search, whose test
`diff == marker` holds at the middle entry `xY` for the query `x1` (`Y` is `1`
plus `(`), so `InListPrefixed("x1", '(')` is `true` although no entry is `x1`
or starts with `x1(` and there is no `^` entry; with the first four words only,
the linear scan answers `false`. -/
theorem inListPrefixed_binary_false_positive :
    SetWords (bytes "xA xB xY xy xz") ⟨false, false⟩ =
      [bytes "xA", bytes "xB", bytes "xY", bytes "xy", bytes "xz"] ∧
    (WordList.Set asciiH (WordList.empty asciiH) (bytes "xA xB xY xy xz") ⟨false, false⟩).bind
      (fun wl => wl.InListPrefixed asciiH (bytes "x1") 40) = some true ∧
    (WordList.Set asciiH (WordList.empty asciiH) (bytes "xA xB xY xy") ⟨false, false⟩).bind
      (fun wl => wl.InListPrefixed asciiH (bytes "x1") 40) = some false := by
  decide

set_option maxRecDepth 100000 in
/-- C6, the code at the failing input: after `Set("sa sb sin!a sin!b sin(x) sz")`
the bucket of `s` has 6 entries and is searched by the binary search, which
moves left at the middle entry `sin!b` (it is greater than `sin`) and never
reaches `sin(x)`, so `InListPrefixed("sin", '(')` is `false` although the entry
`sin(x)` is stored; with the three entries `sin!a sin!b sin(x)` the linear scan
answers `true`. -/
theorem inListPrefixed_binary_misses_entry :
    SetWords (bytes "sa sb sin!a sin!b sin(x) sz") ⟨false, false⟩ =
      [bytes "sa", bytes "sb", bytes "sin!a", bytes "sin!b", bytes "sin(x)", bytes "sz"] ∧
    (WordList.Set asciiH (WordList.empty asciiH) (bytes "sa sb sin!a sin!b sin(x) sz")
      ⟨false, false⟩).bind
      (fun wl => wl.InListPrefixed asciiH (bytes "sin") 40) = some false ∧
    (WordList.Set asciiH (WordList.empty asciiH) (bytes "sin!a sin!b sin(x)") ⟨false, false⟩).bind
      (fun wl => wl.InListPrefixed asciiH (bytes "sin") 40) = some true ∧
    (WordList.Set asciiH (WordList.empty asciiH) (bytes "sin(x)") ⟨false, false⟩).bind
      (fun wl => wl.InListPrefixed asciiH (bytes "sin") 40) = some true := by
  decide

/-- C7: for every word list (a state that satisfies the invariant of the
bucket table) with no `^` entry whose entries each have the form `p·marker·q`
with `p` non-empty and the marker occurring exactly once, and for every word
`s`, `InListAbbreviated(s, marker)` is defined and is `true` if and only if for
some entry `s` is `p` followed by a (possibly empty, possibly full) initial
segment of `q`. -/
theorem inListAbbreviated_iff (h : WordListH) (hh : h.WellFormed) (wl : WordList)
    (ws : List CStr) (hv : wl.Valid h ws) (hws : ∀ w ∈ ws, IsCStr w) (marker : Nat)
    (hform : ∀ w ∈ ws, ∃ p q, w = p ++ marker :: q ∧ p ≠ [] ∧ marker ∉ p ∧ marker ∉ q)
    (hcaret : ∀ w ∈ ws, peek w ≠ 94) (s : CStr) (hs : IsCStr s) :
    ∃ b, wl.InListAbbreviated h s marker = some b ∧
      (b = true ↔ ∃ p q q2, (p ++ marker :: q) ∈ ws ∧ q2 <+: q ∧ s = p ++ q2) :=
  InListAbbreviated_valid hh hv (fun w hw => (hws w hw).noNul) marker hform hcaret hs

set_option maxRecDepth 100000 in
/-- Witness of C7: the word list `Set("def~ine")` satisfies the invariant;
the entry `def~ine` matches `def`, `defi`, `defin` and `define` and does not
match `de` or `defx`. -/
theorem inListAbbreviated_iff_witness :
    (∃ wl, WordList.Set asciiH (WordList.empty asciiH) (bytes "def~ine") ⟨false, false⟩ = some wl ∧
      wl.Valid asciiH [bytes "def~ine"] ∧
      ∃ b, wl.InListAbbreviated asciiH (bytes "defi") 126 = some b ∧
        (b = true ↔ ∃ p q q2, (p ++ 126 :: q) ∈ [bytes "def~ine"] ∧ q2 <+: q ∧
          bytes "defi" = p ++ q2)) ∧
    (WordList.Set asciiH (WordList.empty asciiH) (bytes "def~ine") ⟨false, false⟩).bind
      (fun wl => (["def", "defi", "defin", "define", "de", "defx"].map
        (fun q => wl.InListAbbreviated asciiH (bytes q) 126)).mapM id) =
      some [true, true, true, true, false, false] := by
  refine ⟨?_, by decide⟩
  obtain ⟨wl, hset, hv⟩ := Set_valid (h := asciiH) (by decide) (WordList.empty asciiH)
    (by decide) (bytes "def~ine") ⟨false, false⟩ (by decide) (by decide) (by decide)
  have hw : SetWords (bytes "def~ine") ⟨false, false⟩ = [bytes "def~ine"] := by decide
  rw [hw] at hv
  exact ⟨wl, hset, hv, inListAbbreviated_iff asciiH (by decide) wl [bytes "def~ine"] hv
    (by decide) 126
    (fun w hw => by
      rw [List.mem_singleton.mp hw]
      exact ⟨bytes "def", bytes "ine", by decide, by decide, by decide, by decide⟩)
    (by decide) (bytes "defi") (by decide)⟩

/-- C8: for every word list (a state that satisfies the invariant of the
bucket table) whose entries in the bucket of the first byte of the query have
the form `p·marker·q` with `p` non-empty and exactly one marker, and with no
entry starting with the marker, `InListAbridged(s, marker)` is defined and is
`true` if and only if for some entry `s` starts with `p`, ends with `q` and has
at least the length of `p` plus the length of `q` (`s = p ++ mid ++ q`). -/
theorem inListAbridged_iff (h : WordListH) (hh : h.WellFormed) (wl : WordList)
    (ws : List CStr) (hv : wl.Valid h ws) (hws : ∀ w ∈ ws, IsCStr w) (marker : Nat)
    (hm : marker < 256) (s : CStr) (hs : IsCStr s)
    (hform : ∀ w ∈ ws, peek w = peek s →
      ∃ p q, w = p ++ marker :: q ∧ p ≠ [] ∧ marker ∉ p ∧ marker ∉ q)
    (hnom : ∀ w ∈ ws, peek w ≠ marker) :
    ∃ b, wl.InListAbridged h s marker = some b ∧
      (b = true ↔ ∃ p q mid, (p ++ marker :: q) ∈ ws ∧ s = p ++ mid ++ q) := by
  have hwn : ∀ w ∈ ws, NoNul w := fun w hw => (hws w hw).noNul
  have hkey : ∀ p q mid, (p ++ marker :: q) ∈ ws → s = p ++ mid ++ q →
      p ≠ [] ∧ marker ∉ p ∧ marker ∉ q ∧ peek (p ++ marker :: q) = peek s := by
    intro p q mid hw hsq
    have hp : p ≠ [] := by
      intro h0; rw [h0] at hw; exact hnom _ hw rfl
    have hpk : peek (p ++ marker :: q) = peek s := by
      rw [hsq, List.append_assoc, peek_append_of_ne_nil hp, peek_append_of_ne_nil hp]
    obtain ⟨p0, q0, he, _, hmp0, hmq0⟩ := hform _ hw hpk
    obtain ⟨h1, h2⟩ := marker_split_unique hmp0 hmq0 he
    rw [h1, h2]; exact ⟨by rw [← h1]; exact hp, hmp0, hmq0, by rw [← h1, ← h2]; exact hpk⟩
  by_cases hi : h.Indexable (peek s)
  · have hbody : ∀ w ∈ bucketOf (peek s) ws, ∃ b, InListAbridged.body s marker w = some b ∧
        (b = true ↔ ∃ p q mid, w = p ++ marker :: q ∧ s = p ++ mid ++ q) := by
      intro w hw
      obtain ⟨hwm, hwp⟩ := mem_bucketOf.mp hw
      obtain ⟨p, q, he, hp, hmp, hmq⟩ := hform w hwm hwp
      obtain ⟨b, hb, hbiff⟩ := abridged_body hp hmp hmq (he ▸ hwn w hwm) hs.noNul
      refine ⟨b, he ▸ hb, hbiff.trans ⟨fun ⟨mid, hmid⟩ => ⟨p, q, mid, he, hmid⟩, ?_⟩⟩
      rintro ⟨p2, q2, mid, he2, hmid⟩
      obtain ⟨h1, h2⟩ := marker_split_unique hmp hmq (he2.symm.trans he)
      exact ⟨mid, by rw [← h1, ← h2]; exact hmid⟩
    obtain ⟨b, hb, hbiff⟩ := InListAbridged_shape hh hv hwn hm hs.noNul hi
      (fun w hw => (hbody w hw).imp (fun _ hx => hx.1))
    refine ⟨b, hb, hbiff.trans ?_⟩
    have hempty : bucketOf marker ws = [] := bucketOf_eq_nil_of_ne hnom
    constructor
    · rintro (⟨w, hw, hbt⟩ | ⟨w, hw, _⟩)
      · obtain ⟨b2, hb2, hb2iff⟩ := hbody w hw
        rw [hb2] at hbt
        obtain ⟨p, q, mid, he, hmid⟩ := hb2iff.mp (by simpa using hbt)
        exact ⟨p, q, mid, he ▸ (mem_bucketOf.mp hw).1, hmid⟩
      · rw [hempty] at hw; simp at hw
    · rintro ⟨p, q, mid, hw, hmid⟩
      obtain ⟨_, _, _, hpk⟩ := hkey p q mid hw hmid
      have hwb : (p ++ marker :: q) ∈ bucketOf (peek s) ws := mem_bucketOf.mpr ⟨hw, hpk⟩
      obtain ⟨b2, hb2, hb2iff⟩ := hbody _ hwb
      exact Or.inl ⟨_, hwb, by rw [hb2, hb2iff.mpr ⟨p, q, mid, rfl, hmid⟩]⟩
  · refine ⟨false, InListAbridged_guard hh marker hs hi, ?_⟩
    constructor
    · intro h0; cases h0
    · rintro ⟨p, q, mid, hw, hmid⟩
      exfalso; apply hi
      obtain ⟨_, _, _, hpk⟩ := hkey p q mid hw hmid
      rw [← hpk]; exact hv.2.2.2.2.1 _ hw

set_option maxRecDepth 100000 in
/-- Witness of C8: the word list `Set("after.~:")` satisfies the invariant;
the entry `after.~:` matches `after.field:` and `after.form.item:` and does
not match `after.`. -/
theorem inListAbridged_iff_witness :
    (∃ wl, WordList.Set asciiH (WordList.empty asciiH) (bytes "after.~:") ⟨false, false⟩ =
        some wl ∧ wl.Valid asciiH [bytes "after.~:"] ∧
      ∃ b, wl.InListAbridged asciiH (bytes "after.field:") 126 = some b ∧
        (b = true ↔ ∃ p q mid, (p ++ 126 :: q) ∈ [bytes "after.~:"] ∧
          bytes "after.field:" = p ++ mid ++ q)) ∧
    (WordList.Set asciiH (WordList.empty asciiH) (bytes "after.~:") ⟨false, false⟩).bind
      (fun wl => (["after.field:", "after.form.item:", "after.", "after.:"].map
        (fun q => wl.InListAbridged asciiH (bytes q) 126)).mapM id) =
      some [true, true, false, true] := by
  refine ⟨?_, by decide⟩
  obtain ⟨wl, hset, hv⟩ := Set_valid (h := asciiH) (by decide) (WordList.empty asciiH)
    (by decide) (bytes "after.~:") ⟨false, false⟩ (by decide) (by decide) (by decide)
  have hw : SetWords (bytes "after.~:") ⟨false, false⟩ = [bytes "after.~:"] := by decide
  rw [hw] at hv
  exact ⟨wl, hset, hv, inListAbridged_iff asciiH (by decide) wl [bytes "after.~:"] hv
    (by decide) 126 (by decide) (bytes "after.field:") (by decide)
    (fun w hw _ => by
      rw [List.mem_singleton.mp hw]
      exact ⟨bytes "after.", bytes ":", by decide, by decide, by decide, by decide⟩)
    (by decide)⟩

set_option maxRecDepth 100000 in
/-- Counterexample to C9 as stated (any text after the leading marker): the
list `Set("~a~b")` has the single entry `~a~b`, which starts with the marker
`~`; `InListAbridged("~aXb", '~')` is `true` although `~aXb` does not end with
`a~b`: the first scan takes the entry for the prefix `~a` and the suffix `b`. -/
theorem inListAbridged_second_marker :
    (WordList.Set asciiH (WordList.empty asciiH) (bytes "~a~b") ⟨false, false⟩).bind
      (fun wl => wl.words) = some [bytes "~a~b", []] ∧
    (WordList.Set asciiH (WordList.empty asciiH) (bytes "~a~b") ⟨false, false⟩).bind
      (fun wl => wl.InListAbridged asciiH (bytes "~aXb") 126) = some true ∧
    ¬ (bytes "a~b" <:+ bytes "~aXb") := by
  decide

/-- C9 (amended): for every word list (a state that satisfies the invariant
of the bucket table) containing a suffix-only entry `marker·q`, and every word
`s` whose first byte is in the indexable range and that ends with `q`,
`InListAbridged(s, marker)` is `true`; and when every entry of the list is a
suffix-only entry `marker·q` whose `q` does not contain the marker, it is
`true` for no other `s`. -/
theorem inListAbridged_suffix_entries (h : WordListH) (hh : h.WellFormed) (wl : WordList)
    (ws : List CStr) (hv : wl.Valid h ws) (hws : ∀ w ∈ ws, IsCStr w) (marker : Nat)
    (hm : marker < 256) (s : CStr) (hs : IsCStr s) :
    (∀ q, (marker :: q) ∈ ws → h.Indexable (peek s) → q <:+ s →
      wl.InListAbridged h s marker = some true) ∧
    ((∀ w ∈ ws, ∃ q, w = marker :: q ∧ marker ∉ q) →
      ∃ b, wl.InListAbridged h s marker = some b ∧
        (b = true → ∃ q, (marker :: q) ∈ ws ∧ q <:+ s)) := by
  have hwn : ∀ w ∈ ws, NoNul w := fun w hw => (hws w hw).noNul
  constructor
  · intro q hq hi hsuf
    have hm0 : marker ≠ 0 := ((hwn _ hq).of_cons).1
    obtain ⟨b, hb, hbiff⟩ := InListAbridged_shape hh hv hwn hm hs.noNul hi
      (fun w _ => by
        unfold InListAbridged.body
        obtain ⟨r, hr⟩ := abridged_loop_defined hm0 w.length w s (Nat.le_refl _)
        rw [hr]; exact ⟨_, rfl⟩)
    have : b = true := hbiff.mpr (Or.inr ⟨marker :: q, mem_bucketOf.mpr ⟨hq, rfl⟩, hsuf⟩)
    rw [hb, this]
  · intro hform
    by_cases hi : h.Indexable (peek s)
    · have hbody : ∀ w ∈ bucketOf (peek s) ws, ∃ b, InListAbridged.body s marker w = some b ∧
          (b = true → w.tail <:+ s) := by
        intro w hw
        obtain ⟨hwm, _⟩ := mem_bucketOf.mp hw
        obtain ⟨q, he, hmq⟩ := hform w hwm
        rw [he]
        exact abridged_body_suffix_entry hmq (he ▸ hwn w hwm) hs.noNul
      obtain ⟨b, hb, hbiff⟩ := InListAbridged_shape hh hv hwn hm hs.noNul hi
        (fun w hw => (hbody w hw).imp (fun _ hx => hx.1))
      refine ⟨b, hb, fun hbt => ?_⟩
      have hex : ∃ w ∈ ws, w.tail <:+ s := by
        rcases hbiff.mp hbt with ⟨w, hw, hbw⟩ | ⟨w, hw, hsuf⟩
        · obtain ⟨b2, hb2, himp⟩ := hbody w hw
          rw [hb2] at hbw
          exact ⟨w, (mem_bucketOf.mp hw).1, himp (by simpa using hbw)⟩
        · exact ⟨w, (mem_bucketOf.mp hw).1, hsuf⟩
      obtain ⟨w, hw, hsuf⟩ := hex
      obtain ⟨q, he, _⟩ := hform w hw
      exact ⟨q, he ▸ hw, by rw [he] at hsuf; exact hsuf⟩
    · exact ⟨false, InListAbridged_guard hh marker hs hi, fun h0 => by cases h0⟩

set_option maxRecDepth 100000 in
/-- Witness of C9 (amended): the word list `Set("~.is.valid")` satisfies the
invariant, the entry `~.is.valid` matches `field.is.valid` and `form.is.valid`
and does not match `field.is.valix`. -/
theorem inListAbridged_suffix_entries_witness :
    (∃ wl, WordList.Set asciiH (WordList.empty asciiH) (bytes "~.is.valid") ⟨false, false⟩ =
        some wl ∧ wl.Valid asciiH [bytes "~.is.valid"] ∧
      wl.InListAbridged asciiH (bytes "field.is.valid") 126 = some true ∧
      ∃ b, wl.InListAbridged asciiH (bytes "field.is.valix") 126 = some b ∧
        (b = true → ∃ q, (126 :: q) ∈ [bytes "~.is.valid"] ∧ q <:+ bytes "field.is.valix")) ∧
    (WordList.Set asciiH (WordList.empty asciiH) (bytes "~.is.valid") ⟨false, false⟩).bind
      (fun wl => (["field.is.valid", "form.is.valid", "field.is.valix"].map
        (fun q => wl.InListAbridged asciiH (bytes q) 126)).mapM id) =
      some [true, true, false] := by
  refine ⟨?_, by decide⟩
  obtain ⟨wl, hset, hv⟩ := Set_valid (h := asciiH) (by decide) (WordList.empty asciiH)
    (by decide) (bytes "~.is.valid") ⟨false, false⟩ (by decide) (by decide) (by decide)
  have hw : SetWords (bytes "~.is.valid") ⟨false, false⟩ = [bytes "~.is.valid"] := by decide
  rw [hw] at hv
  refine ⟨wl, hset, hv, ?_, ?_⟩
  · exact (inListAbridged_suffix_entries asciiH (by decide) wl [bytes "~.is.valid"] hv
      (by decide) 126 (by decide) (bytes "field.is.valid") (by decide)).1 (bytes ".is.valid")
      (by decide) (by decide) (by decide)
  · exact (inListAbridged_suffix_entries asciiH (by decide) wl [bytes "~.is.valid"] hv
      (by decide) 126 (by decide) (bytes "field.is.valix") (by decide)).2
      (fun w hw => by
        rw [List.mem_singleton.mp hw]
        exact ⟨bytes ".is.valid", by decide, by decide⟩)

/-- C11: `Set` fully replaces the previous content. For all blobs `a` and `b`
(with any attributes) and every state `old`, when `Set(a)` on `old` completes
with the state `wl1`, `Set(b)` on `wl1` gives the same state (word array and
bucket table) as `Set(b)` on `old`, and as `Set(b)` on a list on which `Set`
was never called when the table has its declared size; hence `InList`,
`InListPrefixed`, `InListAbbreviated` and `InListAbridged` answer the same for
every query and marker. -/
theorem set_replaces_previous_content (h : WordListH) (old wl1 : WordList) (a b : CStr)
    (attrA attrB : KeywordAttr) (hset : WordList.Set h old a attrA = some wl1) :
    WordList.Set h wl1 b attrB = WordList.Set h old b attrB ∧
    (old.ranges.length = h.rangesSize →
      WordList.Set h wl1 b attrB = WordList.Set h (WordList.empty h) b attrB) ∧
    ∀ (s : CStr) (marker : Nat),
      (WordList.Set h wl1 b attrB).bind (fun wl => wl.InList h s) =
        (WordList.Set h old b attrB).bind (fun wl => wl.InList h s) ∧
      (WordList.Set h wl1 b attrB).bind (fun wl => wl.InListPrefixed h s marker) =
        (WordList.Set h old b attrB).bind (fun wl => wl.InListPrefixed h s marker) ∧
      (WordList.Set h wl1 b attrB).bind (fun wl => wl.InListAbbreviated h s marker) =
        (WordList.Set h old b attrB).bind (fun wl => wl.InListAbbreviated h s marker) ∧
      (WordList.Set h wl1 b attrB).bind (fun wl => wl.InListAbridged h s marker) =
        (WordList.Set h old b attrB).bind (fun wl => wl.InListAbridged h s marker) := by
  have hlen := Set_ranges_length hset
  have heq : WordList.Set h wl1 b attrB = WordList.Set h old b attrB := Set_congr hlen b attrB
  refine ⟨heq, ?_, ?_⟩
  · intro hold
    refine Set_congr ?_ b attrB
    rw [hlen, hold]
    simp [WordList.empty]
  · intro s marker
    rw [heq]
    exact ⟨rfl, rfl, rfl, rfl⟩

set_option maxRecDepth 100000 in
/-- Witness of C11: after `Set("alpha beta")` and then `Set("gamma")` the
list is the one `Set("gamma")` alone builds; `alpha` is no longer found and
`gamma` is. -/
theorem set_replaces_previous_content_witness :
    ∃ wl1, WordList.Set asciiH (WordList.empty asciiH) (bytes "alpha beta") ⟨false, false⟩ =
        some wl1 ∧
      wl1.InList asciiH (bytes "alpha") = some true ∧
      WordList.Set asciiH wl1 (bytes "gamma") ⟨false, false⟩ =
        WordList.Set asciiH (WordList.empty asciiH) (bytes "gamma") ⟨false, false⟩ ∧
      (WordList.Set asciiH wl1 (bytes "gamma") ⟨false, false⟩).bind
        (fun wl => wl.InList asciiH (bytes "alpha")) = some false ∧
      (WordList.Set asciiH wl1 (bytes "gamma") ⟨false, false⟩).bind
        (fun wl => wl.InList asciiH (bytes "gamma")) = some true :=
  ⟨(WordList.Set asciiH (WordList.empty asciiH) (bytes "alpha beta") ⟨false, false⟩).get
      (by decide),
    (Option.some_get _).symm, by decide,
    (set_replaces_previous_content asciiH (WordList.empty asciiH) _ (bytes "alpha beta")
      (bytes "gamma") ⟨false, false⟩ ⟨false, false⟩ (Option.some_get _).symm).1,
    by decide, by decide⟩

/-- C12: for every blob whose words (after the case folding, when it is
asked for) already appear in ascending unsigned-byte order, `Set(blob)` with
the pre-sorted attribute gives the same word array and the same bucket table
as `Set(blob)` without it, hence the same answers of the four lookups for
every query. -/
theorem set_preSorted_same_as_sorted (h : WordListH) (old : WordList) (blob : CStr) (ml : Bool)
    (hasc : Ascending (blobWords (if ml then makeLower blob else blob))) :
    SetWords blob ⟨ml, true⟩ = SetWords blob ⟨ml, false⟩ ∧
    WordList.Set h old blob ⟨ml, true⟩ = WordList.Set h old blob ⟨ml, false⟩ ∧
    ∀ (s : CStr) (marker : Nat),
      (WordList.Set h old blob ⟨ml, true⟩).bind (fun wl => wl.InList h s) =
        (WordList.Set h old blob ⟨ml, false⟩).bind (fun wl => wl.InList h s) ∧
      (WordList.Set h old blob ⟨ml, true⟩).bind (fun wl => wl.InListPrefixed h s marker) =
        (WordList.Set h old blob ⟨ml, false⟩).bind (fun wl => wl.InListPrefixed h s marker) ∧
      (WordList.Set h old blob ⟨ml, true⟩).bind (fun wl => wl.InListAbbreviated h s marker) =
        (WordList.Set h old blob ⟨ml, false⟩).bind
          (fun wl => wl.InListAbbreviated h s marker) ∧
      (WordList.Set h old blob ⟨ml, true⟩).bind (fun wl => wl.InListAbridged h s marker) =
        (WordList.Set h old blob ⟨ml, false⟩).bind (fun wl => wl.InListAbridged h s marker) := by
  have hw := SetWords_preSorted blob ml hasc
  have heq : WordList.Set h old blob ⟨ml, true⟩ = WordList.Set h old blob ⟨ml, false⟩ := by
    unfold WordList.Set
    simp only [hw]
  refine ⟨hw, heq, ?_⟩
  intro s marker
  rw [heq]
  exact ⟨rfl, rfl, rfl, rfl⟩

set_option maxRecDepth 100000 in
/-- Witness of C12 on the blob `alpha beta beta gamma`, whose words are in
ascending order: both calls complete with the same list, in which `beta` is
found. -/
theorem set_preSorted_same_as_sorted_witness :
    Ascending (blobWords (bytes "alpha beta beta gamma")) ∧
    WordList.Set asciiH (WordList.empty asciiH) (bytes "alpha beta beta gamma") ⟨false, true⟩ =
      WordList.Set asciiH (WordList.empty asciiH) (bytes "alpha beta beta gamma")
        ⟨false, false⟩ ∧
    (WordList.Set asciiH (WordList.empty asciiH) (bytes "alpha beta beta gamma")
      ⟨false, true⟩).bind (fun wl => wl.words) =
      some [bytes "alpha", bytes "beta", bytes "beta", bytes "gamma", []] ∧
    (WordList.Set asciiH (WordList.empty asciiH) (bytes "alpha beta beta gamma")
      ⟨false, true⟩).bind (fun wl => wl.InList asciiH (bytes "beta")) = some true :=
  ⟨by unfold Ascending; decide,
    (set_preSorted_same_as_sorted asciiH (WordList.empty asciiH) (bytes "alpha beta beta gamma")
      false (by unfold Ascending; decide)).2.1,
    by decide, by decide⟩

/-- C13: for every examined line that begins with `--- ` (resp. `*** `,
`+++ `), the line is classified as a position marker if and only if the text
after the 4-byte marker parses (`atoi`) to a non-zero integer and the examined
bytes contain no `/`; otherwise the line is classified as a header. -/
theorem diff_marker_position_iff (k : SciLexerH)
    (hk : k.SCE_DIFF_POSITION ≠ k.SCE_DIFF_HEADER) (lineBuffer : CStr)
    (hstart : StrStartsWith lineBuffer (bytes "--- ") = true ∨
      StrStartsWith lineBuffer (bytes "*** ") = true ∨
      StrStartsWith lineBuffer (bytes "+++ ") = true) :
    (ColouriseDiffLine k lineBuffer = k.SCE_DIFF_POSITION ↔
      atoi (lineBuffer.drop 4) ≠ 0 ∧ strchr lineBuffer 47 = false) ∧
    (¬ (atoi (lineBuffer.drop 4) ≠ 0 ∧ strchr lineBuffer 47 = false) →
      ColouriseDiffLine k lineBuffer = k.SCE_DIFF_HEADER) := by
  have hd : ∀ (m r : CStr), m.length = 4 → (m ++ r).drop 4 = r := by
    intro m r hm
    rw [← hm, List.drop_left]
  have key : ColouriseDiffLine k lineBuffer =
      if atoi (lineBuffer.drop 4) ≠ 0 ∧ strchr lineBuffer 47 = false then k.SCE_DIFF_POSITION
      else k.SCE_DIFF_HEADER := by
    rcases hstart with h | h | h
    · obtain ⟨r, rfl⟩ := StrStartsWith_iff.mp h
      rw [ColouriseDiffLine_minus, hd _ _ (by decide)]
    · obtain ⟨r, rfl⟩ := StrStartsWith_iff.mp h
      rw [ColouriseDiffLine_star, hd _ _ (by decide)]
    · obtain ⟨r, rfl⟩ := StrStartsWith_iff.mp h
      rw [ColouriseDiffLine_plus, hd _ _ (by decide)]
  rw [key]
  constructor
  · constructor
    · intro h
      by_contra hc
      rw [if_neg hc] at h
      exact hk h.symm
    · intro h
      rw [if_pos h]
  · intro h
    rw [if_neg h]

set_option maxRecDepth 100000 in
/-- Witness of C13, the scenario of the specification: `--- a/file.txt` is a
header, `--- 12,15 ----` is a position marker. -/
theorem diff_marker_position_iff_witness :
    ColouriseDiffLine sciLexer (bytes "--- a/file.txt") = sciLexer.SCE_DIFF_HEADER ∧
    ColouriseDiffLine sciLexer (bytes "--- 12,15 ----") = sciLexer.SCE_DIFF_POSITION ∧
    atoi ((bytes "--- 12,15 ----").drop 4) = 12 ∧
    strchr (bytes "--- a/file.txt") 47 = true :=
  ⟨(diff_marker_position_iff sciLexer (by decide) (bytes "--- a/file.txt")
      (Or.inl (by decide))).2 (by decide),
   (diff_marker_position_iff sciLexer (by decide) (bytes "--- 12,15 ----")
      (Or.inl (by decide))).1.mpr (by decide),
   by decide, by decide⟩

set_option maxRecDepth 100000 in
/-- Counterexample to C14 as stated: the line `? x` passes none of the
fifteen listed tests and its first byte is not a space, yet it is classified
as a header, not as a comment; and the first listed test the line `----`
passes is the one of `---`, yet it gets the class of the rule `--`. -/
theorem diff_listed_rules_miss_question_mark :
    listedRuleTests.all (fun t => !t (bytes "? x")) = true ∧
    (bytes "? x").getD 0 0 ≠ 32 ∧
    ColouriseDiffLine sciLexer (bytes "? x") = sciLexer.SCE_DIFF_HEADER ∧
    ColouriseDiffLine sciLexer (bytes "? x") ≠ sciLexer.SCE_DIFF_COMMENT ∧
    (listedRuleTests.findIdx (fun t => t (bytes "----"))) = 2 ∧
    ColouriseDiffLine sciLexer (bytes "----") = sciLexer.SCE_DIFF_REMOVED_PATCH_DELETE := by
  decide

set_option maxRecDepth 100000 in
/-- C14 (amended): a line is classified by the first matching rule of the
ordered list `diff `, `Index: `, `---` with a fourth byte other than `-`,
`+++ `, `====`, `***`, `? ` (header), `@`, leading digit, `++`, `+-`, `-+`,
`--`, leading `-` or `<` (deleted), leading `+` or `>` (added), leading `!`
(changed); a line that matches none of them is a comment when its first byte
is not a space and default when it is. The line `+added line` is classified as
added. -/
theorem diff_first_matching_rule (k : SciLexerH) (lineBuffer : CStr) :
    ColouriseDiffLine k lineBuffer = classifyByRules k (diffRules k) lineBuffer ∧
    ColouriseDiffLine sciLexer (bytes "+added line") = sciLexer.SCE_DIFF_ADDED := by
  refine ⟨?_, by decide⟩
  unfold diffRules ColouriseDiffLine
  simp only [classifyByRules_cons, classifyByRules_nil, numberedMarker, Bool.and_assoc]

/-- C16: for every document, every range `[startPos, startPos + lengthDoc)`
inside it that starts at a line start, and every `initStyle`,
`ColouriseDiffDoc` completes and, once its style assignments are carried out,
every byte of the range carries the style `ColouriseDiffLine` returns for the
line containing it (for the first 15 bytes of that line, so one style per whole
line); the positions of the style assignments are non-decreasing and lie in
the range, and the last assignment ends exactly at `startPos + lengthDoc`. -/
theorem colouriseDiffDoc_styles_every_byte (k : SciLexerH) (sc : ScintillaH) (fold : Bool)
    (doc : Document) (LevelAt : Nat → Nat) (startPos lengthDoc : Nat) (initStyle : Int)
    (st : StyleStore) (hstart : doc.LineStart (doc.GetLine startPos) = startPos)
    (hend : startPos + lengthDoc ≤ doc.Length) :
    ∃ calls, ColouriseDiffDoc k sc fold doc LevelAt startPos lengthDoc initStyle = some calls ∧
      (∀ p, startPos ≤ p → p < startPos + lengthDoc →
        ((st.StartSegment startPos).run calls.ColorTo).styleAt p =
          some (ColouriseDiffLine k
            (doc.GetRange (doc.LineStart (doc.GetLine p)) (doc.LineStart (doc.GetLine p + 1))
              DIFF_BUFFER_START_SIZE)) ∧
        doc.GetRange (doc.LineStart (doc.GetLine p)) (doc.LineStart (doc.GetLine p + 1))
            DIFF_BUFFER_START_SIZE =
          ((doc.getD (doc.GetLine p) []).take 15).takeWhile (fun b => b != 0)) ∧
      (calls.ColorTo.map Prod.fst).Pairwise (fun a b => a ≤ b) ∧
      (∀ x ∈ calls.ColorTo, startPos ≤ x.1 ∧ x.1 ≤ startPos + lengthDoc) ∧
      calls.ColorTo.getLast?.map Prod.fst = some (startPos + lengthDoc) := by
  obtain ⟨calls, hc, h1, _, h3, h4, h5⟩ :=
    ColouriseDiffDoc_spec k sc fold doc LevelAt startPos lengthDoc initStyle st hstart hend
  exact ⟨calls, hc, fun p hp1 hp2 => ⟨h1 p hp1 hp2, GetRange_line doc _⟩, h4, h3, h5⟩

set_option maxRecDepth 100000 in
/-- Witness of C16: the scan of lines 1 and 2 (bytes 9 to 22) of a four-line
diff with `initStyle` 7 makes the assignments up to 9 (nothing), up to 17
(header) and up to 22 (added). -/
theorem colouriseDiffDoc_styles_every_byte_witness :
    (ColouriseDiffDoc sciLexer scintilla false
        [bytes "diff a b\n", bytes "--- a/x\n", bytes "+new\n", bytes " ctx"]
        (fun _ => 0x400) 9 13 7 =
      some { ColorTo := [(9, 7), (17, 3), (22, 6)], SetLevel := [] }) ∧
    ((StyleStore.blank.StartSegment 9).run [(9, 7), (17, 3), (22, 6)]).styleAt 16 = some 3 ∧
    ((StyleStore.blank.StartSegment 9).run [(9, 7), (17, 3), (22, 6)]).styleAt 17 = some 6 ∧
    ∃ calls, ColouriseDiffDoc sciLexer scintilla false
        [bytes "diff a b\n", bytes "--- a/x\n", bytes "+new\n", bytes " ctx"]
        (fun _ => 0x400) 9 13 7 = some calls ∧
      (∀ p, 9 ≤ p → p < 9 + 13 →
        ((StyleStore.blank.StartSegment 9).run calls.ColorTo).styleAt p =
          some (ColouriseDiffLine sciLexer
            (Document.GetRange [bytes "diff a b\n", bytes "--- a/x\n", bytes "+new\n", bytes " ctx"]
              (Document.LineStart
                [bytes "diff a b\n", bytes "--- a/x\n", bytes "+new\n", bytes " ctx"]
                (Document.GetLine
                  [bytes "diff a b\n", bytes "--- a/x\n", bytes "+new\n", bytes " ctx"] p))
              (Document.LineStart
                [bytes "diff a b\n", bytes "--- a/x\n", bytes "+new\n", bytes " ctx"]
                (Document.GetLine
                  [bytes "diff a b\n", bytes "--- a/x\n", bytes "+new\n", bytes " ctx"] p + 1))
              DIFF_BUFFER_START_SIZE)) ∧
        Document.GetRange [bytes "diff a b\n", bytes "--- a/x\n", bytes "+new\n", bytes " ctx"]
            (Document.LineStart
              [bytes "diff a b\n", bytes "--- a/x\n", bytes "+new\n", bytes " ctx"]
              (Document.GetLine
                [bytes "diff a b\n", bytes "--- a/x\n", bytes "+new\n", bytes " ctx"] p))
            (Document.LineStart
              [bytes "diff a b\n", bytes "--- a/x\n", bytes "+new\n", bytes " ctx"]
              (Document.GetLine
                [bytes "diff a b\n", bytes "--- a/x\n", bytes "+new\n", bytes " ctx"] p + 1))
            DIFF_BUFFER_START_SIZE =
          ((List.getD [bytes "diff a b\n", bytes "--- a/x\n", bytes "+new\n", bytes " ctx"]
            (Document.GetLine
              [bytes "diff a b\n", bytes "--- a/x\n", bytes "+new\n", bytes " ctx"] p) []).take
              15).takeWhile (fun b => b != 0)) ∧
      (calls.ColorTo.map Prod.fst).Pairwise (fun a b => a ≤ b) ∧
      (∀ x ∈ calls.ColorTo, 9 ≤ x.1 ∧ x.1 ≤ 9 + 13) ∧
      calls.ColorTo.getLast?.map Prod.fst = some (9 + 13) :=
  ⟨by decide, by decide, by decide,
   colouriseDiffDoc_styles_every_byte sciLexer scintilla false
     [bytes "diff a b\n", bytes "--- a/x\n", bytes "+new\n", bytes " ctx"]
     (fun _ => 0x400) 9 13 7 StyleStore.blank (by decide) (by decide)⟩

/-- C15: the diff classification of a line depends only on the first 15
bytes of that line. For two scans by `ColouriseDiffDoc` (any two documents,
ranges that start at a line start, `initStyle` values, fold settings and stored
levels) and a byte in each range, when the lines that hold the two bytes agree
on their first 15 bytes, the two bytes get the same style, whatever follows in
the lines and whatever the neighbouring lines are. -/
theorem diff_class_depends_on_first_15_bytes (k : SciLexerH) (sc : ScintillaH)
    (fold1 fold2 : Bool) (doc1 doc2 : Document) (LevelAt1 LevelAt2 : Nat → Nat)
    (startPos1 lengthDoc1 startPos2 lengthDoc2 : Nat) (initStyle1 initStyle2 : Int)
    (st1 st2 : StyleStore) (p1 p2 : Nat)
    (hstart1 : doc1.LineStart (doc1.GetLine startPos1) = startPos1)
    (hend1 : startPos1 + lengthDoc1 ≤ doc1.Length)
    (hstart2 : doc2.LineStart (doc2.GetLine startPos2) = startPos2)
    (hend2 : startPos2 + lengthDoc2 ≤ doc2.Length)
    (hp1 : startPos1 ≤ p1 ∧ p1 < startPos1 + lengthDoc1)
    (hp2 : startPos2 ≤ p2 ∧ p2 < startPos2 + lengthDoc2)
    (h15 : (doc1.getD (doc1.GetLine p1) []).take 15 = (doc2.getD (doc2.GetLine p2) []).take 15) :
    ∃ calls1 calls2 style,
      ColouriseDiffDoc k sc fold1 doc1 LevelAt1 startPos1 lengthDoc1 initStyle1 = some calls1 ∧
      ColouriseDiffDoc k sc fold2 doc2 LevelAt2 startPos2 lengthDoc2 initStyle2 = some calls2 ∧
      ((st1.StartSegment startPos1).run calls1.ColorTo).styleAt p1 = some style ∧
      ((st2.StartSegment startPos2).run calls2.ColorTo).styleAt p2 = some style ∧
      style = ColouriseDiffLine k
        (((doc1.getD (doc1.GetLine p1) []).take 15).takeWhile (fun b => b != 0)) := by
  obtain ⟨calls1, hc1, h1, _⟩ :=
    ColouriseDiffDoc_spec k sc fold1 doc1 LevelAt1 startPos1 lengthDoc1 initStyle1 st1
      hstart1 hend1
  obtain ⟨calls2, hc2, h2, _⟩ :=
    ColouriseDiffDoc_spec k sc fold2 doc2 LevelAt2 startPos2 lengthDoc2 initStyle2 st2
      hstart2 hend2
  refine ⟨calls1, calls2, _, hc1, hc2, ?_, ?_, rfl⟩
  · rw [h1 p1 hp1.1 hp1.2, lineType_eq]
  · rw [h2 p2 hp2.1 hp2.2, lineType_eq, h15]

set_option maxRecDepth 100000 in
/-- Witness of C15: a line made of `--- 12,15 ---- ` and `AAAA`, after a
command line, and a line made of `--- 12,15 ---- ` and `/b/c`, after an added
line, scanned with different `initStyle` values, agree on their first 15
bytes; both are position markers, the `/` of the second one is not examined. -/
theorem diff_class_depends_on_first_15_bytes_witness :
    ∃ calls1 calls2 style,
      ColouriseDiffDoc sciLexer scintilla false
        [bytes "diff a b\n", bytes "--- 12,15 ---- AAAA\n"] (fun _ => 0x400) 0 29 0 =
        some calls1 ∧
      ColouriseDiffDoc sciLexer scintilla true
        [bytes "+x\n", bytes "--- 12,15 ---- /b/c\n", bytes "\n"] (fun _ => 0x400) 3 20 6 =
        some calls2 ∧
      ((StyleStore.blank.StartSegment 0).run calls1.ColorTo).styleAt 28 = some style ∧
      ((StyleStore.blank.StartSegment 3).run calls2.ColorTo).styleAt 4 = some style ∧
      style = ColouriseDiffLine sciLexer
        (((List.getD [bytes "diff a b\n", bytes "--- 12,15 ---- AAAA\n"]
          (Document.GetLine [bytes "diff a b\n", bytes "--- 12,15 ---- AAAA\n"] 28) []).take
            15).takeWhile (fun b => b != 0)) :=
  diff_class_depends_on_first_15_bytes sciLexer scintilla false true
    [bytes "diff a b\n", bytes "--- 12,15 ---- AAAA\n"]
    [bytes "+x\n", bytes "--- 12,15 ---- /b/c\n", bytes "\n"] (fun _ => 0x400) (fun _ => 0x400)
    0 29 3 20 0 6 StyleStore.blank StyleStore.blank 28 4 (by decide) (by decide) (by decide)
    (by decide) (by decide) (by decide) (by decide)

/-- C18: Rust line-state codec round trip. For all `squareBracket`,
`commentLevel`, `hashCount` in 0..255, every attribute flag in {0, 4} and every
line-type flag in {0, 1, 2}, unpacking the line state
`(squareBracket << 3) | (commentLevel << 11) | (hashCount << 19) | attribute |
lineType` with the shifts and masks used at scan start returns the same
`squareBracket`, `commentLevel`, `hashCount` and attribute flag, and
`FoldLineState` recovers the line-comment bit and the pub-use bit of the
line-type flag. -/
theorem rust_line_state_round_trip (squareBracket commentLevel hashCount attr lineType : Nat)
    (hsb : squareBracket < 256) (hcl : commentLevel < 256) (hhc : hashCount < 256)
    (hattr : attr = 0 ∨ attr = RustLineStateMaskAttribute)
    (hlt : lineType = 0 ∨ lineType = RustLineStateMaskLineComment ∨
      lineType = RustLineStateMaskPubUse) :
    unpackRustLineState (packRustLineState squareBracket commentLevel hashCount attr lineType) =
      (squareBracket, commentLevel, hashCount, attr) ∧
    FoldLineState.ofLineState
        (packRustLineState squareBracket commentLevel hashCount attr lineType) =
      { lineComment := if lineType = RustLineStateMaskLineComment then 1 else 0
        pubUse := if lineType = RustLineStateMaskPubUse then 1 else 0 } := by
  have hm1 : RustLineStateMaskLineComment = 1 := rfl
  have hm2 : RustLineStateMaskPubUse = 2 := rfl
  have hm4 : RustLineStateMaskAttribute = 4 := rfl
  rw [hm1, hm2] at hlt
  rw [hm4] at hattr
  have hsum := packRustLineState_eq_sum hsb hcl hhc hattr hlt
  unfold unpackRustLineState FoldLineState.ofLineState
  rw [hsum, hm1, hm2, hm4]
  simp only [Nat.shiftRight_eq_div_pow, and_255, and_4, Nat.and_one_is_mod]
  have htwo : (2 : Nat) ^ 19 = 524288 ∧ (2 : Nat) ^ 11 = 2048 ∧ (2 : Nat) ^ 3 = 8 ∧
      (2 : Nat) ^ 1 = 2 := by norm_num
  obtain ⟨e19, e11, e3, e1⟩ := htwo
  rw [e19, e11, e3, e1]
  refine ⟨?_, ?_⟩
  · rw [Prod.mk.injEq, Prod.mk.injEq, Prod.mk.injEq]
    rcases hattr with rfl | rfl <;> rcases hlt with rfl | rfl | rfl <;>
      refine ⟨?_, ?_, ?_, ?_⟩ <;> omega
  · rcases hattr with rfl | rfl <;> rcases hlt with rfl | rfl | rfl <;>
      simp <;> omega

/-- Witness of C18: 3 open square brackets of an attribute, comment level 2
and 255 hashes, on a line that starts with a line comment. -/
theorem rust_line_state_round_trip_witness :
    packRustLineState 3 2 255 4 1 = 133697565 ∧
    unpackRustLineState (packRustLineState 3 2 255 4 1) = (3, 2, 255, 4) ∧
    FoldLineState.ofLineState (packRustLineState 3 2 255 4 1) =
      { lineComment := if 1 = RustLineStateMaskLineComment then 1 else 0
        pubUse := if 1 = RustLineStateMaskPubUse then 1 else 0 } :=
  ⟨by decide,
   (rust_line_state_round_trip 3 2 255 4 1 (by decide) (by decide) (by decide)
      (Or.inr rfl) (Or.inr (Or.inl rfl))).1,
   (rust_line_state_round_trip 3 2 255 4 1 (by decide) (by decide) (by decide)
      (Or.inr rfl) (Or.inr (Or.inl rfl))).2⟩

set_option maxRecDepth 1000000 in
/-- C19 fails on the two-line document `"\u{1}"` / `"}}}"`, split at the
start of line 2. In one scan the flag `escSeq.brace`, set by the escape `\u{`
of line 1, is still set when the escape `}}` of line 2 ends, so the third `}`
is taken into the escape (style `ESCAPECHAR`); in the scan that starts at line
2 the flag is clear and the third `}` is styled as string. The line states are
the same. -/
theorem rust_restart_differs_after_brace_escape :
    (ColouriseRustDoc rustLexer asciiH noKeywords [bytes "\"\\u\x7b1\x7d\"\n", bytes "\"\x7d\x7d\x7d\""]
        StyleStore.blank (fun _ => 0) 0 13 (rustLexer.SCE_RUST .DEFAULT) 100).map
      (fun sc => (sc.styles, sc.lineStateList)) =
      some ([some 23, some 28, some 28, some 28, some 28, some 28, some 23, some 0,
        some 23, some 28, some 28, some 28, some 23], [0, 0]) ∧
    (ColouriseRustDoc.inTwoScans rustLexer asciiH noKeywords
        [bytes "\"\\u\x7b1\x7d\"\n", bytes "\"\x7d\x7d\x7d\""] 8 100).map
      (fun sc => (sc.styles, sc.lineStateList)) =
      some ([some 23, some 28, some 28, some 28, some 28, some 28, some 23, some 0,
        some 23, some 28, some 28, some 23, some 23], [0, 0]) ∧
    Document.LineStart [bytes "\"\\u\x7b1\x7d\"\n", bytes "\"\x7d\x7d\x7d\""] 1 = 8 ∧
    rustLexer.SCE_RUST .ESCAPECHAR = 28 ∧ rustLexer.SCE_RUST .STRING = 23 := by
  decide

set_option maxRecDepth 1000000 in
/-- Counterexample to C17 as stated. In `r"{:"<}" x` (no hash) the first
later quote, at offset 4, does not end the string: it is taken as the fill
character of the format specifier `:"<`, and the string ends after the quote at
offset 7. In `r#"{:<"#}"# x` (one hash) the quote at offset 6, which is
followed by exactly one hash, is inside the format specifier `:<"#`, and the
string ends after offset 10. (Styles: 25 raw string, 29 placeholder, 30 format
specifier, 0 default, 9 identifier.) -/
theorem rust_raw_string_quote_in_format_specifier :
    (ColouriseRustDoc rustLexer asciiH noKeywords [bytes "r\"\x7b:\"<\x7d\" x"]
        StyleStore.blank (fun _ => 0) 0 10 (rustLexer.SCE_RUST .DEFAULT) 100).map
      (fun sc => sc.styles) =
      some [some 25, some 25, some 29, some 30, some 30, some 30, some 29, some 25, some 0,
        some 9] ∧
    (bytes "r\"\x7b:\"<\x7d\" x").getD 4 0 = 34 ∧
    (ColouriseRustDoc rustLexer asciiH noKeywords [bytes "r#\"\x7b:<\"#\x7d\"# x"]
        StyleStore.blank (fun _ => 0) 0 13 (rustLexer.SCE_RUST .DEFAULT) 100).map
      (fun sc => sc.styles) =
      some [some 25, some 25, some 25, some 29, some 30, some 30, some 30, some 30, some 29,
        some 25, some 25, some 0, some 9] ∧
    closesRaw 1 ((bytes "r#\"\x7b:<\"#\x7d\"# x").drop 6) = true := by
  decide

/-- C17 (amended): Rust raw strings. For every `n`, a raw string opened in
the default state by `r` or `br` followed by `n` bytes `#` and a quote records
hash count `n`; when the text between the opening quote and the first later
quote that is followed by exactly `n` bytes `#` (for `n = 0`, the first later
quote) holds no `{` and no `}`, the scan stays in the raw string state with that
hash count over this text, one byte per round, a quote followed by fewer or
more hashes not closing it, and at that quote it goes over the `n` hashes and
sets the default state exactly after them, every byte from the `r` or `b` to
the last hash being styled as raw string. -/
theorem rust_raw_string_closes_at_first_closer (k : RustLexerH) (hk : k.Distinct)
    (hord : k.SCE_RUST .RAW_STRING ≤ k.SCE_RUST .RAW_BYTESTRING) (h : WordListH)
    (keywordLists : Nat → WordList) (s : RustScan) (byteString : Bool) (n : Nat)
    (body rest : List Nat) (hc : s.sc.Coherent) (hs : s.sc.state = k.SCE_RUST .DEFAULT)
    (htext : s.sc.doc.flatten.drop s.sc.currentPos =
      rawOpener byteString n ++ (body ++ 34 :: (List.replicate n 35 ++ rest)))
    (hrange : s.sc.currentPos + (rawOpener byteString n).length + body.length + 1 + n ≤
      s.sc.endPos)
    (hbrace : ∀ c ∈ body, c ≠ 123 ∧ c ≠ 125)
    (hfirst : ∀ i, i < body.length →
      closesRaw n ((body ++ 34 :: (List.replicate n 35 ++ rest)).drop i) = false)
    (hlast : closesRaw n (34 :: (List.replicate n 35 ++ rest)) = true) :
    (∀ j, j ≤ body.length →
      ((ColouriseRustDoc.step k h keywordLists)^[1 + j] s).sc.state =
        (if byteString then k.SCE_RUST .RAW_BYTESTRING else k.SCE_RUST .RAW_STRING) ∧
      ((ColouriseRustDoc.step k h keywordLists)^[1 + j] s).hashCount = (n : Int) ∧
      ((ColouriseRustDoc.step k h keywordLists)^[1 + j] s).sc.currentPos =
        s.sc.currentPos + (rawOpener byteString n).length + j) ∧
    (ColouriseRustDoc.stateCase k h keywordLists
      ((ColouriseRustDoc.step k h keywordLists)^[1 + body.length] s)).1.sc.state =
      k.SCE_RUST .DEFAULT ∧
    (ColouriseRustDoc.stateCase k h keywordLists
      ((ColouriseRustDoc.step k h keywordLists)^[1 + body.length] s)).1.sc.currentPos =
      s.sc.currentPos + (rawOpener byteString n).length + body.length + 1 + n ∧
    (ColouriseRustDoc.stateCase k h keywordLists
      ((ColouriseRustDoc.step k h keywordLists)^[1 + body.length] s)).1.hashCount = 0 ∧
    ∀ p, s.sc.currentPos ≤ p →
      p < s.sc.currentPos + (rawOpener byteString n).length + body.length + 1 + n →
      (ColouriseRustDoc.stateCase k h keywordLists
        ((ColouriseRustDoc.step k h keywordLists)^[1 + body.length] s)).1.sc.styler.styleAt p =
        some (if byteString then k.SCE_RUST .RAW_BYTESTRING else k.SCE_RUST .RAW_STRING) := by
  have hle : s.sc.currentPos ≤ s.sc.lengthDocument := by
    have := length_le_of_drop htext (by cases byteString <;> simp [rawOpener])
    rw [hc.2.2.1]
    unfold Document.Length
    omega
  obtain ⟨hopen, hopenN⟩ := step_raw_open hk h keywordLists s byteString n _ hc hs htext
    (by omega)
  have hss := SetState_spec hc hle
    (if byteString then k.SCE_RUST .RAW_BYTESTRING else k.SCE_RUST .RAW_STRING)
  have hraw : (ColouriseRustDoc.step k h keywordLists s).sc.state = k.SCE_RUST .RAW_STRING ∨
      (ColouriseRustDoc.step k h keywordLists s).sc.state = k.SCE_RUST .RAW_BYTESTRING := by
    rw [hopen.2.2.2.2.1, hss.2.2.2.2.1]
    cases byteString
    · left; rfl
    · right; rfl
  have htext1 : (ColouriseRustDoc.step k h keywordLists s).sc.doc.flatten.drop
      (ColouriseRustDoc.step k h keywordLists s).sc.currentPos =
      body ++ 34 :: (List.replicate n 35 ++ rest) := by
    rw [hopen.2.1, hopen.1, hss.2.1, hss.1]
    exact drop_add_of_drop htext
  have hbody := steps_raw_body hk hord h keywordLists (ColouriseRustDoc.step k h keywordLists s)
    n body (34 :: (List.replicate n 35 ++ rest)) hopen.2.2.2.2.2.2 hraw hopenN htext1
    (by rw [hopen.1, hopen.2.2.1, hss.1, hss.2.2.1]; omega) hbrace hfirst
  have hiter : ∀ j, (ColouriseRustDoc.step k h keywordLists)^[1 + j] s =
      (ColouriseRustDoc.step k h keywordLists)^[j] (ColouriseRustDoc.step k h keywordLists s) := by
    intro j
    rw [Nat.add_comm, Function.iterate_succ_apply]
  refine ⟨?_, ?_⟩
  · intro j hj
    obtain ⟨hm, hnj⟩ := hbody j hj
    rw [hiter]
    refine ⟨?_, hnj, ?_⟩
    · rw [hm.2.2.2.2.1, hopen.2.2.2.2.1, hss.2.2.2.2.1]
    · rw [hm.1, hopen.1, hss.1]
  · obtain ⟨hm, hnj⟩ := hbody body.length (Nat.le_refl _)
    rw [hiter]
    have hcl := stateCase_raw_close hk h keywordLists
      ((ColouriseRustDoc.step k h keywordLists)^[body.length]
        (ColouriseRustDoc.step k h keywordLists s)) n rest hm.2.2.2.2.2.2
      (by rw [hm.2.2.2.2.1]; exact hraw) hnj
      (by rw [hm.2.1, hm.1]; exact drop_add_of_drop htext1)
      (by rw [hm.1, hm.2.2.1, hopen.1, hopen.2.2.1, hss.1, hss.2.2.1]; omega) hlast
    obtain ⟨_, h0, hst, hpos, hsty⟩ := hcl
    refine ⟨hst, ?_, h0, ?_⟩
    · rw [hpos, hm.1, hopen.1, hss.1]
    · intro p hp1 hp2
      rw [hsty p, hm.2.2.2.2.2.1, hm.2.2.2.2.1, hopen.2.2.2.2.2.1, hopen.2.2.2.2.1,
        hss.2.2.2.2.2.2.2.2.2.1, hss.2.2.2.2.1, hm.1, hopen.1, hss.1, if_pos ⟨hp1, hp2⟩]

set_option maxRecDepth 1000000 in
/-- Witness of C17 (amended), the scenario of the specification: in
`r##"text "# still inside"## x` the hash count is 2, the quote followed by one
hash does not close the string, and the default state is set after `"##`, at
offset 27; the 27 bytes of the string are styled as raw string (25). -/
theorem rust_raw_string_closes_at_first_closer_witness :
    (ColouriseRustDoc rustLexer asciiH noKeywords [bytes "r##\"text \"# still inside\"## x"]
        StyleStore.blank (fun _ => 0) 0 29 (rustLexer.SCE_RUST .DEFAULT) 100).map
      (fun sc => sc.styles) =
      some (List.replicate 27 (some 25) ++ [some 0, some 9]) ∧
    ((ColouriseRustDoc.step rustLexer asciiH noKeywords)^[1 + 6]
      (ColouriseRustDoc.start rustLexer [bytes "r##\"text \"# still inside\"## x"]
        StyleStore.blank (fun _ => 0) 0 29 (rustLexer.SCE_RUST .DEFAULT))).sc.state =
      rustLexer.SCE_RUST .RAW_STRING ∧
    ((ColouriseRustDoc.step rustLexer asciiH noKeywords)^[1 + 6]
      (ColouriseRustDoc.start rustLexer [bytes "r##\"text \"# still inside\"## x"]
        StyleStore.blank (fun _ => 0) 0 29 (rustLexer.SCE_RUST .DEFAULT))).hashCount = 2 ∧
    (ColouriseRustDoc.stateCase rustLexer asciiH noKeywords
      ((ColouriseRustDoc.step rustLexer asciiH noKeywords)^[1 + 20]
        (ColouriseRustDoc.start rustLexer [bytes "r##\"text \"# still inside\"## x"]
          StyleStore.blank (fun _ => 0) 0 29 (rustLexer.SCE_RUST .DEFAULT)))).1.sc.state =
      rustLexer.SCE_RUST .DEFAULT ∧
    (ColouriseRustDoc.stateCase rustLexer asciiH noKeywords
      ((ColouriseRustDoc.step rustLexer asciiH noKeywords)^[1 + 20]
        (ColouriseRustDoc.start rustLexer [bytes "r##\"text \"# still inside\"## x"]
          StyleStore.blank (fun _ => 0) 0 29 (rustLexer.SCE_RUST .DEFAULT)))).1.sc.currentPos =
      27 :=
  ⟨by decide,
   ((rust_raw_string_closes_at_first_closer rustLexer (by decide) (by decide) asciiH noKeywords
      (ColouriseRustDoc.start rustLexer [bytes "r##\"text \"# still inside\"## x"]
        StyleStore.blank (fun _ => 0) 0 29 (rustLexer.SCE_RUST .DEFAULT))
      false 2 (bytes "text \"# still inside") (bytes " x") (by decide) (by decide) (by decide)
      (by decide) (by decide) (by decide) (by decide)).1 6 (by decide)).1,
   ((rust_raw_string_closes_at_first_closer rustLexer (by decide) (by decide) asciiH noKeywords
      (ColouriseRustDoc.start rustLexer [bytes "r##\"text \"# still inside\"## x"]
        StyleStore.blank (fun _ => 0) 0 29 (rustLexer.SCE_RUST .DEFAULT))
      false 2 (bytes "text \"# still inside") (bytes " x") (by decide) (by decide) (by decide)
      (by decide) (by decide) (by decide) (by decide)).1 6 (by decide)).2.1,
   (rust_raw_string_closes_at_first_closer rustLexer (by decide) (by decide) asciiH noKeywords
      (ColouriseRustDoc.start rustLexer [bytes "r##\"text \"# still inside\"## x"]
        StyleStore.blank (fun _ => 0) 0 29 (rustLexer.SCE_RUST .DEFAULT))
      false 2 (bytes "text \"# still inside") (bytes " x") (by decide) (by decide) (by decide)
      (by decide) (by decide) (by decide) (by decide)).2.1,
   (rust_raw_string_closes_at_first_closer rustLexer (by decide) (by decide) asciiH noKeywords
      (ColouriseRustDoc.start rustLexer [bytes "r##\"text \"# still inside\"## x"]
        StyleStore.blank (fun _ => 0) 0 29 (rustLexer.SCE_RUST .DEFAULT))
      false 2 (bytes "text \"# still inside") (bytes " x") (by decide) (by decide) (by decide)
      (by decide) (by decide) (by decide) (by decide)).2.2.1⟩

set_option maxRecDepth 1000000 in
/-- C20 fails on the two-line document `"\u{1}"` / `"\n}"` with JSX disabled,
split at the start of line 2. `EscapeSequence::resetEscapeState` of
`LexJavaScript.cxx` does not clear `brace`: in one scan the flag, set by the
escape `\u{` of line 1, is still set when the escape `\n` of line 2 ends, so
the `}` after it is taken into the escape (style `ESCAPECHAR`); in the scan
that starts at line 2 the flag is clear and the `}` is styled as string. The
line states are the same. -/
theorem js_restart_differs_after_brace_escape :
    (ColouriseJsDoc jsLexer asciiH noKeywords false
        [bytes "\"\\u\x7b1\x7d\"\n", bytes "\"\\n\x7d\""]
        StyleStore.blank (fun _ => 0) 0 13 (jsLexer.SCE_JS .DEFAULT) 100).map
      (fun sc => (sc.styles, sc.lineStateList)) =
      some ([some 28, some 26, some 26, some 26, some 26, some 26, some 28, some 0,
        some 28, some 26, some 26, some 26, some 28], [0, 0]) ∧
    (ColouriseJsDoc.inTwoScans jsLexer asciiH noKeywords false
        [bytes "\"\\u\x7b1\x7d\"\n", bytes "\"\\n\x7d\""] 8 100).map
      (fun sc => (sc.styles, sc.lineStateList)) =
      some ([some 28, some 26, some 26, some 26, some 26, some 26, some 28, some 0,
        some 28, some 26, some 26, some 28, some 28], [0, 0]) ∧
    Document.LineStart [bytes "\"\\u\x7b1\x7d\"\n", bytes "\"\\n\x7d\""] 1 = 8 ∧
    jsLexer.SCE_JS .ESCAPECHAR = 26 ∧ jsLexer.SCE_JS .STRING_DQ = 28 ∧
    jsLexer.SCE_JS .DEFAULT = 0 := by
  decide

set_option maxRecDepth 1000000 in
/-- C30 fails on the one-line document `"\u{1}a\n}"`: the backslash at offset
7 is met inside a double-quoted string and its next byte is `n`, yet the
escape-styled run is the three bytes at offsets 7, 8 and 9. The flag
`escSeq.brace`, set by the escape `\u{` at offset 1 and never cleared by
`resetEscapeState`, is still set when the escape `\n` ends at the `}` of offset
9, so the test `escSeq.brace && sc.ch == '}'` takes that byte into the escape.
In `"\n}"` alone the run is the two bytes at offsets 1 and 2. (Styles: 28
double-quoted string, 26 escape.) -/
theorem js_simple_escape_takes_brace_after_unicode_escape :
    (ColouriseJsDoc jsLexer asciiH noKeywords false [bytes "\"\\u\x7b1\x7da\\n\x7d\""]
        StyleStore.blank (fun _ => 0) 0 11 (jsLexer.SCE_JS .DEFAULT) 100).map
      (fun sc => sc.styles) =
      some [some 28, some 26, some 26, some 26, some 26, some 26, some 28,
        some 26, some 26, some 26, some 28] ∧
    (ColouriseJsDoc jsLexer asciiH noKeywords false [bytes "\"\\n\x7d\""]
        StyleStore.blank (fun _ => 0) 0 5 (jsLexer.SCE_JS .DEFAULT) 100).map
      (fun sc => sc.styles) =
      some [some 28, some 26, some 26, some 28, some 28] ∧
    (bytes "\"\\u\x7b1\x7da\\n\x7d\"").drop 7 = [92, 110, 125, 34] ∧
    jsLexer.SCE_JS .ESCAPECHAR = 26 ∧ jsLexer.SCE_JS .STRING_DQ = 28 := by
  decide

set_option maxRecDepth 1000000 in
/-- C21 fails on the two-line document `int` / `f()`, split at the start of
line 2. `ColouriseAsyDoc` keeps the last visible character `chPrevNonWhite`
from line to line but cannot recover it when a scan starts at a line: in one
scan the `t` of line 1 is the character before the identifier `f`, which makes
`f(` a function definition (style 12); the scan that starts at line 2 has
`chPrevNonWhite == 0` and styles `f` as a function call (style 11). The line
states are the same. -/
theorem asy_restart_differs_after_type_line :
    (ColouriseAsyDoc asyLexer asciiH noKeywords [bytes "int\n", bytes "f()"]
        StyleStore.blank (fun _ => 0) 0 7 (asyLexer.SCE_ASY .DEFAULT) 100).map
      (fun sc => (sc.styles, sc.lineStateList)) =
      some ([some 9, some 9, some 9, some 0, some 12, some 4, some 4], [0, 0]) ∧
    (ColouriseAsyDoc.inTwoScans asyLexer asciiH noKeywords [bytes "int\n", bytes "f()"]
        4 100).map (fun sc => (sc.styles, sc.lineStateList)) =
      some ([some 9, some 9, some 9, some 0, some 11, some 4, some 4], [0, 0]) ∧
    Document.LineStart [bytes "int\n", bytes "f()"] 1 = 4 ∧
    asyLexer.SCE_ASY .FUNCTION_DEFINITION = 12 ∧ asyLexer.SCE_ASY .FUNCTION = 11 ∧
    asyLexer.SCE_ASY .STRUCT = 9 ∧ asyLexer.SCE_ASY .OPERATOR = 4 ∧
    asyLexer.SCE_ASY .DEFAULT = 0 := by
  decide

set_option maxRecDepth 1000000 in
/-- Counterexample to C22 as stated: the two-line document `a foo b` /
`.x y` when the list of `bmake` directives (index 6) holds `foo`. The first
call starts with the static `makeType` at `MAKE_TYPE_GMAKE`, styles `foo`
(bytes 2 to 4) as default text, and meets `.x ` on line 2, which sets
`makeType` to `MAKE_TYPE_BMAKE`; the static keeps that value, so the second
call on the unchanged text styles `foo` as preprocessor (style 2). -/
theorem make_second_scan_differs_after_bmake_line :
    ColouriseMakeDoc makeLexer asciiH bmakeKeywords [bytes "a foo b\n", bytes ".x y\n"]
        MAKE_TYPE_GMAKE 0 13 (makeLexer.SCE_MAKE .DEFAULT) 13 =
      some { ColorTo := [(0, 0), (1, 0), (2, 0), (6, 0), (8, 0), (10, 2), (11, 0), (13, 0)]
             makeType := MAKE_TYPE_BMAKE } ∧
    ColouriseMakeDoc makeLexer asciiH bmakeKeywords [bytes "a foo b\n", bytes ".x y\n"]
        MAKE_TYPE_BMAKE 0 13 (makeLexer.SCE_MAKE .DEFAULT) 13 =
      some { ColorTo := [(0, 0), (1, 0), (2, 0), (5, 2), (6, 0), (8, 0), (10, 2), (11, 0),
               (13, 0)]
             makeType := MAKE_TYPE_BMAKE } ∧
    ColouriseMakeDoc.twice makeLexer asciiH bmakeKeywords [bytes "a foo b\n", bytes ".x y\n"]
        13 =
      some ([some 0, some 0, some 0, some 0, some 0, some 0, some 0, some 0, some 2, some 2,
          some 0, some 0, some 0],
        [some 0, some 0, some 2, some 2, some 2, some 0, some 0, some 0, some 2, some 2,
          some 0, some 0, some 0]) ∧
    (bmakeKeywords 6).InList asciiH (bytes "foo") = some true ∧
    makeLexer.SCE_MAKE .PREPROCESSOR = 2 ∧ makeLexer.SCE_MAKE .DEFAULT = 0 := by
  decide

/-- C22 (amended): rescans by the Makefile tokenizer, whose static `makeType`
keeps the dialect from one call to the next. For every document, word lists,
range, `initStyle` and value of `makeType` before the first call: when a call
of `ColouriseMakeDoc` returns the result `r1`, a second call in succession on
the unchanged text returns too, within the same number of rounds, and leaves
`makeType` at the value the first call left; the second call makes the style
assignments of the first when the first call left `makeType` as it found it;
a third call makes the style assignments of the second, and every byte has
after it the style it has after the second call. -/
theorem make_rescan_stable (k : MakeLexerH) (h : WordListH) (keywordLists : Nat → WordList)
    (doc : Document) (makeType startPos length : Nat) (initStyle : Int) (fuel : Nat)
    (r1 : MakeResult)
    (h1 : ColouriseMakeDoc k h keywordLists doc makeType startPos length initStyle fuel =
      some r1) :
    ∃ r2, ColouriseMakeDoc k h keywordLists doc r1.makeType startPos length initStyle fuel =
        some r2 ∧
      r2.makeType = r1.makeType ∧
      (r1.makeType = makeType → r2 = r1) ∧
      ColouriseMakeDoc k h keywordLists doc r2.makeType startPos length initStyle fuel =
        some r2 ∧
      ∀ (st : StyleStore) (p : Nat),
        ((((st.StartSegment startPos).run r2.ColorTo).StartSegment startPos).run
          r2.ColorTo).styleAt p = ((st.StartSegment startPos).run r2.ColorTo).styleAt p := by
  have hstart : ColouriseMakeDoc.SameScan makeType r1.makeType
      (ColouriseMakeDoc.start doc makeType startPos initStyle)
      (ColouriseMakeDoc.start doc r1.makeType startPos initStyle) :=
    ⟨rfl, rfl, rfl, rfl, rfl, rfl, rfl, rfl, rfl, Or.inl ⟨rfl, rfl⟩⟩
  unfold ColouriseMakeDoc at h1
  simp only [] at h1
  rcases loop_sameScan k h keywordLists doc (startPos + length) makeType r1.makeType fuel _ _
      hstart with ⟨e1, _⟩ | ⟨a1, b1, e1, e2, e12⟩
  · rw [e1] at h1
    cases h1
  · rw [e1] at h1
    have hr1 : r1 = ⟨a1.calls ++ [(startPos + length, a1.state)], a1.makeType⟩ :=
      (Option.some.inj h1).symm
    have hmt : b1.makeType = r1.makeType := by
      rcases e12.2.2.2.2.2.2.2.2.2 with ⟨_, hb⟩ | hab
      · exact hb
      · rw [← hab, hr1]
    have h2 : ColouriseMakeDoc k h keywordLists doc r1.makeType startPos length initStyle fuel =
        some ⟨b1.calls ++ [(startPos + length, b1.state)], b1.makeType⟩ := by
      unfold ColouriseMakeDoc
      simp only [e2]
    refine ⟨_, h2, hmt, fun hsame => ?_, ?_, fun st p => run_twice _ st startPos p⟩
    · rw [hsame] at h2
      unfold ColouriseMakeDoc at h2
      simp only [e1] at h2
      rw [hr1]
      exact (Option.some.inj h2).symm
    · have h3 := h2
      rw [← hmt] at h3
      exact h3

set_option maxRecDepth 1000000 in
/-- Witness of C22 (amended): the two-line document `a foo b` / `.x y` with
`foo` in the list of `bmake` directives. The first call starts with
`makeType` at `MAKE_TYPE_GMAKE` and leaves it at `MAKE_TYPE_BMAKE`; the second
call leaves it there, and a third call repeats the second. -/
theorem make_rescan_stable_witness :
    ColouriseMakeDoc makeLexer asciiH bmakeKeywords bmakeDoc MAKE_TYPE_GMAKE 0 13
        (makeLexer.SCE_MAKE .DEFAULT) 13 = some bmakeFirstResult ∧
    ∃ r2, ColouriseMakeDoc makeLexer asciiH bmakeKeywords bmakeDoc bmakeFirstResult.makeType
        0 13 (makeLexer.SCE_MAKE .DEFAULT) 13 = some r2 ∧
      r2.makeType = bmakeFirstResult.makeType ∧
      (bmakeFirstResult.makeType = MAKE_TYPE_GMAKE → r2 = bmakeFirstResult) ∧
      ColouriseMakeDoc makeLexer asciiH bmakeKeywords bmakeDoc r2.makeType 0 13
        (makeLexer.SCE_MAKE .DEFAULT) 13 = some r2 ∧
      ∀ (st : StyleStore) (p : Nat),
        ((((st.StartSegment 0).run r2.ColorTo).StartSegment 0).run r2.ColorTo).styleAt p =
          ((st.StartSegment 0).run r2.ColorTo).styleAt p :=
  ⟨by decide,
    make_rescan_stable makeLexer asciiH bmakeKeywords bmakeDoc MAKE_TYPE_GMAKE 0 13
      (makeLexer.SCE_MAKE .DEFAULT) 13 bmakeFirstResult (by decide)⟩

/-- Counterexample to C26 as stated. With folding enabled,
`ColouriseDiffDoc` sets the levels `0x2400` (base with the header flag) for the
command line and `0x2401` for the header line of a diff, and `FoldNullDoc`
sets the level `0x400` for both lines of `a` / `b`: the bits 16 and above are
zero, so `(level of line 0) >> 16` is 0, not the depth of line 1 (`0x401` and
`0x400`). -/
theorem diff_and_null_levels_lack_next_field :
    (ColouriseDiffDoc sciLexer scintilla true
        [bytes "diff a b\n", bytes "--- a/x\n", bytes "+new\n", bytes " ctx"]
        (fun _ => 0x400) 0 26 0).map (fun calls => calls.SetLevel) =
      some [(0, 0x2400), (1, 0x2401), (2, 0x402), (3, 0x402)] ∧
    0x2400 >>> 16 = 0 ∧ 0x2401 &&& scintilla.SC_FOLDLEVELNUMBERMASK = 0x401 ∧
    FoldNullDoc scintilla 1 [bytes "a\n", bytes "b"]
        (spacesIndentAmount scintilla [bytes "a\n", bytes "b"]) 0 3 =
      [(0, 0x400), (1, 0x400)] ∧
    0x400 >>> 16 = 0 ∧ 0x400 &&& scintilla.SC_FOLDLEVELNUMBERMASK = 0x400 := by
  decide

/-- C26 (amended): with folding enabled, the fold levels `ColouriseDiffDoc`
and `FoldNullDoc` set have no next-depth field. When the base level plus 2,
the header flag, the number mask plus 1, the stored fold levels and the indent
amounts are below `2 ^ 16`, every level set by a scan of `ColouriseDiffDoc`
(which completes on a range inside the document that starts at a line start)
and by a pass of `FoldNullDoc` is below `2 ^ 16`: its bits 16 and above are
zero. -/
theorem diff_and_null_levels_below_bit_16 (k : SciLexerH) (sc : ScintillaH) (doc : Document)
    (LevelAt IndentAmount : Nat → Nat) (fold : Int) (startPos lengthDoc : Nat)
    (initStyle : Int)
    (hB : sc.SC_FOLDLEVELBASE + 2 < 2 ^ 16) (hH : sc.SC_FOLDLEVELHEADERFLAG < 2 ^ 16)
    (hM : sc.SC_FOLDLEVELNUMBERMASK + 1 < 2 ^ 16) (hL : ∀ l, LevelAt l < 2 ^ 16)
    (hI : ∀ l, IndentAmount l < 2 ^ 16)
    (hstart : doc.LineStart (doc.GetLine startPos) = startPos)
    (hend : startPos + lengthDoc ≤ doc.Length) :
    (∃ calls, ColouriseDiffDoc k sc true doc LevelAt startPos lengthDoc initStyle = some calls ∧
      ∀ x ∈ calls.SetLevel, x.2 < 2 ^ 16 ∧ x.2 >>> 16 = 0) ∧
    ∀ x ∈ FoldNullDoc sc fold doc IndentAmount startPos lengthDoc,
      x.2 < 2 ^ 16 ∧ x.2 >>> 16 = 0 := by
  have hshift : ∀ v : Nat, v < 2 ^ 16 → v >>> 16 = 0 := by
    intro v hv
    rw [Nat.shiftRight_eq_div_pow]
    exact Nat.div_eq_of_lt hv
  constructor
  · obtain ⟨calls, hc, _⟩ := ColouriseDiffDoc_spec k sc true doc LevelAt startPos lengthDoc
      initStyle StyleStore.blank hstart hend
    refine ⟨calls, hc, ?_⟩
    intro x hx
    unfold ColouriseDiffDoc at hc
    simp only at hc
    split at hc
    · cases hc
    rename_i c l last hloop
    cases hc
    have hp : (if doc.GetLine startPos > 0 then LevelAt (doc.GetLine startPos - 1)
        else sc.SC_FOLDLEVELBASE) < 2 ^ 16 := by
      split
      · exact hL _
      · omega
    have := ColouriseDiffDoc_loop_levels k sc true doc _ hB hH hM _ _ _ _ _ _ c l last hp hloop
      x hx
    exact ⟨this, hshift _ this⟩
  · intro x hx
    have hlt : x.2 < 2 ^ 16 := by
      rcases FoldNullDoc_spec sc fold doc IndentAmount startPos lengthDoc x hx with
        ⟨_, h2⟩ | ⟨_, _, n, _, h3⟩
      · rcases h2 with ⟨n, _, h⟩ | ⟨_, h⟩
        · rw [h]
          exact FoldNullDoc_lev_lt sc _ _ (hI _) hH
        · rw [h]
          exact FoldNullDoc_lev_lt sc _ _ (hI _) hH
      · rw [h3]
        exact Nat.lt_of_le_of_lt Nat.and_le_left (hI _)
    exact ⟨hlt, hshift _ hlt⟩

set_option maxRecDepth 100000 in
/-- Witness of C26 (amended): the levels of a four-line diff and of a
four-line text. -/
theorem diff_and_null_levels_below_bit_16_witness :
    (∃ calls, ColouriseDiffDoc sciLexer scintilla true
        [bytes "diff a b\n", bytes "--- a/x\n", bytes "+new\n", bytes " ctx"]
        (fun _ => 0x400) 9 13 7 = some calls ∧
      ∀ x ∈ calls.SetLevel, x.2 < 2 ^ 16 ∧ x.2 >>> 16 = 0) ∧
    ∀ x ∈ FoldNullDoc scintilla 1 [bytes "diff a b\n", bytes "--- a/x\n", bytes "+new\n", bytes " ctx"]
        (fun _ => 0x400) 9 13,
      x.2 < 2 ^ 16 ∧ x.2 >>> 16 = 0 :=
  diff_and_null_levels_below_bit_16 sciLexer scintilla
    [bytes "diff a b\n", bytes "--- a/x\n", bytes "+new\n", bytes " ctx"]
    (fun _ => 0x400) (fun _ => 0x400) 1 9 13 7 (by decide) (by decide) (by decide)
    (fun _ => by norm_num) (fun _ => by norm_num) (by decide) (by decide)

set_option maxRecDepth 100000 in
/-- Counterexample to C28 as stated. In the text `a` / two spaces / `    b` /
`c` the blank line 1, whose indent is the base plus 2 (`0x402`), gets the level
`0x404`, the number of the next line that is not blank. In the text `a` /
four spaces the line 0 gets the header flag (`0x2400`) although no line that is
not blank follows it: its indent is compared with that of the blank last
line. -/
theorem null_fold_blank_line_level_and_header_before_blank_end :
    FoldNullDoc scintilla 1 [bytes "a\n", bytes "  \n", bytes "    b\n", bytes "c"]
        (spacesIndentAmount scintilla [bytes "a\n", bytes "  \n", bytes "    b\n", bytes "c"])
        0 12 =
      [(0, 0x2400), (1, 0x404), (2, 0x404), (3, 0x400)] ∧
    spacesIndentAmount scintilla [bytes "a\n", bytes "  \n", bytes "    b\n", bytes "c"] 1 =
      0x402 ||| scintilla.SC_FOLDLEVELWHITEFLAG ∧
    FoldNullDoc scintilla 1 [bytes "a\n", bytes "    "]
        (spacesIndentAmount scintilla [bytes "a\n", bytes "    "]) 0 6 =
      [(0, 0x2400), (1, 0x404)] ∧
    spacesIndentAmount scintilla [bytes "a\n", bytes "    "] 1 =
      0x404 ||| scintilla.SC_FOLDLEVELWHITEFLAG ∧
    0x2400 &&& scintilla.SC_FOLDLEVELHEADERFLAG ≠ 0 := by
  decide

/-- C28 (amended): for every line that is not blank and that `FoldNullDoc`
sets a level for, when the header flag is a bit outside the number mask and
the white flag and outside the indent of the line: the depth of the level is
the indent of the line, the level has no white flag, and it has the header
flag iff the line is not the last one and the next line that is not blank, or
the last line of the document when only blank lines follow, has a strictly
greater indent. -/
theorem null_fold_level_of_nonblank_line (sc : ScintillaH) (fold : Int) (doc : Document)
    (IndentAmount : Nat → Nat) (startPos lengthDoc : Nat)
    (hH : sc.SC_FOLDLEVELHEADERFLAG ≠ 0)
    (hHM : sc.SC_FOLDLEVELHEADERFLAG &&& sc.SC_FOLDLEVELNUMBERMASK = 0)
    (hHW : sc.SC_FOLDLEVELHEADERFLAG &&& sc.SC_FOLDLEVELWHITEFLAG = 0)
    (x : Nat × Nat) (hx : x ∈ FoldNullDoc sc fold doc IndentAmount startPos lengthDoc)
    (hnb : IndentAmount x.1 &&& sc.SC_FOLDLEVELWHITEFLAG = 0)
    (hIH : IndentAmount x.1 &&& sc.SC_FOLDLEVELHEADERFLAG = 0) :
    x.2 &&& sc.SC_FOLDLEVELNUMBERMASK = IndentAmount x.1 &&& sc.SC_FOLDLEVELNUMBERMASK ∧
    x.2 &&& sc.SC_FOLDLEVELWHITEFLAG = 0 ∧
    (x.2 &&& sc.SC_FOLDLEVELHEADERFLAG ≠ 0 ↔
      ∃ n, FoldNullDoc.NextLine sc IndentAmount (doc.GetLine doc.Length) x.1 n ∧
        IndentAmount x.1 &&& sc.SC_FOLDLEVELNUMBERMASK <
          IndentAmount n &&& sc.SC_FOLDLEVELNUMBERMASK) := by
  rcases FoldNullDoc_spec sc fold doc IndentAmount startPos lengthDoc x hx with
    ⟨_, h2⟩ | ⟨_, h2, _⟩
  · rcases h2 with ⟨n, hn, h⟩ | ⟨hl, h⟩
    · obtain ⟨a, b, c⟩ := FoldNullDoc_lev_nonblank sc (IndentAmount x.1) (IndentAmount n)
        hH hHM hHW hnb hIH
      rw [h]
      refine ⟨a, b, c.trans ⟨fun hlt => ⟨n, hn, hlt⟩, ?_⟩⟩
      rintro ⟨m, hm, hlt⟩
      rw [NextLine_unique sc IndentAmount _ x.1 n m hn hm]
      exact hlt
    · obtain ⟨a, b, c⟩ := FoldNullDoc_lev_nonblank sc (IndentAmount x.1) (IndentAmount x.1)
        hH hHM hHW hnb hIH
      rw [h]
      refine ⟨a, b, c.trans ⟨fun hlt => absurd hlt (Nat.lt_irrefl _), ?_⟩⟩
      rintro ⟨m, hm, _⟩
      have := hm.1
      have := hm.2.1
      omega
  · exact absurd hnb h2

set_option maxRecDepth 100000 in
/-- Witness of C28 (amended): in the text `a` / two spaces / `    b` / `c` the
line 0 gets its indent `0x400` with the header flag (the next line that is not
blank is line 2, of indent `0x404`), and the line 2 gets its indent `0x404`
without the header flag (the next line has the indent `0x400`). -/
theorem null_fold_level_of_nonblank_line_witness :
    FoldNullDoc scintilla 1 [bytes "a\n", bytes "  \n", bytes "    b\n", bytes "c"]
        (spacesIndentAmount scintilla [bytes "a\n", bytes "  \n", bytes "    b\n", bytes "c"])
        0 12 =
      [(0, 0x2400), (1, 0x404), (2, 0x404), (3, 0x400)] ∧
    (0x2400 &&& scintilla.SC_FOLDLEVELNUMBERMASK =
        spacesIndentAmount scintilla [bytes "a\n", bytes "  \n", bytes "    b\n", bytes "c"] 0 &&&
          scintilla.SC_FOLDLEVELNUMBERMASK ∧
      0x2400 &&& scintilla.SC_FOLDLEVELWHITEFLAG = 0 ∧
      (0x2400 &&& scintilla.SC_FOLDLEVELHEADERFLAG ≠ 0 ↔
        ∃ n, FoldNullDoc.NextLine scintilla
            (spacesIndentAmount scintilla
              [bytes "a\n", bytes "  \n", bytes "    b\n", bytes "c"])
            (Document.GetLine [bytes "a\n", bytes "  \n", bytes "    b\n", bytes "c"]
              (Document.Length [bytes "a\n", bytes "  \n", bytes "    b\n", bytes "c"])) 0 n ∧
          spacesIndentAmount scintilla
              [bytes "a\n", bytes "  \n", bytes "    b\n", bytes "c"] 0 &&&
            scintilla.SC_FOLDLEVELNUMBERMASK <
          spacesIndentAmount scintilla
              [bytes "a\n", bytes "  \n", bytes "    b\n", bytes "c"] n &&&
            scintilla.SC_FOLDLEVELNUMBERMASK)) :=
  ⟨by decide,
    null_fold_level_of_nonblank_line scintilla 1
      [bytes "a\n", bytes "  \n", bytes "    b\n", bytes "c"]
      (spacesIndentAmount scintilla [bytes "a\n", bytes "  \n", bytes "    b\n", bytes "c"])
      0 12 (by decide) (by decide) (by decide) (0, 0x2400) (by decide) (by decide) (by decide)⟩

set_option maxRecDepth 100000 in
/-- Counterexample to C29 as stated. In the text empty line / empty line /
`  a` the blank line 0 is followed by the line 2, which is not blank and has
the depth `0x402`, but gets the level `0x400`, its own indent: the pass starts
with it as `lineCurrent`. The two blank lines of the run get different
depths. -/
theorem null_fold_blank_first_line_keeps_own_indent :
    FoldNullDoc scintilla 1 [bytes "\n", bytes "\n", bytes "  a"]
        (spacesIndentAmount scintilla [bytes "\n", bytes "\n", bytes "  a"]) 0 5 =
      [(0, 0x400), (1, 0x402), (2, 0x402)] ∧
    spacesIndentAmount scintilla [bytes "\n", bytes "\n", bytes "  a"] 0 =
      0x400 ||| scintilla.SC_FOLDLEVELWHITEFLAG ∧
    spacesIndentAmount scintilla [bytes "\n", bytes "\n", bytes "  a"] 1 =
      0x400 ||| scintilla.SC_FOLDLEVELWHITEFLAG ∧
    spacesIndentAmount scintilla [bytes "\n", bytes "\n", bytes "  a"] 2 = 0x402 := by
  decide

/-- C29 (amended): for every blank line other than the first line of the
document that `FoldNullDoc` sets a level for and that is followed later in the
document by a line that is not blank, the level is exactly the depth of the
next such line `n`, the number part of its indent, and it has no header flag
when the header flag is a bit outside the number mask; all such blank lines of
one run therefore get the same level. (The same holds with the last line of
the document for `n` when only blank lines follow.) -/
theorem null_fold_level_of_blank_line (sc : ScintillaH) (fold : Int) (doc : Document)
    (IndentAmount : Nat → Nat) (startPos lengthDoc : Nat)
    (x : Nat × Nat) (hx : x ∈ FoldNullDoc sc fold doc IndentAmount startPos lengthDoc)
    (hfirst : x.1 ≠ 0) (hblank : IndentAmount x.1 &&& sc.SC_FOLDLEVELWHITEFLAG ≠ 0)
    (n : Nat) (hn : FoldNullDoc.NextLine sc IndentAmount (doc.GetLine doc.Length) x.1 n) :
    x.2 = IndentAmount n &&& sc.SC_FOLDLEVELNUMBERMASK ∧
    (sc.SC_FOLDLEVELHEADERFLAG &&& sc.SC_FOLDLEVELNUMBERMASK = 0 →
      x.2 &&& sc.SC_FOLDLEVELHEADERFLAG = 0) := by
  have hval : x.2 = IndentAmount n &&& sc.SC_FOLDLEVELNUMBERMASK := by
    rcases FoldNullDoc_spec sc fold doc IndentAmount startPos lengthDoc x hx with
      ⟨h1, _⟩ | ⟨_, _, m, hm, h3⟩
    · rcases h1 with h | h | h
      · exact absurd h hblank
      · have := hn.1
        have := hn.2.1
        omega
      · exact absurd h hfirst
    · rw [h3, NextLine_unique sc IndentAmount _ x.1 n m hn hm]
  refine ⟨hval, fun hHM => ?_⟩
  rw [hval, Nat.and_assoc, Nat.and_comm sc.SC_FOLDLEVELNUMBERMASK, hHM, Nat.and_zero]

set_option maxRecDepth 100000 in
/-- Witness of C29 (amended): in the text `a` / two spaces / `    b` / `c` the
blank line 1 gets the level `0x404`, the depth of line 2. -/
theorem null_fold_level_of_blank_line_witness :
    FoldNullDoc scintilla 1 [bytes "a\n", bytes "  \n", bytes "    b\n", bytes "c"]
        (spacesIndentAmount scintilla [bytes "a\n", bytes "  \n", bytes "    b\n", bytes "c"])
        0 12 =
      [(0, 0x2400), (1, 0x404), (2, 0x404), (3, 0x400)] ∧
    (0x404 = spacesIndentAmount scintilla
          [bytes "a\n", bytes "  \n", bytes "    b\n", bytes "c"] 2 &&&
        scintilla.SC_FOLDLEVELNUMBERMASK ∧
      (scintilla.SC_FOLDLEVELHEADERFLAG &&& scintilla.SC_FOLDLEVELNUMBERMASK = 0 →
        0x404 &&& scintilla.SC_FOLDLEVELHEADERFLAG = 0)) :=
  ⟨by decide,
    null_fold_level_of_blank_line scintilla 1
      [bytes "a\n", bytes "  \n", bytes "    b\n", bytes "c"]
      (spacesIndentAmount scintilla [bytes "a\n", bytes "  \n", bytes "    b\n", bytes "c"])
      0 12 (1, 0x404) (by decide) (by decide) (by decide) 2
      ⟨by decide, by decide, fun l h1 h2 => absurd h2 (by omega), Or.inr (by decide)⟩⟩

set_option maxRecDepth 100000 in
/-- Counterexample to C25 as stated. `FoldMakeDoc` folds line 1 of the text
`a` / `b` when the level stored for line 0 is `0x10000400`, the level of a line
at the base depth that ends at the depth `0x1000` (a line with 3072 opening
braces gets it). The pass reads the current depth `0x1000` of line 1 from it and
sets the level `0x10001000`; the number mask `0x0FFF` cuts the current-depth
field of that level to 0, which is not the next-depth field `0x1000` of line
0. -/
theorem fold_chain_breaks_beyond_number_mask :
    (FoldMakeDoc makeLexer scintilla [bytes "a\n", bytes "b\n", []] (fun _ => 0)
        (fun _ => 0x10000400) 2 2 0 2).calls = [(1, 0x10001000)] ∧
    foldCurrentDepth scintilla 0x10001000 = 0 ∧ shiftRight16 0x10000400 = 0x1000 ∧
    foldLevel scintilla 0x400 0x1000 = 0x10000400 ||| scintilla.SC_FOLDLEVELHEADERFLAG ∧
    ¬ (FoldMakeDoc makeLexer scintilla [bytes "a\n", bytes "b\n", []] (fun _ => 0)
        (fun _ => 0x10000400) 2 2 0 2).Continuous scintilla := by
  refine ⟨by decide, by decide, by decide, by decide, ?_⟩
  intro h
  have h1 : (FoldMakeDoc makeLexer scintilla [bytes "a\n", bytes "b\n", []] (fun _ => 0)
      (fun _ => 0x10000400) 2 2 0 2).calls = [(1, 0x10001000)] := by decide
  have h2 : (FoldMakeDoc makeLexer scintilla [bytes "a\n", bytes "b\n", []] (fun _ => 0)
      (fun _ => 0x10000400) 2 2 0 2).LevelAt 0 = 0x10000400 := by decide
  have := h (1, 0x10001000) (by rw [h1]; simp) (by decide)
  simp only [Nat.sub_self, h2] at this
  revert this
  decide

/-- C25 (amended): fold chain continuity for the structural folders. When
the number mask is below `2 ^ 15` and the header flag is a bit below `2 ^ 16`
outside the mask, then for each of `FoldRustDoc`, `FoldJsDoc`, `FoldAsyDoc`
and `FoldMakeDoc`, every pass (after any number of rounds of its loop) in
which the depths computed at the line ends are not negative and fit the number
mask is continuous: for every line `i > 0` whose level the pass has set, the
current-depth field of that level equals the next-depth field `>> 16` of the
level stored for line `i - 1`, including the first line of the pass, whose
current depth is read from the stored level of the preceding line. -/
theorem fold_chain_continuous (sc : ScintillaH) (hsc : sc.FoldFields)
    (kr : RustLexerH) (kj : JsLexerH) (ka : AsyLexerH) (km : MakeLexerH)
    (CheckBraceOnNextLine : Document → (Nat → Int) → Nat → Int → Int → Nat) (doc : Document)
    (StyleAt : Nat → Int) (GetLineState LevelAt : Nat → Nat) (startPos lengthDoc : Nat)
    (initStyle : Int) (fuel : Nat) :
    ((FoldRustDoc kr sc CheckBraceOnNextLine doc StyleAt GetLineState LevelAt startPos
        lengthDoc initStyle fuel).Fits sc →
      (FoldRustDoc kr sc CheckBraceOnNextLine doc StyleAt GetLineState LevelAt startPos
        lengthDoc initStyle fuel).Continuous sc) ∧
    ((FoldJsDoc kj sc CheckBraceOnNextLine doc StyleAt GetLineState LevelAt startPos
        lengthDoc initStyle fuel).Fits sc →
      (FoldJsDoc kj sc CheckBraceOnNextLine doc StyleAt GetLineState LevelAt startPos
        lengthDoc initStyle fuel).Continuous sc) ∧
    ((FoldAsyDoc ka sc CheckBraceOnNextLine doc StyleAt GetLineState LevelAt startPos
        lengthDoc initStyle fuel).Fits sc →
      (FoldAsyDoc ka sc CheckBraceOnNextLine doc StyleAt GetLineState LevelAt startPos
        lengthDoc initStyle fuel).Continuous sc) ∧
    ((FoldMakeDoc km sc doc StyleAt LevelAt startPos lengthDoc initStyle fuel).Fits sc →
      (FoldMakeDoc km sc doc StyleAt LevelAt startPos lengthDoc initStyle fuel).Continuous
        sc) := by
  refine ⟨fun hf => ?_, fun hf => ?_, fun hf => ?_, fun hf => ?_⟩
  · exact (FoldRustDoc_loop_chain kr sc hsc CheckBraceOnNextLine doc StyleAt GetLineState _ fuel _
      (FoldPass.start_chain sc doc LevelAt startPos)).continuous hf
  · exact (FoldJsDoc_loop_chain kj sc hsc CheckBraceOnNextLine doc StyleAt GetLineState _ fuel _
      (FoldPass.start_chain sc doc LevelAt startPos)).continuous hf
  · exact (FoldAsyDoc_loop_chain ka sc hsc CheckBraceOnNextLine doc StyleAt GetLineState _ fuel _
      (FoldPass.start_chain sc doc LevelAt startPos)).continuous hf
  · exact (FoldMakeDoc_loop_chain km sc hsc doc StyleAt _ fuel _
      (FoldPass.start_chain sc doc LevelAt startPos)).continuous hf

/-- C27: bracket folding by `FoldJsDoc`. A pass over the whole lines `a` to
`b - 1` (none of them empty) whose bytes have no block-comment,
template-string or JSX-tag style, whose line states, like that of the line
before the pass, carry no line-comment, import or continuation flag, and
where no opening brace starts the line after any of them (nor the first line
of the pass: `CheckBraceOnNextLine` finds none), handles exactly these lines
and gives each the level `levelUse | levelNext << 16` with the header flag when
`levelUse < levelNext`, where the next depth `levelNext` is the current depth
`levelUse` plus the number of operator-styled `{`, `[`, `(` on the line minus
the number of operator-styled `}`, `]`, `)`; the current depth of the first
line is read from the level of the line before it (the base level on line 0)
and that of every other line is the next depth of the line before it. -/
theorem js_bracket_folding (k : JsLexerH) (sc : ScintillaH)
    (CheckBraceOnNextLine : Document → (Nat → Int) → Nat → Int → Int → Nat) (doc : Document)
    (StyleAt : Nat → Int) (GetLineState LevelAt : Nat → Nat) (a b : Nat) (initStyle : Int)
    (hab : a < b)
    (hne : ∀ l, l < b → a ≤ l → doc.getD l [] ≠ [])
    (hstyle : ∀ p, p < doc.LineStart b → doc.LineStart a ≤ p →
      StyleAt p ≠ k.SCE_JS .COMMENTBLOCK ∧ StyleAt p ≠ k.SCE_JS .COMMENTBLOCKDOC ∧
      StyleAt p ≠ k.SCE_JS .STRING_BT ∧ StyleAt p ≠ k.SCE_JS .JSX_TAG)
    (hstate : ∀ l, l < b → a ≤ l →
      JsFoldLineState.ofLineState (GetLineState l) =
        { lineComment := 0, packageImport := 0, lineContinuation := 0 })
    (hbrace : ∀ l, l < b → a ≤ l →
      CheckBraceOnNextLine doc StyleAt l (k.SCE_JS .OPERATOR) (k.SCE_JS .TASKMARKER) = 0)
    (hstate0 : 0 < a → (JsFoldLineState.ofLineState (GetLineState (a - 1))).lineContinuation = 0)
    (hbrace0 : 0 < a →
      CheckBraceOnNextLine doc StyleAt (a - 1) (k.SCE_JS .OPERATOR) (k.SCE_JS .TASKMARKER) = 0) :
    ∃ p, FoldJsDoc k sc CheckBraceOnNextLine doc StyleAt GetLineState LevelAt (doc.LineStart a)
        (doc.LineStart b - doc.LineStart a) initStyle (doc.LineStart b - doc.LineStart a) = p ∧
      p.lineCurrent = b ∧ p.lines.map Prod.fst = List.range' a (b - a) ∧
      (∀ t ∈ p.lines,
        t.2.2 = t.2.1 + (openingBrackets doc StyleAt (k.SCE_JS .OPERATOR) t.1 : Int) -
          (closingBrackets doc StyleAt (k.SCE_JS .OPERATOR) t.1 : Int) ∧
        p.LevelAt t.1 = foldLevel sc t.2.1 t.2.2) ∧
      p.lines = bracketFoldLines doc StyleAt (k.SCE_JS .OPERATOR) a
        (if 0 < a then shiftRight16 (LevelAt (a - 1)) else (sc.SC_FOLDLEVELBASE : Int))
        (b - a) := by
  have hstart := FoldJsDoc_start_bracket k sc CheckBraceOnNextLine doc StyleAt GetLineState
    LevelAt a b initStyle hab (hne a hab (Nat.le_refl _)) hstate0 hbrace0
  have hfin := FoldJsDoc_loop_bracket k sc CheckBraceOnNextLine doc StyleAt GetLineState a
    (if 0 < a then shiftRight16 (LevelAt (a - 1)) else (sc.SC_FOLDLEVELBASE : Int)) b hne hstyle
    hstate hbrace (doc.LineStart b - doc.LineStart a) 0 0 _ (by omega)
    (fun _ => List.length_pos.mpr (hne a hab (Nat.le_refl _))) (fun _ => rfl) hstart
    (by rw [hstart.startPos, Nat.add_zero, Nat.add_zero])
  have hend : doc.LineStart a + (doc.LineStart b - doc.LineStart a) = doc.LineStart b := by
    have := LineStart_mono doc (Nat.le_of_lt hab)
    omega
  refine ⟨_, rfl, ?_, ?_, ?_, ?_⟩
  · unfold FoldJsDoc
    rw [hend, hfin.lineCurrent]
    omega
  · unfold FoldJsDoc
    rw [hend, hfin.lines, bracketFoldLines_lines]
  · intro t ht
    unfold FoldJsDoc at ht ⊢
    rw [hend] at ht ⊢
    refine ⟨?_, (hfin.levels t ht).2⟩
    rw [hfin.lines] at ht
    exact (bracketFoldLines_mem doc StyleAt _ a _ _ t ht).2.2.2
  · unfold FoldJsDoc
    rw [hend, hfin.lines]

set_option maxRecDepth 1000000 in
/-- Witness of C27: `function f() {` / `  return 1;` / `}`. The styles are
those of `ColouriseJsDoc`; line 0 has the current depth `0x400` (base), the
next depth `0x401` and the header flag (level `0x04012400`), line 1 stays at
`0x401` (level `0x04010401`), and line 2 has the next depth `0x400` (level
`0x04000401`). -/
theorem js_bracket_folding_witness :
    (ColouriseJsDoc jsLexer asciiH noKeywords false jsFunctionDoc StyleStore.blank (fun _ => 0)
        0 29 (jsLexer.SCE_JS .DEFAULT) 100).map
      (fun sc => ((List.range 29).map fun p => (sc.styler.styleAt p).getD 0, sc.lineStateList)) =
      some ((List.range 29).map jsFunctionStyles, [0, 0, 0, 0]) ∧
    (FoldJsDoc jsLexer scintilla noBraceOnNextLine jsFunctionDoc jsFunctionStyles (fun _ => 0)
        (fun _ => 0) 0 29 0 29).calls =
      [(0, 0x04012400), (1, 0x04010401), (2, 0x04000401)] ∧
    (FoldJsDoc jsLexer scintilla noBraceOnNextLine jsFunctionDoc jsFunctionStyles (fun _ => 0)
        (fun _ => 0) 0 29 0 29).lines = [(0, 0x400, 0x401), (1, 0x401, 0x401), (2, 0x401, 0x400)] ∧
    0x04012400 &&& scintilla.SC_FOLDLEVELHEADERFLAG ≠ 0 ∧
    ∃ p, FoldJsDoc jsLexer scintilla noBraceOnNextLine jsFunctionDoc jsFunctionStyles
        (fun _ => 0) (fun _ => 0) (Document.LineStart jsFunctionDoc 0)
        (Document.LineStart jsFunctionDoc 3 - Document.LineStart jsFunctionDoc 0) 0
        (Document.LineStart jsFunctionDoc 3 - Document.LineStart jsFunctionDoc 0) = p ∧
      p.lineCurrent = 3 ∧ p.lines.map Prod.fst = List.range' 0 (3 - 0) ∧
      (∀ t ∈ p.lines,
        t.2.2 = t.2.1 +
            (openingBrackets jsFunctionDoc jsFunctionStyles (jsLexer.SCE_JS .OPERATOR) t.1 : Int) -
          (closingBrackets jsFunctionDoc jsFunctionStyles (jsLexer.SCE_JS .OPERATOR) t.1 : Int) ∧
        p.LevelAt t.1 = foldLevel scintilla t.2.1 t.2.2) ∧
      p.lines = bracketFoldLines jsFunctionDoc jsFunctionStyles (jsLexer.SCE_JS .OPERATOR) 0
        (if 0 < 0 then shiftRight16 ((fun _ => 0) (0 - 1))
          else (scintilla.SC_FOLDLEVELBASE : Int))
        (3 - 0) :=
  ⟨by decide, by decide, by decide, by decide,
    js_bracket_folding jsLexer scintilla noBraceOnNextLine jsFunctionDoc jsFunctionStyles
      (fun _ => 0) (fun _ => 0) 0 3 0 (by decide) (by decide) (by decide) (by decide) (by decide)
      (by decide) (by decide)⟩

set_option maxRecDepth 1000000 in
/-- Witness of C25 (amended): the passes of the four folders over the three
lines of `function f() {` / `  return 1;` / `}` with the styles of
`ColouriseJsDoc`; `FoldJsDoc` sets the levels `0x04012400`, `0x04010401` and
`0x04000401`, whose current depths `0x401` and `0x401` of lines 1 and 2 are the
next depths of lines 0 and 1. -/
theorem fold_chain_continuous_witness :
    (FoldJsDoc jsLexer scintilla noBraceOnNextLine jsFunctionDoc jsFunctionStyles (fun _ => 0)
        (fun _ => 0) 0 29 0 29).calls =
      [(0, 0x04012400), (1, 0x04010401), (2, 0x04000401)] ∧
    (foldCurrentDepth scintilla 0x04010401 : Int) = shiftRight16 0x04012400 ∧
    (foldCurrentDepth scintilla 0x04000401 : Int) = shiftRight16 0x04010401 ∧
    (FoldRustDoc rustLexer scintilla noBraceOnNextLine jsFunctionDoc jsFunctionStyles
        (fun _ => 0) (fun _ => 0) 0 29 0 29).Continuous scintilla ∧
    (FoldJsDoc jsLexer scintilla noBraceOnNextLine jsFunctionDoc jsFunctionStyles (fun _ => 0)
        (fun _ => 0) 0 29 0 29).Continuous scintilla ∧
    (FoldAsyDoc asyLexer scintilla noBraceOnNextLine jsFunctionDoc jsFunctionStyles
        (fun _ => 0) (fun _ => 0) 0 29 0 29).Continuous scintilla ∧
    (FoldMakeDoc makeLexer scintilla jsFunctionDoc jsFunctionStyles (fun _ => 0) 0 29 0
        29).Continuous scintilla :=
  ⟨by decide, by decide, by decide,
    (fold_chain_continuous scintilla (by decide) rustLexer jsLexer asyLexer makeLexer
      noBraceOnNextLine jsFunctionDoc jsFunctionStyles (fun _ => 0) (fun _ => 0) 0 29 0 29).1
      (by decide),
    (fold_chain_continuous scintilla (by decide) rustLexer jsLexer asyLexer makeLexer
      noBraceOnNextLine jsFunctionDoc jsFunctionStyles (fun _ => 0) (fun _ => 0) 0 29 0 29).2.1
      (by decide),
    (fold_chain_continuous scintilla (by decide) rustLexer jsLexer asyLexer makeLexer
      noBraceOnNextLine jsFunctionDoc jsFunctionStyles (fun _ => 0) (fun _ => 0) 0 29 0 29).2.2.1
      (by decide),
    (fold_chain_continuous scintilla (by decide) rustLexer jsLexer asyLexer makeLexer
      noBraceOnNextLine jsFunctionDoc jsFunctionStyles (fun _ => 0) (fun _ => 0) 0 29 0 29).2.2.2
      (by decide)⟩

set_option maxRecDepth 100000 in
/-- C24 (counterexample): the coverage claimed for every range inside the
document fails for a range that ends inside an expansion: on the document
`a$(b)` with the range of bytes 0 and 1 (`endPos` is 2) and `initStyle` 0,
`ColouriseMakeDoc` calls `ColorTo(3, SCE_MAKE_OPERATOR)` (line 191, position
`i + 2`), a position above `endPos`, followed by calls at the lower position
2; after the calls byte 2, which lies beyond the range, has the operator
style. -/
theorem make_scan_styles_beyond_range_end :
    ColouriseMakeDoc makeLexer asciiH noKeywords [bytes "a$(b)"] MAKE_TYPE_GMAKE 0 2 0 2 =
      some { ColorTo := [(0, 0), (1, 0), (1, 0), (3, 4), (2, 9), (2, 0)], makeType := 0 } ∧
    ((StyleStore.blank.StartSegment 0).run
      [(0, 0), (1, 0), (1, 0), (3, 4), (2, 9), (2, 0)]).styleAt 2 = some 4 ∧
    StyleStore.blank.styleAt 2 = none := by
  refine ⟨by decide, by decide, rfl⟩

/-- C24 (amended): for ranges inside the document that end at the end of the
document, or right after a line-end byte that `IsASpace` accepts, and
character classes in which `IsASpace` rejects the sentinel 0 and the byte `(`:
for every document, every `initStyle`, every word lists and every value of
the static `makeType`, `ColouriseMakeDoc` returns within `length` rounds of
its loop; the positions of its style assignments are non-decreasing, lie
between `startPos` and `endPos`, and the last one is `endPos`; after the
assignments every byte of the range has one style, that of the first
assignment whose position is above it, and the bytes outside the range have
what they had before. -/
theorem make_scan_covers_range (k : MakeLexerH) (h : WordListH) (keywordLists : Nat → WordList)
    (doc : Document) (makeType startPos length : Nat) (initStyle : Int) (st : StyleStore)
    (h0 : k.IsASpace 0 = false) (h40 : k.IsASpace 40 = false)
    (hin : startPos + length ≤ doc.Length)
    (hend : ColouriseMakeDoc.RangeEnd k doc (startPos + length)) :
    ∃ r, ColouriseMakeDoc k h keywordLists doc makeType startPos length initStyle length =
        some r ∧
      (r.ColorTo.map Prod.fst).Pairwise (fun a b => a ≤ b) ∧
      (∀ x ∈ r.ColorTo, startPos ≤ x.1 ∧ x.1 ≤ startPos + length) ∧
      r.ColorTo.getLast?.map Prod.fst = some (startPos + length) ∧
      (∀ p, startPos ≤ p → p < startPos + length →
        ∃ x, r.ColorTo.find? (fun x => decide (p < x.1)) = some x ∧
          ((st.StartSegment startPos).run r.ColorTo).styleAt p = some x.2) ∧
      (∀ p, p < startPos ∨ startPos + length ≤ p →
        ((st.StartSegment startPos).run r.ColorTo).styleAt p = st.styleAt p) := by
  have hinv : ColouriseMakeDoc.Inv doc startPos (startPos + length)
      (ColouriseMakeDoc.start doc makeType startPos initStyle) :=
    ⟨rfl, Nat.le_refl _, CallsOk.nil _ _⟩
  obtain ⟨s1, hs1, hge, _, _, hcalls⟩ :=
    ColouriseMakeDoc_loop_spec k h keywordLists doc startPos (startPos + length) h0 h40 hend hin
      length (ColouriseMakeDoc.start doc makeType startPos initStyle) (Nat.le_refl _) hinv
  rw [Nat.min_eq_right hge] at hcalls
  have hall : CallsOk startPos (startPos + length)
      (s1.calls ++ [(startPos + length, s1.state)]) :=
    hcalls.snoc (startPos + length) s1.state (by omega) (Nat.le_refl _)
  have hrun := run_styleAt_of_sorted (s1.calls ++ [(startPos + length, s1.state)])
    (st.StartSegment startPos) hall.1 (fun x hx => (hall.2 x hx).1)
  refine ⟨{ ColorTo := s1.calls ++ [(startPos + length, s1.state)], makeType := s1.makeType },
    ?_, hall.1, hall.2, ?_, ?_, ?_⟩
  · unfold ColouriseMakeDoc
    simp only [hs1]
  · simp
  · intro p hp1 hp2
    have hsome : ∃ x, (s1.calls ++ [(startPos + length, s1.state)]).find?
        (fun x => decide (p < x.1)) = some x := by
      rw [← Option.isSome_iff_exists, List.find?_isSome]
      exact ⟨(startPos + length, s1.state), by simp, by simpa using hp2⟩
    obtain ⟨x, hx⟩ := hsome
    refine ⟨x, hx, ?_⟩
    rw [(hrun p).2 hp1, hx]
    rfl
  · intro p hp
    rcases hp with hp | hp
    · exact (hrun p).1 hp
    · by_cases hp1 : startPos ≤ p
      · have hnone : (s1.calls ++ [(startPos + length, s1.state)]).find?
            (fun x => decide (p < x.1)) = none := by
          rw [List.find?_eq_none]
          intro x hx
          have := (hall.2 x hx).2
          simp only [decide_eq_true_eq]
          omega
        rw [(hrun p).2 hp1, hnone]
        rfl
      · exact (hrun p).1 (by show p < startPos; omega)

set_option maxRecDepth 100000 in
/-- Witness of C24: the scan of the first line (bytes 0 to 5) of the document
with the lines `a$(b)` and `c` makes the assignments up to 0, 1, 1, 5 and 6,
and the amended statement holds of it. -/
theorem make_scan_covers_range_witness :
    ColouriseMakeDoc makeLexer asciiH noKeywords [bytes "a$(b)\n", bytes "c"] MAKE_TYPE_GMAKE
        0 6 0 6 =
      some { ColorTo := [(0, 0), (1, 0), (1, 0), (5, 7), (6, 0)], makeType := 0 } ∧
    ∃ r, ColouriseMakeDoc makeLexer asciiH noKeywords [bytes "a$(b)\n", bytes "c"]
        MAKE_TYPE_GMAKE 0 6 0 6 = some r ∧
      (r.ColorTo.map Prod.fst).Pairwise (fun a b => a ≤ b) ∧
      (∀ x ∈ r.ColorTo, 0 ≤ x.1 ∧ x.1 ≤ 0 + 6) ∧
      r.ColorTo.getLast?.map Prod.fst = some (0 + 6) ∧
      (∀ p, 0 ≤ p → p < 0 + 6 →
        ∃ x, r.ColorTo.find? (fun x => decide (p < x.1)) = some x ∧
          ((StyleStore.blank.StartSegment 0).run r.ColorTo).styleAt p = some x.2) ∧
      (∀ p, p < 0 ∨ 0 + 6 ≤ p →
        ((StyleStore.blank.StartSegment 0).run r.ColorTo).styleAt p =
          StyleStore.blank.styleAt p) :=
  ⟨by decide,
    make_scan_covers_range makeLexer asciiH noKeywords [bytes "a$(b)\n", bytes "c"]
      MAKE_TYPE_GMAKE 0 6 0 StyleStore.blank (by decide) (by decide) (by decide)
      (Or.inr ⟨by decide, by decide, by decide⟩)⟩

/-- C23: termination of the Rust tokenizer, for distinct style numbers and a
helper `HighlightTaskMarker` that leaves the end of the range alone, does not
move the cursor back and has moved it forward when it returns `true`: for
every document, range, `initStyle`, word lists, stored styles and stored line
states, `ColouriseRustDoc` returns within `2 * (lengthDoc + 1) + 1` rounds of
its loop; and every round made inside the range either moves the cursor
forward, or leaves it on the same byte, still inside the range, in a state
from which the next round moves it forward. -/
theorem rust_scan_terminates (k : RustLexerH) (hk : k.Distinct) (htm : k.TaskMarkerMoves)
    (h : WordListH) (keywordLists : Nat → WordList) (doc : Document) (styler : StyleStore)
    (lineStates : Nat → Nat) (startPos lengthDoc : Nat) (initStyle : Int) :
    (∃ sc, ColouriseRustDoc k h keywordLists doc styler lineStates startPos lengthDoc initStyle
        (2 * (lengthDoc + 1) + 1) = some sc) ∧
    ∀ j : Nat,
      ((ColouriseRustDoc.step k h keywordLists)^[j]
        (ColouriseRustDoc.start k doc styler lineStates startPos lengthDoc initStyle)).sc.More
          = true →
      ((ColouriseRustDoc.step k h keywordLists)^[j]
          (ColouriseRustDoc.start k doc styler lineStates startPos lengthDoc initStyle)).sc.currentPos <
        ((ColouriseRustDoc.step k h keywordLists)^[j + 1]
          (ColouriseRustDoc.start k doc styler lineStates startPos lengthDoc initStyle)).sc.currentPos ∨
      (((ColouriseRustDoc.step k h keywordLists)^[j + 1]
            (ColouriseRustDoc.start k doc styler lineStates startPos lengthDoc initStyle)).sc.currentPos =
          ((ColouriseRustDoc.step k h keywordLists)^[j]
            (ColouriseRustDoc.start k doc styler lineStates startPos lengthDoc initStyle)).sc.currentPos ∧
        ((ColouriseRustDoc.step k h keywordLists)^[j + 1]
          (ColouriseRustDoc.start k doc styler lineStates startPos lengthDoc initStyle)).sc.More
            = true ∧
        ((ColouriseRustDoc.step k h keywordLists)^[j + 1]
            (ColouriseRustDoc.start k doc styler lineStates startPos lengthDoc initStyle)).sc.currentPos <
          ((ColouriseRustDoc.step k h keywordLists)^[j + 2]
            (ColouriseRustDoc.start k doc styler lineStates startPos lengthDoc initStyle)).sc.currentPos) := by
  have hst := ColouriseRustDoc_start_ok k hk doc styler lineStates startPos lengthDoc initStyle
  constructor
  · have hfuel : ColouriseRustDoc.roundsLeft k
        (ColouriseRustDoc.start k doc styler lineStates startPos lengthDoc initStyle) ≤
        2 * (lengthDoc + 1) + 1 := by
      have := hst.2
      unfold ColouriseRustDoc.roundsLeft
      split <;> omega
    obtain ⟨s1, hs1⟩ := ColouriseRustDoc_loop_total k hk htm h keywordLists
      (2 * (lengthDoc + 1) + 1) _ hst.1 hfuel
    refine ⟨s1.sc.Complete, ?_⟩
    unfold ColouriseRustDoc
    rw [hs1]
  · intro j hmore
    have hO := ColouriseRustDoc_iterate_ok k hk htm h keywordLists _ hst.1 j
    rw [Function.iterate_succ_apply', Function.iterate_succ_apply',
      Function.iterate_succ_apply']
    generalize (ColouriseRustDoc.step k h keywordLists)^[j]
      (ColouriseRustDoc.start k doc styler lineStates startPos lengthDoc initStyle) = S
      at hmore hO
    obtain ⟨e1, r1, o1, a1⟩ := ColouriseRustDoc_step_ok k hk htm h keywordLists S hO
    obtain ⟨e2, r2, _, a2⟩ := ColouriseRustDoc_step_ok k hk htm h keywordLists _ o1
    rw [More_iff_rem] at hmore
    rw [More_iff_rem]
    unfold StyleContext.rem at hmore r1 a1 r2 a2 ⊢
    rw [e1] at r1 a1 a2 ⊢
    rw [e2, e1] at r2 a2
    rcases a1 hmore with h1 | ⟨_, h1⟩
    · left
      omega
    · by_cases hlt : S.sc.currentPos <
          (ColouriseRustDoc.step k h keywordLists S).sc.currentPos
      · exact Or.inl hlt
      · right
        have hm1 : 0 < S.sc.endPos -
            (ColouriseRustDoc.step k h keywordLists S).sc.currentPos := by omega
        rcases a2 hm1 with h2 | ⟨h2, _⟩
        · refine ⟨by omega, hm1, by omega⟩
        · exact absurd h2 h1

set_option maxRecDepth 100000 in
/-- Witness of C23: the scan of the 16 bytes of a string with a placeholder, a
format specifier and an escape sequence, followed by a block comment, with the
ASCII character classes; round 5 ends with `continue` on byte 9 (the state goes
from the escape sequence back to the string) and round 6 moves on. -/
theorem rust_scan_terminates_witness :
    rustLexer.Distinct ∧ rustLexer.TaskMarkerMoves ∧
    ((List.range 8).map fun j =>
      (((ColouriseRustDoc.step rustLexer asciiH noKeywords)^[j]
        (ColouriseRustDoc.start rustLexer [bytes "\"\x7ba:>2\x7d\\n\" /*x*/"] StyleStore.blank
          (fun _ => 0) 0 16 0)).sc.currentPos,
       ((ColouriseRustDoc.step rustLexer asciiH noKeywords)^[j]
        (ColouriseRustDoc.start rustLexer [bytes "\"\x7ba:>2\x7d\\n\" /*x*/"] StyleStore.blank
          (fun _ => 0) 0 16 0)).sc.state)) =
      [(0, 0), (1, 23), (2, 29), (3, 29), (7, 23), (9, 28), (9, 23), (11, 0)] ∧
    (∃ sc, ColouriseRustDoc rustLexer asciiH noKeywords [bytes "\"\x7ba:>2\x7d\\n\" /*x*/"]
        StyleStore.blank (fun _ => 0) 0 16 0 (2 * (16 + 1) + 1) = some sc) ∧
    ∀ j : Nat,
      ((ColouriseRustDoc.step rustLexer asciiH noKeywords)^[j]
        (ColouriseRustDoc.start rustLexer [bytes "\"\x7ba:>2\x7d\\n\" /*x*/"] StyleStore.blank
          (fun _ => 0) 0 16 0)).sc.More = true →
      ((ColouriseRustDoc.step rustLexer asciiH noKeywords)^[j]
          (ColouriseRustDoc.start rustLexer [bytes "\"\x7ba:>2\x7d\\n\" /*x*/"] StyleStore.blank
            (fun _ => 0) 0 16 0)).sc.currentPos <
        ((ColouriseRustDoc.step rustLexer asciiH noKeywords)^[j + 1]
          (ColouriseRustDoc.start rustLexer [bytes "\"\x7ba:>2\x7d\\n\" /*x*/"] StyleStore.blank
            (fun _ => 0) 0 16 0)).sc.currentPos ∨
      (((ColouriseRustDoc.step rustLexer asciiH noKeywords)^[j + 1]
            (ColouriseRustDoc.start rustLexer [bytes "\"\x7ba:>2\x7d\\n\" /*x*/"] StyleStore.blank
              (fun _ => 0) 0 16 0)).sc.currentPos =
          ((ColouriseRustDoc.step rustLexer asciiH noKeywords)^[j]
            (ColouriseRustDoc.start rustLexer [bytes "\"\x7ba:>2\x7d\\n\" /*x*/"] StyleStore.blank
              (fun _ => 0) 0 16 0)).sc.currentPos ∧
        ((ColouriseRustDoc.step rustLexer asciiH noKeywords)^[j + 1]
          (ColouriseRustDoc.start rustLexer [bytes "\"\x7ba:>2\x7d\\n\" /*x*/"] StyleStore.blank
            (fun _ => 0) 0 16 0)).sc.More = true ∧
        ((ColouriseRustDoc.step rustLexer asciiH noKeywords)^[j + 1]
            (ColouriseRustDoc.start rustLexer [bytes "\"\x7ba:>2\x7d\\n\" /*x*/"] StyleStore.blank
              (fun _ => 0) 0 16 0)).sc.currentPos <
          ((ColouriseRustDoc.step rustLexer asciiH noKeywords)^[j + 2]
            (ColouriseRustDoc.start rustLexer [bytes "\"\x7ba:>2\x7d\\n\" /*x*/"] StyleStore.blank
              (fun _ => 0) 0 16 0)).sc.currentPos) :=
  ⟨by decide, fun _ _ _ _ => ⟨rfl, Nat.le_refl _, fun hb => absurd hb Bool.false_ne_true⟩,
    by decide,
    rust_scan_terminates rustLexer (by decide)
      (fun _ _ _ _ => ⟨rfl, Nat.le_refl _, fun hb => absurd hb Bool.false_ne_true⟩)
      asciiH noKeywords [bytes "\"\x7ba:>2\x7d\\n\" /*x*/"] StyleStore.blank (fun _ => 0) 0 16 0⟩

/-- C31: the bucket-table invariant. For a header that is well formed and a
word list whose table has the size of the header, after `Set(blob)` without
the pre-sorted attribute, for a blob of fewer than 65536 words (with case
folding: the folded blob) that all start with an indexable byte, `Set`
completes and stores the sorted words; for every indexable byte `c` the table
entry `ranges[c - MinIndexChar]` is 0 exactly when no stored word starts with
`c`, and with `start` its low 16 bits and `end` its bits from 16 on, the indices
`i` with `start ≤ i < end` are exactly the indices of the stored words that
start with `c`. -/
theorem set_bucket_table_invariant (h : WordListH) (hh : h.WellFormed) (old : WordList)
    (hold : old.ranges.length = h.rangesSize) (blob : CStr) (attr : KeywordAttr)
    (hp : attr.preSorted = false)
    (hlen : (blobWords (if attr.makeLower then makeLower blob else blob)).length < 65536)
    (hidx : ∀ w ∈ blobWords (if attr.makeLower then makeLower blob else blob),
      h.Indexable (peek w)) :
    ∃ wl, WordList.Set h old blob attr = some wl ∧
      wl.words = some (SetWords blob attr ++ [[]]) ∧
      ∀ c, h.Indexable c → ∃ e, wl.ranges[c - h.MinIndexChar]? = some e ∧
        (e = 0 ↔ ∀ w ∈ SetWords blob attr, peek w ≠ c) ∧
        ∀ (i : Nat) (w : CStr), (SetWords blob attr)[i]? = some w →
          (((Range.ofPacked e).start ≤ i ∧ i < (Range.ofPacked e).end_) ↔ peek w = c) := by
  have hperm := SetWords_perm blob attr
  have hs := pairwise_peek_of_wordLE (SetWords_sorted blob attr hp)
  have hl : (SetWords blob attr).length < 65536 := by
    rw [hperm.length_eq]
    exact hlen
  obtain ⟨wl, hset, hwords, _, htab⟩ := Set_table hh old hold blob attr hs
    (fun w hw => hidx w (hperm.mem_iff.mp hw))
  refine ⟨wl, hset, hwords, fun c hc => ⟨_, htab c hc, ?_, ?_⟩⟩
  · by_cases hb : bucketOf c (SetWords blob attr) = []
    · have hte : tableEntry h (SetWords blob attr) c = 0 := by
        unfold tableEntry
        rw [if_pos hb]
      rw [hte]
      refine ⟨fun _ w hw hpk => ?_, fun _ => rfl⟩
      have : w ∈ bucketOf c (SetWords blob attr) := by
        unfold bucketOf
        rw [List.mem_filter]
        exact ⟨hw, by simpa using hpk⟩
      rw [hb] at this
      cases this
    · have hd := tableEntry_decode hh hl hs hb
      constructor
      · intro h0
        exact absurd h0 hd.1
      · intro hall
        exfalso
        obtain ⟨w, hw⟩ := List.exists_mem_of_ne_nil _ hb
        unfold bucketOf at hw
        rw [List.mem_filter] at hw
        exact hall w hw.1 (by simpa using hw.2)
  · intro i w hw
    obtain ⟨rest, hrest, hgt⟩ := sorted_partition c (SetWords blob attr) hs
    have hA : ∀ a ∈ below c (SetWords blob attr), ¬ peek a = c := by
      intro a ha
      unfold below at ha
      rw [List.mem_filter] at ha
      have : peek a < c := by simpa using ha.2
      omega
    have hB : ∀ b ∈ bucketOf c (SetWords blob attr), peek b = c := by
      intro b hb
      unfold bucketOf at hb
      rw [List.mem_filter] at hb
      simpa using hb.2
    have hC : ∀ x ∈ rest, ¬ peek x = c := by
      intro x hx
      have := hgt x hx
      omega
    have hrange : (Range.ofPacked (tableEntry h (SetWords blob attr) c)).start ≤ i ∧
        i < (Range.ofPacked (tableEntry h (SetWords blob attr) c)).end_ ↔
        (below c (SetWords blob attr)).length ≤ i ∧
          i < (below c (SetWords blob attr)).length + (bucketOf c (SetWords blob attr)).length := by
      by_cases hb : bucketOf c (SetWords blob attr) = []
      · have hte : tableEntry h (SetWords blob attr) c = 0 := by
          unfold tableEntry
          rw [if_pos hb]
        rw [hte, hb]
        simp [Range.ofPacked]
      · rw [(tableEntry_decode hh hl hs hb).2.1]
    rw [hrange]
    rw [hrest] at hw
    exact getElem?_mid_iff (fun w => peek w = c) _ _ _ hA hB hC i w hw

set_option maxRecDepth 100000 in
/-- Witness of C31: after `Set` on the blob `gamma alpha ^x beta bar` the
stored words are `^x`, `alpha`, `bar`, `beta`, `gamma`; the entry of `b` is
`2 | 4 << 16` and the entry of `c` is 0. -/
theorem set_bucket_table_invariant_witness :
    (WordList.Set asciiH (WordList.empty asciiH) (bytes "gamma alpha ^x beta bar")
        ⟨false, false⟩).map (fun wl => (wl.words, wl.ranges[98 - 33]?, wl.ranges[99 - 33]?)) =
      some (some [bytes "^x", bytes "alpha", bytes "bar", bytes "beta", bytes "gamma", []],
        some (2 ||| 4 <<< 16), some 0) ∧
    ∃ wl, WordList.Set asciiH (WordList.empty asciiH) (bytes "gamma alpha ^x beta bar")
        ⟨false, false⟩ = some wl ∧
      wl.words = some (SetWords (bytes "gamma alpha ^x beta bar") ⟨false, false⟩ ++ [[]]) ∧
      ∀ c, asciiH.Indexable c → ∃ e, wl.ranges[c - asciiH.MinIndexChar]? = some e ∧
        (e = 0 ↔ ∀ w ∈ SetWords (bytes "gamma alpha ^x beta bar") ⟨false, false⟩, peek w ≠ c) ∧
        ∀ (i : Nat) (w : CStr),
          (SetWords (bytes "gamma alpha ^x beta bar") ⟨false, false⟩)[i]? = some w →
          (((Range.ofPacked e).start ≤ i ∧ i < (Range.ofPacked e).end_) ↔ peek w = c) :=
  ⟨by decide,
    set_bucket_table_invariant asciiH (by decide) (WordList.empty asciiH) (by decide)
      (bytes "gamma alpha ^x beta bar") ⟨false, false⟩ rfl (by decide) (by decide)⟩

/-- C32: the lookups are total and answer `false` on degenerate input. For a
well-formed header, a word list on which `Set` was never called (or that was
cleared: `words` is `nullptr`), and any word list when the query is the empty
string or a C string that starts with a byte outside the indexable range: for
every marker, `InList`, `InListPrefixed`, `InListAbbreviated` and
`InListAbridged` return `false`; they return at the guard, before the bucket
table is read (a read outside the table would make the model return `none`). -/
theorem lookups_false_on_degenerate_input (h : WordListH) (hh : h.WellFormed) (wl : WordList)
    (s : CStr) (marker : Nat)
    (hdeg : wl.words = none ∨ s = [] ∨ (IsCStr s ∧ ¬ h.Indexable (peek s))) :
    wl.InList h s = some false ∧ wl.InListPrefixed h s marker = some false ∧
      wl.InListAbbreviated h s marker = some false ∧
      wl.InListAbridged h s marker = some false := by
  rcases hdeg with hw | hdeg
  · unfold WordList.InList WordList.InListPrefixed WordList.InListAbbreviated
      WordList.InListAbridged
    rw [hw]
    exact ⟨rfl, rfl, rfl, rfl⟩
  · have hg : bucketIndex h (peek s) > h.rangesSize - 1 := by
      rcases hdeg with he | ⟨hs, hi⟩
      · subst he
        refine index_guard hh (fun b hb => by cases hb) ?_
        intro hc
        have h0 := hh.1
        have := hc.1
        simp only [peek, List.headD_nil] at this
        omega
      · exact index_guard hh hs hi
    unfold WordList.InList WordList.InListPrefixed WordList.InListAbbreviated
      WordList.InListAbridged
    cases wl.words with
    | none => exact ⟨rfl, rfl, rfl, rfl⟩
    | some words =>
      simp only [hg, if_true, and_self]

set_option maxRecDepth 100000 in
/-- Witness of C32: on the list built from the blob `alpha ^x` the query
` x`, which starts with a space, and the empty query are not found by any of
the four lookups, although the entry `^x` is a prefix entry; neither is any
query on a list on which `Set` was never called. -/
theorem lookups_false_on_degenerate_input_witness :
    ((WordList.Set asciiH (WordList.empty asciiH) (bytes "alpha ^x") ⟨false, false⟩).bind
        fun wl => wl.InList asciiH (bytes " x")) = some false ∧
    (WordList.empty asciiH).InListAbridged asciiH (bytes "alpha") 126 = some false ∧
    ∀ wl : WordList, wl.InList asciiH (bytes " x") = some false ∧
      wl.InListPrefixed asciiH (bytes " x") 40 = some false ∧
      wl.InListAbbreviated asciiH (bytes " x") 40 = some false ∧
      wl.InListAbridged asciiH (bytes " x") 40 = some false :=
  ⟨by decide, by decide, fun wl =>
    lookups_false_on_degenerate_input asciiH (by decide) wl (bytes " x") 40
      (Or.inr (Or.inr ⟨by decide, by decide⟩))⟩

/-- C33: the fold levels of the diff lexer. With folding enabled, for every
document, range, `initStyle` and stored levels, `ColouriseDiffDoc` completes
and its `SetLevel` calls are, line by line from the first line of the range to
the last: the level of the line, which for a command line is the base level
with the header flag, for a header line the base level plus 1 with the header
flag, for a position line not starting with `-` the base level plus 2 with the
header flag, and for any other line one more than the depth of the preceding
line when the level of that line has the header flag and the level of the
preceding line otherwise (before the first line of the range: the stored
level, or the base level on line 0); and, just before it, when this level has
the header flag and equals the level of the preceding line, the call that
clears the header flag of the preceding line. -/
theorem diff_fold_levels (k : SciLexerH) (sc : ScintillaH) (doc : Document)
    (LevelAt : Nat → Nat) (startPos lengthDoc : Nat) (initStyle : Int) :
    ∃ calls, ColouriseDiffDoc k sc true doc LevelAt startPos lengthDoc initStyle = some calls ∧
      calls.SetLevel =
        diffFoldCalls k sc doc
          (doc.GetLine (if startPos + lengthDoc = doc.Length then startPos + lengthDoc
            else startPos + lengthDoc - 1) + 1 - doc.GetLine startPos)
          (doc.GetLine startPos)
          (if doc.GetLine startPos > 0 then LevelAt (doc.GetLine startPos - 1)
            else sc.SC_FOLDLEVELBASE) := by
  obtain ⟨calls, h1, h2⟩ :=
    ColouriseDiffDoc_fold_calls k sc true doc LevelAt startPos lengthDoc initStyle
  exact ⟨calls, h1, by rw [h2]; rfl⟩

/-- C34: the call that clears the header flag of the preceding line is never
made with the line index -1. When the base level has no bit of the header
flag, for every document, range, `initStyle`, stored levels and value of the
property `fold`, `ColouriseDiffDoc` completes and every `SetLevel` call it
makes has a line index that is not negative: on line 0 the previous level is
the base level, which no level with the header flag equals. -/
theorem diff_clear_level_never_before_line_zero (k : SciLexerH) (sc : ScintillaH)
    (hB : sc.SC_FOLDLEVELBASE &&& sc.SC_FOLDLEVELHEADERFLAG = 0) (fold : Bool) (doc : Document)
    (LevelAt : Nat → Nat) (startPos lengthDoc : Nat) (initStyle : Int) :
    ∃ calls, ColouriseDiffDoc k sc fold doc LevelAt startPos lengthDoc initStyle = some calls ∧
      ∀ x ∈ calls.SetLevel, 0 ≤ x.1 := by
  obtain ⟨calls, h1, h2⟩ :=
    ColouriseDiffDoc_fold_calls k sc fold doc LevelAt startPos lengthDoc initStyle
  refine ⟨calls, h1, fun x hx => ?_⟩
  rw [h2] at hx
  cases fold
  · cases hx
  · refine diffFoldCalls_nonneg k sc doc hB _ _ _ (fun h0 => ?_) x hx
    rw [if_neg (by omega)]

set_option maxRecDepth 100000 in
/-- Witness of C34: the scan of a diff whose first two lines are command
lines: line 1 has the level of line 0 with the header flag, so the header flag
of line 0 is cleared by a call for line 0; no call is made for line -1. -/
theorem diff_clear_level_never_before_line_zero_witness :
    (ColouriseDiffDoc sciLexer scintilla true [bytes "diff a\n", bytes "diff b\n", bytes " c"]
        (fun _ => 0x400) 0 16 0).map (fun calls => calls.SetLevel) =
      some [(0, 0x2400), (0, 0x400), (1, 0x2400), (2, 0x401)] ∧
    ∃ calls, ColouriseDiffDoc sciLexer scintilla true
        [bytes "diff a\n", bytes "diff b\n", bytes " c"] (fun _ => 0x400) 0 16 0 = some calls ∧
      ∀ x ∈ calls.SetLevel, 0 ≤ x.1 :=
  ⟨by decide,
    diff_clear_level_never_before_line_zero sciLexer scintilla (by decide) true
      [bytes "diff a\n", bytes "diff b\n", bytes " c"] (fun _ => 0x400) 0 16 0⟩

/-- C35: header flag of the structural folders. When the number mask is
below `2 ^ 15` and the header flag is a nonzero bit below `2 ^ 16` outside the
mask, then for each of `FoldRustDoc`, `FoldJsDoc`, `FoldAsyDoc` and
`FoldMakeDoc`, in every pass (after any number of rounds of its loop) in which
the depths computed at the line ends are not negative and fit the number mask,
every level written has the header flag set exactly when its current-depth
field is strictly below its next-depth field `>> 16`. -/
theorem fold_header_flag_iff_depth_increases (sc : ScintillaH) (hsc : sc.FoldFields)
    (hH : sc.SC_FOLDLEVELHEADERFLAG ≠ 0)
    (kr : RustLexerH) (kj : JsLexerH) (ka : AsyLexerH) (km : MakeLexerH)
    (CheckBraceOnNextLine : Document → (Nat → Int) → Nat → Int → Int → Nat) (doc : Document)
    (StyleAt : Nat → Int) (GetLineState LevelAt : Nat → Nat) (startPos lengthDoc : Nat)
    (initStyle : Int) (fuel : Nat) :
    ((FoldRustDoc kr sc CheckBraceOnNextLine doc StyleAt GetLineState LevelAt startPos
        lengthDoc initStyle fuel).Fits sc →
      ∀ x ∈ (FoldRustDoc kr sc CheckBraceOnNextLine doc StyleAt GetLineState LevelAt startPos
        lengthDoc initStyle fuel).calls,
        (x.2 &&& sc.SC_FOLDLEVELHEADERFLAG ≠ 0 ↔
          (foldCurrentDepth sc x.2 : Int) < shiftRight16 x.2)) ∧
    ((FoldJsDoc kj sc CheckBraceOnNextLine doc StyleAt GetLineState LevelAt startPos
        lengthDoc initStyle fuel).Fits sc →
      ∀ x ∈ (FoldJsDoc kj sc CheckBraceOnNextLine doc StyleAt GetLineState LevelAt startPos
        lengthDoc initStyle fuel).calls,
        (x.2 &&& sc.SC_FOLDLEVELHEADERFLAG ≠ 0 ↔
          (foldCurrentDepth sc x.2 : Int) < shiftRight16 x.2)) ∧
    ((FoldAsyDoc ka sc CheckBraceOnNextLine doc StyleAt GetLineState LevelAt startPos
        lengthDoc initStyle fuel).Fits sc →
      ∀ x ∈ (FoldAsyDoc ka sc CheckBraceOnNextLine doc StyleAt GetLineState LevelAt startPos
        lengthDoc initStyle fuel).calls,
        (x.2 &&& sc.SC_FOLDLEVELHEADERFLAG ≠ 0 ↔
          (foldCurrentDepth sc x.2 : Int) < shiftRight16 x.2)) ∧
    ((FoldMakeDoc km sc doc StyleAt LevelAt startPos lengthDoc initStyle fuel).Fits sc →
      ∀ x ∈ (FoldMakeDoc km sc doc StyleAt LevelAt startPos lengthDoc initStyle fuel).calls,
        (x.2 &&& sc.SC_FOLDLEVELHEADERFLAG ≠ 0 ↔
          (foldCurrentDepth sc x.2 : Int) < shiftRight16 x.2)) := by
  refine ⟨fun hf => ?_, fun hf => ?_, fun hf => ?_, fun hf => ?_⟩
  · exact FoldPass.header_iff sc hsc hH _
      (FoldRustDoc_loop_fromLines kr sc CheckBraceOnNextLine doc StyleAt GetLineState _ fuel _
        (FoldPass.start_fromLines sc doc LevelAt startPos)) hf
  · exact FoldPass.header_iff sc hsc hH _
      (FoldJsDoc_loop_fromLines kj sc CheckBraceOnNextLine doc StyleAt GetLineState _ fuel _
        (FoldPass.start_fromLines sc doc LevelAt startPos)) hf
  · exact FoldPass.header_iff sc hsc hH _
      (FoldAsyDoc_loop_fromLines ka sc CheckBraceOnNextLine doc StyleAt GetLineState _ fuel _
        (FoldPass.start_fromLines sc doc LevelAt startPos)) hf
  · exact FoldPass.header_iff sc hsc hH _
      (FoldMakeDoc_loop_fromLines km sc doc StyleAt _ fuel _
        (FoldPass.start_fromLines sc doc LevelAt startPos)) hf

set_option maxRecDepth 1000000 in
/-- Witness of C35: the pass of `FoldJsDoc` over the three lines of
`function f() {` / `  return 1;` / `}` with the styles of `ColouriseJsDoc` sets
the levels `0x04012400`, `0x04010401` and `0x04000401`; the first, with the
current depth `0x400` below the next depth `0x401`, has the header flag
`0x2000`, the other two have not. -/
theorem fold_header_flag_iff_depth_increases_witness :
    scintilla.FoldFields ∧ scintilla.SC_FOLDLEVELHEADERFLAG ≠ 0 ∧
    (FoldJsDoc jsLexer scintilla noBraceOnNextLine jsFunctionDoc jsFunctionStyles (fun _ => 0)
        (fun _ => 0) 0 29 0 29).Fits scintilla ∧
    (FoldJsDoc jsLexer scintilla noBraceOnNextLine jsFunctionDoc jsFunctionStyles (fun _ => 0)
        (fun _ => 0) 0 29 0 29).calls =
      [(0, 0x04012400), (1, 0x04010401), (2, 0x04000401)] ∧
    0x04012400 &&& scintilla.SC_FOLDLEVELHEADERFLAG = 0x2000 ∧
    0x04010401 &&& scintilla.SC_FOLDLEVELHEADERFLAG = 0 ∧
    ∀ x ∈ (FoldJsDoc jsLexer scintilla noBraceOnNextLine jsFunctionDoc jsFunctionStyles
        (fun _ => 0) (fun _ => 0) 0 29 0 29).calls,
      (x.2 &&& scintilla.SC_FOLDLEVELHEADERFLAG ≠ 0 ↔
        (foldCurrentDepth scintilla x.2 : Int) < shiftRight16 x.2) :=
  ⟨by decide, by decide, by decide, by decide, by decide, by decide,
    (fold_header_flag_iff_depth_increases scintilla (by decide) (by decide) rustLexer jsLexer
      asyLexer makeLexer noBraceOnNextLine jsFunctionDoc jsFunctionStyles (fun _ => 0)
      (fun _ => 0) 0 29 0 29).2.1 (by decide)⟩


set_option maxRecDepth 1000000 in
/-- C38 fails at position 0. On the document whose first line is
`#![no_std]`, the scan from position 0 takes the `#!` at the start of the
document as a shebang: all bytes of the line are styled as line comment
(style 1), none as attribute (style 7), and the line state of the line is the
line-comment flag 1 without the attribute-block flag 4. For the same line on
the second line of a document the `#!` is styled as attribute (the brackets as
operator, style 6), and on the line `#![cfg(` whose bracket is still open at
the line end the line state is `12`, the attribute-block flag with a
square-bracket count of 1. -/
theorem rust_attribute_at_document_start_is_comment :
    (ColouriseRustDoc rustLexer asciiH noKeywords [bytes "#![no_std]\n", bytes "x"]
        StyleStore.blank (fun _ => 0) 0 12 (rustLexer.SCE_RUST .DEFAULT) 100).map
      (fun sc => (sc.styles, sc.lineStateList)) =
      some ([some 1, some 1, some 1, some 1, some 1, some 1, some 1, some 1, some 1, some 1,
        some 1, some 9], [1, 0]) ∧
    (ColouriseRustDoc rustLexer asciiH noKeywords [bytes "\n", bytes "#![no_std]\n", bytes "x"]
        StyleStore.blank (fun _ => 0) 0 13 (rustLexer.SCE_RUST .DEFAULT) 100).map
      (fun sc => (sc.styles, sc.lineStateList)) =
      some ([some 0, some 7, some 7, some 6, some 7, some 7, some 7, some 7, some 7, some 7,
        some 6, some 0, some 9], [0, 0, 0]) ∧
    (ColouriseRustDoc rustLexer asciiH noKeywords [bytes "\n", bytes "#![cfg(\n", bytes "a)]"]
        StyleStore.blank (fun _ => 0) 0 12 (rustLexer.SCE_RUST .DEFAULT) 100).map
      (fun sc => sc.lineStateList) = some [0, 12, 0] ∧
    12 = (1 <<< 3) ||| RustLineStateMaskAttribute ∧
    rustLexer.SCE_RUST .COMMENTLINE = 1 ∧ rustLexer.SCE_RUST .ATTRIBUTE = 7 ∧
    rustLexer.SCE_RUST .OPERATOR = 6 ∧
    RustLineStateMaskLineComment = 1 ∧ RustLineStateMaskAttribute = 4 := by
  decide

set_option maxRecDepth 1000000 in
/-- Counterexample to C39 as stated. The keyword list holds one word, the
byte `a` 127 times. The identifier of 128 bytes `a` (followed by `;`) is in no
dictionary, yet the scan styles its 128 bytes as keyword (style 13): the
tokenizer looks up the first 127 bytes of the identifier, which is all its
buffer of 128 bytes holds. The identifier of 126 bytes `a` is styled as
identifier (style 9). -/
theorem rust_long_identifier_classified_by_prefix :
    inKeywordList asciiH longKeyword KeywordIndex_Keyword (List.replicate 128 97) = false ∧
    firstRustDictionary asciiH longKeyword (List.replicate 128 97) = none ∧
    (ColouriseRustDoc rustLexer asciiH longKeyword [List.replicate 128 97 ++ bytes ";"]
        StyleStore.blank (fun _ => 0) 0 129 (rustLexer.SCE_RUST .DEFAULT) 300).map
      (fun sc => sc.styles) = some (List.replicate 128 (some 13) ++ [some 6]) ∧
    (ColouriseRustDoc rustLexer asciiH longKeyword [List.replicate 126 97 ++ bytes ";"]
        StyleStore.blank (fun _ => 0) 0 127 (rustLexer.SCE_RUST .DEFAULT) 300).map
      (fun sc => sc.styles) = some (List.replicate 126 (some 9) ++ [some 6]) ∧
    rustLexer.SCE_RUST .WORD = 13 ∧ rustLexer.SCE_RUST .IDENTIFIER = 9 := by
  decide

/-- C39 (amended): Rust identifier classification order. At a round of the
loop in the identifier state at a byte that is not an identifier byte, outside
an attribute block and not at `!`, when the text of the identifier (the open
run) is shorter than 128 bytes and has no NUL byte, the `switch` relabels the
identifier with a style `st`, closes it with that style (every byte of the run
gets `st`) and enters the default state; `st` is the style of the first
dictionary that contains the text, in the order keyword, reserved keyword,
primitive type, struct, trait, enumeration, union, constant; when none
contains it, an identifier followed by `.` stays an identifier, and one not
followed by `.` whose next non-blank document byte is `(` is a function, or a
function definition when the pending keyword is `fn`, and one whose next
non-blank document byte is `!` is a macro. -/
theorem rust_identifier_classification (k : RustLexerH) (h : WordListH)
    (keywordLists : Nat → WordList) (s : RustScan) (hk : k.Distinct)
    (hstate : s.sc.state = k.SCE_RUST .IDENTIFIER)
    (hend : k.IsIdentifierCharEx s.sc.ch = false)
    (hattr : s.lineStateAttribute = 0) (hbang : s.sc.ch ≠ 33)
    (hlen : s.sc.currentText.length < 128) (hnul : 0 ∉ s.sc.currentText) :
    ∃ st, (ColouriseRustDoc.stateCase k h keywordLists s).1.sc =
        (s.sc.ChangeState st).SetState (k.SCE_RUST .DEFAULT) ∧
      (ColouriseRustDoc.stateCase k h keywordLists s).2 = false ∧
      (∀ p, s.sc.styler.startSeg ≤ p → p < s.sc.currentPos → p < s.sc.lengthDocument →
        (ColouriseRustDoc.stateCase k h keywordLists s).1.sc.styler.styleAt p = some st) ∧
      (∀ d, firstRustDictionary h keywordLists s.sc.currentText = some d → st = k.SCE_RUST d) ∧
      (firstRustDictionary h keywordLists s.sc.currentText = none →
        (s.sc.ch = 46 → st = k.SCE_RUST .IDENTIFIER) ∧
        (s.sc.ch ≠ 46 → s.sc.doc.LexGetNextChar k.isspacechar s.sc.currentPos = 40 →
          st = if s.kwType = k.SCE_RUST .FUNCTION_DEFINITION then
            k.SCE_RUST .FUNCTION_DEFINITION else k.SCE_RUST .FUNCTION) ∧
        (s.sc.ch ≠ 46 → s.sc.doc.LexGetNextChar k.isspacechar s.sc.currentPos = 33 →
          st = k.SCE_RUST .MACRO)) := by
  obtain ⟨st, e, hd, hn⟩ := ColouriseRustDoc.classify_spec k h keywordLists s s.sc.currentText
    (GetCurrent_eq_currentText s.sc 128 hlen hnul)
  obtain ⟨e1, e2⟩ := ColouriseRustDoc.stateCase_identifier k h keywordLists s hk hstate hend
    hattr hbang
  refine ⟨st, ?_, e2, ?_, hd, fun hnone => ?_⟩
  · rw [e1, e]
  · intro p h1 h2 h3
    rw [e1, e]
    have hp : ¬ min s.sc.currentPos s.sc.lengthDocument < s.sc.styler.startSeg := by omega
    have hq : s.sc.styler.startSeg ≤ p ∧ p < min s.sc.currentPos s.sc.lengthDocument :=
      ⟨h1, by omega⟩
    simp only [StyleContext.SetState, StyleContext.ChangeState, StyleStore.ColorTo, hp,
      if_false, hq, and_self, if_true]
  · have := hn hnone
    rw [hstate] at this
    exact this

set_option maxRecDepth 1000000 in
/-- Witness of C39 (amended): the scan of `fn f(x)` with the keyword `fn`,
before its fifth round: the cursor is at `(` in the identifier state with the
text `f`, the pending keyword is `fn`; `f` is in no dictionary and is styled as
function definition (style 22). -/
theorem rust_identifier_classification_witness :
    ((ColouriseRustDoc.step rustLexer asciiH fnKeyword)^[4]
      (ColouriseRustDoc.start rustLexer [bytes "fn f(x)"] StyleStore.blank (fun _ => 0) 0 7
        (rustLexer.SCE_RUST .DEFAULT))).sc.currentText = bytes "f" ∧
    ((ColouriseRustDoc.step rustLexer asciiH fnKeyword)^[4]
      (ColouriseRustDoc.start rustLexer [bytes "fn f(x)"] StyleStore.blank (fun _ => 0) 0 7
        (rustLexer.SCE_RUST .DEFAULT))).kwType = rustLexer.SCE_RUST .FUNCTION_DEFINITION ∧
    firstRustDictionary asciiH fnKeyword (bytes "f") = none ∧
    (ColouriseRustDoc.stateCase rustLexer asciiH fnKeyword
      ((ColouriseRustDoc.step rustLexer asciiH fnKeyword)^[4]
        (ColouriseRustDoc.start rustLexer [bytes "fn f(x)"] StyleStore.blank (fun _ => 0) 0 7
          (rustLexer.SCE_RUST .DEFAULT)))).1.sc.styler.styleAt 3 = some 22 ∧
    ∃ st, (ColouriseRustDoc.stateCase rustLexer asciiH fnKeyword
          ((ColouriseRustDoc.step rustLexer asciiH fnKeyword)^[4]
            (ColouriseRustDoc.start rustLexer [bytes "fn f(x)"] StyleStore.blank (fun _ => 0) 0 7
              (rustLexer.SCE_RUST .DEFAULT)))).1.sc =
        (((ColouriseRustDoc.step rustLexer asciiH fnKeyword)^[4]
            (ColouriseRustDoc.start rustLexer [bytes "fn f(x)"] StyleStore.blank (fun _ => 0) 0 7
              (rustLexer.SCE_RUST .DEFAULT))).sc.ChangeState st).SetState
          (rustLexer.SCE_RUST .DEFAULT) ∧
      (ColouriseRustDoc.stateCase rustLexer asciiH fnKeyword
          ((ColouriseRustDoc.step rustLexer asciiH fnKeyword)^[4]
            (ColouriseRustDoc.start rustLexer [bytes "fn f(x)"] StyleStore.blank (fun _ => 0) 0 7
              (rustLexer.SCE_RUST .DEFAULT)))).2 = false ∧
      (∀ p, ((ColouriseRustDoc.step rustLexer asciiH fnKeyword)^[4]
            (ColouriseRustDoc.start rustLexer [bytes "fn f(x)"] StyleStore.blank (fun _ => 0) 0 7
              (rustLexer.SCE_RUST .DEFAULT))).sc.styler.startSeg ≤ p →
          p < ((ColouriseRustDoc.step rustLexer asciiH fnKeyword)^[4]
            (ColouriseRustDoc.start rustLexer [bytes "fn f(x)"] StyleStore.blank (fun _ => 0) 0 7
              (rustLexer.SCE_RUST .DEFAULT))).sc.currentPos →
          p < ((ColouriseRustDoc.step rustLexer asciiH fnKeyword)^[4]
            (ColouriseRustDoc.start rustLexer [bytes "fn f(x)"] StyleStore.blank (fun _ => 0) 0 7
              (rustLexer.SCE_RUST .DEFAULT))).sc.lengthDocument →
        (ColouriseRustDoc.stateCase rustLexer asciiH fnKeyword
          ((ColouriseRustDoc.step rustLexer asciiH fnKeyword)^[4]
            (ColouriseRustDoc.start rustLexer [bytes "fn f(x)"] StyleStore.blank (fun _ => 0) 0 7
              (rustLexer.SCE_RUST .DEFAULT)))).1.sc.styler.styleAt p = some st) ∧
      (∀ d, firstRustDictionary asciiH fnKeyword
          ((ColouriseRustDoc.step rustLexer asciiH fnKeyword)^[4]
            (ColouriseRustDoc.start rustLexer [bytes "fn f(x)"] StyleStore.blank (fun _ => 0) 0 7
              (rustLexer.SCE_RUST .DEFAULT))).sc.currentText = some d →
        st = rustLexer.SCE_RUST d) ∧
      (firstRustDictionary asciiH fnKeyword
          ((ColouriseRustDoc.step rustLexer asciiH fnKeyword)^[4]
            (ColouriseRustDoc.start rustLexer [bytes "fn f(x)"] StyleStore.blank (fun _ => 0) 0 7
              (rustLexer.SCE_RUST .DEFAULT))).sc.currentText = none →
        (((ColouriseRustDoc.step rustLexer asciiH fnKeyword)^[4]
            (ColouriseRustDoc.start rustLexer [bytes "fn f(x)"] StyleStore.blank (fun _ => 0) 0 7
              (rustLexer.SCE_RUST .DEFAULT))).sc.ch = 46 →
          st = rustLexer.SCE_RUST .IDENTIFIER) ∧
        (((ColouriseRustDoc.step rustLexer asciiH fnKeyword)^[4]
            (ColouriseRustDoc.start rustLexer [bytes "fn f(x)"] StyleStore.blank (fun _ => 0) 0 7
              (rustLexer.SCE_RUST .DEFAULT))).sc.ch ≠ 46 →
          ((ColouriseRustDoc.step rustLexer asciiH fnKeyword)^[4]
            (ColouriseRustDoc.start rustLexer [bytes "fn f(x)"] StyleStore.blank (fun _ => 0) 0 7
              (rustLexer.SCE_RUST .DEFAULT))).sc.doc.LexGetNextChar rustLexer.isspacechar
            ((ColouriseRustDoc.step rustLexer asciiH fnKeyword)^[4]
              (ColouriseRustDoc.start rustLexer [bytes "fn f(x)"] StyleStore.blank (fun _ => 0) 0
                7 (rustLexer.SCE_RUST .DEFAULT))).sc.currentPos = 40 →
          st = if ((ColouriseRustDoc.step rustLexer asciiH fnKeyword)^[4]
              (ColouriseRustDoc.start rustLexer [bytes "fn f(x)"] StyleStore.blank (fun _ => 0) 0
                7 (rustLexer.SCE_RUST .DEFAULT))).kwType =
              rustLexer.SCE_RUST .FUNCTION_DEFINITION then
            rustLexer.SCE_RUST .FUNCTION_DEFINITION else rustLexer.SCE_RUST .FUNCTION) ∧
        (((ColouriseRustDoc.step rustLexer asciiH fnKeyword)^[4]
            (ColouriseRustDoc.start rustLexer [bytes "fn f(x)"] StyleStore.blank (fun _ => 0) 0 7
              (rustLexer.SCE_RUST .DEFAULT))).sc.ch ≠ 46 →
          ((ColouriseRustDoc.step rustLexer asciiH fnKeyword)^[4]
            (ColouriseRustDoc.start rustLexer [bytes "fn f(x)"] StyleStore.blank (fun _ => 0) 0 7
              (rustLexer.SCE_RUST .DEFAULT))).sc.doc.LexGetNextChar rustLexer.isspacechar
            ((ColouriseRustDoc.step rustLexer asciiH fnKeyword)^[4]
              (ColouriseRustDoc.start rustLexer [bytes "fn f(x)"] StyleStore.blank (fun _ => 0) 0
                7 (rustLexer.SCE_RUST .DEFAULT))).sc.currentPos = 33 →
          st = rustLexer.SCE_RUST .MACRO)) :=
  ⟨by decide, by decide, by decide, by decide,
    rust_identifier_classification rustLexer asciiH fnKeyword _ (by decide) (by decide)
      (by decide) (by decide) (by decide) (by decide) (by decide)⟩

set_option maxRecDepth 100000 in
/-- Counterexample to C36 as stated. The document is 256 openers `/*` and a
line feed on the first line and 256 closers `*/` on the second, one block
comment of 1025 bytes. At the line feed (offset 512) the nesting depth is 256.
After 256 rounds of the loop of `ColouriseRustDoc` the cursor is at the line
feed with `commentLevel` 256, and round 257 writes the line state
`256 << 11 = 524288` for the first line; the comment depth read from it,
`(lineState >> 11) & 0xff`, is 0, and the bit is read as a hash count of 1. -/
theorem rust_comment_depth_256_not_in_line_state :
    ((ColouriseRustDoc.step rustLexer asciiH noKeywords)^[256] deepCommentScan).sc.currentPos =
      512 ∧
    ((ColouriseRustDoc.step rustLexer asciiH noKeywords)^[256] deepCommentScan).sc.More = true ∧
    ((ColouriseRustDoc.step rustLexer asciiH noKeywords)^[256] deepCommentScan).commentLevel =
      256 ∧
    ((ColouriseRustDoc.step rustLexer asciiH noKeywords)^[257] deepCommentScan).sc.lineStates 0 =
      524288 ∧
    unpackRustLineState 524288 = (0, 0, 1, 0) ∧
    (commentDepths 0 deepCommentDoc.flatten).map (fun D => (D.length, D[512]?)) =
      some (1025, some 256) ∧
    deepCommentDoc.flatten.length = 1025 ∧ deepCommentDoc.flatten.getD 512 0 = 10 ∧
    deepCommentDoc.LineStart 1 = 513 := by
  have hk : rustLexer.Distinct := by decide
  have hno : rustLexer.NoTaskMarker := fun _ _ _ _ => ⟨rfl, rfl⟩
  have hin : ColouriseRustDoc.InComment
      (ColouriseRustDoc.step rustLexer asciiH noKeywords deepCommentScan).sc deepCommentScan
      (ColouriseRustDoc.step rustLexer asciiH noKeywords deepCommentScan) 0 1 :=
    ⟨⟨rfl, rfl, rfl, rfl, rfl, rfl, by decide⟩, by decide, by decide, by decide, by decide,
      by decide⟩
  have hl : ColouriseRustDoc.OnLine
      (ColouriseRustDoc.step rustLexer asciiH noKeywords deepCommentScan).sc
      (ColouriseRustDoc.step rustLexer asciiH noKeywords deepCommentScan) 0 :=
    ⟨rfl, rfl, rfl, by decide⟩
  have hcs : (ColouriseRustDoc.step rustLexer asciiH noKeywords deepCommentScan).sc.state =
        rustLexer.SCE_RUST .COMMENTBLOCK ∨
      (ColouriseRustDoc.step rustLexer asciiH noKeywords deepCommentScan).sc.state =
        rustLexer.SCE_RUST .COMMENTBLOCKDOC := by decide
  obtain ⟨a1, a2⟩ := steps_comment_openers hk asciiH noKeywords _ deepCommentScan hcs 255
    _ 0 1 (10 :: (List.replicate 256 [42, 47]).flatten) hin hl (by decide) (by decide)
    (by decide)
  obtain ⟨lt, hlt, hw⟩ := step_comment_lineEnd hk hno asciiH noKeywords _ deepCommentScan _ _ _
    10 (List.replicate 256 [42, 47]).flatten hcs a1 a2
    (by rw [a1.1.2.1, a1.1.1]; decide) (by decide) (by decide) (by decide)
  have hlt0 : lt = 0 := by
    rcases hlt with hlt | hlt
    · rw [hlt]; decide
    · exact hlt
  have e0 : (ColouriseRustDoc.step rustLexer asciiH noKeywords)^[256] deepCommentScan =
      (ColouriseRustDoc.step rustLexer asciiH noKeywords)^[255]
        (ColouriseRustDoc.step rustLexer asciiH noKeywords deepCommentScan) :=
    Function.iterate_succ_apply _ 255 _
  have e1 : (ColouriseRustDoc.step rustLexer asciiH noKeywords)^[257] deepCommentScan =
      ColouriseRustDoc.step rustLexer asciiH noKeywords
        ((ColouriseRustDoc.step rustLexer asciiH noKeywords)^[255]
          (ColouriseRustDoc.step rustLexer asciiH noKeywords deepCommentScan)) := by
    rw [Function.iterate_succ_apply', Function.iterate_succ_apply]
  have e2 : (ColouriseRustDoc.step rustLexer asciiH noKeywords deepCommentScan).sc.currentLine =
      0 := by decide
  have e3 : ((ColouriseRustDoc.step rustLexer asciiH noKeywords)^[256]
      deepCommentScan).sc.currentPos = 512 := by
    rw [e0, a1.1.1]
    decide
  refine ⟨e3, ?_, ?_, ?_, by decide, by decide, by decide, by decide, by decide⟩
  · unfold StyleContext.More
    rw [e3, e0, a1.1.2.2.1]
    decide
  · rw [e0, a1.2.1]
    rfl
  · rw [e1, ← e2, hw, hlt0]
    decide

/-- C36 (amended): nested block comments of the Rust tokenizer, for a helper
`HighlightTaskMarker` that leaves the cursor alone when it returns `false` and
has styled a task marker without `/` and `*` when it returns `true`. At a
round in the default state at a `/*`, when the text from there on is a block
comment that is closed inside the scanned range, with the nesting depths `D`
(one for each of its bytes): there is a number `n` of rounds such that the
tokenizer is in one block-comment state `cs` at the rounds 1 to `n`; each
round from 1 to `n - 1` is a round of the comment (`CommentRound`), in which
`commentLevel` is the nesting depth `D[off]` at an offset `off` of the
comment, and which either ends with `continue` after a task marker whose last
byte is at `off`, or ends with the line-end block with the cursor at `off`;
when this block writes the line state of the line, the comment depth in it is
`D[off]`, and the comment depth read back from it is `D[off]` when `D[off]` is
below 256 and the other fields fit their bits; the `switch` of round `n`
enters the default state with the cursor right after the comment, that is,
after the closer at which the numbers of openers and closers seen are equal,
with `commentLevel` 0, and every byte of the comment has the style `cs` or the
style of task markers. -/
theorem rust_block_comment_nesting (k : RustLexerH) (hk : k.Distinct)
    (hmark : k.TaskMarkerStyled) (h : WordListH) (keywordLists : Nat → WordList)
    (s : RustScan) (rest D : List Nat)
    (hc : s.sc.Coherent) (hs : s.sc.state = k.SCE_RUST .DEFAULT)
    (htext : s.sc.doc.flatten.drop s.sc.currentPos = 47 :: 42 :: rest)
    (hD : commentDepths 0 (47 :: 42 :: rest) = some D)
    (hrange : s.sc.currentPos + D.length ≤ s.sc.endPos) :
    ∃ n cs, 1 ≤ n ∧ (cs = k.SCE_RUST .COMMENTBLOCK ∨ cs = k.SCE_RUST .COMMENTBLOCKDOC) ∧
      (∀ i, 1 ≤ i → i ≤ n → ((ColouriseRustDoc.step k h keywordLists)^[i] s).sc.state = cs) ∧
      (∀ i, 1 ≤ i → i < n →
        ColouriseRustDoc.CommentRound k h keywordLists s.sc.currentPos D s
          ((ColouriseRustDoc.step k h keywordLists)^[i] s)) ∧
      (ColouriseRustDoc.stateCase k h keywordLists
        ((ColouriseRustDoc.step k h keywordLists)^[n] s)).2 = false ∧
      (ColouriseRustDoc.stateCase k h keywordLists
        ((ColouriseRustDoc.step k h keywordLists)^[n] s)).1.sc.state = k.SCE_RUST .DEFAULT ∧
      (ColouriseRustDoc.stateCase k h keywordLists
        ((ColouriseRustDoc.step k h keywordLists)^[n] s)).1.sc.currentPos =
          s.sc.currentPos + D.length ∧
      (ColouriseRustDoc.stateCase k h keywordLists
        ((ColouriseRustDoc.step k h keywordLists)^[n] s)).1.commentLevel = 0 ∧
      ∀ p, s.sc.currentPos ≤ p → p < s.sc.currentPos + D.length →
        (ColouriseRustDoc.stateCase k h keywordLists
          ((ColouriseRustDoc.step k h keywordLists)^[n] s)).1.sc.styler.styleAt p = some cs ∨
        (ColouriseRustDoc.stateCase k h keywordLists
          ((ColouriseRustDoc.step k h keywordLists)^[n] s)).1.sc.styler.styleAt p =
            some (k.SCE_RUST .TASKMARKER) := by
  -- the depths after the opener
  rw [commentDepths, if_pos ⟨rfl, rfl⟩] at hD
  obtain ⟨D1, hD1, hDeq⟩ := Option.map_eq_some'.mp hD
  have hlenD1 := commentDepths_length rest.length rest 1 D1 (Nat.le_refl _) hD1
  have hDlen : D.length = D1.length + 2 := by rw [← hDeq]; rfl
  have hdoc : s.sc.currentPos + D.length ≤ s.sc.lengthDocument := by
    have := congrArg List.length htext
    rw [List.length_drop, List.length_cons, List.length_cons] at this
    rw [hc.2.2.1]
    unfold Document.Length
    omega
  -- the round at the opener
  obtain ⟨e, hstep, hcs, e1, e2, e3, e4, e5, e6⟩ :=
    step_comment_open hk h keywordLists s rest hc hs htext (by omega)
  have hin : ColouriseRustDoc.InsideComment k e s (ColouriseRustDoc.step k h keywordLists s)
      0 1 := by
    rw [hstep]
    exact ⟨⟨rfl, rfl, rfl, rfl, rfl, e5⟩, ⟨Nat.le_refl _, fun p hp1 hp2 =>
      absurd hp2 (Nat.not_lt.mpr hp1)⟩, rfl, rfl, rfl, rfl, Or.inl rfl⟩
  have htx : (ColouriseRustDoc.step k h keywordLists s).sc.doc.flatten.drop
      (ColouriseRustDoc.step k h keywordLists s).sc.currentPos = rest := by
    rw [hstep]
    show e.doc.flatten.drop e.currentPos = rest
    rw [e1, e2]
    exact drop_succ_of_drop (drop_succ_of_drop htext)
  obtain ⟨j, hj1, hj2, hj3⟩ := comment_rounds hk hmark h keywordLists s.sc.currentPos D e s e1
    hcs rest.length rest 1 (ColouriseRustDoc.step k h keywordLists s) 0 [0 + 1, 0 + 1] D1
    (Nat.le_refl _) (Nat.le_refl _) hin htx hD1 hDeq.symm rfl (by rw [e1, e3]; omega)
  obtain ⟨f1, f2, f3, f4, _, f6⟩ := stateCase_comment_end hk h keywordLists e s
    ((ColouriseRustDoc.step k h keywordLists)^[j] (ColouriseRustDoc.step k h keywordLists s))
    (D.length - 4) hcs hj2 hj3 (by rw [e1, e3]; omega) (by rw [e1, e4]; omega)
  have hpos : e.currentPos + (D.length - 4) + 2 = s.sc.currentPos + D.length := by
    rw [e1]
    omega
  refine ⟨j + 1, e.state, by omega, hcs, fun i hi1 hi2 => ?_, fun i hi1 hi2 => ?_, ?_, ?_, ?_, ?_,
    fun p hp1 hp2 => ?_⟩
  · obtain ⟨i, rfl⟩ : ∃ i', i = i' + 1 := ⟨i - 1, by omega⟩
    rw [Function.iterate_succ_apply]
    by_cases hij : i < j
    · exact (hj1 i hij).1
    · have : i = j := by omega
      subst this
      exact hj2.1.2.2.2.2.1
  · obtain ⟨i, rfl⟩ : ∃ i', i = i' + 1 := ⟨i - 1, by omega⟩
    rw [Function.iterate_succ_apply]
    exact (hj1 i (by omega)).2
  · rw [Function.iterate_succ_apply]
    exact f1
  · rw [Function.iterate_succ_apply]
    exact f2
  · rw [Function.iterate_succ_apply, f3, hpos]
  · rw [Function.iterate_succ_apply]
    exact f4
  · rw [Function.iterate_succ_apply]
    exact f6 p (by rw [e6]; exact hp1) (by rw [hpos]; exact hp2)

set_option maxRecDepth 1000000 in
/-- Witness of C36 (amended): the scan of the two lines `/*TODO/*` and
`*/*/x` from the start, with a helper that finds the task marker `TODO`. The
comment has the 13 bytes of the offsets 0 to 12, with the nesting depths 1, 1,
1, 1, 1, 1, 2, 2, 2, 1, 1, 0, 0; the whole scan styles them as block comment
(style 3), the four bytes of the marker as task marker (style 5) and `x` as
identifier, and writes the line state `2 << 11 = 4096` for the line that ends
inside the comment. -/
theorem rust_block_comment_nesting_witness :
    commentDepths 0 (bytes "/*TODO/*\n*/*/x") = some markedCommentDepths ∧
    (ColouriseRustDoc rustLexerTodo asciiH noKeywords markedCommentDoc StyleStore.blank
        (fun _ => 0) 0 14 (rustLexerTodo.SCE_RUST .DEFAULT) 100).map
      (fun sc => (sc.styles, sc.lineStateList)) =
      some ([some 3, some 3, some 5, some 5, some 5, some 5, some 3, some 3, some 3, some 3,
        some 3, some 3, some 3, some 9], [4096, 0]) ∧
    (∃ n cs, 1 ≤ n ∧
      (cs = rustLexerTodo.SCE_RUST .COMMENTBLOCK ∨
        cs = rustLexerTodo.SCE_RUST .COMMENTBLOCKDOC) ∧
      (∀ i, 1 ≤ i → i ≤ n →
        ((ColouriseRustDoc.step rustLexerTodo asciiH noKeywords)^[i]
          markedCommentScan).sc.state = cs) ∧
      (∀ i, 1 ≤ i → i < n →
        ColouriseRustDoc.CommentRound rustLexerTodo asciiH noKeywords
          markedCommentScan.sc.currentPos markedCommentDepths markedCommentScan
          ((ColouriseRustDoc.step rustLexerTodo asciiH noKeywords)^[i] markedCommentScan)) ∧
      (ColouriseRustDoc.stateCase rustLexerTodo asciiH noKeywords
        ((ColouriseRustDoc.step rustLexerTodo asciiH noKeywords)^[n] markedCommentScan)).2 =
          false ∧
      (ColouriseRustDoc.stateCase rustLexerTodo asciiH noKeywords
        ((ColouriseRustDoc.step rustLexerTodo asciiH noKeywords)^[n]
          markedCommentScan)).1.sc.state = rustLexerTodo.SCE_RUST .DEFAULT ∧
      (ColouriseRustDoc.stateCase rustLexerTodo asciiH noKeywords
        ((ColouriseRustDoc.step rustLexerTodo asciiH noKeywords)^[n]
          markedCommentScan)).1.sc.currentPos =
            markedCommentScan.sc.currentPos + markedCommentDepths.length ∧
      (ColouriseRustDoc.stateCase rustLexerTodo asciiH noKeywords
        ((ColouriseRustDoc.step rustLexerTodo asciiH noKeywords)^[n]
          markedCommentScan)).1.commentLevel = 0 ∧
      ∀ p, markedCommentScan.sc.currentPos ≤ p →
        p < markedCommentScan.sc.currentPos + markedCommentDepths.length →
        (ColouriseRustDoc.stateCase rustLexerTodo asciiH noKeywords
          ((ColouriseRustDoc.step rustLexerTodo asciiH noKeywords)^[n]
            markedCommentScan)).1.sc.styler.styleAt p = some cs ∨
        (ColouriseRustDoc.stateCase rustLexerTodo asciiH noKeywords
          ((ColouriseRustDoc.step rustLexerTodo asciiH noKeywords)^[n]
            markedCommentScan)).1.sc.styler.styleAt p =
              some (rustLexerTodo.SCE_RUST .TASKMARKER)) :=
  ⟨by decide, by decide,
    rust_block_comment_nesting rustLexerTodo (by decide) rustLexerTodo_taskMarkerStyled asciiH
      noKeywords markedCommentScan (bytes "TODO/*\n*/*/x") markedCommentDepths
      (by decide) (by decide) (by decide) (by decide) (by decide)⟩

end Lexilla
